import Mathlib

/-! # Tango tree (tango.cpp): a shallow embedding

The program keeps two kinds of heap nodes, `RefNode` and `AuxNode`, linked by raw
pointers.  The embedding keeps one store per node type: a store is a list of nodes, a
pointer is `Option Nat` (`none` is `nullptr`, `some a` the node stored at index `a`),
`new` appends a node at the end of the store, and `delete` leaves the store as it is, so
a released node keeps the fields it had when it was released.  The statements about the
states after a removal are read under this convention.  The release itself is followed in
the section on released reference nodes at the end of the definitions: the functions that
run after `delete z` are given there with the list of the released nodes, and a read or a
write of a released node has no result.

Every function returns an `Option`: `none` stands for a run that does not produce a
result (a null or wild pointer is dereferenced, an array is read out of bounds, a loop
does not stop or, in the functions with the list of released nodes, a released node is
used).  Loops are recursions on a step budget that is taken from the size of the
store the loop walks.

The stores are compared with pointer trees (`PTree`): `Rep` says that a store holds a tree
with consistent parent links, `RefTree` that it holds the reference tree below the root.
A search tree is a tree whose in-order keys are non-decreasing; with distinct keys they
are strictly increasing.  A state of `Tango` is well formed (`Tango.WF`) when its reference
store holds a search tree with distinct keys, every walk along `preferred` pointers ends
and `aux_list` holds trees of the auxiliary store: these are the states in which
`rebuild_aux` returns, and every state that the operations reach is one (`Reachable.wf`).
-/

set_option autoImplicit false

namespace TangoTree

/-! ## Data model -/

/-- Reference tree node (`struct RefNode`). -/
structure RefNode where
  key : Int
  left : Option Nat
  right : Option Nat
  parent : Option Nat
  aux_ptr : Option Nat
  preferred : Option Nat
  deriving DecidableEq

/-- Auxiliary (splay) tree node (`struct AuxNode`). -/
structure AuxNode where
  ref : Option Nat
  left : Option Nat
  right : Option Nat
  parent : Option Nat
  deriving DecidableEq

/-- The constructor `RefNode(int k)`. -/
def RefNode.new (k : Int) : RefNode :=
  ⟨k, none, none, none, none, none⟩

/-- The constructor `AuxNode(RefNode *r)`. -/
def AuxNode.new (r : Option Nat) : AuxNode :=
  ⟨r, none, none, none⟩

/-- A write through a pointer: the node at address `a` is replaced by `f` of it; the
write fails when `a` is not an address of the store. -/
def modify {α : Type} (h : List α) (a : Nat) (f : α → α) : Option (List α) :=
  match h[a]? with
  | none => none
  | some n => some (h.set a (f n))

/-! ## Splay helpers -/

/-- The statement `if (c) c->parent = p`. -/
def aux_link_parent (h : List AuxNode) (c : Option Nat) (p : Option Nat) :
    Option (List AuxNode) :=
  match c with
  | none => some h
  | some b => modify h b (fun n => { n with parent := p })

/-- The statements `if (g) { if (g->left == p) g->left = x; else g->right = x; }`. -/
def aux_replace_child (h : List AuxNode) (g : Option Nat) (p x : Nat) :
    Option (List AuxNode) :=
  match g with
  | none => some h
  | some ga =>
    match h[ga]? with
    | none => none
    | some gn =>
      if gn.left = some p then modify h ga (fun n => { n with left := some x })
      else modify h ga (fun n => { n with right := some x })

/-- `rotate_right(x)`. -/
def rotate_right (h : List AuxNode) (x : Nat) : Option (List AuxNode) :=
  match h[x]? with
  | none => none
  | some xn =>
    match xn.parent with
    | none => some h
    | some p =>
      match h[p]? with
      | none => none
      | some pn =>
        let g := pn.parent
        -- p->left = x->right
        (modify h p (fun n => { n with left := xn.right })).bind fun h1 =>
        -- if (x->right) x->right->parent = p
        (aux_link_parent h1 xn.right (some p)).bind fun h2 =>
        -- x->right = p
        (modify h2 x (fun n => { n with right := some p })).bind fun h3 =>
        -- p->parent = x
        (modify h3 p (fun n => { n with parent := some x })).bind fun h4 =>
        -- x->parent = g
        (modify h4 x (fun n => { n with parent := g })).bind fun h5 =>
        aux_replace_child h5 g p x

/-- `rotate_left(x)`. -/
def rotate_left (h : List AuxNode) (x : Nat) : Option (List AuxNode) :=
  match h[x]? with
  | none => none
  | some xn =>
    match xn.parent with
    | none => some h
    | some p =>
      match h[p]? with
      | none => none
      | some pn =>
        let g := pn.parent
        -- p->right = x->left
        (modify h p (fun n => { n with right := xn.left })).bind fun h1 =>
        -- if (x->left) x->left->parent = p
        (aux_link_parent h1 xn.left (some p)).bind fun h2 =>
        -- x->left = p
        (modify h2 x (fun n => { n with left := some p })).bind fun h3 =>
        -- p->parent = x
        (modify h3 p (fun n => { n with parent := some x })).bind fun h4 =>
        -- x->parent = g
        (modify h4 x (fun n => { n with parent := g })).bind fun h5 =>
        aux_replace_child h5 g p x

/-- One pass of the `while (x->parent)` loop of `splay`: the rotations chosen from the
parent `p` and the grandparent `g` of `x`. -/
def splay_step (h : List AuxNode) (x p : Nat) : Option (List AuxNode) :=
  match h[p]? with
  | none => none
  | some pn =>
    match pn.parent with
    | none =>
      -- zig
      if pn.left = some x then rotate_right h x else rotate_left h x
    | some g =>
      match h[g]? with
      | none => none
      | some gn =>
        if gn.left = some p ∧ pn.left = some x then
          (rotate_right h p).bind fun h1 => rotate_right h1 x
        else if gn.right = some p ∧ pn.right = some x then
          (rotate_left h p).bind fun h1 => rotate_left h1 x
        else if gn.left = some p ∧ pn.right = some x then
          (rotate_left h x).bind fun h1 => rotate_right h1 x
        else
          (rotate_right h x).bind fun h1 => rotate_left h1 x

/-- The loop `while (x->parent) ...` of `splay`. -/
def splay_loop : Nat → List AuxNode → Nat → Option (List AuxNode)
  | 0, _, _ => none
  | fuel + 1, h, x =>
    match h[x]? with
    | none => none
    | some xn =>
      match xn.parent with
      | none => some h
      | some p => (splay_step h x p).bind fun h1 => splay_loop fuel h1 x

/-- `splay(x)`: the store after the rotations and the returned pointer. -/
def splay (h : List AuxNode) (x : Option Nat) : Option (List AuxNode × Option Nat) :=
  match x with
  | none => some (h, none)
  | some a => (splay_loop (h.length + 1) h a).map fun h1 => (h1, some a)

/-- The loop `while (r->left) r = r->left` of `aux_find_min`. -/
def aux_find_min_loop : Nat → List AuxNode → Nat → Option Nat
  | 0, _, _ => none
  | fuel + 1, h, r =>
    match h[r]? with
    | none => none
    | some n =>
      match n.left with
      | none => some r
      | some l => aux_find_min_loop fuel h l

/-- `aux_find_min(r)`. -/
def aux_find_min (h : List AuxNode) (r : Option Nat) : Option (Option Nat) :=
  match r with
  | none => some none
  | some a => (aux_find_min_loop (h.length + 1) h a).map some

/-- The loop `while (r->right) r = r->right` of `aux_find_max`. -/
def aux_find_max_loop : Nat → List AuxNode → Nat → Option Nat
  | 0, _, _ => none
  | fuel + 1, h, r =>
    match h[r]? with
    | none => none
    | some n =>
      match n.right with
      | none => some r
      | some l => aux_find_max_loop fuel h l

/-- `aux_find_max(r)`. -/
def aux_find_max (h : List AuxNode) (r : Option Nat) : Option (Option Nat) :=
  match r with
  | none => some none
  | some a => (aux_find_max_loop (h.length + 1) h a).map some

/-- A push of a child pointer on an explicit stack: `if (c) push(c)`. -/
def pushPtr (c : Option Nat) (st : List Nat) : List Nat :=
  match c with
  | none => st
  | some a => a :: st

/-- The loop `while (st)` of `aux_set_all_auxptr`; the stack is a list of addresses, top
first. -/
def aux_set_all_auxptr_loop :
    Nat → List AuxNode → List RefNode → List Nat → Option (List RefNode)
  | _, _, refs, [] => some refs
  | 0, _, _, _ :: _ => none
  | fuel + 1, auxs, refs, n :: st =>
    match auxs[n]? with
    | none => none
    | some an =>
      match an.ref with
      | none => none
      | some r =>
        -- n->ref->aux_ptr = n
        (modify refs r (fun rn => { rn with aux_ptr := some n })).bind fun refs1 =>
        aux_set_all_auxptr_loop fuel auxs refs1 (pushPtr an.right (pushPtr an.left st))

/-- `aux_set_all_auxptr(a_root)`: only the reference store is written. -/
def aux_set_all_auxptr (auxs : List AuxNode) (refs : List RefNode) (a_root : Option Nat) :
    Option (List RefNode) :=
  match a_root with
  | none => some refs
  | some a => aux_set_all_auxptr_loop (auxs.length + 1) auxs refs [a]

/-- The two stores. -/
structure Mem where
  refs : List RefNode
  auxs : List AuxNode
  deriving DecidableEq

/-- The candidate search of `aux_split_by_key`: the loop `while (cur)`. -/
def split_find_loop :
    Nat → Mem → Int → Option Nat → Option Nat → Option (Option Nat)
  | _, _, _, none, candidate => some candidate
  | 0, _, _, some _, _ => none
  | fuel + 1, m, key, some c, candidate =>
    match m.auxs[c]? with
    | none => none
    | some cn =>
      match cn.ref with
      | none => none
      | some r =>
        match m.refs[r]? with
        | none => none
        | some rn =>
          if rn.key ≤ key then split_find_loop fuel m key cn.right (some c)
          else split_find_loop fuel m key cn.left candidate

/-- `aux_split_by_key(root, key, left, right)`: the memory after the call and the two
output pointers `left` and `right`. -/
def aux_split_by_key (m : Mem) (root : Option Nat) (key : Int) :
    Option (Mem × Option Nat × Option Nat) :=
  match root with
  | none => some (m, none, none)
  | some _ =>
    (split_find_loop (m.auxs.length + 1) m key root none).bind fun candidate =>
    match candidate with
    | none =>
      (aux_find_min m.auxs root).bind fun minn =>
      (splay m.auxs minn).bind fun (h1, root1) =>
      let right := root1
      -- if (right) right->parent = nullptr
      (aux_link_parent h1 right none).bind fun h2 =>
      (aux_set_all_auxptr h2 m.refs none).bind fun refs1 =>
      (aux_set_all_auxptr h2 refs1 right).bind fun refs2 =>
      some (⟨refs2, h2⟩, none, right)
    | some _ =>
      (splay m.auxs candidate).bind fun (h1, root1) =>
      match root1 with
      | none => none
      | some la =>
        match h1[la]? with
        | none => none
        | some ln =>
          let right := ln.right
          -- if (right) right->parent = nullptr
          (aux_link_parent h1 right none).bind fun h2 =>
          (modify h2 la (fun n => { n with right := none })).bind fun h3 =>
          (aux_set_all_auxptr h3 m.refs (some la)).bind fun refs1 =>
          (aux_set_all_auxptr h3 refs1 right).bind fun refs2 =>
          some (⟨refs2, h3⟩, some la, right)

/-- `aux_merge(left, right)`. -/
def aux_merge (m : Mem) (left right : Option Nat) : Option (Mem × Option Nat) :=
  match left with
  | none => (aux_set_all_auxptr m.auxs m.refs right).map fun refs1 => (⟨refs1, m.auxs⟩, right)
  | some _ =>
    match right with
    | none => (aux_set_all_auxptr m.auxs m.refs left).map fun refs1 => (⟨refs1, m.auxs⟩, left)
    | some ra =>
      (aux_find_max m.auxs left).bind fun mx =>
      (splay m.auxs mx).bind fun (h1, left1) =>
      match left1 with
      | none => none
      | some la =>
        -- left->right = right
        (modify h1 la (fun n => { n with right := some ra })).bind fun h2 =>
        -- right->parent = left
        (modify h2 ra (fun n => { n with parent := some la })).bind fun h3 =>
        (aux_set_all_auxptr h3 m.refs (some la)).map fun refs1 => (⟨refs1, h3⟩, some la)

/-- A read `arr[i]` of an array with an `int` index. -/
def arrGet {α : Type} (arr : List α) (i : Int) : Option α :=
  if 0 ≤ i then arr[i.toNat]? else none

/-- The loop `for (int i = l; i <= r; ++i)` of `build_splay_from_array_with_merge`; the
counter is an integer without a bound, which is the `int` of the code as long as `r` is
below `INT_MAX`. -/
def build_splay_loop :
    Nat → Mem → List (Option Nat) → Int → Int → Option Nat → Option (Mem × Option Nat)
  | 0, _, _, _, _, _ => none
  | fuel + 1, m, arr, i, r, root =>
    if i ≤ r then
      match arrGet arr i with
      | none => none
      | some ri =>
        -- AuxNode *node = new AuxNode(arr[i])
        let node := m.auxs.length
        let m1 : Mem := ⟨m.refs, m.auxs ++ [AuxNode.new ri]⟩
        (aux_merge m1 root (some node)).bind fun (m2, root2) =>
        build_splay_loop fuel m2 arr (i + 1) r root2
    else some (m, root)

/-- `build_splay_from_array_with_merge(arr, l, r)`. -/
def build_splay_from_array_with_merge (m : Mem) (arr : List (Option Nat)) (l r : Int) :
    Option (Mem × Option Nat) :=
  build_splay_loop ((r - l + 1).toNat + 1) m arr l r none

/-- `free_aux_tree(a)`: the recursion clears the `aux_ptr` of every wrapped reference
node; the released auxiliary nodes stay in the store.  The write `a->ref->aux_ptr = nullptr`
is an ordinary write here, also when the reference node has been released before;
`free_aux_tree_checked` is the function with the released reference nodes taken into
account. -/
def free_aux_tree : Nat → List AuxNode → List RefNode → Option Nat → Option (List RefNode)
  | _, _, refs, none => some refs
  | 0, _, _, some _ => none
  | fuel + 1, auxs, refs, some a =>
    match auxs[a]? with
    | none => none
    | some an =>
      (free_aux_tree fuel auxs refs an.left).bind fun refs1 =>
      (free_aux_tree fuel auxs refs1 an.right).bind fun refs2 =>
      match an.ref with
      | none => none
      | some r => modify refs2 r (fun rn => { rn with aux_ptr := none })

/-! ## Reference tree helpers -/

/-- The value of a sum of two `int`s: 32-bit two's complement wrap-around. -/
def wrapInt32 (x : Int) : Int :=
  (x + 2147483648) % 4294967296 - 2147483648

/-- `build_ref_from_sorted(arr, l, r)`; `mid = (l + r) / 2` is computed in `int`, the
division truncating toward zero. -/
def build_ref_from_sorted :
    Nat → List RefNode → List Int → Int → Int → Option (List RefNode × Option Nat)
  | 0, _, _, _, _ => none
  | fuel + 1, h, arr, l, r =>
    if l > r then some (h, none)
    else
      let mid := Int.tdiv (wrapInt32 (l + r)) 2
      match arrGet arr mid with
      | none => none
      | some k =>
        -- RefNode* node = new RefNode(arr[mid])
        let node := h.length
        let h0 := h ++ [RefNode.new k]
        -- node->left = build_ref_from_sorted(arr, l, mid-1)
        (build_ref_from_sorted fuel h0 arr l (mid - 1)).bind fun (h1, lft) =>
        (modify h1 node (fun n => { n with left := lft })).bind fun h2 =>
        -- if (node->left) node->left->parent = node
        (match lft with
          | none => some h2
          | some c => modify h2 c (fun n => { n with parent := some node })).bind fun h3 =>
        -- node->right = build_ref_from_sorted(arr, mid+1, r)
        (build_ref_from_sorted fuel h3 arr (mid + 1) r).bind fun (h4, rgt) =>
        (modify h4 node (fun n => { n with right := rgt })).bind fun h5 =>
        -- if (node->right) node->right->parent = node
        (match rgt with
          | none => some h5
          | some c => modify h5 c (fun n => { n with parent := some node })).bind fun h6 =>
        -- node->preferred = nullptr; node->aux_ptr = nullptr
        (modify h6 node (fun n => { n with preferred := none })).bind fun h7 =>
        (modify h7 node (fun n => { n with aux_ptr := none })).bind fun h8 =>
        some (h8, some node)

/-- The loop `while (cur)` of `bst_search`. -/
def bst_search_loop : Nat → List RefNode → Option Nat → Int → Option (Option Nat)
  | _, _, none, _ => some none
  | 0, _, some _, _ => none
  | fuel + 1, h, some c, key =>
    match h[c]? with
    | none => none
    | some cn =>
      if key = cn.key then some (some c)
      else if key < cn.key then bst_search_loop fuel h cn.left key
      else bst_search_loop fuel h cn.right key

/-- `bst_search(root, key)`. -/
def bst_search (h : List RefNode) (root : Option Nat) (key : Int) : Option (Option Nat) :=
  bst_search_loop (h.length + 1) h root key

/-- The loop `while (cur)` of `bst_insert`: `Sum.inl c` when the loop returns the node `c`
that holds the key, `Sum.inr par` when it falls off the tree below `par`. -/
def bst_insert_loop :
    Nat → List RefNode → Int → Option Nat → Option Nat → Option (Sum Nat (Option Nat))
  | _, _, _, none, par => some (Sum.inr par)
  | 0, _, _, some _, _ => none
  | fuel + 1, h, key, some c, _ =>
    match h[c]? with
    | none => none
    | some cn =>
      if key < cn.key then bst_insert_loop fuel h key cn.left (some c)
      else if key > cn.key then bst_insert_loop fuel h key cn.right (some c)
      else some (Sum.inl c)

/-- `bst_insert(root, key)`: the store, the new value of the reference parameter `root`
and the returned node. -/
def bst_insert (h : List RefNode) (root : Option Nat) (key : Int) :
    Option (List RefNode × Option Nat × Option Nat) :=
  match root with
  | none => some (h ++ [RefNode.new key], some h.length, some h.length)
  | some _ =>
    (bst_insert_loop (h.length + 1) h key root none).bind fun res =>
    match res with
    | Sum.inl c => some (h, root, some c)
    | Sum.inr par =>
      -- RefNode *n = new RefNode(key); n->parent = par
      let n := h.length
      let h1 := h ++ [{ RefNode.new key with parent := par }]
      match par with
      | none => none
      | some pa =>
        match h1[pa]? with
        | none => none
        | some pn =>
          (if key < pn.key then modify h1 pa (fun x => { x with left := some n })
            else modify h1 pa (fun x => { x with right := some n })).map fun h2 =>
          (h2, root, some n)

/-- `bst_transplant(root, u, v)`: the store and the new value of `root`. -/
def bst_transplant (h : List RefNode) (root : Option Nat) (u : Nat) (v : Option Nat) :
    Option (List RefNode × Option Nat) :=
  match h[u]? with
  | none => none
  | some un =>
    (match un.parent with
      | none => some (h, v)
      | some p =>
        match h[p]? with
        | none => none
        | some pn =>
          if some u = pn.left then (modify h p (fun x => { x with left := v })).map fun h1 => (h1, root)
          else (modify h p (fun x => { x with right := v })).map fun h1 => (h1, root)).bind
    fun (h1, root1) =>
    match v with
    | none => some (h1, root1)
    | some va =>
      -- v->parent = u->parent
      match h1[u]? with
      | none => none
      | some un1 => (modify h1 va (fun x => { x with parent := un1.parent })).map fun h2 => (h2, root1)

/-- The loop `while (x && x->left) x = x->left` of `bst_minimum`. -/
def bst_minimum_loop : Nat → List RefNode → Option Nat → Option (Option Nat)
  | _, _, none => some none
  | 0, _, some _ => none
  | fuel + 1, h, some x =>
    match h[x]? with
    | none => none
    | some xn =>
      match xn.left with
      | none => some (some x)
      | some l => bst_minimum_loop fuel h (some l)

/-- `bst_minimum(x)`. -/
def bst_minimum (h : List RefNode) (x : Option Nat) : Option (Option Nat) :=
  bst_minimum_loop (h.length + 1) h x

/-- The block `if (y->parent != z) { ... }` of `bst_delete`: the successor `y` is cut out
of the right subtree of `z` and takes that subtree over. -/
def bst_delete_lift (h : List RefNode) (root : Option Nat) (za ya : Nat) :
    Option (List RefNode × Option Nat) :=
  match h[ya]? with
  | none => none
  | some yn =>
    if yn.parent ≠ some za then
      (bst_transplant h root ya yn.right).bind fun (h1, root1) =>
      -- y->right = z->right
      match h1[za]? with
      | none => none
      | some zn1 =>
        (modify h1 ya (fun x => { x with right := zn1.right })).bind fun h2 =>
        -- if (y->right) y->right->parent = y
        (match zn1.right with
          | none => some h2
          | some c => modify h2 c (fun x => { x with parent := some ya })).map
        fun h3 => (h3, root1)
    else some (h, root)

/-- The statements `bst_transplant(root, z, y); y->left = z->left;
if (y->left) y->left->parent = y;` of `bst_delete`. -/
def bst_delete_join (h : List RefNode) (root : Option Nat) (za ya : Nat) :
    Option (List RefNode × Option Nat) :=
  (bst_transplant h root za (some ya)).bind fun (h4, root2) =>
  -- y->left = z->left
  match h4[za]? with
  | none => none
  | some zn4 =>
    (modify h4 ya (fun x => { x with left := zn4.left })).bind fun h5 =>
    -- if (y->left) y->left->parent = y
    (match zn4.left with
      | none => some h5
      | some c => modify h5 c (fun x => { x with parent := some ya })).map
    fun h6 => (h6, root2)

/-- `bst_delete(root, z)`: the store and the new value of `root`; the final `delete z`
leaves the store as it is, so the released node `z` keeps its fields.  The function itself
does not use `z` after the release; its caller with the release taken into account is
`Tango.remove_key_checked`. -/
def bst_delete (h : List RefNode) (root : Option Nat) (z : Option Nat) :
    Option (List RefNode × Option Nat) :=
  match z with
  | none => some (h, root)
  | some za =>
    match h[za]? with
    | none => none
    | some zn =>
      if zn.left = none then bst_transplant h root za zn.right
      else if zn.right = none then bst_transplant h root za zn.left
      else
        -- RefNode *y = bst_minimum(z->right)
        (bst_minimum h zn.right).bind fun y =>
        match y with
        | none => none
        | some ya =>
          (bst_delete_lift h root za ya).bind fun (h3, root1) =>
          bst_delete_join h3 root1 za ya

/-- The loop `while (cur && idx < maxn)` of `collect_path`; the path is returned in visiting
order. -/
def collect_path_loop :
    Nat → List RefNode → Int → Nat → Option Nat → List Nat → Option (List Nat)
  | _, _, _, _, none, out => some out
  | 0, _, _, _, some _, _ => none
  | fuel + 1, h, tkey, maxn, some c, out =>
    if out.length < maxn then
      match h[c]? with
      | none => none
      | some cn =>
        if tkey = cn.key then some (out ++ [c])
        else if tkey < cn.key then collect_path_loop fuel h tkey maxn cn.left (out ++ [c])
        else collect_path_loop fuel h tkey maxn cn.right (out ++ [c])
    else some out

/-- `collect_path(root, target, out_arr, maxn)`: the filled part of `out_arr`. -/
def collect_path (h : List RefNode) (root : Option Nat) (target : Nat) (maxn : Nat) :
    Option (List Nat) :=
  match h[target]? with
  | none => none
  | some tn => collect_path_loop (h.length + 1) h tn.key maxn root []

/-- The first loop of `set_preferred_along_path`: every node reached from the stack has
its `preferred` cleared. -/
def clear_preferred_loop : Nat → List RefNode → List Nat → Option (List RefNode)
  | _, h, [] => some h
  | 0, _, _ :: _ => none
  | fuel + 1, h, n :: st =>
    match h[n]? with
    | none => none
    | some nn =>
      -- n->preferred = nullptr
      (modify h n (fun x => { x with preferred := none })).bind fun h1 =>
      clear_preferred_loop fuel h1 (pushPtr nn.right (pushPtr nn.left st))

/-- The loop `for (i = 0; i + 1 < len; ++i) path[i]->preferred = path[i+1]`. -/
def set_path_loop : List RefNode → List Nat → Option (List RefNode)
  | h, a :: b :: rest =>
    (modify h a (fun x => { x with preferred := some b })).bind fun h1 =>
    set_path_loop h1 (b :: rest)
  | h, _ => some h

/-- `set_preferred_along_path(root, path, len)` with `path` the array of length `len`. -/
def set_preferred_along_path (h : List RefNode) (root : Option Nat) (path : List Nat) :
    Option (List RefNode) :=
  (clear_preferred_loop (h.length + 1) h (pushPtr root [])).bind fun h1 =>
  (set_path_loop h1 path).bind fun h2 =>
  -- if (len > 0) path[len-1]->preferred = nullptr
  match path.getLast? with
  | none => some h2
  | some a => modify h2 a (fun x => { x with preferred := none })

/-- The chain walk of `build_aux_trees_from_ref`:
`while (cur) { arr[len++] = cur; cur = cur->preferred; }`. -/
def chain_loop : Nat → List RefNode → Option Nat → List (Option Nat) → Option (List (Option Nat))
  | _, _, none, arr => some arr
  | 0, _, some _, _ => none
  | fuel + 1, h, some c, arr =>
    match h[c]? with
    | none => none
    | some cn => chain_loop fuel h cn.preferred (arr ++ [some c])

/-- The loop `while (st)` of `build_aux_trees_from_ref`; `alist` is the list built so far,
newest first. -/
def build_aux_loop :
    Nat → Mem → List Nat → List (Option Nat) → Option (Mem × List (Option Nat))
  | _, m, [], alist => some (m, alist)
  | 0, _, _ :: _, _ => none
  | fuel + 1, m, n :: st, alist =>
    match m.refs[n]? with
    | none => none
    | some nn =>
      let st1 := pushPtr nn.left (pushPtr nn.right st)
      -- if (!n->parent || n->parent->preferred != n)
      (match nn.parent with
        | none => some true
        | some p =>
          match m.refs[p]? with
          | none => none
          | some pn => some (decide (pn.preferred ≠ some n))).bind fun head =>
      if head then
        (chain_loop (m.refs.length + 1) m.refs (some n) []).bind fun arr =>
        (build_splay_from_array_with_merge m arr 0 ((arr.length : Int) - 1)).bind
        fun (m1, aroot) => build_aux_loop fuel m1 st1 (aroot :: alist)
      else build_aux_loop fuel m st1 alist

/-- `build_aux_trees_from_ref(root)`: the list of auxiliary roots, newest first. -/
def build_aux_trees_from_ref (m : Mem) (root : Option Nat) :
    Option (Mem × List (Option Nat)) :=
  match root with
  | none => some (m, [])
  | some a => build_aux_loop (m.refs.length + 1) m [a] []

/-- `free_aux_list(alist)`. -/
def free_aux_list : List AuxNode → List RefNode → List (Option Nat) → Option (List RefNode)
  | _, refs, [] => some refs
  | auxs, refs, aroot :: rest =>
    (free_aux_tree (auxs.length + 1) auxs refs aroot).bind fun refs1 =>
    free_aux_list auxs refs1 rest

/-! ## Tango structure -/

/-- `struct Tango`, together with the two stores its pointers refer to. -/
structure Tango where
  mem : Mem
  ref_root : Option Nat
  aux_list : List (Option Nat)
  deriving DecidableEq

/-- The constructor `Tango()` in an empty memory. -/
def Tango.new : Tango :=
  ⟨⟨[], []⟩, none, []⟩

/-- `Tango::rebuild_aux()`. -/
def Tango.rebuild_aux (t : Tango) : Option Tango :=
  (free_aux_list t.mem.auxs t.mem.refs t.aux_list).bind fun refs1 =>
  (build_aux_trees_from_ref ⟨refs1, t.mem.auxs⟩ t.ref_root).map fun (m1, alist) =>
  ⟨m1, t.ref_root, alist⟩

/-- `Tango::build_from_sorted_array(arr, n)` with `n` the length of `arr`, which has to
be an `int`. -/
def Tango.build_from_sorted_array (t : Tango) (arr : List Int) : Option Tango :=
  if arr.length < 2147483648 then
    (build_ref_from_sorted (arr.length + 1) t.mem.refs arr 0 ((arr.length : Int) - 1)).bind
    fun (h1, root) => Tango.rebuild_aux ⟨⟨h1, t.mem.auxs⟩, root, t.aux_list⟩
  else none

/-- The path loop of `Tango::access`. -/
def access_path_loop : Nat → List RefNode → Int → Option Nat → List Nat → Option (List Nat)
  | _, _, _, none, path => some path
  | 0, _, _, some _, _ => none
  | fuel + 1, h, key, some c, path =>
    match h[c]? with
    | none => none
    | some cn =>
      if cn.key = key then some (path ++ [c])
      else if key < cn.key then access_path_loop fuel h key cn.left (path ++ [c])
      else access_path_loop fuel h key cn.right (path ++ [c])

/-- `Tango::access(key)`: the state after the call and the returned pointer. -/
def Tango.access (t : Tango) (key : Int) : Option (Tango × Option Nat) :=
  (bst_search t.mem.refs t.ref_root key).bind fun target =>
  match target with
  | none => some (t, none)
  | some _ =>
    (access_path_loop (t.mem.refs.length + 1) t.mem.refs key t.ref_root []).bind fun path =>
    (set_preferred_along_path t.mem.refs t.ref_root path).bind fun h1 =>
    (Tango.rebuild_aux ⟨⟨h1, t.mem.auxs⟩, t.ref_root, t.aux_list⟩).map fun t1 => (t1, target)

/-- `Tango::insert_key(key)`. -/
def Tango.insert_key (t : Tango) (key : Int) : Option Tango :=
  (bst_insert t.mem.refs t.ref_root key).bind fun (h1, root1, _) =>
  Tango.rebuild_aux ⟨⟨h1, t.mem.auxs⟩, root1, t.aux_list⟩

/-- `Tango::remove_key(key)` with the released node keeping its fields; with the release
taken into account the method is `Tango.remove_key_checked`. -/
def Tango.remove_key (t : Tango) (key : Int) : Option Tango :=
  (bst_search t.mem.refs t.ref_root key).bind fun z =>
  match z with
  | none => some t
  | some _ =>
    (bst_delete t.mem.refs t.ref_root z).bind fun (h1, root1) =>
    Tango.rebuild_aux ⟨⟨h1, t.mem.auxs⟩, root1, t.aux_list⟩

/-- The keys printed by `print_ref_inorder(r)`. -/
def ref_inorder : Nat → List RefNode → Option Nat → Option (List Int)
  | _, _, none => some []
  | 0, _, some _ => none
  | fuel + 1, h, some r =>
    match h[r]? with
    | none => none
    | some rn =>
      (ref_inorder fuel h rn.left).bind fun ls =>
      (ref_inorder fuel h rn.right).bind fun rs => some (ls ++ rn.key :: rs)

/-- The keys printed by `print_aux_inorder(a)`. -/
def aux_inorder : Nat → Mem → Option Nat → Option (List Int)
  | _, _, none => some []
  | 0, _, some _ => none
  | fuel + 1, m, some a =>
    match m.auxs[a]? with
    | none => none
    | some an =>
      (aux_inorder fuel m an.left).bind fun ls =>
      match an.ref with
      | none => none
      | some r =>
        match m.refs[r]? with
        | none => none
        | some rn => (aux_inorder fuel m an.right).bind fun rs => some (ls ++ rn.key :: rs)

/-- The key lines printed by `Tango::print_ref_tree()`. -/
def Tango.ref_keys (t : Tango) : Option (List Int) :=
  ref_inorder (t.mem.refs.length + 1) t.mem.refs t.ref_root

/-- The key lines printed by `Tango::print_aux_trees()`, one list for each entry of
`aux_list`. -/
def Tango.aux_keys (t : Tango) : Option (List (List Int)) :=
  t.aux_list.mapM fun a => aux_inorder (t.mem.auxs.length + 1) t.mem a

/-! ## Pointer trees: the shapes that the stores are compared with -/

/-- The fields that link a node into a binary tree, with the payload of the node. -/
structure Link (β : Type) where
  val : β
  left : Option Nat
  right : Option Nat
  parent : Option Nat

/-- The link fields of a reference node; the payload is the key. -/
def RefNode.link (n : RefNode) : Link Int :=
  ⟨n.key, n.left, n.right, n.parent⟩

/-- The link fields of an auxiliary node; the payload is the wrapped pointer. -/
def AuxNode.link (n : AuxNode) : Link (Option Nat) :=
  ⟨n.ref, n.left, n.right, n.parent⟩

/-- A binary tree of store addresses with a payload at each node. -/
inductive PTree (β : Type) where
  | nil : PTree β
  | node (l : PTree β) (a : Nat) (v : β) (r : PTree β) : PTree β

/-- The pointer to the root. -/
def PTree.root {β : Type} : PTree β → Option Nat
  | PTree.nil => none
  | PTree.node _ a _ _ => some a

/-- The nodes in in-order, as pairs of address and payload. -/
def PTree.toList {β : Type} : PTree β → List (Nat × β)
  | PTree.nil => []
  | PTree.node l a v r => l.toList ++ (a, v) :: r.toList

/-- The addresses in in-order. -/
def PTree.addrs {β : Type} (t : PTree β) : List Nat :=
  t.toList.map Prod.fst

/-- The payloads in in-order. -/
def PTree.vals {β : Type} (t : PTree β) : List β :=
  t.toList.map Prod.snd

/-- The number of nodes. -/
def PTree.size {β : Type} : PTree β → Nat
  | PTree.nil => 0
  | PTree.node l _ _ r => l.size + 1 + r.size

/-- The number of nodes on the longest path from the root down. -/
def PTree.height {β : Type} : PTree β → Nat
  | PTree.nil => 0
  | PTree.node l _ _ r => max l.height r.height + 1

/-- The store `h` holds the tree `t` below a node `par`: every node of `t` sits at its
address with its payload, its child pointers are the roots of its subtrees and its parent
pointer is the node above it (`par` for the root of `t`). -/
def Rep {α β : Type} (lk : α → Link β) (h : List α) : PTree β → Option Nat → Prop
  | PTree.nil, _ => True
  | PTree.node l a v r, par =>
    (h[a]?).map lk = some ⟨v, l.root, r.root, par⟩ ∧ Rep lk h l (some a) ∧ Rep lk h r (some a)

/-- One step of a path from a node up to the root: the node above (`a` with payload `v`)
and the subtree `s` on its other side. -/
inductive Frame (β : Type) where
  | inL (a : Nat) (v : β) (s : PTree β) : Frame β
  | inR (a : Nat) (v : β) (s : PTree β) : Frame β

/-- The address of the node of a frame. -/
def Frame.addr {β : Type} : Frame β → Nat
  | Frame.inL a _ _ => a
  | Frame.inR a _ _ => a

/-- The tree around a hole, given by the path from the hole up to the root, filled
with `t`. -/
def plug {β : Type} : List (Frame β) → PTree β → PTree β
  | [], t => t
  | Frame.inL a v s :: c, t => plug c (PTree.node t a v s)
  | Frame.inR a v s :: c, t => plug c (PTree.node s a v t)

/-- The parent pointer of the tree in the hole. -/
def ctxAddr {β : Type} : List (Frame β) → Option Nat → Option Nat
  | [], par => par
  | f :: _, _ => some f.addr

/-- The nodes before the hole, in in-order. -/
def ctxBefore {β : Type} : List (Frame β) → List (Nat × β)
  | [] => []
  | Frame.inL _ _ _ :: c => ctxBefore c
  | Frame.inR a v s :: c => ctxBefore c ++ (s.toList ++ [(a, v)])

/-- The nodes after the hole, in in-order. -/
def ctxAfter {β : Type} : List (Frame β) → List (Nat × β)
  | [] => []
  | Frame.inL a v s :: c => ((a, v) :: s.toList) ++ ctxAfter c
  | Frame.inR _ _ _ :: c => ctxAfter c

/-- The subtree on the other side of the node of a frame. -/
def Frame.sib {β : Type} : Frame β → PTree β
  | Frame.inL _ _ s => s
  | Frame.inR _ _ s => s

/-- The addresses of the nodes around the hole. -/
def ctxAddrs {β : Type} : List (Frame β) → List Nat
  | [] => []
  | f :: c => f.addr :: (f.sib.addrs ++ ctxAddrs c)

/-- The store holds the nodes around a hole whose root pointer is `hole`, the whole tree
hanging below `par`. -/
def CRep {α β : Type} (lk : α → Link β) (h : List α) :
    List (Frame β) → Option Nat → Option Nat → Prop
  | [], _, _ => True
  | Frame.inL a v s :: c, hole, par =>
    (h[a]?).map lk = some ⟨v, hole, s.root, ctxAddr c par⟩ ∧ Rep lk h s (some a) ∧
      CRep lk h c (some a) par
  | Frame.inR a v s :: c, hole, par =>
    (h[a]?).map lk = some ⟨v, s.root, hole, ctxAddr c par⟩ ∧ Rep lk h s (some a) ∧
      CRep lk h c (some a) par

/-! ## The reference tree as a shape -/

/-- The node that the descent of `bst_search` ends at. -/
def PTree.find : PTree Int → Int → Option Nat
  | PTree.nil, _ => none
  | PTree.node l a v r, k =>
    if k = v then some a else if k < v then l.find k else r.find k

/-- The nodes that the descent of `Tango::access` visits, from the root down. -/
def PTree.pathTo : PTree Int → Int → List Nat
  | PTree.nil, _ => []
  | PTree.node l a v r, k =>
    if v = k then [a] else if k < v then a :: l.pathTo k else a :: r.pathTo k

/-- The outcome of the descent of `bst_insert`. -/
def PTree.insertLoc : PTree Int → Int → Option Nat → Sum Nat (Option Nat)
  | PTree.nil, _, par => Sum.inr par
  | PTree.node l a v r, k, _ =>
    if k < v then l.insertLoc k (some a)
    else if k > v then r.insertLoc k (some a)
    else Sum.inl a

/-- The tree after `bst_insert` of the key `k`, the new node being at address `n`. -/
def PTree.insert : PTree Int → Int → Nat → PTree Int
  | PTree.nil, k, n => PTree.node PTree.nil n k PTree.nil
  | PTree.node l a v r, k, n =>
    if k < v then PTree.node (l.insert k n) a v r
    else if k > v then PTree.node l a v (r.insert k n)
    else PTree.node l a v r

/-- The reference tree of a store: the nodes reached from `root` form the tree `t`, no
node is shared and the parent links mirror the child links. -/
def RefTree (h : List RefNode) (root : Option Nat) (t : PTree Int) : Prop :=
  t.root = root ∧ Rep RefNode.link h t none ∧ t.addrs.Nodup

/-- What `bst_insert` of a new key leaves of the store `h` in the store `h2`: one node is
appended, it holds the key and has no preferred child, and the older nodes keep their
key, their preferred child and their auxiliary pointer. -/
def InsertFrame (h h2 : List RefNode) (k : Int) : Prop :=
  h2.length = h.length + 1 ∧
  (∀ (b : Nat) (n : RefNode), h[b]? = some n →
    ∃ n2 : RefNode, h2[b]? = some n2 ∧ n2.key = n.key ∧ n2.preferred = n.preferred ∧
      n2.aux_ptr = n.aux_ptr) ∧
  ∃ nn : RefNode, h2[h.length]? = some nn ∧ nn.key = k ∧ nn.preferred = none ∧ nn.left = none ∧
    nn.right = none

/-- The fields of a reference node that the tree operations do not write. -/
def RefNode.rest (n : RefNode) : Int × Option Nat × Option Nat :=
  (n.key, n.aux_ptr, n.preferred)

/-- The leftmost node of a tree and the tree without it. -/
def PTree.splitMin {β : Type} : PTree β → Option (Nat × β × PTree β)
  | PTree.nil => none
  | PTree.node l a v r =>
    match l.splitMin with
    | none => some (a, v, r)
    | some (y, yv, l2) => some (y, yv, PTree.node l2 a v r)

/-- The tree that `bst_delete` puts in the place of a node with the subtrees `l` and `r`. -/
def PTree.delRoot {β : Type} (l r : PTree β) : PTree β :=
  match l with
  | PTree.nil => r
  | PTree.node _ _ _ _ =>
    match r.splitMin with
    | none => l
    | some (y, yv, r2) => PTree.node l y yv r2

/-- The tree after `splay(x)`, for `x` with the subtrees `A` and `B` below the frames `c`:
one frame is used up by a zig, two by a zig-zig or a zig-zag. -/
def splayF {β : Type} : List (Frame β) → PTree β → Nat → β → PTree β → PTree β
  | [], A, x, v, B => PTree.node A x v B
  | [Frame.inL p pv C], A, x, v, B => PTree.node A x v (PTree.node B p pv C)
  | [Frame.inR p pv C], A, x, v, B => PTree.node (PTree.node C p pv A) x v B
  | Frame.inL p pv C :: Frame.inL g gv D :: c, A, x, v, B =>
    splayF c A x v (PTree.node B p pv (PTree.node C g gv D))
  | Frame.inR p pv C :: Frame.inR g gv D :: c, A, x, v, B =>
    splayF c (PTree.node (PTree.node D g gv C) p pv A) x v B
  | Frame.inR p pv C :: Frame.inL g gv D :: c, A, x, v, B =>
    splayF c (PTree.node C p pv A) x v (PTree.node B g gv D)
  | Frame.inL p pv C :: Frame.inR g gv D :: c, A, x, v, B =>
    splayF c (PTree.node D g gv A) x v (PTree.node B p pv C)

/-- All the fields of a reference node but `aux_ptr`. -/
def RefNode.core (n : RefNode) : Int × Option Nat × Option Nat × Option Nat × Option Nat :=
  (n.key, n.left, n.right, n.parent, n.preferred)

/-- The frames from the rightmost node of a tree up to its root. -/
def PTree.maxPath {β : Type} : PTree β → List (Frame β)
  | PTree.nil => []
  | PTree.node l a v r =>
    match r with
    | PTree.nil => []
    | PTree.node _ _ _ _ => r.maxPath ++ [Frame.inR a v l]

/-- The rightmost node of a tree: its left subtree, its address and its payload. -/
def PTree.maxNode {β : Type} : PTree β → Option (PTree β × Nat × β)
  | PTree.nil => none
  | PTree.node l a v r =>
    match r with
    | PTree.nil => some (l, a, v)
    | PTree.node _ _ _ _ => r.maxNode

/-- The frames from the leftmost node of a tree up to its root. -/
def PTree.minPath {β : Type} : PTree β → List (Frame β)
  | PTree.nil => []
  | PTree.node l a v r =>
    match l with
    | PTree.nil => []
    | PTree.node _ _ _ _ => l.minPath ++ [Frame.inL a v r]

/-- The leftmost node of a tree: its address, its payload and its right subtree. -/
def PTree.minNode {β : Type} : PTree β → Option (Nat × β × PTree β)
  | PTree.nil => none
  | PTree.node l a v r =>
    match l with
    | PTree.nil => some (a, v, r)
    | PTree.node _ _ _ _ => l.minNode

/-- The root pointers of the non-empty trees of a list. -/
def roots {β : Type} (fs : List (PTree β)) : List Nat :=
  fs.filterMap PTree.root

/-- The wrapped pointers of a tree are pointers to nodes of the reference store. -/
def ValidRefs (len : Nat) (t : PTree (Option Nat)) : Prop :=
  ∀ v ∈ t.vals, ∃ r, v = some r ∧ r < len

/-- The tree that `aux_merge(left, right)` returns: the rightmost node of `left` is splayed
to the root and gets `right` as its right subtree. -/
def mergeT {β : Type} (L R : PTree β) : PTree β :=
  match L.maxNode with
  | none => R
  | some (L0, mx, mv) =>
    match R with
    | PTree.nil => L
    | PTree.node _ _ _ _ =>
      match splayF L.maxPath L0 mx mv PTree.nil with
      | PTree.nil => PTree.nil
      | PTree.node A a v _ => PTree.node A a v R

/-- The key `a->ref->key` of an auxiliary node with the wrapped pointer `v` (0 when the
pointer is not valid). -/
def refKey (refs : List RefNode) (v : Option Nat) : Int :=
  match v with
  | none => 0
  | some r =>
    match refs[r]? with
    | none => 0
    | some n => n.key

/-- The keys of an auxiliary tree in in-order: what `print_aux_inorder` prints. -/
def auxKeys (refs : List RefNode) (t : PTree (Option Nat)) : List Int :=
  t.vals.map (refKey refs)

/-- The candidate that the search loop of `aux_split_by_key` ends with. -/
def PTree.splitCand (refs : List RefNode) (key : Int) :
    PTree (Option Nat) → Option Nat → Option Nat
  | PTree.nil, cand => cand
  | PTree.node l a v r, cand =>
    if refKey refs v ≤ key then r.splitCand refs key (some a) else l.splitCand refs key cand

/-- The walk along `preferred` pointers that starts at `p` visits the nodes `l` and ends
at a null pointer. -/
inductive Chain (h : List RefNode) : Option Nat → List Nat → Prop where
  | nil : Chain h none []
  | cons {a : Nat} {n : RefNode} {l : List Nat} :
      h[a]? = some n → Chain h n.preferred l → Chain h (some a) (a :: l)

/-- Every walk along `preferred` pointers ends. -/
def ChainsOK (h : List RefNode) : Prop :=
  ∀ a, a < h.length → ∃ l, Chain h (some a) l

/-- A left spine: the first node of the list is at the top. -/
def lspine {β : Type} : List (Nat × β) → PTree β
  | [] => PTree.nil
  | x :: xs => PTree.node (lspine xs) x.1 x.2 PTree.nil

/-- The tree that the merges of `build_splay_from_array_with_merge` build from a list of
nodes, given newest first: the node before the newest is the root, the newest is its right
child and the older nodes are a left spine below the root. -/
def chainTreeRev {β : Type} : List (Nat × β) → PTree β
  | [] => PTree.nil
  | [z] => PTree.node PTree.nil z.1 z.2 PTree.nil
  | z :: y :: rest =>
    PTree.node (lspine rest) y.1 y.2 (PTree.node PTree.nil z.1 z.2 PTree.nil)

/-- The auxiliary tree at `a` is the tree that `build_splay_from_array_with_merge` builds
for the chain `l` of reference nodes. -/
def AuxFor (auxs : List AuxNode) (a : Option Nat) (l : List Nat) : Prop :=
  ∃ news : List (Nat × Option Nat), a = (chainTreeRev news).root ∧
    Rep AuxNode.link auxs (chainTreeRev news) none ∧ (news.map Prod.fst).Nodup ∧
    news.reverse.map Prod.snd = l.map some

/-- Every entry of the list of auxiliary roots is the root of a tree in the auxiliary
store that wraps pointers into the reference store. -/
def AuxListOK (m : Mem) (alist : List (Option Nat)) : Prop :=
  ∀ p ∈ alist, ∃ t : PTree (Option Nat), t.root = p ∧ Rep AuxNode.link m.auxs t none ∧
    t.addrs.Nodup ∧ ValidRefs m.refs.length t

/-- The nodes of a tree, each with the node above it, in the order in which the stack of
`build_aux_trees_from_ref` visits them: a node, its left subtree, its right subtree. -/
def PTree.pre {β : Type} : PTree β → Option Nat → List (Nat × Option Nat)
  | PTree.nil, _ => []
  | PTree.node l a _ r, par => (a, par) :: (l.pre (some a) ++ r.pre (some a))

/-- The visiting order of a stack of subtrees. -/
def forestPre {β : Type} : List (PTree β × Option Nat) → List (Nat × Option Nat)
  | [] => []
  | f :: fs => f.1.pre f.2 ++ forestPre fs

/-- The test `!n->parent || n->parent->preferred != n` for a node and the node above. -/
def isHead (h : List RefNode) (x : Nat × Option Nat) : Bool :=
  match x.2 with
  | none => true
  | some p =>
    match h[p]? with
    | none => true
    | some pn => decide (pn.preferred ≠ some x.1)

/-- The key `n->key` of the reference node at an address (0 outside the store). -/
def keyAt (refs : List RefNode) (b : Nat) : Int :=
  refKey refs (some b)

/-- The node that follows `x` on a path of nodes. -/
def nextOn : List Nat → Nat → Option Nat
  | a :: b :: rest, x => if x = a then some b else nextOn (b :: rest) x
  | _, _ => none

/-- The store `h2` is the store `h` with the preferred path `path` marked in the tree `t`:
every node of `t` has the next node of the path as its preferred child, or none, and
apart from that only `aux_ptr` fields differ. -/
def Marked (h h2 : List RefNode) (t : PTree Int) (path : List Nat) : Prop :=
  h2.length = h.length ∧
  ∀ (b : Nat) (n : RefNode), h[b]? = some n →
    ∃ n2 : RefNode, h2[b]? = some n2 ∧ n2.key = n.key ∧ n2.left = n.left ∧
      n2.right = n.right ∧ n2.parent = n.parent ∧
      n2.preferred = if b ∈ t.addrs then nextOn path b else n.preferred

/-- A well-formed state: the reference store holds a search tree with distinct keys below
`ref_root`, every walk along `preferred` pointers ends, and `aux_list` is a list of trees
of the auxiliary store. -/
def Tango.WF (s : Tango) : Prop :=
  (∃ t : PTree Int, RefTree s.mem.refs s.ref_root t ∧ t.vals.Sorted (· < ·)) ∧
    ChainsOK s.mem.refs ∧ AuxListOK s.mem s.aux_list

/-- The states that `build_from_sorted_array` on a strictly increasing array and then any
sequence of `access`, `insert_key` and `remove_key` lead to. -/
inductive Reachable : Tango → Prop
  | build (arr : List Int) (s : Tango) : arr.Sorted (· < ·) →
      Tango.new.build_from_sorted_array arr = some s → Reachable s
  | access (s s2 : Tango) (k : Int) (r : Option Nat) : Reachable s →
      s.access k = some (s2, r) → Reachable s2
  | insert_key (s s2 : Tango) (k : Int) : Reachable s → s.insert_key k = some s2 →
      Reachable s2
  | remove_key (s s2 : Tango) (k : Int) : Reachable s → s.remove_key k = some s2 →
      Reachable s2

/-- The state that `build_from_sorted_array` on the keys 10, 20, 30 returns in an empty
memory. -/
def built3 : Tango :=
  ⟨⟨[⟨20, some 1, some 2, none, some 0, none⟩, ⟨10, none, none, some 0, some 1, none⟩,
      ⟨30, none, none, some 0, some 2, none⟩],
    [⟨some 0, none, none, none⟩, ⟨some 1, none, none, none⟩, ⟨some 2, none, none, none⟩]⟩,
    some 0, [some 2, some 1, some 0]⟩

/-- A binary tree of keys: what is left of an auxiliary tree when the addresses of its
nodes are forgotten. -/
inductive KTree where
  | nil : KTree
  | node (l : KTree) (k : Int) (r : KTree) : KTree
  deriving DecidableEq

/-- The shape of the auxiliary tree at `a` with the keys of the wrapped reference nodes,
read along the `left` and `right` pointers as `print_aux_inorder` reads them. -/
def aux_shape : Nat → Mem → Option Nat → Option KTree
  | _, _, none => some KTree.nil
  | 0, _, some _ => none
  | fuel + 1, m, some a =>
    match m.auxs[a]? with
    | none => none
    | some an =>
      (aux_shape fuel m an.left).bind fun ls =>
      match an.ref with
      | none => none
      | some r =>
        match m.refs[r]? with
        | none => none
        | some rn => (aux_shape fuel m an.right).bind fun rs => some (KTree.node ls rn.key rs)

/-- The shapes of the trees of `aux_list`, one for each entry. -/
def Tango.aux_shapes (t : Tango) : Option (List KTree) :=
  t.aux_list.mapM fun a => aux_shape (t.mem.auxs.length + 1) t.mem a

/-- The shape of a pointer tree over the auxiliary store. -/
def PTree.kshape (refs : List RefNode) : PTree (Option Nat) → KTree
  | PTree.nil => KTree.nil
  | PTree.node l _ v r => KTree.node (l.kshape refs) (refKey refs v) (r.kshape refs)

/-- A left spine of keys, the first key at the top. -/
def lspineK : List Int → KTree
  | [] => KTree.nil
  | x :: xs => KTree.node (lspineK xs) x KTree.nil

/-- The shape of the tree of a chain whose keys are given newest first. -/
def chainK : List Int → KTree
  | [] => KTree.nil
  | [z] => KTree.node KTree.nil z KTree.nil
  | z :: y :: rest => KTree.node (lspineK rest) y (KTree.node KTree.nil z KTree.nil)

/-- The auxiliary node 0 of `built3` as a tree: it wraps the reference node with key 20. -/
def auxLeaf20 : PTree (Option Nat) :=
  PTree.node PTree.nil 0 (some 0) PTree.nil

/-- The auxiliary node 1 of `built3` as a tree: it wraps the reference node with key 10. -/
def auxLeaf10 : PTree (Option Nat) :=
  PTree.node PTree.nil 1 (some 1) PTree.nil

/-- The state that `build_from_sorted_array` on the keys 10, 20, ..., 70 returns in an
empty memory. -/
def built7 : Tango :=
  ⟨⟨[⟨40, some 1, some 4, none, some 0, none⟩, ⟨20, some 2, some 3, some 0, some 1, none⟩,
      ⟨10, none, none, some 1, some 2, none⟩, ⟨30, none, none, some 1, some 3, none⟩,
      ⟨60, some 5, some 6, some 0, some 4, none⟩, ⟨50, none, none, some 4, some 5, none⟩,
      ⟨70, none, none, some 4, some 6, none⟩],
    [⟨some 0, none, none, none⟩, ⟨some 1, none, none, none⟩, ⟨some 2, none, none, none⟩,
      ⟨some 3, none, none, none⟩, ⟨some 4, none, none, none⟩, ⟨some 5, none, none, none⟩,
      ⟨some 6, none, none, none⟩]⟩,
    some 0, [some 6, some 5, some 4, some 3, some 2, some 1, some 0]⟩

/-- The state after `access(50)` in `built7`. -/
def accessed50 : Tango :=
  ⟨⟨[⟨40, some 1, some 4, none, some 7, some 4⟩, ⟨20, some 2, some 3, some 0, some 10, none⟩,
      ⟨10, none, none, some 1, some 11, none⟩, ⟨30, none, none, some 1, some 12, none⟩,
      ⟨60, some 5, some 6, some 0, some 8, some 5⟩, ⟨50, none, none, some 4, some 9, none⟩,
      ⟨70, none, none, some 4, some 13, none⟩],
    [⟨some 0, none, none, none⟩, ⟨some 1, none, none, none⟩, ⟨some 2, none, none, none⟩,
      ⟨some 3, none, none, none⟩, ⟨some 4, none, none, none⟩, ⟨some 5, none, none, none⟩,
      ⟨some 6, none, none, none⟩, ⟨some 0, none, none, some 8⟩, ⟨some 4, some 7, some 9, none⟩,
      ⟨some 5, none, none, some 8⟩, ⟨some 1, none, none, none⟩, ⟨some 2, none, none, none⟩,
      ⟨some 3, none, none, none⟩, ⟨some 6, none, none, none⟩]⟩,
    some 0, [some 13, some 12, some 11, some 10, some 8]⟩

/-- The state after `remove_key(40)` in `accessed50`; the node at address 0 is the removed
one. -/
def removed40 : Tango :=
  ⟨⟨[⟨40, some 1, some 4, none, none, some 4⟩, ⟨20, some 2, some 3, some 5, some 15, none⟩,
      ⟨10, none, none, some 1, some 16, none⟩, ⟨30, none, none, some 1, some 17, none⟩,
      ⟨60, none, some 6, some 5, some 18, some 5⟩, ⟨50, some 1, some 4, none, some 19, none⟩,
      ⟨70, none, none, some 4, some 20, none⟩],
    [⟨some 0, none, none, none⟩, ⟨some 1, none, none, none⟩, ⟨some 2, none, none, none⟩,
      ⟨some 3, none, none, none⟩, ⟨some 4, none, none, none⟩, ⟨some 5, none, none, none⟩,
      ⟨some 6, none, none, none⟩, ⟨some 0, none, none, some 8⟩, ⟨some 4, some 7, some 9, none⟩,
      ⟨some 5, none, none, some 8⟩, ⟨some 1, none, none, none⟩, ⟨some 2, none, none, none⟩,
      ⟨some 3, none, none, none⟩, ⟨some 6, none, none, none⟩, ⟨some 5, none, none, none⟩,
      ⟨some 1, none, none, none⟩, ⟨some 2, none, none, none⟩, ⟨some 3, none, none, none⟩,
      ⟨some 4, none, some 19, none⟩, ⟨some 5, none, none, some 18⟩,
      ⟨some 6, none, none, none⟩]⟩,
    some 5, [some 20, some 18, some 17, some 16, some 15, some 14]⟩

/-- The auxiliary tree of the chain 40, 60, 50 in `accessed50`: node 8 is its root, node
7 its left child and node 9 its right child. -/
def auxPathTree : PTree (Option Nat) :=
  PTree.node (PTree.node PTree.nil 7 (some 0) PTree.nil) 8 (some 4)
    (PTree.node PTree.nil 9 (some 5) PTree.nil)

/-- The number of nodes on the longest path of a balanced tree of `n` nodes: 0 for the
empty tree, `⌊log₂ n⌋ + 1` otherwise. -/
def bheight (n : Nat) : Nat :=
  if n = 0 then 0 else Nat.log 2 n + 1

/-- The reference tree of `built3`: the root 20 at node 0, its children 10 at node 1 and
30 at node 2. -/
def refTree3 : PTree Int :=
  PTree.node (PTree.node PTree.nil 1 10 PTree.nil) 0 20 (PTree.node PTree.nil 2 30 PTree.nil)

/-- Every preferred marker of the tree `t` is none or a child of its node. -/
def PrefChild (h : List RefNode) (t : PTree Int) : Prop :=
  ∀ a ∈ t.addrs, ∀ n : RefNode, h[a]? = some n →
    n.preferred = none ∨ n.preferred = n.left ∨ n.preferred = n.right

/-- A memory with the reference nodes of the tree 20 (10, 30) in which the root prefers
its left child, and without auxiliary nodes. -/
def marked3 : Mem :=
  ⟨[⟨20, some 1, some 2, none, none, some 1⟩, ⟨10, none, none, some 0, none, none⟩,
    ⟨30, none, none, some 0, none, none⟩], []⟩

/-- The number of keys on the longest path from the root of a tree of keys down. -/
def KTree.height : KTree → Nat
  | KTree.nil => 0
  | KTree.node l _ r => max l.height r.height + 1

/-- The height, in nodes, of the auxiliary tree that the merges build for a chain of `m`
nodes: the chain itself up to two nodes, one less from three nodes on. -/
def spineHeight (m : Nat) : Nat :=
  if m ≤ 2 then m else m - 1

/-- The parent links of the reference tree `t` at `root` are consistent: the root has no
parent, and the parent link of the left child and of the right child of every node `a` of
the tree, when the child is present, is `a`. -/
def ParentsOK (h : List RefNode) (root : Option Nat) (t : PTree Int) : Prop :=
  (∀ a, root = some a → ∃ n, h[a]? = some n ∧ n.parent = none) ∧
  ∀ a ∈ t.addrs, ∃ n, h[a]? = some n ∧
    (∀ c, n.left = some c → ∃ cn, h[c]? = some cn ∧ cn.parent = some a) ∧
    (∀ c, n.right = some c → ∃ cn, h[c]? = some cn ∧ cn.parent = some a)

/-- The list `aux_list` of the state `s` is the decomposition of the reference tree `t`
into the walks `chains` along preferred links: the walks start at the nodes that pass the
head test, in the order of the visit, and `aux_list` holds, last walk first, one tree of
the auxiliary store for each walk, with the nodes of the walk as its in-order sequence. -/
def Decomposed (s : Tango) (t : PTree Int) (chains : List (List Nat)) : Prop :=
  List.Forall₂ (fun l x => Chain s.mem.refs (some x.1) l) chains
    ((t.pre none).filter (isHead s.mem.refs)) ∧
  ∃ rs : List (Option Nat), s.aux_list = rs.reverse ∧
    List.Forall₂ (fun a l => ∃ T : PTree (Option Nat), T.root = a ∧
      Rep AuxNode.link s.mem.auxs T none ∧ T.addrs.Nodup ∧ T.vals = l.map some) rs chains

/-! ## Released reference nodes

`bst_delete` ends with `delete z`, and `Tango::remove_key` then calls `rebuild_aux()` while
the old auxiliary trees still hold pointers to `z`.  The functions of this section are the
functions that `rebuild_aux()` runs, with the reference nodes that `delete` has released
kept in a list `dead`: a read or a write through a pointer to a released node has no
result.  The auxiliary nodes that `free_aux_tree` releases are not used afterwards, so
they are not listed. -/

/-- A read of the reference node at `a` when the nodes `dead` have been released. -/
def readLive (dead : List Nat) (refs : List RefNode) (a : Nat) : Option RefNode :=
  if a ∈ dead then none else refs[a]?

/-- A write to the reference node at `a` when the nodes `dead` have been released. -/
def modifyLive (dead : List Nat) (refs : List RefNode) (a : Nat) (f : RefNode → RefNode) :
    Option (List RefNode) :=
  if a ∈ dead then none else modify refs a f

/-- `free_aux_tree(a)` when the reference nodes `dead` have been released: the statement
`a->ref->aux_ptr = nullptr` writes to the wrapped reference node. -/
def free_aux_tree_checked (dead : List Nat) :
    Nat → List AuxNode → List RefNode → Option Nat → Option (List RefNode)
  | _, _, refs, none => some refs
  | 0, _, _, some _ => none
  | fuel + 1, auxs, refs, some a =>
    match auxs[a]? with
    | none => none
    | some an =>
      (free_aux_tree_checked dead fuel auxs refs an.left).bind fun refs1 =>
      (free_aux_tree_checked dead fuel auxs refs1 an.right).bind fun refs2 =>
      match an.ref with
      | none => none
      | some r => modifyLive dead refs2 r (fun rn => { rn with aux_ptr := none })

/-- `free_aux_list(alist)` when the reference nodes `dead` have been released. -/
def free_aux_list_checked (dead : List Nat) :
    List AuxNode → List RefNode → List (Option Nat) → Option (List RefNode)
  | _, refs, [] => some refs
  | auxs, refs, aroot :: rest =>
    (free_aux_tree_checked dead (auxs.length + 1) auxs refs aroot).bind fun refs1 =>
    free_aux_list_checked dead auxs refs1 rest

/-- The loop `while (st)` of `aux_set_all_auxptr` when the reference nodes `dead` have been
released: the statement `n->ref->aux_ptr = n` writes to the wrapped reference node. -/
def aux_set_all_auxptr_loop_checked (dead : List Nat) :
    Nat → List AuxNode → List RefNode → List Nat → Option (List RefNode)
  | _, _, refs, [] => some refs
  | 0, _, _, _ :: _ => none
  | fuel + 1, auxs, refs, n :: st =>
    match auxs[n]? with
    | none => none
    | some an =>
      match an.ref with
      | none => none
      | some r =>
        -- n->ref->aux_ptr = n
        (modifyLive dead refs r (fun rn => { rn with aux_ptr := some n })).bind fun refs1 =>
        aux_set_all_auxptr_loop_checked dead fuel auxs refs1
          (pushPtr an.right (pushPtr an.left st))

/-- `aux_set_all_auxptr(a_root)` when the reference nodes `dead` have been released. -/
def aux_set_all_auxptr_checked (dead : List Nat) (auxs : List AuxNode) (refs : List RefNode)
    (a_root : Option Nat) : Option (List RefNode) :=
  match a_root with
  | none => some refs
  | some a => aux_set_all_auxptr_loop_checked dead (auxs.length + 1) auxs refs [a]

/-- `aux_merge(left, right)` when the reference nodes `dead` have been released. -/
def aux_merge_checked (dead : List Nat) (m : Mem) (left right : Option Nat) :
    Option (Mem × Option Nat) :=
  match left with
  | none =>
    (aux_set_all_auxptr_checked dead m.auxs m.refs right).map fun refs1 =>
      (⟨refs1, m.auxs⟩, right)
  | some _ =>
    match right with
    | none =>
      (aux_set_all_auxptr_checked dead m.auxs m.refs left).map fun refs1 =>
        (⟨refs1, m.auxs⟩, left)
    | some ra =>
      (aux_find_max m.auxs left).bind fun mx =>
      (splay m.auxs mx).bind fun (h1, left1) =>
      match left1 with
      | none => none
      | some la =>
        -- left->right = right
        (modify h1 la (fun n => { n with right := some ra })).bind fun h2 =>
        -- right->parent = left
        (modify h2 ra (fun n => { n with parent := some la })).bind fun h3 =>
        (aux_set_all_auxptr_checked dead h3 m.refs (some la)).map fun refs1 =>
          (⟨refs1, h3⟩, some la)

/-- The loop of `build_splay_from_array_with_merge` when the reference nodes `dead` have
been released. -/
def build_splay_loop_checked (dead : List Nat) :
    Nat → Mem → List (Option Nat) → Int → Int → Option Nat → Option (Mem × Option Nat)
  | 0, _, _, _, _, _ => none
  | fuel + 1, m, arr, i, r, root =>
    if i ≤ r then
      match arrGet arr i with
      | none => none
      | some ri =>
        -- AuxNode *node = new AuxNode(arr[i])
        let node := m.auxs.length
        let m1 : Mem := ⟨m.refs, m.auxs ++ [AuxNode.new ri]⟩
        (aux_merge_checked dead m1 root (some node)).bind fun (m2, root2) =>
        build_splay_loop_checked dead fuel m2 arr (i + 1) r root2
    else some (m, root)

/-- `build_splay_from_array_with_merge(arr, l, r)` when the reference nodes `dead` have
been released. -/
def build_splay_from_array_with_merge_checked (dead : List Nat) (m : Mem)
    (arr : List (Option Nat)) (l r : Int) : Option (Mem × Option Nat) :=
  build_splay_loop_checked dead ((r - l + 1).toNat + 1) m arr l r none

/-- The chain walk of `build_aux_trees_from_ref` when the reference nodes `dead` have been
released: `cur->preferred` reads the node `cur`. -/
def chain_loop_checked (dead : List Nat) :
    Nat → List RefNode → Option Nat → List (Option Nat) → Option (List (Option Nat))
  | _, _, none, arr => some arr
  | 0, _, some _, _ => none
  | fuel + 1, h, some c, arr =>
    match readLive dead h c with
    | none => none
    | some cn => chain_loop_checked dead fuel h cn.preferred (arr ++ [some c])

/-- The loop `while (st)` of `build_aux_trees_from_ref` when the reference nodes `dead`
have been released: the loop reads the node `n` and its parent. -/
def build_aux_loop_checked (dead : List Nat) :
    Nat → Mem → List Nat → List (Option Nat) → Option (Mem × List (Option Nat))
  | _, m, [], alist => some (m, alist)
  | 0, _, _ :: _, _ => none
  | fuel + 1, m, n :: st, alist =>
    match readLive dead m.refs n with
    | none => none
    | some nn =>
      let st1 := pushPtr nn.left (pushPtr nn.right st)
      -- if (!n->parent || n->parent->preferred != n)
      (match nn.parent with
        | none => some true
        | some p =>
          match readLive dead m.refs p with
          | none => none
          | some pn => some (decide (pn.preferred ≠ some n))).bind fun head =>
      if head then
        (chain_loop_checked dead (m.refs.length + 1) m.refs (some n) []).bind fun arr =>
        (build_splay_from_array_with_merge_checked dead m arr 0
          ((arr.length : Int) - 1)).bind
        fun (m1, aroot) => build_aux_loop_checked dead fuel m1 st1 (aroot :: alist)
      else build_aux_loop_checked dead fuel m st1 alist

/-- `build_aux_trees_from_ref(root)` when the reference nodes `dead` have been released. -/
def build_aux_trees_from_ref_checked (dead : List Nat) (m : Mem) (root : Option Nat) :
    Option (Mem × List (Option Nat)) :=
  match root with
  | none => some (m, [])
  | some a => build_aux_loop_checked dead (m.refs.length + 1) m [a] []

/-- `Tango::rebuild_aux()` when the reference nodes `dead` have been released. -/
def Tango.rebuild_aux_checked (dead : List Nat) (t : Tango) : Option Tango :=
  (free_aux_list_checked dead t.mem.auxs t.mem.refs t.aux_list).bind fun refs1 =>
  (build_aux_trees_from_ref_checked dead ⟨refs1, t.mem.auxs⟩ t.ref_root).map
    fun (m1, alist) => ⟨m1, t.ref_root, alist⟩

/-- `Tango::remove_key(key)` in a state in which no reference node has been released so
far, with the release of `z` by `bst_delete` taken into account: `rebuild_aux()` runs
after `delete z`. -/
def Tango.remove_key_checked (t : Tango) (key : Int) : Option Tango :=
  (bst_search t.mem.refs t.ref_root key).bind fun z =>
  match z with
  | none => some t
  | some za =>
    (bst_delete t.mem.refs t.ref_root z).bind fun (h1, root1) =>
    -- delete z
    Tango.rebuild_aux_checked [za] ⟨⟨h1, t.mem.auxs⟩, root1, t.aux_list⟩

/-- The state after `build_from_sorted_array` on 10, 20, 30, `insert_key(40)` and
`access(40)`: the preferred path is 20, 30, 40. -/
def accessed40 : Tango :=
  ⟨⟨[⟨20, some 1, some 2, none, some 7, some 2⟩, ⟨10, none, none, some 0, some 10, none⟩,
      ⟨30, none, some 3, some 0, some 8, some 3⟩, ⟨40, none, none, some 2, some 9, none⟩],
    [⟨some 0, none, none, none⟩, ⟨some 1, none, none, none⟩, ⟨some 2, none, none, none⟩,
      ⟨some 0, none, none, none⟩, ⟨some 1, none, none, none⟩, ⟨some 2, none, none, none⟩,
      ⟨some 3, none, none, none⟩, ⟨some 0, none, none, some 8⟩, ⟨some 2, some 7, some 9, none⟩,
      ⟨some 3, none, none, some 8⟩, ⟨some 1, none, none, none⟩]⟩,
    some 0, [some 10, some 8]⟩

/-- The auxiliary tree of the path 20, 30, 40 in `accessed40`: node 8 (key 30) is its root,
node 7 (key 20) its left child and node 9 (key 40) its right child. -/
def auxChain3 : PTree (Option Nat) :=
  PTree.node (PTree.node PTree.nil 7 (some 0) PTree.nil) 8 (some 2)
    (PTree.node PTree.nil 9 (some 3) PTree.nil)

/-! # Theorems -/

/-! ## Pointer trees -/

@[simp]
theorem PTree.root_nil {β : Type} : (PTree.nil : PTree β).root = none := rfl

@[simp]
theorem PTree.root_node {β : Type} (l r : PTree β) (a : Nat) (v : β) :
    (PTree.node l a v r).root = some a := rfl

@[simp]
theorem PTree.toList_nil {β : Type} : (PTree.nil : PTree β).toList = [] := rfl

@[simp]
theorem PTree.toList_node {β : Type} (l r : PTree β) (a : Nat) (v : β) :
    (PTree.node l a v r).toList = l.toList ++ (a, v) :: r.toList := rfl

@[simp]
theorem PTree.addrs_nil {β : Type} : (PTree.nil : PTree β).addrs = [] := rfl

@[simp]
theorem PTree.addrs_node {β : Type} (l r : PTree β) (a : Nat) (v : β) :
    (PTree.node l a v r).addrs = l.addrs ++ a :: r.addrs := by
  simp [PTree.addrs]

@[simp]
theorem PTree.vals_nil {β : Type} : (PTree.nil : PTree β).vals = [] := rfl

@[simp]
theorem PTree.vals_node {β : Type} (l r : PTree β) (a : Nat) (v : β) :
    (PTree.node l a v r).vals = l.vals ++ v :: r.vals := by
  simp [PTree.vals]

@[simp]
theorem PTree.size_nil {β : Type} : (PTree.nil : PTree β).size = 0 := rfl

@[simp]
theorem PTree.size_node {β : Type} (l r : PTree β) (a : Nat) (v : β) :
    (PTree.node l a v r).size = l.size + 1 + r.size := rfl

@[simp]
theorem PTree.height_nil {β : Type} : (PTree.nil : PTree β).height = 0 := rfl

@[simp]
theorem PTree.height_node {β : Type} (l r : PTree β) (a : Nat) (v : β) :
    (PTree.node l a v r).height = max l.height r.height + 1 := rfl

theorem PTree.length_toList {β : Type} (t : PTree β) : t.toList.length = t.size := by
  induction t with
  | nil => rfl
  | node l a v r ihl ihr => simp [ihl, ihr]; omega

theorem PTree.length_addrs {β : Type} (t : PTree β) : t.addrs.length = t.size := by
  simp [PTree.addrs, PTree.length_toList]

theorem PTree.length_vals {β : Type} (t : PTree β) : t.vals.length = t.size := by
  simp [PTree.vals, PTree.length_toList]

theorem PTree.height_le_size {β : Type} (t : PTree β) : t.height ≤ t.size := by
  induction t with
  | nil => simp
  | node l a v r ihl ihr => simp; omega

theorem PTree.root_mem_addrs {β : Type} {t : PTree β} {a : Nat} (h : t.root = some a) :
    a ∈ t.addrs := by
  cases t with
  | nil => simp at h
  | node l b v r => simp at h; simp [h]

theorem PTree.root_eq_none {β : Type} {t : PTree β} : t.root = none ↔ t = PTree.nil := by
  cases t <;> simp

theorem PTree.addrs_eq_nil {β : Type} {t : PTree β} : t.addrs = [] ↔ t = PTree.nil := by
  cases t <;> simp

@[simp]
theorem rep_nil {α β : Type} (lk : α → Link β) (h : List α) (par : Option Nat) :
    Rep lk h PTree.nil par := trivial

theorem rep_node {α β : Type} {lk : α → Link β} {h : List α} {l r : PTree β} {a : Nat} {v : β}
    {par : Option Nat} :
    Rep lk h (PTree.node l a v r) par ↔
      (h[a]?).map lk = some ⟨v, l.root, r.root, par⟩ ∧ Rep lk h l (some a) ∧
        Rep lk h r (some a) := Iff.rfl

/-- A store that shows the same link fields at the addresses of `t` holds `t` as well. -/
theorem Rep.frame {α β : Type} {lk : α → Link β} {h h2 : List α} {t : PTree β}
    {par : Option Nat} (hr : Rep lk h t par)
    (hf : ∀ a ∈ t.addrs, (h2[a]?).map lk = (h[a]?).map lk) : Rep lk h2 t par := by
  induction t generalizing par with
  | nil => trivial
  | node l a v r ihl ihr =>
    obtain ⟨h1, hl, hrr⟩ := hr
    refine ⟨?_, ihl hl ?_, ihr hrr ?_⟩
    · rw [hf a (by simp)]; exact h1
    · intro b hb; exact hf b (by simp [hb])
    · intro b hb; exact hf b (by simp [hb])

/-- The parent pointer of the root can be redirected. -/
theorem Rep.reparent {α β : Type} {lk : α → Link β} {h h2 : List α} {t : PTree β}
    {par par2 : Option Nat} (hr : Rep lk h t par)
    (ha : ∀ a, t.root = some a →
      (h2[a]?).map lk = (h[a]?).map (fun n => (⟨(lk n).val, (lk n).left, (lk n).right, par2⟩ : Link β)))
    (hf : ∀ b ∈ t.addrs, t.root ≠ some b → (h2[b]?).map lk = (h[b]?).map lk)
    (hn : t.addrs.Nodup) :
    Rep lk h2 t par2 := by
  cases t with
  | nil => trivial
  | node l a v r =>
    obtain ⟨h1, hl, hrr⟩ := hr
    simp only [PTree.addrs_node] at hn
    have hnl : a ∉ l.addrs := fun hm =>
      (List.nodup_append.mp hn).2.2 hm (by simp)
    have hnr : a ∉ r.addrs := fun hm =>
      (List.nodup_cons.mp (List.nodup_append.mp hn).2.1).1 hm
    refine ⟨?_, hl.frame ?_, hrr.frame ?_⟩
    · rw [ha a rfl]
      cases hq : h[a]? with
      | none => simp [hq] at h1
      | some n =>
        simp only [hq, Option.map_some', Option.some.injEq] at h1 ⊢
        rw [h1]
    · intro b hb
      exact hf b (by simp [hb]) (by simp; rintro rfl; exact hnl hb)
    · intro b hb
      exact hf b (by simp [hb]) (by simp; rintro rfl; exact hnr hb)

theorem Rep.addr_lt {α β : Type} {lk : α → Link β} {h : List α} {t : PTree β}
    {par : Option Nat} (hr : Rep lk h t par) : ∀ a ∈ t.addrs, a < h.length := by
  induction t generalizing par with
  | nil => simp
  | node l a v r ihl ihr =>
    obtain ⟨h1, hl, hrr⟩ := hr
    intro b hb
    simp at hb
    rcases hb with hb | rfl | hb
    · exact ihl hl b hb
    · by_contra hlt
      rw [List.getElem?_eq_none (by omega)] at h1
      simp at h1
    · exact ihr hrr b hb

/-- A tree without shared nodes has at most as many nodes as the store. -/
theorem Rep.size_le {α β : Type} {lk : α → Link β} {h : List α} {t : PTree β}
    {par : Option Nat} (hr : Rep lk h t par) (hn : t.addrs.Nodup) : t.size ≤ h.length := by
  have hsub : t.addrs ⊆ List.range h.length := by
    intro a ha
    exact List.mem_range.mpr (hr.addr_lt a ha)
  have := (List.subperm_of_subset hn hsub).length_le
  simpa [PTree.length_addrs] using this

/-- The node at the root of a held tree. -/
theorem Rep.root_get {α β : Type} {lk : α → Link β} {h : List α} {l r : PTree β} {a : Nat}
    {v : β} {par : Option Nat} (hr : Rep lk h (PTree.node l a v r) par) :
    ∃ n, h[a]? = some n ∧ lk n = ⟨v, l.root, r.root, par⟩ := by
  obtain ⟨h1, -, -⟩ := hr
  cases hb : h[a]? with
  | none => simp [hb] at h1
  | some n =>
    simp only [hb, Option.map_some', Option.some.injEq] at h1
    exact ⟨n, rfl, h1⟩

/-! ### Writes -/

theorem modify_eq_some {α : Type} {h h2 : List α} {a : Nat} {f : α → α} :
    modify h a f = some h2 ↔ ∃ n, h[a]? = some n ∧ h2 = h.set a (f n) := by
  unfold modify
  cases h[a]? with
  | none => simp
  | some n => simp [eq_comm]

theorem modify_of_get {α : Type} {h : List α} {a : Nat} {f : α → α} {n : α}
    (hn : h[a]? = some n) : modify h a f = some (h.set a (f n)) := by
  unfold modify
  rw [hn]

theorem lt_of_get {α : Type} {h : List α} {a : Nat} {n : α} (hn : h[a]? = some n) :
    a < h.length := by
  by_contra hlt
  rw [List.getElem?_eq_none (by omega)] at hn
  simp at hn

theorem get_set_self {α : Type} {h : List α} {a : Nat} {n m : α} (hn : h[a]? = some n) :
    (h.set a m)[a]? = some m := by
  simp [List.getElem?_set, lt_of_get hn]

/-! ### Trees around a hole -/

theorem plug_toList {β : Type} (c : List (Frame β)) (t : PTree β) :
    (plug c t).toList = ctxBefore c ++ t.toList ++ ctxAfter c := by
  induction c generalizing t with
  | nil => simp [plug, ctxBefore, ctxAfter]
  | cons f c ih =>
    cases f with
    | inL a v s => simp [plug, ctxBefore, ctxAfter, ih]
    | inR a v s => simp [plug, ctxBefore, ctxAfter, ih]

theorem plug_addrs_perm {β : Type} (c : List (Frame β)) (t : PTree β) :
    List.Perm (plug c t).addrs (t.addrs ++ ctxAddrs c) := by
  induction c generalizing t with
  | nil => simp [plug, ctxAddrs]
  | cons f c ih =>
    cases f with
    | inL a v s =>
      refine (ih _).trans ?_
      simp only [PTree.addrs_node, ctxAddrs, Frame.addr, Frame.sib, List.append_assoc,
        List.cons_append]
      exact List.Perm.refl _
    | inR a v s =>
      refine (ih _).trans ?_
      simp only [PTree.addrs_node, ctxAddrs, Frame.addr, Frame.sib, List.append_assoc,
        List.cons_append]
      exact (List.perm_middle.trans ((List.perm_append_comm_assoc _ _ _).cons a)).trans
        List.perm_middle.symm

theorem plug_toList_congr {β : Type} (c : List (Frame β)) {t t2 : PTree β}
    (h : t.toList = t2.toList) : (plug c t).toList = (plug c t2).toList := by
  simp [plug_toList, h]

/-- A tree with a subtree singled out is held exactly when the subtree and the nodes
around it are. -/
theorem rep_plug {α β : Type} {lk : α → Link β} {h : List α} (c : List (Frame β))
    (t : PTree β) (par : Option Nat) :
    Rep lk h (plug c t) par ↔ Rep lk h t (ctxAddr c par) ∧ CRep lk h c t.root par := by
  induction c generalizing t with
  | nil => simp [plug, ctxAddr, CRep]
  | cons f c ih =>
    cases f with
    | inL a v s =>
      simp only [plug, ih, rep_node, CRep, ctxAddr, Frame.addr, PTree.root_node]
      tauto
    | inR a v s =>
      simp only [plug, ih, rep_node, CRep, ctxAddr, Frame.addr, PTree.root_node]
      tauto

theorem CRep.cframe {α β : Type} {lk : α → Link β} {h h2 : List α} {c : List (Frame β)}
    {hole par : Option Nat} (hr : CRep lk h c hole par)
    (hf : ∀ a ∈ ctxAddrs c, (h2[a]?).map lk = (h[a]?).map lk) : CRep lk h2 c hole par := by
  induction c generalizing hole with
  | nil => trivial
  | cons f c ih =>
    cases f with
    | inL a v s =>
      obtain ⟨h1, hs, hc⟩ := hr
      refine ⟨?_, hs.frame ?_, ih hc ?_⟩
      · rw [hf a (by simp [ctxAddrs, Frame.addr])]; exact h1
      · intro b hb
        exact hf b (by simp [ctxAddrs, Frame.sib, hb])
      · intro b hb
        exact hf b (by simp [ctxAddrs, hb])
    | inR a v s =>
      obtain ⟨h1, hs, hc⟩ := hr
      refine ⟨?_, hs.frame ?_, ih hc ?_⟩
      · rw [hf a (by simp [ctxAddrs, Frame.addr])]; exact h1
      · intro b hb
        exact hf b (by simp [ctxAddrs, Frame.sib, hb])
      · intro b hb
        exact hf b (by simp [ctxAddrs, hb])

/-! ## The reference tree -/

theorem Rep.ref_get {h : List RefNode} {l r : PTree Int} {a : Nat} {v : Int}
    {par : Option Nat} (hr : Rep RefNode.link h (PTree.node l a v r) par) :
    ∃ n, h[a]? = some n ∧ n.key = v ∧ n.left = l.root ∧ n.right = r.root ∧ n.parent = par := by
  obtain ⟨n, hn, hl⟩ := hr.root_get
  refine ⟨n, hn, ?_⟩
  simp only [RefNode.link, Link.mk.injEq] at hl
  exact hl

/-- The in-order walk lists the payloads of the held tree. -/
theorem ref_inorder_of_rep {h : List RefNode} {t : PTree Int} {par : Option Nat}
    (hr : Rep RefNode.link h t par) (fuel : Nat) (hf : t.height ≤ fuel) :
    ref_inorder fuel h t.root = some t.vals := by
  induction t generalizing par fuel with
  | nil => cases fuel <;> rfl
  | node l a v r ihl ihr =>
    obtain ⟨n, hn, hk, hl, hrt, -⟩ := hr.ref_get
    obtain ⟨-, hrl, hrr⟩ := hr
    cases fuel with
    | zero => simp at hf
    | succ fuel =>
      simp only [PTree.height_node, Nat.add_le_add_iff_right, Nat.max_le] at hf
      simp only [PTree.root_node, ref_inorder, hn, hl, hrt, ihl hrl fuel hf.1,
        ihr hrr fuel hf.2, hk, Option.some_bind, PTree.vals_node]

/-- The descent of `bst_search` on a held tree. -/
theorem bst_search_loop_of_rep {h : List RefNode} {t : PTree Int} {par : Option Nat}
    (hr : Rep RefNode.link h t par) (k : Int) (fuel : Nat) (hf : t.height ≤ fuel) :
    bst_search_loop fuel h t.root k = some (t.find k) := by
  induction t generalizing par fuel with
  | nil => cases fuel <;> rfl
  | node l a v r ihl ihr =>
    obtain ⟨n, hn, hk, hl, hrt, -⟩ := hr.ref_get
    obtain ⟨-, hrl, hrr⟩ := hr
    cases fuel with
    | zero => simp at hf
    | succ fuel =>
      simp only [PTree.height_node, Nat.add_le_add_iff_right, Nat.max_le] at hf
      simp only [PTree.root_node, bst_search_loop, hn, hk, hl, hrt, PTree.find,
        ihl hrl fuel hf.1, ihr hrr fuel hf.2]
      split_ifs <;> rfl

/-- The path loop of `Tango::access` on a held tree. -/
theorem access_path_loop_of_rep {h : List RefNode} {t : PTree Int} {par : Option Nat}
    (hr : Rep RefNode.link h t par) (k : Int) (fuel : Nat) (hf : t.height ≤ fuel)
    (acc : List Nat) :
    access_path_loop fuel h k t.root acc = some (acc ++ t.pathTo k) := by
  induction t generalizing par fuel acc with
  | nil => cases fuel <;> simp [access_path_loop, PTree.pathTo]
  | node l a v r ihl ihr =>
    obtain ⟨n, hn, hk, hl, hrt, -⟩ := hr.ref_get
    obtain ⟨-, hrl, hrr⟩ := hr
    cases fuel with
    | zero => simp at hf
    | succ fuel =>
      simp only [PTree.height_node, Nat.add_le_add_iff_right, Nat.max_le] at hf
      simp only [PTree.root_node, access_path_loop, hn, hk, hl, hrt, PTree.pathTo,
        ihl hrl fuel hf.1, ihr hrr fuel hf.2]
      split_ifs <;> simp

/-- The descent of `bst_insert` on a held tree. -/
theorem bst_insert_loop_of_rep {h : List RefNode} {t : PTree Int} {par : Option Nat}
    (hr : Rep RefNode.link h t par) (k : Int) (fuel : Nat) (hf : t.height ≤ fuel)
    (p0 : Option Nat) :
    bst_insert_loop fuel h k t.root p0 = some (t.insertLoc k p0) := by
  induction t generalizing par fuel p0 with
  | nil => cases fuel <;> rfl
  | node l a v r ihl ihr =>
    obtain ⟨n, hn, hk, hl, hrt, -⟩ := hr.ref_get
    obtain ⟨-, hrl, hrr⟩ := hr
    cases fuel with
    | zero => simp at hf
    | succ fuel =>
      simp only [PTree.height_node, Nat.add_le_add_iff_right, Nat.max_le] at hf
      simp only [PTree.root_node, bst_insert_loop, hn, hk, hl, hrt, PTree.insertLoc,
        ihl hrl fuel hf.1, ihr hrr fuel hf.2]
      split_ifs <;> rfl

theorem RefTree.height_lt {h : List RefNode} {root : Option Nat} {t : PTree Int}
    (ht : RefTree h root t) : t.height ≤ h.length + 1 := by
  have := ht.2.1.size_le ht.2.2
  have := t.height_le_size
  omega

theorem bst_search_of_refTree {h : List RefNode} {root : Option Nat} {t : PTree Int}
    (ht : RefTree h root t) (k : Int) : bst_search h root k = some (t.find k) := by
  unfold bst_search
  rw [← ht.1]
  exact bst_search_loop_of_rep ht.2.1 k _ ht.height_lt

theorem ref_inorder_of_refTree {h : List RefNode} {root : Option Nat} {t : PTree Int}
    (ht : RefTree h root t) : ref_inorder (h.length + 1) h root = some t.vals := by
  rw [← ht.1]
  exact ref_inorder_of_rep ht.2.1 _ ht.height_lt

/-! ### Searching a sorted tree -/

theorem PTree.find_mem {t : PTree Int} {k : Int} {a : Nat} (h : t.find k = some a) :
    (a, k) ∈ t.toList := by
  induction t with
  | nil => simp [PTree.find] at h
  | node l b v r ihl ihr =>
    simp only [PTree.find] at h
    split_ifs at h with h1 h2
    · simp at h; subst h; subst h1; simp
    · simp [ihl h]
    · simp [ihr h]

theorem PTree.find_of_not_mem {t : PTree Int} {k : Int} (h : k ∉ t.vals) : t.find k = none := by
  induction t with
  | nil => rfl
  | node l b v r ihl ihr =>
    simp only [PTree.vals_node, List.mem_append, List.mem_cons, not_or] at h
    simp only [PTree.find]
    rw [if_neg h.2.1, ihl h.1, ihr h.2.2]
    simp

theorem PTree.find_isSome_of_mem {t : PTree Int} {k : Int}
    (hs : t.vals.Sorted (· ≤ ·)) (h : k ∈ t.vals) : ∃ a, t.find k = some a := by
  induction t with
  | nil => simp at h
  | node l b v r ihl ihr =>
    simp only [PTree.vals_node] at hs h
    have hsl : l.vals.Sorted (· ≤ ·) := (List.pairwise_append.mp hs).1
    have hsr : r.vals.Sorted (· ≤ ·) := (List.pairwise_cons.mp (List.pairwise_append.mp hs).2.1).2
    have hlv : ∀ x ∈ l.vals, x ≤ v := fun x hx =>
      (List.pairwise_append.mp hs).2.2 x hx v (by simp)
    have hvr : ∀ x ∈ r.vals, v ≤ x := fun x hx =>
      (List.pairwise_cons.mp (List.pairwise_append.mp hs).2.1).1 x hx
    simp only [PTree.find]
    split_ifs with h1 h2
    · exact ⟨b, rfl⟩
    · apply ihl hsl
      simp only [List.mem_append, List.mem_cons] at h
      rcases h with h | h | h
      · exact h
      · exact absurd h h1
      · have := hvr k h; omega
    · apply ihr hsr
      simp only [List.mem_append, List.mem_cons] at h
      rcases h with h | h | h
      · have := hlv k h; omega
      · exact absurd h h1
      · exact h

/-! ### Search and insert on a store whose in-order walk ends -/

/-- A key that the in-order walk does not list is not found. -/
theorem bst_search_loop_absent (h : List RefNode) (k : Int) :
    ∀ (fuel : Nat) (p : Option Nat) (ks : List Int),
      ref_inorder fuel h p = some ks → k ∉ ks → bst_search_loop fuel h p k = some none := by
  intro fuel
  induction fuel with
  | zero =>
    intro p ks hi _
    cases p with
    | none => rfl
    | some a => simp [ref_inorder] at hi
  | succ fuel ih =>
    intro p ks hi hk
    cases p with
    | none => rfl
    | some a =>
      simp only [ref_inorder] at hi
      cases hn : h[a]? with
      | none => simp [hn] at hi
      | some n =>
        simp only [hn] at hi
        cases hl : ref_inorder fuel h n.left with
        | none => simp [hl] at hi
        | some ls =>
          cases hr : ref_inorder fuel h n.right with
          | none => simp [hl, hr] at hi
          | some rs =>
            simp only [hl, hr, Option.some_bind, Option.some.injEq] at hi
            subst hi
            simp only [List.mem_append, List.mem_cons, not_or] at hk
            simp only [bst_search_loop, hn, if_neg hk.2.1, ih _ _ hl hk.1, ih _ _ hr hk.2.2]
            simp

/-- A key that the in-order walk of a search tree lists is found by the descent of
`bst_insert`. -/
theorem bst_insert_loop_present (h : List RefNode) (k : Int) :
    ∀ (fuel : Nat) (p p0 : Option Nat) (ks : List Int),
      ref_inorder fuel h p = some ks → ks.Sorted (· ≤ ·) → k ∈ ks →
      ∃ a n, bst_insert_loop fuel h k p p0 = some (Sum.inl a) ∧ h[a]? = some n ∧ n.key = k := by
  intro fuel
  induction fuel with
  | zero =>
    intro p p0 ks hi _ hk
    cases p with
    | none => simp [ref_inorder] at hi; subst hi; simp at hk
    | some a => simp [ref_inorder] at hi
  | succ fuel ih =>
    intro p p0 ks hi hs hk
    cases p with
    | none => simp [ref_inorder] at hi; subst hi; simp at hk
    | some a =>
      simp only [ref_inorder] at hi
      cases hn : h[a]? with
      | none => simp [hn] at hi
      | some n =>
        simp only [hn] at hi
        cases hl : ref_inorder fuel h n.left with
        | none => simp [hl] at hi
        | some ls =>
          cases hr : ref_inorder fuel h n.right with
          | none => simp [hl, hr] at hi
          | some rs =>
            simp only [hl, hr, Option.some_bind, Option.some.injEq] at hi
            subst hi
            have hsl : ls.Sorted (· ≤ ·) := (List.pairwise_append.mp hs).1
            have hsr : rs.Sorted (· ≤ ·) :=
              (List.pairwise_cons.mp (List.pairwise_append.mp hs).2.1).2
            have hlv : ∀ x ∈ ls, x ≤ n.key := fun x hx =>
              (List.pairwise_append.mp hs).2.2 x hx n.key (by simp)
            have hvr : ∀ x ∈ rs, n.key ≤ x := fun x hx =>
              (List.pairwise_cons.mp (List.pairwise_append.mp hs).2.1).1 x hx
            simp only [List.mem_append, List.mem_cons] at hk
            simp only [bst_insert_loop, hn]
            by_cases h1 : k < n.key
            · rw [if_pos h1]
              apply ih _ _ _ hl hsl
              rcases hk with hk | hk | hk
              · exact hk
              · omega
              · have := hvr k hk; omega
            · rw [if_neg h1]
              by_cases h2 : k > n.key
              · rw [if_pos h2]
                apply ih _ _ _ hr hsr
                rcases hk with hk | hk | hk
                · have := hlv k hk; omega
                · omega
                · exact hk
              · rw [if_neg h2]
                exact ⟨a, n, rfl, hn, by omega⟩

/-! ### Insertion of a new key -/

theorem get_append_set_ne {α : Type} (h : List α) (x n : α) {a b : Nat} (hne : a ≠ b)
    (hb : b < h.length) : ((h ++ [x]).set a n)[b]? = h[b]? := by
  rw [List.getElem?_set_ne hne, List.getElem?_append_left hb]

theorem PTree.insert_root {t : PTree Int} (k : Int) (n : Nat) (ht : t ≠ PTree.nil) :
    (t.insert k n).root = t.root := by
  cases t with
  | nil => exact absurd rfl ht
  | node l a v r =>
    simp only [PTree.insert]
    split_ifs <;> rfl

/-- The writes of `bst_insert` below the node `pa` that the descent ends at turn the held
tree into the tree with the key inserted. -/
theorem insert_rep (h : List RefNode) (k : Int) :
    ∀ (t : PTree Int) (par p0 : Option Nat) (pa : Nat),
      Rep RefNode.link h t par → t.addrs.Nodup → t ≠ PTree.nil →
      t.insertLoc k p0 = Sum.inr (some pa) →
      ∃ pn, h[pa]? = some pn ∧ pa ∈ t.addrs ∧
        Rep RefNode.link
          ((h ++ [{ RefNode.new k with parent := some pa }]).set pa
            (if k < pn.key then { pn with left := some h.length }
              else { pn with right := some h.length }))
          (t.insert k h.length) par := by
  intro t
  induction t with
  | nil => intro par p0 pa _ _ hne; exact absurd rfl hne
  | node l a v r ihl ihr =>
    intro par p0 pa hr hnd _ hloc
    obtain ⟨n, hn, hk, hl, hrt, hp⟩ := hr.ref_get
    obtain ⟨-, hrl, hrr⟩ := hr
    have hlt := lt_of_get hn
    simp only [PTree.addrs_node] at hnd
    have hndl : l.addrs.Nodup := (List.nodup_append.mp hnd).1
    have hndr : r.addrs.Nodup := (List.nodup_cons.mp (List.nodup_append.mp hnd).2.1).2
    have hal : a ∉ l.addrs := fun hm => (List.nodup_append.mp hnd).2.2 hm (by simp)
    have har : a ∉ r.addrs := fun hm => (List.nodup_cons.mp (List.nodup_append.mp hnd).2.1).1 hm
    have hdis : ∀ b, b ∈ l.addrs → b ∈ r.addrs → False := fun b h1 h2 =>
      (List.nodup_append.mp hnd).2.2 h1 (by simp [h2])
    simp only [PTree.insertLoc] at hloc
    simp only [PTree.insert]
    by_cases h1 : k < v
    · rw [if_pos h1] at hloc
      rw [if_pos h1]
      cases l with
      | nil =>
        simp only [PTree.insertLoc, Sum.inr.injEq, Option.some.injEq] at hloc
        subst hloc
        refine ⟨n, hn, by simp, ?_⟩
        rw [hk, if_pos h1]
        refine ⟨?_, ⟨?_, trivial, trivial⟩, ?_⟩
        · rw [get_set_self (n := n) (by rw [List.getElem?_append_left hlt]; exact hn)]
          simp [RefNode.link, hk, hrt, hp, PTree.insert]
        · rw [List.getElem?_set_ne (by omega), List.getElem?_concat_length]
          simp [RefNode.link, RefNode.new]
        · apply hrr.frame
          intro b hb
          rw [get_append_set_ne _ _ _ (by rintro rfl; exact har hb) (hrr.addr_lt b hb)]
      | node ll la lv lr =>
        obtain ⟨pn, hpn, hpa, hrep⟩ := ihl (some a) (some a) pa hrl hndl (by simp) hloc
        refine ⟨pn, hpn, by rw [PTree.addrs_node]; exact List.mem_append_left _ hpa, ?_⟩
        have hne : pa ≠ a := by rintro rfl; exact hal hpa
        refine ⟨?_, hrep, ?_⟩
        · rw [get_append_set_ne _ _ _ hne hlt, hn, PTree.insert_root _ _ (by simp)]
          simp [RefNode.link, hk, hl, hrt, hp]
        · apply hrr.frame
          intro b hb
          rw [get_append_set_ne _ _ _ (by rintro rfl; exact hdis _ hpa hb) (hrr.addr_lt b hb)]
    · rw [if_neg h1] at hloc
      rw [if_neg h1]
      by_cases h2 : k > v
      · rw [if_pos h2] at hloc
        rw [if_pos h2]
        cases r with
        | nil =>
          simp only [PTree.insertLoc, Sum.inr.injEq, Option.some.injEq] at hloc
          subst hloc
          refine ⟨n, hn, by simp, ?_⟩
          rw [hk, if_neg h1]
          refine ⟨?_, ?_, ⟨?_, trivial, trivial⟩⟩
          · rw [get_set_self (n := n) (by rw [List.getElem?_append_left hlt]; exact hn)]
            simp [RefNode.link, hk, hl, hp, PTree.insert]
          · apply hrl.frame
            intro b hb
            rw [get_append_set_ne _ _ _ (by rintro rfl; exact hal hb) (hrl.addr_lt b hb)]
          · rw [List.getElem?_set_ne (by omega), List.getElem?_concat_length]
            simp [RefNode.link, RefNode.new]
        | node rl ra rv rr =>
          obtain ⟨pn, hpn, hpa, hrep⟩ := ihr (some a) (some a) pa hrr hndr (by simp) hloc
          refine ⟨pn, hpn, by
            rw [PTree.addrs_node]
            exact List.mem_append_right _ (List.mem_cons_of_mem _ hpa), ?_⟩
          have hne : pa ≠ a := by rintro rfl; exact har hpa
          refine ⟨?_, ?_, hrep⟩
          · rw [get_append_set_ne _ _ _ hne hlt, hn, PTree.insert_root _ _ (by simp)]
            simp [RefNode.link, hk, hl, hrt, hp]
          · apply hrl.frame
            intro b hb
            rw [get_append_set_ne _ _ _ (by rintro rfl; exact hdis _ hb hpa) (hrl.addr_lt b hb)]
      · rw [if_neg h2] at hloc
        simp at hloc

theorem PTree.insertLoc_of_not_mem {t : PTree Int} {k : Int} (hk : k ∉ t.vals)
    (hne : t ≠ PTree.nil) (p0 : Option Nat) : ∃ pa, t.insertLoc k p0 = Sum.inr (some pa) := by
  induction t generalizing p0 with
  | nil => exact absurd rfl hne
  | node l a v r ihl ihr =>
    simp only [PTree.vals_node, List.mem_append, List.mem_cons, not_or] at hk
    simp only [PTree.insertLoc]
    by_cases h1 : k < v
    · rw [if_pos h1]
      cases l with
      | nil => exact ⟨a, rfl⟩
      | node ll la lv lr => exact ihl hk.1 (by simp) _
    · rw [if_neg h1]
      have h2 : k > v := by
        have := hk.2.1
        omega
      rw [if_pos h2]
      cases r with
      | nil => exact ⟨a, rfl⟩
      | node rl ra rv rr => exact ihr hk.2.2 (by simp) _

theorem PTree.insert_toList_perm {t : PTree Int} {k : Int} (hk : k ∉ t.vals) (n : Nat) :
    List.Perm (t.insert k n).toList ((n, k) :: t.toList) := by
  induction t with
  | nil => simp [PTree.insert]
  | node l a v r ihl ihr =>
    simp only [PTree.vals_node, List.mem_append, List.mem_cons, not_or] at hk
    simp only [PTree.insert]
    by_cases h1 : k < v
    · rw [if_pos h1]
      simp only [PTree.toList_node]
      exact (ihl hk.1).append_right _
    · rw [if_neg h1]
      have h2 : k > v := by
        have := hk.2.1
        omega
      rw [if_pos h2]
      simp only [PTree.toList_node]
      refine List.Perm.trans ?_ List.perm_middle
      refine List.Perm.append_left _ ?_
      refine List.Perm.trans (List.Perm.cons _ (ihr hk.2.2)) ?_
      exact List.Perm.swap _ _ _

theorem PTree.insert_addrs_nodup {t : PTree Int} {k : Int} (hk : k ∉ t.vals) {n : Nat}
    (hn : n ∉ t.addrs) (hnd : t.addrs.Nodup) : (t.insert k n).addrs.Nodup := by
  have hp : List.Perm (t.insert k n).addrs (n :: t.addrs) := by
    have := (PTree.insert_toList_perm hk n).map Prod.fst
    simpa [PTree.addrs] using this
  exact hp.nodup_iff.mpr (List.nodup_cons.mpr ⟨hn, hnd⟩)

theorem orderedInsert_append_of_le (k v : Int) (l1 l2 : List Int) (h : k ≤ v) :
    (l1 ++ v :: l2).orderedInsert (· ≤ ·) k = l1.orderedInsert (· ≤ ·) k ++ v :: l2 := by
  induction l1 with
  | nil => simp [List.orderedInsert, h]
  | cons b l1 ih =>
    simp only [List.cons_append, List.orderedInsert, List.append_eq]
    split_ifs
    · rfl
    · rw [ih]; rfl

theorem orderedInsert_append_of_lt (k v : Int) (l1 l2 : List Int) (h1 : ∀ b ∈ l1, b < k)
    (h : v < k) :
    (l1 ++ v :: l2).orderedInsert (· ≤ ·) k = l1 ++ v :: l2.orderedInsert (· ≤ ·) k := by
  induction l1 with
  | nil =>
    simp only [List.nil_append, List.orderedInsert]
    rw [if_neg (by omega)]
  | cons b l1 ih =>
    simp only [List.cons_append, List.orderedInsert, List.append_eq]
    have hb := h1 b (by simp)
    rw [if_neg (by omega), ih (fun x hx => h1 x (by simp [hx]))]

/-- The in-order keys after the insertion of a new key into a search tree. -/
theorem PTree.insert_vals {t : PTree Int} {k : Int} (hs : t.vals.Sorted (· < ·))
    (hk : k ∉ t.vals) (n : Nat) :
    (t.insert k n).vals = t.vals.orderedInsert (· ≤ ·) k := by
  induction t with
  | nil => simp [PTree.insert]
  | node l a v r ihl ihr =>
    simp only [PTree.vals_node] at hs hk
    have hsl : l.vals.Sorted (· < ·) := (List.pairwise_append.mp hs).1
    have hsr : r.vals.Sorted (· < ·) := (List.pairwise_cons.mp (List.pairwise_append.mp hs).2.1).2
    have hlv : ∀ x ∈ l.vals, x < v := fun x hx =>
      (List.pairwise_append.mp hs).2.2 x hx v (by simp)
    simp only [List.mem_append, List.mem_cons, not_or] at hk
    simp only [PTree.insert]
    by_cases h1 : k < v
    · rw [if_pos h1]
      simp only [PTree.vals_node]
      rw [ihl hsl hk.1, orderedInsert_append_of_le _ _ _ _ (by omega)]
    · rw [if_neg h1]
      have h2 : k > v := by
        have := hk.2.1
        omega
      rw [if_pos h2]
      simp only [PTree.vals_node]
      rw [ihr hsr hk.2.2, orderedInsert_append_of_lt _ _ _ _ _ (by omega)]
      intro b hb
      have := hlv b hb
      omega

/-- `bst_insert` of a key that the tree does not hold: the new node is appended to the
store and the store holds the tree with the key inserted. -/
theorem bst_insert_new {h : List RefNode} {root : Option Nat} {t : PTree Int}
    (ht : RefTree h root t) {k : Int} (hk : k ∉ t.vals) :
    ∃ h2 root2, bst_insert h root k = some (h2, root2, some h.length) ∧
      RefTree h2 root2 (t.insert k h.length) ∧ InsertFrame h h2 k := by
  obtain ⟨hroot, hrep, hnd⟩ := ht
  have hfresh : h.length ∉ t.addrs := fun hm => absurd (hrep.addr_lt _ hm) (by omega)
  cases t with
  | nil =>
    simp only [PTree.root_nil] at hroot
    subst hroot
    refine ⟨h ++ [RefNode.new k], some h.length, rfl, ⟨rfl, ?_, by simp [PTree.insert]⟩, ?_⟩
    · refine ⟨?_, trivial, trivial⟩
      rw [List.getElem?_concat_length]
      simp [RefNode.link, RefNode.new]
    · refine ⟨by simp, ?_, ⟨RefNode.new k, List.getElem?_concat_length _ _, rfl, rfl, rfl, rfl⟩⟩
      intro b n hb
      exact ⟨n, by rw [List.getElem?_append_left (lt_of_get hb)]; exact hb, rfl, rfl, rfl⟩
  | node l a v r =>
    simp only [PTree.root_node] at hroot
    subst hroot
    obtain ⟨pa, hloc⟩ := PTree.insertLoc_of_not_mem hk (by simp) none
    obtain ⟨pn, hpn, hpa, hrep2⟩ := insert_rep h k _ none none pa hrep hnd (by simp) hloc
    have hlt := lt_of_get hpn
    have hloop := bst_insert_loop_of_rep hrep k (h.length + 1)
      (by
        have := hrep.size_le hnd
        have := (PTree.node l a v r).height_le_size
        omega) none
    simp only [PTree.root_node] at hloop
    refine ⟨_, some a, ?_, ⟨?_, hrep2, PTree.insert_addrs_nodup hk hfresh hnd⟩, ?_⟩
    · simp only [bst_insert, hloop, hloc, Option.some_bind]
      rw [List.getElem?_append_left hlt, hpn]
      simp only []
      by_cases h1 : k < pn.key
      · simp only [if_pos h1]
        rw [modify_of_get (by rw [List.getElem?_append_left hlt]; exact hpn)]
        rfl
      · simp only [if_neg h1]
        rw [modify_of_get (by rw [List.getElem?_append_left hlt]; exact hpn)]
        rfl
    · exact PTree.insert_root _ _ (by simp)
    · refine ⟨by simp, ?_, ?_⟩
      · intro b n hb
        by_cases hbp : pa = b
        · subst hbp
          rw [hpn] at hb
          simp only [Option.some.injEq] at hb
          subst hb
          rw [get_set_self (n := pn) (by rw [List.getElem?_append_left hlt]; exact hpn)]
          split_ifs <;> exact ⟨_, rfl, rfl, rfl, rfl⟩
        · rw [get_append_set_ne _ _ _ hbp (lt_of_get hb)]
          exact ⟨n, hb, rfl, rfl, rfl⟩
      · rw [List.getElem?_set_ne (by omega), List.getElem?_concat_length]
        exact ⟨_, rfl, rfl, rfl, rfl, rfl⟩

/-- `bst_insert` of a key that the in-order walk of a search tree lists returns a node with
the key and writes nothing. -/
theorem bst_insert_present {h : List RefNode} {root : Option Nat} {ks : List Int} {k : Int}
    (hi : ref_inorder (h.length + 1) h root = some ks) (hs : ks.Sorted (· ≤ ·)) (hk : k ∈ ks) :
    ∃ a n, bst_insert h root k = some (h, root, some a) ∧ h[a]? = some n ∧ n.key = k := by
  cases root with
  | none => simp [ref_inorder] at hi; subst hi; simp at hk
  | some r =>
    obtain ⟨a, n, hl, hn, hkey⟩ := bst_insert_loop_present h k _ (some r) none ks hi hs hk
    exact ⟨a, n, by simp [bst_insert, hl], hn, hkey⟩

/-! ### Removal -/

theorem modify_length {α : Type} {h h2 : List α} {a : Nat} {f : α → α}
    (hm : modify h a f = some h2) : h2.length = h.length := by
  obtain ⟨n, -, rfl⟩ := modify_eq_some.mp hm
  simp

theorem set_map_eq {α γ : Type} (g : α → γ) {h : List α} {a : Nat} {n m : α}
    (hn : h[a]? = some n) (hg : g m = g n) : (h.set a m).map g = h.map g := by
  apply List.ext_getElem?
  intro i
  simp only [List.getElem?_map, List.getElem?_set]
  split_ifs with h1 h2
  · subst h1; simp [hn, hg]
  · subst h1; simp [List.getElem?_eq_none (Nat.le_of_not_lt h2)]
  · rfl

theorem mem_ctxAddrs_cons {β : Type} (f : Frame β) (c : List (Frame β)) (b : Nat) :
    b ∈ ctxAddrs (f :: c) ↔ b = f.addr ∨ b ∈ f.sib.addrs ∨ b ∈ ctxAddrs c := by
  simp [ctxAddrs]

theorem nodup_ctxAddrs_cons {β : Type} (f : Frame β) (c : List (Frame β)) :
    (ctxAddrs (f :: c)).Nodup ↔
      f.addr ∉ f.sib.addrs ∧ f.addr ∉ ctxAddrs c ∧ f.sib.addrs.Nodup ∧ (ctxAddrs c).Nodup ∧
        ∀ b, b ∈ f.sib.addrs → b ∈ ctxAddrs c → False := by
  simp only [ctxAddrs, List.nodup_cons, List.mem_append, not_or, List.nodup_append,
    List.Disjoint]
  tauto

/-- The writes of `bst_transplant(root, u, v)` on a store that holds the nodes around
`u`: afterwards it holds them around `v`. -/
theorem bst_transplant_spec {h : List RefNode} (root : Option Nat) {c : List (Frame Int)}
    {u : Nat} {un : RefNode} (v : Option Nat)
    (hc : CRep RefNode.link h c (some u) none) (hu : h[u]? = some un)
    (hup : un.parent = ctxAddr c none) (hnd : (ctxAddrs c).Nodup) (huc : u ∉ ctxAddrs c)
    (hv : ∀ va, v = some va → va ∉ ctxAddrs c ∧ va < h.length ∧ va ≠ u) :
    ∃ h1, bst_transplant h root u v = some (h1, if c.isEmpty then v else root) ∧
      CRep RefNode.link h1 c v none ∧
      (∀ va, v = some va →
        h1[va]? = (h[va]?).map (fun n => { n with parent := ctxAddr c none })) ∧
      (∀ b, b ∉ ctxAddrs c → v ≠ some b → h1[b]? = h[b]?) ∧
      h1.length = h.length ∧ h1.map RefNode.rest = h.map RefNode.rest := by
  cases c with
  | nil =>
    simp only [ctxAddr] at hup
    cases v with
    | none =>
      refine ⟨h, ?_, trivial, by simp, by simp, rfl, rfl⟩
      simp [bst_transplant, hu, hup]
    | some va =>
      obtain ⟨-, hlt, hne⟩ := hv va rfl
      obtain ⟨vn, hvn⟩ : ∃ vn, h[va]? = some vn := ⟨h[va], List.getElem?_eq_getElem hlt⟩
      refine ⟨h.set va { vn with parent := none }, ?_, trivial, ?_, ?_, by simp, ?_⟩
      · simp [bst_transplant, hu, hup, modify_of_get hvn]
      · intro va2 hva2
        simp only [Option.some.injEq] at hva2
        subst hva2
        rw [get_set_self hvn, hvn]
        simp [ctxAddr]
      · intro b _ hb
        rw [List.getElem?_set_ne]
        rintro rfl
        exact hb rfl
      · exact set_map_eq _ hvn rfl
  | cons f c =>
    cases f with
    | inL a pv s =>
      have hau : a ≠ u := by
        rintro rfl
        exact huc (by simp [ctxAddrs, Frame.addr])
      obtain ⟨hfs, hfc, -, -, -⟩ := (nodup_ctxAddrs_cons (Frame.inL a pv s) c).mp hnd
      simp only [Frame.addr, Frame.sib] at hfs hfc
      simp only [ctxAddr, Frame.addr] at hup
      obtain ⟨hpa, hs, hcc⟩ := hc
      obtain ⟨pn, hpn⟩ : ∃ pn, h[a]? = some pn := by
        cases hq : h[a]? with
        | none => simp [hq] at hpa
        | some pn => exact ⟨pn, rfl⟩
      simp only [hpn, Option.map_some', Option.some.injEq, RefNode.link, Link.mk.injEq] at hpa
      obtain ⟨hpk, hpl, hpr, hpp⟩ := hpa
      have hsl : some u = pn.left := hpl.symm
      have hframe1 : ∀ b, b ≠ a → (h.set a { pn with left := v })[b]? = h[b]? := fun b hb =>
        List.getElem?_set_ne (Ne.symm hb)
      cases v with
      | none =>
        refine ⟨h.set a { pn with left := none }, ?_, ⟨?_, hs.frame ?_, hcc.cframe ?_⟩, by simp,
          ?_, by simp, set_map_eq _ hpn rfl⟩
        · simp [bst_transplant, hu, hup, hpn, if_pos hsl, modify_of_get hpn]
        · rw [get_set_self hpn]
          simp [RefNode.link, hpk, hpl, hpr, hpp]
        · intro b hb
          rw [hframe1 b (by rintro rfl; exact hfs hb)]
        · intro b hb
          rw [hframe1 b (by rintro rfl; exact hfc hb)]
        · intro b hb _
          exact hframe1 b (by rintro rfl; exact hb (by simp [ctxAddrs, Frame.addr]))
      | some va =>
        obtain ⟨hvc, hlt, hne⟩ := hv va rfl
        have hva : va ≠ a := by
          rintro rfl
          exact hvc (by simp [ctxAddrs, Frame.addr])
        obtain ⟨vn, hvn⟩ : ∃ vn, h[va]? = some vn := ⟨h[va], List.getElem?_eq_getElem hlt⟩
        have hvn1 : (h.set a { pn with left := some va })[va]? = some vn := by
          rw [hframe1 va hva, hvn]
        have hu1 : (h.set a { pn with left := some va })[u]? = some un := by
          rw [hframe1 u (Ne.symm hau), hu]
        have hframe2 : ∀ b, b ≠ a → b ≠ va →
            ((h.set a { pn with left := some va }).set va { vn with parent := some a })[b]? =
              h[b]? := fun b hb hb2 => by
          rw [List.getElem?_set_ne (Ne.symm hb2), hframe1 b hb]
        refine ⟨(h.set a { pn with left := some va }).set va { vn with parent := some a }, ?_,
          ⟨?_, hs.frame ?_, hcc.cframe ?_⟩, ?_, ?_, by simp, ?_⟩
        · simp [bst_transplant, hu, hup, hpn, if_pos hsl, modify_of_get hpn, hu1,
            modify_of_get hvn1]
        · rw [List.getElem?_set_ne hva, get_set_self hpn]
          simp [RefNode.link, hpk, hpl, hpr, hpp]
        · intro b hb
          rw [hframe2 b (by rintro rfl; exact hfs hb)
            (by rintro rfl; exact hvc (by simp [ctxAddrs, Frame.sib, hb]))]
        · intro b hb
          rw [hframe2 b (by rintro rfl; exact hfc hb)
            (by rintro rfl; exact hvc (by simp [ctxAddrs, hb]))]
        · intro va2 hva2
          simp only [Option.some.injEq] at hva2
          subst hva2
          rw [get_set_self hvn1, hvn]
          simp [ctxAddr, Frame.addr]
        · intro b hb hb2
          exact hframe2 b (by rintro rfl; exact hb (by simp [ctxAddrs, Frame.addr]))
            (by rintro rfl; exact hb2 rfl)
        · refine (set_map_eq RefNode.rest hvn1 ?_).trans (set_map_eq RefNode.rest hpn ?_) <;> rfl
    | inR a pv s =>
      have hau : a ≠ u := by
        rintro rfl
        exact huc (by simp [ctxAddrs, Frame.addr])
      obtain ⟨hfs, hfc, -, -, -⟩ := (nodup_ctxAddrs_cons (Frame.inR a pv s) c).mp hnd
      simp only [Frame.addr, Frame.sib] at hfs hfc
      simp only [ctxAddr, Frame.addr] at hup
      obtain ⟨hpa, hs, hcc⟩ := hc
      obtain ⟨pn, hpn⟩ : ∃ pn, h[a]? = some pn := by
        cases hq : h[a]? with
        | none => simp [hq] at hpa
        | some pn => exact ⟨pn, rfl⟩
      simp only [hpn, Option.map_some', Option.some.injEq, RefNode.link, Link.mk.injEq] at hpa
      obtain ⟨hpk, hpl, hpr, hpp⟩ := hpa
      have hsl : ¬ some u = pn.left := by
        rw [hpl]
        intro hs
        exact huc (by
          simp only [ctxAddrs, Frame.sib, List.mem_cons, List.mem_append]
          right; left
          exact PTree.root_mem_addrs hs.symm)
      have hframe1 : ∀ b, b ≠ a → (h.set a { pn with right := v })[b]? = h[b]? := fun b hb =>
        List.getElem?_set_ne (Ne.symm hb)
      cases v with
      | none =>
        refine ⟨h.set a { pn with right := none }, ?_, ⟨?_, hs.frame ?_, hcc.cframe ?_⟩, by simp,
          ?_, by simp, set_map_eq _ hpn rfl⟩
        · simp [bst_transplant, hu, hup, hpn, if_neg hsl, modify_of_get hpn]
        · rw [get_set_self hpn]
          simp [RefNode.link, hpk, hpl, hpr, hpp]
        · intro b hb
          rw [hframe1 b (by rintro rfl; exact hfs hb)]
        · intro b hb
          rw [hframe1 b (by rintro rfl; exact hfc hb)]
        · intro b hb _
          exact hframe1 b (by rintro rfl; exact hb (by simp [ctxAddrs, Frame.addr]))
      | some va =>
        obtain ⟨hvc, hlt, hne⟩ := hv va rfl
        have hva : va ≠ a := by
          rintro rfl
          exact hvc (by simp [ctxAddrs, Frame.addr])
        obtain ⟨vn, hvn⟩ : ∃ vn, h[va]? = some vn := ⟨h[va], List.getElem?_eq_getElem hlt⟩
        have hvn1 : (h.set a { pn with right := some va })[va]? = some vn := by
          rw [hframe1 va hva, hvn]
        have hu1 : (h.set a { pn with right := some va })[u]? = some un := by
          rw [hframe1 u (Ne.symm hau), hu]
        have hframe2 : ∀ b, b ≠ a → b ≠ va →
            ((h.set a { pn with right := some va }).set va { vn with parent := some a })[b]? =
              h[b]? := fun b hb hb2 => by
          rw [List.getElem?_set_ne (Ne.symm hb2), hframe1 b hb]
        refine ⟨(h.set a { pn with right := some va }).set va { vn with parent := some a }, ?_,
          ⟨?_, hs.frame ?_, hcc.cframe ?_⟩, ?_, ?_, by simp, ?_⟩
        · simp [bst_transplant, hu, hup, hpn, if_neg hsl, modify_of_get hpn, hu1,
            modify_of_get hvn1]
        · rw [List.getElem?_set_ne hva, get_set_self hpn]
          simp [RefNode.link, hpk, hpl, hpr, hpp]
        · intro b hb
          rw [hframe2 b (by rintro rfl; exact hfs hb)
            (by rintro rfl; exact hvc (by simp [ctxAddrs, Frame.sib, hb]))]
        · intro b hb
          rw [hframe2 b (by rintro rfl; exact hfc hb)
            (by rintro rfl; exact hvc (by simp [ctxAddrs, hb]))]
        · intro va2 hva2
          simp only [Option.some.injEq] at hva2
          subst hva2
          rw [get_set_self hvn1, hvn]
          simp [ctxAddr, Frame.addr]
        · intro b hb hb2
          exact hframe2 b (by rintro rfl; exact hb (by simp [ctxAddrs, Frame.addr]))
            (by rintro rfl; exact hb2 rfl)
        · refine (set_map_eq RefNode.rest hvn1 ?_).trans (set_map_eq RefNode.rest hpn ?_) <;> rfl

theorem plug_append {β : Type} (c1 c2 : List (Frame β)) (t : PTree β) :
    plug (c1 ++ c2) t = plug c2 (plug c1 t) := by
  induction c1 generalizing t with
  | nil => rfl
  | cons f c1 ih =>
    cases f with
    | inL a v s => simp [plug, ih]
    | inR a v s => simp [plug, ih]

theorem plug_root_of_ne {β : Type} {c : List (Frame β)} (hc : c ≠ []) (t t2 : PTree β) :
    (plug c t).root = (plug c t2).root := by
  induction c generalizing t t2 with
  | nil => exact absurd rfl hc
  | cons f c ih =>
    cases f with
    | inL a v s =>
      cases c with
      | nil => rfl
      | cons g c => exact ih (by simp) _ _
    | inR a v s =>
      cases c with
      | nil => rfl
      | cons g c => exact ih (by simp) _ _

theorem plug_root {β : Type} (c : List (Frame β)) (t t2 : PTree β) :
    (plug c t2).root = if c.isEmpty then t2.root else (plug c t).root := by
  cases c with
  | nil => rfl
  | cons f c => simpa using plug_root_of_ne (by simp) t2 t

theorem mem_plug_addrs {β : Type} (c : List (Frame β)) (t : PTree β) (b : Nat) :
    b ∈ (plug c t).addrs ↔ b ∈ t.addrs ∨ b ∈ ctxAddrs c := by
  rw [(plug_addrs_perm c t).mem_iff, List.mem_append]

theorem nodup_plug {β : Type} (c : List (Frame β)) (t : PTree β) :
    (plug c t).addrs.Nodup ↔
      t.addrs.Nodup ∧ (ctxAddrs c).Nodup ∧ ∀ b, b ∈ t.addrs → b ∈ ctxAddrs c → False := by
  rw [(plug_addrs_perm c t).nodup_iff, List.nodup_append]
  rfl

theorem ctxAddrs_append {β : Type} (c1 c2 : List (Frame β)) :
    ctxAddrs (c1 ++ c2) = ctxAddrs c1 ++ ctxAddrs c2 := by
  induction c1 with
  | nil => rfl
  | cons f c1 ih => simp [ctxAddrs, ih]

theorem get_of_lt {α : Type} {h : List α} {a : Nat} (ha : a < h.length) :
    ∃ n, h[a]? = some n :=
  ⟨h[a], List.getElem?_eq_getElem ha⟩

/-- The last statements of `bst_delete`: `y` takes the place of `z` and the left subtree
of `z`. -/
theorem bst_delete_join_spec {h3 : List RefNode} (root : Option Nat) {c : List (Frame Int)}
    {l R2 : PTree Int} {z y : Nat} {yv : Int} {zn yn : RefNode}
    (hc : CRep RefNode.link h3 c (some z) none)
    (hz : h3[z]? = some zn) (hzp : zn.parent = ctxAddr c none) (hzl : zn.left = l.root)
    (hlrep : Rep RefNode.link h3 l (some z))
    (hy : h3[y]? = some yn) (hyk : yn.key = yv) (hyr : yn.right = R2.root)
    (hR : Rep RefNode.link h3 R2 (some y))
    (hnd : (plug c (PTree.node l y yv R2)).addrs.Nodup)
    (hzn : z ∉ (plug c (PTree.node l y yv R2)).addrs) :
    ∃ h6, bst_delete_join h3 root z y =
        some (h6, if c.isEmpty then some y else root) ∧
      Rep RefNode.link h6 (plug c (PTree.node l y yv R2)) none ∧
      h6.length = h3.length ∧ h6.map RefNode.rest = h3.map RefNode.rest := by
  rw [mem_plug_addrs] at hzn
  simp only [PTree.addrs_node, List.mem_append, List.mem_cons, not_or] at hzn
  obtain ⟨⟨hzl2, hzy, hzR⟩, hzc⟩ := hzn
  obtain ⟨hndT, hndc, hdis⟩ := (nodup_plug _ _).mp hnd
  simp only [PTree.addrs_node] at hndT hdis
  have hndl : l.addrs.Nodup := (List.nodup_append.mp hndT).1
  have hyl : y ∉ l.addrs := fun hm => (List.nodup_append.mp hndT).2.2 hm (by simp)
  have hyR : y ∉ R2.addrs := fun hm =>
    (List.nodup_cons.mp (List.nodup_append.mp hndT).2.1).1 hm
  have hlR : ∀ b, b ∈ l.addrs → b ∈ R2.addrs → False := fun b h1 h2 =>
    (List.nodup_append.mp hndT).2.2 h1 (by simp [h2])
  have hyc : y ∉ ctxAddrs c := fun hm => hdis y (by simp) hm
  have hlc : ∀ b, b ∈ l.addrs → b ∉ ctxAddrs c := fun b hb hm => hdis b (by simp [hb]) hm
  have hRc : ∀ b, b ∈ R2.addrs → b ∉ ctxAddrs c := fun b hb hm => hdis b (by simp [hb]) hm
  obtain ⟨h4, ht, hc4, hv4, hf4, hlen4, hrest4⟩ :=
    bst_transplant_spec root (some y) hc hz hzp hndc hzc
      (by
        intro va hva
        simp only [Option.some.injEq] at hva
        subst hva
        exact ⟨hyc, lt_of_get hy, fun e => hzy e.symm⟩)
  have hz4 : h4[z]? = some zn := by
    rw [hf4 z hzc (by simpa using fun e => hzy e.symm), hz]
  have hy4 : h4[y]? = some { yn with parent := ctxAddr c none } := by
    rw [hv4 y rfl, hy]; rfl
  simp only [bst_delete_join, ht, Option.some_bind, hz4, modify_of_get hy4]
  cases l with
  | nil =>
    simp only [PTree.root_nil] at hzl
    simp only [hzl, Option.map_some', Option.some.injEq, Prod.mk.injEq, and_true,
      exists_eq_left']
    refine ⟨?_, by simp [hlen4], ?_⟩
    · rw [rep_plug]
      refine ⟨⟨?_, trivial, hR.frame ?_⟩, hc4.cframe ?_⟩
      · rw [get_set_self hy4]
        simp [RefNode.link, hyk, hyr]
      · intro b hb
        rw [List.getElem?_set_ne (by rintro rfl; exact hyR hb),
          hf4 b (hRc b hb) (fun e => by cases e; exact hyR hb)]
      · intro b hb
        rw [List.getElem?_set_ne (by rintro rfl; exact hyc hb)]
    · refine (set_map_eq RefNode.rest hy4 ?_).trans hrest4
      rfl
  | node ll la lv lr =>
    simp only [PTree.root_node] at hzl
    have hla : la ∈ (PTree.node ll la lv lr).addrs := by simp
    have hlay : la ≠ y := by rintro rfl; exact hyl hla
    have hla4 : h4[la]? = h3[la]? := hf4 la (hlc la hla) (by simpa using hlay.symm)
    obtain ⟨ln, hln⟩ := get_of_lt (hlrep.addr_lt la hla)
    have hla5 : (h4.set y { yn with parent := ctxAddr c none, left := some la })[la]? =
        some ln := by
      rw [List.getElem?_set_ne (Ne.symm hlay), hla4, hln]
    simp only [hzl, modify_of_get hla5, Option.map_some', Option.some.injEq, Prod.mk.injEq,
      and_true, exists_eq_left']
    refine ⟨?_, by simp [hlen4], ?_⟩
    · rw [rep_plug]
      refine ⟨⟨?_, ?_, hR.frame ?_⟩, hc4.cframe ?_⟩
      · rw [List.getElem?_set_ne hlay, get_set_self hy4]
        simp [RefNode.link, hyk, hyr]
      · refine hlrep.reparent ?_ ?_ hndl
        · intro a ha
          simp only [PTree.root_node, Option.some.injEq] at ha
          subst ha
          rw [get_set_self hla5, hln]
          obtain ⟨n0, hn0, hlk⟩ := hlrep.root_get
          rw [hln] at hn0
          simp only [Option.some.injEq] at hn0
          subst hn0
          simp only [RefNode.link, Link.mk.injEq] at hlk
          simp [RefNode.link]
        · intro b hb hne
          simp only [PTree.root_node, ne_eq, Option.some.injEq] at hne
          rw [List.getElem?_set_ne (Ne.symm (Ne.symm hne)),
            List.getElem?_set_ne (by rintro rfl; exact hyl hb),
            hf4 b (hlc b hb) (fun e => by cases e; exact hyl hb)]
      · intro b hb
        rw [List.getElem?_set_ne (by rintro rfl; exact hlR _ hla hb),
          List.getElem?_set_ne (by rintro rfl; exact hyR hb),
          hf4 b (hRc b hb) (fun e => by cases e; exact hyR hb)]
      · intro b hb
        rw [List.getElem?_set_ne (by rintro rfl; exact hlc _ hla hb),
          List.getElem?_set_ne (by rintro rfl; exact hyc hb)]
    · refine (set_map_eq RefNode.rest hla5 ?_).trans
        ((set_map_eq RefNode.rest hy4 ?_).trans hrest4) <;> rfl

@[simp]
theorem Frame.addr_inL {β : Type} (a : Nat) (v : β) (s : PTree β) :
    (Frame.inL a v s).addr = a := rfl

@[simp]
theorem Frame.addr_inR {β : Type} (a : Nat) (v : β) (s : PTree β) :
    (Frame.inR a v s).addr = a := rfl

@[simp]
theorem Frame.sib_inL {β : Type} (a : Nat) (v : β) (s : PTree β) :
    (Frame.inL a v s).sib = s := rfl

@[simp]
theorem Frame.sib_inR {β : Type} (a : Nat) (v : β) (s : PTree β) :
    (Frame.inR a v s).sib = s := rfl

theorem PTree.splitMin_node_of_some {β : Type} {l : PTree β} (a : Nat) (v : β) (r : PTree β)
    {p : Nat × β × PTree β} (h : l.splitMin = some p) :
    (PTree.node l a v r).splitMin = some (p.1, p.2.1, PTree.node p.2.2 a v r) := by
  simp [PTree.splitMin, h]

theorem plug_eq_node {β : Type} {c : List (Frame β)} (hc : c ≠ []) (t : PTree β) :
    ∃ l a v r, plug c t = PTree.node l a v r := by
  induction c generalizing t with
  | nil => exact absurd rfl hc
  | cons f c ih =>
    cases f with
    | inL a v s =>
      cases c with
      | nil => exact ⟨_, _, _, _, rfl⟩
      | cons g c => exact ih (by simp) _
    | inR a v s =>
      cases c with
      | nil => exact ⟨_, _, _, _, rfl⟩
      | cons g c => exact ih (by simp) _

theorem PTree.splitMin_eq_none {β : Type} {t : PTree β} : t.splitMin = none ↔ t = PTree.nil := by
  cases t with
  | nil => simp [PTree.splitMin]
  | node l a v r =>
    simp only [PTree.splitMin]
    cases l.splitMin with
    | none => simp
    | some p => simp

/-- The leftmost node, singled out: the tree is the node with the nodes around it. -/
theorem PTree.splitMin_plug {β : Type} {r : PTree β} {y : Nat} {yv : β} {r2 : PTree β}
    (h : r.splitMin = some (y, yv, r2)) :
    ∃ cL ry, r = plug cL (PTree.node PTree.nil y yv ry) ∧ r2 = plug cL ry := by
  induction r generalizing y yv r2 with
  | nil => simp [PTree.splitMin] at h
  | node l a v rr ihl _ =>
    simp only [PTree.splitMin] at h
    cases hl : l.splitMin with
    | none =>
      rw [hl] at h
      simp only [Option.some.injEq, Prod.mk.injEq] at h
      obtain ⟨rfl, rfl, rfl⟩ := h
      rw [PTree.splitMin_eq_none.mp hl]
      exact ⟨[], rr, rfl, rfl⟩
    | some p =>
      obtain ⟨y1, yv1, l2⟩ := p
      rw [hl] at h
      simp only [Option.some.injEq, Prod.mk.injEq] at h
      obtain ⟨rfl, rfl, rfl⟩ := h
      obtain ⟨cL, ry, h1, h2⟩ := ihl hl
      refine ⟨cL ++ [Frame.inL a v rr], ry, ?_, ?_⟩
      · rw [plug_append, ← h1]; rfl
      · rw [plug_append, ← h2]; rfl

/-- The loop of `bst_minimum` on a held tree ends at the leftmost node. -/
theorem bst_minimum_loop_of_rep {h : List RefNode} {t : PTree Int} {par : Option Nat}
    (hr : Rep RefNode.link h t par) (fuel : Nat) (hf : t.height ≤ fuel) :
    bst_minimum_loop fuel h t.root = some (t.splitMin.map fun p => p.1) := by
  induction t generalizing par fuel with
  | nil => cases fuel <;> rfl
  | node l a v r ihl _ =>
    obtain ⟨n, hn, -, hl, -, -⟩ := hr.ref_get
    obtain ⟨-, hrl, -⟩ := hr
    cases fuel with
    | zero => simp at hf
    | succ fuel =>
      simp only [PTree.height_node, Nat.add_le_add_iff_right, Nat.max_le] at hf
      cases l with
      | nil =>
        simp [PTree.root_node, bst_minimum_loop, hn, hl, PTree.splitMin]
      | node ll la lv lr =>
        have := ihl hrl fuel hf.1
        simp only [PTree.root_node] at this
        simp only [PTree.root_node, bst_minimum_loop, hn, hl, this]
        cases hs : (PTree.node ll la lv lr).splitMin with
        | none => exact absurd (PTree.splitMin_eq_none.mp hs) (by simp)
        | some p => rw [PTree.splitMin_node_of_some a v r hs]; rfl

/-- The block `if (y->parent != z) { ... }` of `bst_delete` when the successor `y` is not
the right child of `z`. -/
theorem bst_delete_lift_spec {h : List RefNode} (root : Option Nat) {c cL : List (Frame Int)}
    {l ry : PTree Int} {z y : Nat} {v yv : Int} (hcL : cL ≠ [])
    (hrep : Rep RefNode.link h
      (plug c (PTree.node l z v (plug cL (PTree.node PTree.nil y yv ry)))) none)
    (hnd : (plug c (PTree.node l z v (plug cL (PTree.node PTree.nil y yv ry)))).addrs.Nodup) :
    ∃ h3 yn zn, bst_delete_lift h root z y = some (h3, root) ∧
      CRep RefNode.link h3 c (some z) none ∧ h3[z]? = some zn ∧
      zn.parent = ctxAddr c none ∧ zn.left = l.root ∧ Rep RefNode.link h3 l (some z) ∧
      h3[y]? = some yn ∧ yn.key = yv ∧ yn.right = (plug cL ry).root ∧
      Rep RefNode.link h3 (plug cL ry) (some y) ∧
      h3.length = h.length ∧ h3.map RefNode.rest = h.map RefNode.rest := by
  -- the tree seen from `y`
  have hview : ∀ t : PTree Int,
      plug c (PTree.node l z v (plug cL t)) = plug (cL ++ Frame.inR z v l :: c) t := by
    intro t
    rw [plug_append]; rfl
  -- addresses
  obtain ⟨hndT, hndc, hdis⟩ := (nodup_plug _ _).mp hnd
  simp only [PTree.addrs_node] at hndT hdis
  have hndl : l.addrs.Nodup := (List.nodup_append.mp hndT).1
  have hndr := (List.nodup_cons.mp (List.nodup_append.mp hndT).2.1).2
  obtain ⟨hndY, hndcL, hdisL⟩ := (nodup_plug _ _).mp hndr
  simp only [PTree.addrs_node, PTree.addrs_nil, List.nil_append, List.nodup_cons] at hndY
  have hzl : z ∉ l.addrs := fun hm => (List.nodup_append.mp hndT).2.2 hm (by simp)
  have hzr : ∀ b, b ∈ (plug cL (PTree.node PTree.nil y yv ry)).addrs → b ≠ z := by
    rintro b hb rfl
    exact (List.nodup_cons.mp (List.nodup_append.mp hndT).2.1).1 hb
  have hlr : ∀ b, b ∈ l.addrs → b ∈ (plug cL (PTree.node PTree.nil y yv ry)).addrs → False :=
    fun b h1 h2 => (List.nodup_append.mp hndT).2.2 h1 (by simp [h2])
  have hzc : z ∉ ctxAddrs c := fun hm => hdis z (by simp) hm
  have hlc : ∀ b, b ∈ l.addrs → b ∉ ctxAddrs c := fun b hb hm => hdis b (by simp [hb]) hm
  have hrc : ∀ b, b ∈ (plug cL (PTree.node PTree.nil y yv ry)).addrs → b ∉ ctxAddrs c :=
    fun b hb hm => hdis b (by simp [hb]) hm
  have hmemr : ∀ b, b ∈ (plug cL (PTree.node PTree.nil y yv ry)).addrs ↔
      (b = y ∨ b ∈ ry.addrs) ∨ b ∈ ctxAddrs cL := by
    intro b
    rw [mem_plug_addrs]
    simp
  have hmem2 : ∀ b, b ∈ (plug cL ry).addrs ↔ b ∈ ry.addrs ∨ b ∈ ctxAddrs cL := fun b =>
    mem_plug_addrs _ _ _
  have hyr : y ∈ (plug cL (PTree.node PTree.nil y yv ry)).addrs := (hmemr y).mpr (by simp)
  have hycL : y ∉ ctxAddrs cL := fun hm => hdisL y (by simp) hm
  have hrycL : ∀ b, b ∈ ry.addrs → b ∉ ctxAddrs cL := fun b hb hm => hdisL b (by simp [hb]) hm
  have hyR2 : y ∉ (plug cL ry).addrs := by
    rw [hmem2]
    rintro (hm | hm)
    · exact hndY.1 hm
    · exact hycL hm
  have hR2sub : ∀ b, b ∈ (plug cL ry).addrs →
      b ∈ (plug cL (PTree.node PTree.nil y yv ry)).addrs := by
    intro b hb
    rw [hmemr]
    rw [hmem2] at hb
    tauto
  have hndR2 : (plug cL ry).addrs.Nodup :=
    (nodup_plug _ _).mpr ⟨hndY.2, hndcL, fun b h1 h2 => hrycL b h1 h2⟩
  -- the store seen from `y`
  rw [hview] at hrep
  obtain ⟨hY, hC1⟩ := (rep_plug _ _ _).mp hrep
  obtain ⟨yn, hyn, hyk, hyl, hyrt, hyp⟩ := hY.ref_get
  obtain ⟨-, -, hry⟩ := hY
  simp only [PTree.root_node, PTree.root_nil] at hC1 hyl
  obtain ⟨fL, cL2, rfl⟩ : ∃ fL cL2, cL = fL :: cL2 := by
    cases cL with
    | nil => exact absurd rfl hcL
    | cons f c2 => exact ⟨f, c2, rfl⟩
  simp only [List.cons_append, ctxAddr] at hyp
  have hfLr : fL.addr ∈ (plug (fL :: cL2) (PTree.node PTree.nil y yv ry)).addrs :=
    (hmemr _).mpr (Or.inr (by simp [mem_ctxAddrs_cons]))
  have hpz : yn.parent ≠ some z := by
    rw [hyp]
    simp only [ne_eq, Option.some.injEq]
    exact hzr _ hfLr
  have hC1mem : ∀ b, b ∈ ctxAddrs (fL :: cL2 ++ Frame.inR z v l :: c) ↔
      b ∈ ctxAddrs (fL :: cL2) ∨ b = z ∨ b ∈ l.addrs ∨ b ∈ ctxAddrs c := by
    intro b
    rw [ctxAddrs_append]
    simp only [List.mem_append, mem_ctxAddrs_cons, Frame.addr_inR, Frame.sib_inR]
  have hndC1 : (ctxAddrs (fL :: cL2 ++ Frame.inR z v l :: c)).Nodup := by
    rw [ctxAddrs_append, List.nodup_append]
    refine ⟨hndcL, ?_, ?_⟩
    · rw [nodup_ctxAddrs_cons]
      simp only [Frame.addr_inR, Frame.sib_inR]
      exact ⟨hzl, hzc, hndl, hndc, fun b h1 h2 => hlc b h1 h2⟩
    · intro b h1 h2
      have hbr : b ∈ (plug (fL :: cL2) (PTree.node PTree.nil y yv ry)).addrs :=
        (hmemr b).mpr (Or.inr h1)
      simp only [mem_ctxAddrs_cons, Frame.addr_inR, Frame.sib_inR] at h2
      rcases h2 with h2 | h2 | h2
      · exact hzr b hbr h2
      · exact hlr b h2 hbr
      · exact hrc b hbr h2
  have hnotC1 : ∀ b, b ∈ (plug (fL :: cL2) (PTree.node PTree.nil y yv ry)).addrs →
      b ∉ ctxAddrs (fL :: cL2) → b ∉ ctxAddrs (fL :: cL2 ++ Frame.inR z v l :: c) := by
    intro b hb hn hm
    rcases (hC1mem b).mp hm with hm | hm | hm | hm
    · exact hn hm
    · exact hzr b hb hm
    · exact hlr b hm hb
    · exact hrc b hb hm
  have hyC1 : y ∉ ctxAddrs (fL :: cL2 ++ Frame.inR z v l :: c) := hnotC1 y hyr hycL
  obtain ⟨h1, ht, hc1, hv1, hf1, hlen1, hrest1⟩ :=
    bst_transplant_spec root ry.root hC1 hyn (by rw [hyp]; rfl) hndC1 hyC1
      (by
        intro va hva
        have hvm : va ∈ ry.addrs := PTree.root_mem_addrs hva
        refine ⟨hnotC1 va ((hmemr va).mpr (Or.inl (Or.inr hvm))) (hrycL va hvm),
          hry.addr_lt va hvm, ?_⟩
        rintro rfl
        exact hndY.1 hvm)
  -- after the transplant the store holds the tree without `y`
  have hry1 : Rep RefNode.link h1 ry (ctxAddr (fL :: cL2 ++ Frame.inR z v l :: c) none) := by
    refine hry.reparent ?_ ?_ hndY.2
    · intro a ha
      rw [hv1 a ha]
      cases hq : h[a]? with
      | none => rfl
      | some n => simp [RefNode.link]
    · intro b hb hne
      have hbin := (hmemr b).mpr (Or.inl (Or.inr hb))
      rw [hf1 b (hnotC1 b hbin (hrycL b hb)) (fun e => hne e)]
  have hrep1 : Rep RefNode.link h1 (plug c (PTree.node l z v (plug (fL :: cL2) ry))) none := by
    rw [hview]
    exact (rep_plug _ _ _).mpr ⟨hry1, hc1⟩
  obtain ⟨hT1, hcz1⟩ := (rep_plug _ _ _).mp hrep1
  obtain ⟨zn, hzn, -, hzleft, hzright, hzpar⟩ := hT1.ref_get
  obtain ⟨-, hl1, hR1⟩ := hT1
  have hy1 : h1[y]? = some yn := by
    rw [hf1 y hyC1 (fun e => hndY.1 (PTree.root_mem_addrs e)), hyn]
  obtain ⟨rl, ra, rv, rr, hR2⟩ := plug_eq_node hcL ry
  have hra : ra ∈ (plug (fL :: cL2) ry).addrs := by rw [hR2]; simp
  have hray : ra ≠ y := by rintro rfl; exact hyR2 hra
  have hraz : ra ≠ z := hzr ra (hR2sub ra hra)
  have hzy : z ≠ y := fun e => hzr y hyr e.symm
  obtain ⟨rn, hrn⟩ := get_of_lt (hR1.addr_lt ra hra)
  have hra2 : (h1.set y { yn with right := some ra })[ra]? = some rn := by
    rw [List.getElem?_set_ne (Ne.symm hray), hrn]
  have hright : zn.right = some ra := by rw [hzright, hR2]; rfl
  have hfr : ∀ b, b ≠ y → b ≠ ra →
      ((h1.set y { yn with right := some ra }).set ra { rn with parent := some y })[b]? =
        h1[b]? := fun b hb1 hb2 => by
    rw [List.getElem?_set_ne (Ne.symm hb2), List.getElem?_set_ne (Ne.symm hb1)]
  refine ⟨(h1.set y { yn with right := some ra }).set ra { rn with parent := some y },
    { yn with right := some ra }, zn, ?_, ?_, ?_, hzpar, hzleft, ?_, ?_, hyk, ?_, ?_, ?_, ?_⟩
  · simp only [bst_delete_lift, hyn, if_pos hpz, hyrt, ht, Option.some_bind, hzn, hright,
      modify_of_get hy1, modify_of_get hra2, Option.map_some']
    simp
  · apply hcz1.cframe
    intro b hb
    rw [hfr b (by rintro rfl; exact hrc _ hyr hb)
      (by rintro rfl; exact hrc _ (hR2sub _ hra) hb)]
  · rw [hfr z hzy (Ne.symm hraz), hzn]
  · apply hl1.frame
    intro b hb
    rw [hfr b (by rintro rfl; exact hlr _ hb hyr)
      (by rintro rfl; exact hlr _ hb (hR2sub _ hra))]
  · rw [List.getElem?_set_ne hray, get_set_self hy1]
  · rw [hR2]; rfl
  · refine hR1.reparent ?_ ?_ hndR2
    · intro a ha
      rw [hR2] at ha
      simp only [PTree.root_node, Option.some.injEq] at ha
      subst ha
      rw [get_set_self hra2, hrn]
      simp [RefNode.link]
    · intro b hb hne
      rw [hR2] at hne
      simp only [PTree.root_node, ne_eq, Option.some.injEq] at hne
      rw [hfr b (by rintro rfl; exact hyR2 hb) (Ne.symm hne)]
  · simp [hlen1]
  · refine (set_map_eq RefNode.rest hra2 ?_).trans
      ((set_map_eq RefNode.rest hy1 ?_).trans hrest1) <;> rfl

theorem PTree.splitMin_toList {β : Type} {r : PTree β} {y : Nat} {yv : β} {r2 : PTree β}
    (h : r.splitMin = some (y, yv, r2)) : r.toList = (y, yv) :: r2.toList := by
  induction r generalizing y yv r2 with
  | nil => simp [PTree.splitMin] at h
  | node l a v rr ihl _ =>
    cases hl : l.splitMin with
    | none =>
      simp only [PTree.splitMin, hl, Option.some.injEq, Prod.mk.injEq] at h
      obtain ⟨rfl, rfl, rfl⟩ := h
      rw [PTree.splitMin_eq_none.mp hl]
      simp
    | some p =>
      obtain ⟨y1, yv1, l2⟩ := p
      rw [PTree.splitMin_node_of_some a v rr hl] at h
      simp only [Option.some.injEq, Prod.mk.injEq] at h
      obtain ⟨rfl, rfl, rfl⟩ := h
      simp [ihl hl]

theorem PTree.delRoot_toList {β : Type} (l r : PTree β) :
    (PTree.delRoot l r).toList = l.toList ++ r.toList := by
  cases l with
  | nil => simp [PTree.delRoot]
  | node ll la lv lr =>
    simp only [PTree.delRoot]
    cases hs : r.splitMin with
    | none => simp [PTree.splitMin_eq_none.mp hs]
    | some p =>
      obtain ⟨y, yv, r2⟩ := p
      simp [PTree.splitMin_toList hs]

/-- A node with at most one child is replaced by that child. -/
theorem bst_transplant_child {h : List RefNode} (root : Option Nat) {c : List (Frame Int)}
    {z : Nat} {zn : RefNode} {t : PTree Int}
    (hc : CRep RefNode.link h c (some z) none) (hz : h[z]? = some zn)
    (hzp : zn.parent = ctxAddr c none) (ht : Rep RefNode.link h t (some z))
    (hnd : (plug c t).addrs.Nodup) (hzn : z ∉ (plug c t).addrs) :
    ∃ h1, bst_transplant h root z t.root = some (h1, if c.isEmpty then t.root else root) ∧
      Rep RefNode.link h1 (plug c t) none ∧ h1.length = h.length ∧
      h1.map RefNode.rest = h.map RefNode.rest := by
  rw [mem_plug_addrs, not_or] at hzn
  obtain ⟨hndt, hndc, hdis⟩ := (nodup_plug _ _).mp hnd
  obtain ⟨h1, htr, hc1, hv1, hf1, hlen1, hrest1⟩ :=
    bst_transplant_spec root t.root hc hz hzp hndc hzn.2
      (by
        intro va hva
        have hm := PTree.root_mem_addrs hva
        exact ⟨fun hx => hdis va hm hx, ht.addr_lt va hm, by rintro rfl; exact hzn.1 hm⟩)
  refine ⟨h1, htr, (rep_plug _ _ _).mpr ⟨?_, hc1⟩, hlen1, hrest1⟩
  refine ht.reparent ?_ ?_ hndt
  · intro a ha
    rw [hv1 a ha]
    cases hq : h[a]? with
    | none => rfl
    | some n => simp [RefNode.link]
  · intro b hb hne
    rw [hf1 b (fun hx => hdis b hb hx) (fun e => hne e)]

/-- `bst_delete` of the node `z` of the reference tree: the store then holds the tree in
which the subtrees of `z` are joined in its place. -/
theorem bst_delete_spec {h : List RefNode} {root : Option Nat} {c : List (Frame Int)}
    {l r : PTree Int} {z : Nat} {v : Int}
    (hrep : Rep RefNode.link h (plug c (PTree.node l z v r)) none)
    (hnd : (plug c (PTree.node l z v r)).addrs.Nodup)
    (hroot : (plug c (PTree.node l z v r)).root = root) :
    ∃ h2, bst_delete h root (some z) = some (h2, (plug c (PTree.delRoot l r)).root) ∧
      Rep RefNode.link h2 (plug c (PTree.delRoot l r)) none ∧
      (plug c (PTree.delRoot l r)).addrs.Nodup ∧
      h2.length = h.length ∧ h2.map RefNode.rest = h.map RefNode.rest := by
  -- the tree without `z`
  have hsub : List.Sublist (plug c (PTree.delRoot l r)).toList
      (plug c (PTree.node l z v r)).toList := by
    rw [plug_toList, plug_toList, PTree.delRoot_toList]
    simp only [PTree.toList_node]
    refine List.Sublist.append (List.Sublist.append (List.Sublist.refl _) ?_)
      (List.Sublist.refl _)
    exact List.Sublist.append (List.Sublist.refl _) (List.sublist_cons_self _ _)
  have hnd2 : (plug c (PTree.delRoot l r)).addrs.Nodup :=
    List.Nodup.sublist (hsub.map Prod.fst) hnd
  have hzn2 : z ∉ (plug c (PTree.delRoot l r)).addrs := by
    intro hm
    have h1 : (plug c (PTree.node l z v r)).toList =
        (ctxBefore c ++ l.toList) ++ (z, v) :: (r.toList ++ ctxAfter c) := by
      rw [plug_toList]; simp
    have h2 : (plug c (PTree.delRoot l r)).toList =
        (ctxBefore c ++ l.toList) ++ (r.toList ++ ctxAfter c) := by
      rw [plug_toList, PTree.delRoot_toList]; simp
    simp only [PTree.addrs, h1, h2, List.map_append, List.map_cons] at hnd hm
    exact (List.nodup_cons.mp (List.nodup_middle.mp hnd)).1 hm
  have hroot2 : (plug c (PTree.delRoot l r)).root =
      if c.isEmpty then (PTree.delRoot l r).root else root := by
    rw [plug_root c (PTree.node l z v r), hroot]
  obtain ⟨hT, hc⟩ := (rep_plug _ _ _).mp hrep
  obtain ⟨zn, hzn, -, hzl, hzr, hzp⟩ := hT.ref_get
  obtain ⟨-, hl, hr⟩ := hT
  simp only [PTree.root_node] at hc
  rw [hroot2]
  cases l with
  | nil =>
    simp only [PTree.delRoot] at hnd2 hzn2 ⊢
    simp only [PTree.root_nil] at hzl
    obtain ⟨h1, htr, hrep1, hlen, hrest⟩ :=
      bst_transplant_child root hc hzn hzp hr hnd2 hzn2
    refine ⟨h1, ?_, hrep1, hnd2, hlen, hrest⟩
    simp [bst_delete, hzn, hzl, hzr, htr]
  | node ll la lv lr =>
    have hzl0 := hzl
    simp only [PTree.root_node] at hzl
    cases hs : r.splitMin with
    | none =>
      have hrn := PTree.splitMin_eq_none.mp hs
      subst hrn
      simp only [PTree.delRoot, hs] at hnd2 hzn2 ⊢
      simp only [PTree.root_nil] at hzr
      obtain ⟨h1, htr, hrep1, hlen, hrest⟩ :=
        bst_transplant_child root hc hzn hzp hl hnd2 hzn2
      refine ⟨h1, ?_, hrep1, hnd2, hlen, hrest⟩
      simp only [PTree.root_node] at htr
      simp [bst_delete, hzn, hzl, hzr, htr]
    | some p =>
      obtain ⟨y, yv, r2⟩ := p
      simp only [PTree.delRoot, hs] at hnd2 hzn2 ⊢
      obtain ⟨cL, ry, hrd, hr2⟩ := PTree.splitMin_plug hs
      have hrne : r.root ≠ none := by
        rw [ne_eq, PTree.root_eq_none]
        rintro rfl
        simp [PTree.splitMin] at hs
      have hmin : bst_minimum h zn.right = some (some y) := by
        have hsz := hrep.size_le hnd
        have hle : r.height ≤ h.length + 1 := by
          have h1 := r.height_le_size
          have h2 : r.size ≤ (plug c (PTree.node (PTree.node ll la lv lr) z v r)).size := by
            rw [← PTree.length_toList, ← PTree.length_toList, plug_toList]
            simp
            omega
          omega
        rw [hzr, bst_minimum, bst_minimum_loop_of_rep hr _ hle, hs]
        rfl
      have hcode : bst_delete h root (some z) =
          (bst_delete_lift h root z y).bind fun p => bst_delete_join p.1 p.2 z y := by
        simp only [bst_delete, hzn, hzl, hmin, Option.some_bind]
        rw [if_neg (by simp), if_neg (by rw [hzr]; exact hrne)]
      rw [hcode]
      subst hr2
      by_cases hcL : cL = []
      · -- the successor is the right child of `z`
        subst hcL
        simp only [plug] at hrd hnd2 hzn2 ⊢
        subst hrd
        obtain ⟨yn, hyn, hyk, -, hyr, hyp⟩ := hr.ref_get
        obtain ⟨-, -, hry⟩ := hr
        have hlift : bst_delete_lift h root z y = some (h, root) := by
          simp [bst_delete_lift, hyn, hyp]
        rw [hlift]
        simp only [Option.some_bind]
        obtain ⟨h6, hj, hrep6, hlen, hrest⟩ :=
          bst_delete_join_spec root hc hzn hzp hzl0 hl hyn hyk hyr hry hnd2 hzn2
        exact ⟨h6, hj, hrep6, hnd2, hlen, hrest⟩
      · subst hrd
        obtain ⟨h3, yn, zn3, hlift, hc3, hz3, hzp3, hzl3, hl3, hy3, hyk3, hyr3, hR3, hlen3,
          hrest3⟩ := bst_delete_lift_spec root hcL hrep hnd
        rw [hlift]
        simp only [Option.some_bind]
        obtain ⟨h6, hj, hrep6, hlen, hrest⟩ :=
          bst_delete_join_spec root hc3 hz3 hzp3 hzl3 hl3 hy3 hyk3 hyr3 hR3 hnd2 hzn2
        exact ⟨h6, hj, hrep6, hnd2, hlen.trans hlen3, hrest.trans hrest3⟩

/-- The node that the search ends at, singled out. -/
theorem PTree.find_plug {t : PTree Int} {k : Int} {z : Nat} (h : t.find k = some z) :
    ∃ c l r, t = plug c (PTree.node l z k r) := by
  induction t with
  | nil => simp [PTree.find] at h
  | node l a v r ihl ihr =>
    simp only [PTree.find] at h
    split_ifs at h with h1 h2
    · simp only [Option.some.injEq] at h
      subst h; subst h1
      exact ⟨[], l, r, rfl⟩
    · obtain ⟨c, l2, r2, hl⟩ := ihl h
      refine ⟨c ++ [Frame.inL a v r], l2, r2, ?_⟩
      rw [plug_append, ← hl]; rfl
    · obtain ⟨c, l2, r2, hr⟩ := ihr h
      refine ⟨c ++ [Frame.inR a v l], l2, r2, ?_⟩
      rw [plug_append, ← hr]; rfl

theorem plug_vals {β : Type} (c : List (Frame β)) (t : PTree β) :
    (plug c t).vals = (ctxBefore c).map Prod.snd ++ t.vals ++ (ctxAfter c).map Prod.snd := by
  simp [PTree.vals, plug_toList]

/-- The in-order keys after the removal of a node from a tree with distinct keys. -/
theorem plug_delRoot_vals {c : List (Frame Int)} {l r : PTree Int} {z : Nat} {k : Int}
    (hs : (plug c (PTree.node l z k r)).vals.Nodup) :
    (plug c (PTree.delRoot l r)).vals = (plug c (PTree.node l z k r)).vals.erase k := by
  rw [plug_vals, plug_vals] at *
  simp only [PTree.vals, PTree.delRoot_toList, List.map_append, PTree.toList_node,
    List.map_cons, List.append_assoc] at hs ⊢
  have h1 : k ∉ List.map Prod.snd (ctxBefore c) := by
    intro hm
    exact (List.nodup_append.mp hs).2.2 hm (by simp)
  have h2 : k ∉ List.map Prod.snd l.toList := by
    intro hm
    exact (List.nodup_append.mp (List.nodup_append.mp hs).2.1).2.2 hm (by simp)
  rw [List.erase_append_right _ h1, List.erase_append_right _ h2, List.cons_append,
    List.erase_cons_head]

/-- `bst_delete` of the node that the search for `k` ends at, in a search tree with
distinct keys. -/
theorem bst_delete_of_find {h : List RefNode} {root : Option Nat} {t : PTree Int}
    (ht : RefTree h root t) {k : Int} {z : Nat} (hf : t.find k = some z)
    (hs : t.vals.Sorted (· < ·)) :
    ∃ h2 root2 t2, bst_delete h root (some z) = some (h2, root2) ∧ RefTree h2 root2 t2 ∧
      t2.vals = t.vals.erase k ∧ h2.length = h.length ∧
      h2.map RefNode.rest = h.map RefNode.rest := by
  obtain ⟨c, l, r, rfl⟩ := PTree.find_plug hf
  obtain ⟨hroot, hrep, hnd⟩ := ht
  obtain ⟨h2, hd, hrep2, hnd2, hlen, hrest⟩ := bst_delete_spec hrep hnd hroot
  exact ⟨h2, _, _, hd, ⟨rfl, hrep2, hnd2⟩, plug_delRoot_vals hs.nodup, hlen, hrest⟩

/-! ### The balanced build -/

theorem mid_eq {l r : Int} (h0 : 0 ≤ l) (h1 : l ≤ r) (h2 : r < 2147483648)
    (h3 : 0 ≤ Int.tdiv (wrapInt32 (l + r)) 2) :
    Int.tdiv (wrapInt32 (l + r)) 2 = (l + r) / 2 := by
  unfold wrapInt32 at *
  by_cases hlt : l + r < 2147483648
  · have : (l + r + 2147483648) % 4294967296 - 2147483648 = l + r := by omega
    rw [this]
    exact Int.tdiv_eq_ediv (by omega) (by norm_num)
  · exfalso
    have : (l + r + 2147483648) % 4294967296 - 2147483648 = l + r - 4294967296 := by omega
    rw [this] at h3
    have e : l + r - 4294967296 = -(4294967296 - l - r) := by omega
    rw [e, Int.neg_tdiv] at h3
    have : (4294967296 - l - r).tdiv 2 = (4294967296 - l - r) / 2 :=
      Int.tdiv_eq_ediv (by omega) (by norm_num)
    rw [this] at h3
    omega

theorem arrGet_eq_some {α : Type} {arr : List α} {i : Int} {x : α} (h : arrGet arr i = some x) :
    0 ≤ i ∧ arr[i.toNat]? = some x := by
  unfold arrGet at h
  split_ifs at h with h0
  exact ⟨h0, h⟩

theorem slice_split {α : Type} (arr : List α) {l m r : Int} {x : α} (h0 : 0 ≤ l) (h1 : l ≤ m)
    (h2 : m ≤ r) (hx : arr[m.toNat]? = some x) :
    (arr.drop l.toNat).take (r + 1 - l).toNat =
      (arr.drop l.toNat).take (m - 1 + 1 - l).toNat ++
        x :: (arr.drop (m + 1).toNat).take (r + 1 - (m + 1)).toNat := by
  obtain ⟨a, rfl⟩ : ∃ a : Nat, l = a := ⟨l.toNat, by omega⟩
  obtain ⟨b, rfl⟩ : ∃ b : Nat, m = (a + b : Nat) := ⟨(m - a).toNat, by omega⟩
  obtain ⟨d, rfl⟩ : ∃ d : Nat, r = (a + b + d : Nat) := ⟨(r - (a + b : Nat)).toNat, by omega⟩
  have e1 : ((a + b + d : Nat) + 1 - (a : Int)).toNat = b + (1 + d) := by omega
  have e2 : (((a + b : Nat) : Int) - 1 + 1 - (a : Int)).toNat = b := by omega
  have e3 : (((a + b : Nat) : Int) + 1).toNat = a + b + 1 := by omega
  have e4 : ((a + b + d : Nat) + 1 - (((a + b : Nat) : Int) + 1)).toNat = d := by omega
  have e5 : ((a : Nat) : Int).toNat = a := by omega
  have e6 : (((a + b : Nat) : Int)).toNat = a + b := by omega
  rw [e1, e2, e3, e4, e5]
  rw [e6] at hx
  have hlt := lt_of_get hx
  rw [List.take_add, List.drop_drop, List.take_add, List.drop_drop]
  congr 1
  have hd : List.drop (a + b) arr = x :: List.drop (a + b + 1) arr := by
    rw [List.drop_eq_getElem_cons hlt]
    congr 1
    rw [List.getElem?_eq_getElem hlt] at hx
    exact Option.some.inj hx
  rw [hd]
  simp

/-- The statement `if (c) c->parent = node` after a subtree was built. -/
theorem reparent_step {h h3 : List RefNode} {t : PTree Int} {node : Nat}
    (hrep : Rep RefNode.link h t none) (hnd : t.addrs.Nodup)
    (hm : (match t.root with
      | none => some h
      | some c => modify h c fun n => { n with parent := some node }) = some h3) :
    Rep RefNode.link h3 t (some node) ∧ h3.length = h.length ∧
      (∀ b : Nat, t.root ≠ some b → h3[b]? = h[b]?) ∧
      ∀ b : Nat, (h3[b]?).map RefNode.rest = (h[b]?).map RefNode.rest := by
  cases t with
  | nil =>
    simp only [PTree.root_nil, Option.some.injEq] at hm
    subst hm
    exact ⟨trivial, rfl, fun _ _ => rfl, fun _ => rfl⟩
  | node l a v r =>
    simp only [PTree.root_node, modify_eq_some] at hm
    obtain ⟨n, hn, rfl⟩ := hm
    refine ⟨?_, by simp, ?_, ?_⟩
    · refine hrep.reparent ?_ ?_ hnd
      · intro b hb
        simp only [PTree.root_node, Option.some.injEq] at hb
        subst hb
        rw [get_set_self hn, hn]
        simp [RefNode.link]
      · intro b _ hne
        simp only [PTree.root_node, ne_eq, Option.some.injEq] at hne
        rw [List.getElem?_set_ne hne]
    · intro b hne
      simp only [PTree.root_node, ne_eq, Option.some.injEq] at hne
      rw [List.getElem?_set_ne hne]
    · intro b
      by_cases hb : a = b
      · subst hb
        rw [get_set_self hn, hn]
        rfl
      · rw [List.getElem?_set_ne hb]

theorem bheight_mono {a b : Nat} (h : a ≤ b) : bheight a ≤ bheight b := by
  unfold bheight
  split_ifs with h1 h2 h2
  · exact le_refl _
  · omega
  · omega
  · exact Nat.succ_le_succ (Nat.log_mono_right h)

/-- The longest path of a balanced tree of `n` nodes is one node longer than that of its
larger half. -/
theorem bheight_step {n : Nat} (hn : 1 ≤ n) :
    max (bheight ((n - 1) / 2)) (bheight (n / 2)) + 1 = bheight n := by
  have hle : bheight ((n - 1) / 2) ≤ bheight (n / 2) :=
    bheight_mono (Nat.div_le_div_right (Nat.sub_le n 1))
  rw [max_eq_right hle]
  by_cases h2 : n < 2
  · have e : n = 1 := by omega
    subst e
    simp [bheight]
  · have hlog : Nat.log 2 n = Nat.log 2 (n / 2) + 1 :=
      Nat.log_of_one_lt_of_le (by norm_num) (by omega)
    have h3 : n / 2 ≠ 0 := by omega
    have h4 : n ≠ 0 := by omega
    simp only [bheight, if_neg h3, if_neg h4, hlog]

/-- What a successful `build_ref_from_sorted(arr, l, r)` leaves in the store: a tree of
new nodes whose in-order keys are `arr[l..r]`, none of them with a preferred child or an
auxiliary pointer, and with as many nodes on its longest path as a balanced tree of
`r - l + 1` nodes has. -/
theorem build_ref_from_sorted_shape (arr : List Int) (hlen : arr.length < 2147483648) :
    ∀ (fuel : Nat) (h : List RefNode) (l r : Int) (h2 : List RefNode) (p : Option Nat),
      build_ref_from_sorted fuel h arr l r = some (h2, p) → 0 ≤ l → r < arr.length →
      l ≤ r + 1 →
      ∃ t : PTree Int, t.root = p ∧ Rep RefNode.link h2 t none ∧ t.addrs.Nodup ∧
        (∀ a ∈ t.addrs, h.length ≤ a) ∧ h2.length = h.length + t.size ∧
        (∀ b, b < h.length → h2[b]? = h[b]?) ∧
        t.vals = (arr.drop l.toNat).take (r + 1 - l).toNat ∧
        (∀ a ∈ t.addrs, ∃ n, h2[a]? = some n ∧ n.preferred = none ∧ n.aux_ptr = none) ∧
        (∀ b, h.length ≤ b → b < h2.length → b ∈ t.addrs) ∧
        t.height = bheight (r + 1 - l).toNat := by
  intro fuel
  induction fuel with
  | zero =>
    intro h l r h2 p hb
    simp [build_ref_from_sorted] at hb
  | succ fuel ih =>
    intro h l r h2 p hb h0 hr hl1
    by_cases hgt : l > r
    · simp only [build_ref_from_sorted, if_pos hgt, Option.some.injEq, Prod.mk.injEq] at hb
      obtain ⟨rfl, rfl⟩ := hb
      have e : (r + 1 - l).toNat = 0 := by omega
      refine ⟨PTree.nil, rfl, trivial, by simp, by simp, by simp, fun _ _ => rfl, by simp [e],
        by simp, ?_, by simp [e, bheight]⟩
      intro b h1 h2
      omega
    · cases hk : arrGet arr (Int.tdiv (wrapInt32 (l + r)) 2) with
      | none => simp [build_ref_from_sorted, if_neg hgt, hk] at hb
      | some k =>
        obtain ⟨hm0, hkx⟩ := arrGet_eq_some hk
        have hmid := mid_eq h0 (by omega) (by omega) hm0
        simp only [build_ref_from_sorted, if_neg hgt, hk, Option.bind_eq_some, Prod.exists,
          modify_eq_some] at hb
        rw [hmid] at hb hkx
        obtain ⟨h1, lft, hrec1, h2a, ⟨n1, hn1, rfl⟩, h3, hm3, h4, rgt, hrec2, h5, ⟨n5, hn5, rfl⟩,
          h6, hm6, h7, ⟨n7, hn7, rfl⟩, h8, ⟨n8, hn8, rfl⟩, hfin⟩ := hb
        simp only [Option.some.injEq, Prod.mk.injEq] at hfin
        obtain ⟨rfl, rfl⟩ := hfin
        have hmlt : ((l + r) / 2).toNat < arr.length := lt_of_get hkx
        -- the left subtree
        obtain ⟨t1, hroot1, hrep1, hnd1, hge1, hlen1, hpre1, hvals1, hmarks1, hcov1, hht1⟩ :=
          ih _ _ _ _ _ hrec1 h0 (by omega) (by omega)
        simp only [List.length_append, List.length_singleton] at hge1 hlen1 hpre1 hcov1
        subst hroot1
        have hnode1 : h1[h.length]? = some (RefNode.new k) := by
          rw [hpre1 _ (by omega), List.getElem?_concat_length]
        rw [hnode1, Option.some.injEq] at hn1
        subst hn1
        have hnot1 : h.length ∉ t1.addrs := fun hm => by
          have := hge1 _ hm
          omega
        have hrep2a : ∀ m : RefNode, Rep RefNode.link (h1.set h.length m) t1 none := by
          intro m
          apply hrep1.frame
          intro a ha
          rw [List.getElem?_set_ne (by rintro rfl; exact hnot1 ha)]
        obtain ⟨hrep3, hlen3, hfr3, hrest3⟩ := reparent_step (hrep2a _) hnd1 hm3
        simp only [List.length_set] at hlen3
        -- the right subtree
        obtain ⟨t2, hroot2, hrep4, hnd2, hge2, hlen4, hpre4, hvals2, hmarks2, hcov2, hht2⟩ :=
          ih _ _ _ _ _ hrec2 (by omega) hr (by omega)
        subst hroot2
        have hnot2 : h.length ∉ t2.addrs := fun hm => by
          have := hge2 _ hm
          omega
        have hnode3 := (hfr3 _ (fun e => hnot1 (PTree.root_mem_addrs e))).trans
          (get_set_self hnode1)
        have hnode4 := (hpre4 h.length (by omega)).trans hnode3
        rw [hnode4, Option.some.injEq] at hn5
        subst hn5
        have hrep5 : ∀ m : RefNode, Rep RefNode.link (h4.set h.length m) t2 none := by
          intro m
          apply hrep4.frame
          intro a ha
          rw [List.getElem?_set_ne (by rintro rfl; exact hnot2 ha)]
        obtain ⟨hrep6, hlen6, hfr6, hrest6⟩ := reparent_step (hrep5 _) hnd2 hm6
        simp only [List.length_set] at hlen6
        have hnode6 := (hfr6 _ (fun e => hnot2 (PTree.root_mem_addrs e))).trans
          (get_set_self hnode4)
        rw [hnode6, Option.some.injEq] at hn7
        subst hn7
        rw [get_set_self hnode6, Option.some.injEq] at hn8
        subst hn8
        -- lookups in the final store
        have hfinal : ∀ (b : Nat) (m1 m2 : RefNode), b ≠ h.length →
            ((h6.set h.length m1).set h.length m2)[b]? = h6[b]? := fun b m1 m2 hb => by
          rw [List.getElem?_set_ne (Ne.symm hb), List.getElem?_set_ne (Ne.symm hb)]
        have hdisj : ∀ b, b ∈ t1.addrs → b ∈ t2.addrs → False := fun b hb1 hb2 => by
          have := hrep1.addr_lt b hb1
          have := hge2 b hb2
          omega
        have h63 : ∀ b, b ∈ t1.addrs → h6[b]? = h3[b]? := fun b hb => by
          rw [hfr6 b (fun e => hdisj b hb (PTree.root_mem_addrs e)),
            List.getElem?_set_ne (by rintro rfl; exact hnot1 hb),
            hpre4 b (by have := hrep1.addr_lt b hb; omega)]
        refine ⟨PTree.node t1 h.length k t2, rfl, ⟨?_, hrep3.frame ?_, hrep6.frame ?_⟩, ?_, ?_, ?_,
          ?_, ?_, ?_, ?_, ?_⟩
        · rw [get_set_self (get_set_self hnode6)]
          simp [RefNode.link, RefNode.new]
        · intro b hb
          rw [hfinal b _ _ (by rintro rfl; exact hnot1 hb), h63 b hb]
        · intro b hb
          rw [hfinal b _ _ (by rintro rfl; exact hnot2 hb)]
        · simp only [PTree.addrs_node]
          rw [List.nodup_append]
          refine ⟨hnd1, List.nodup_cons.mpr ⟨hnot2, hnd2⟩, ?_⟩
          intro b hb1 hb2
          simp only [List.mem_cons] at hb2
          rcases hb2 with rfl | hb2
          · exact hnot1 hb1
          · exact hdisj b hb1 hb2
        · intro a ha
          simp only [PTree.addrs_node, List.mem_append, List.mem_cons] at ha
          rcases ha with ha | rfl | ha
          · have := hge1 a ha
            omega
          · exact le_refl _
          · have := hge2 a ha
            omega
        · simp only [List.length_set, PTree.size_node]
          omega
        · intro b hb
          rw [hfinal b _ _ (by omega),
            hfr6 b (fun e => by
              have := hge2 b (PTree.root_mem_addrs e)
              omega),
            List.getElem?_set_ne (by omega), hpre4 b (by omega),
            hfr3 b (fun e => by
              have := hge1 b (PTree.root_mem_addrs e)
              omega),
            List.getElem?_set_ne (by omega), hpre1 b (by omega),
            List.getElem?_append_left hb]
        · rw [PTree.vals_node, hvals1, hvals2]
          exact (slice_split arr h0 (by omega) (by omega) hkx).symm
        · intro a ha
          simp only [PTree.addrs_node, List.mem_append, List.mem_cons] at ha
          rcases ha with ha | rfl | ha
          · obtain ⟨n, hn, hp, hx⟩ := hmarks1 a ha
            have e1 : (h3[a]?).map RefNode.rest = some n.rest := by
              rw [hrest3 a, List.getElem?_set_ne (by rintro rfl; exact hnot1 ha), hn]
              rfl
            rw [hfinal a _ _ (by rintro rfl; exact hnot1 ha), h63 a ha]
            cases hq : h3[a]? with
            | none => simp [hq] at e1
            | some m =>
              simp only [hq, Option.map_some', Option.some.injEq, RefNode.rest,
                Prod.mk.injEq] at e1
              exact ⟨m, rfl, by rw [e1.2.2, hp], by rw [e1.2.1, hx]⟩
          · exact ⟨_, get_set_self (get_set_self hnode6), rfl, rfl⟩
          · obtain ⟨n, hn, hp, hx⟩ := hmarks2 a ha
            have e1 : (h6[a]?).map RefNode.rest = some n.rest := by
              rw [hrest6 a, List.getElem?_set_ne (by rintro rfl; exact hnot2 ha), hn]
              rfl
            rw [hfinal a _ _ (by rintro rfl; exact hnot2 ha)]
            cases hq : h6[a]? with
            | none => simp [hq] at e1
            | some m =>
              simp only [hq, Option.map_some', Option.some.injEq, RefNode.rest,
                Prod.mk.injEq] at e1
              exact ⟨m, rfl, by rw [e1.2.2, hp], by rw [e1.2.1, hx]⟩
        · intro b hb1 hb2
          simp only [List.length_set] at hb2
          simp only [PTree.addrs_node, List.mem_append, List.mem_cons]
          by_cases e : b = h.length
          · right; left; exact e
          · by_cases e2 : b < h1.length
            · left
              exact hcov1 b (by omega) e2
            · right; right
              exact hcov2 b (by omega) (by omega)
        · rw [PTree.height_node, hht1, hht2]
          have hn : 1 ≤ (r + 1 - l).toNat := by omega
          have e1 : ((l + r) / 2 - 1 + 1 - l).toNat = ((r + 1 - l).toNat - 1) / 2 := by omega
          have e2 : (r + 1 - ((l + r) / 2 + 1)).toNat = (r + 1 - l).toNat / 2 := by omega
          rw [e1, e2]
          exact bheight_step hn

/-- What a successful `build_ref_from_sorted(arr, l, r)` leaves in the store: a tree of
new nodes whose in-order keys are `arr[l..r]`, none of them with a preferred child or an
auxiliary pointer. -/
theorem build_ref_from_sorted_spec (arr : List Int) (hlen : arr.length < 2147483648) :
    ∀ (fuel : Nat) (h : List RefNode) (l r : Int) (h2 : List RefNode) (p : Option Nat),
      build_ref_from_sorted fuel h arr l r = some (h2, p) → 0 ≤ l → r < arr.length →
      l ≤ r + 1 →
      ∃ t : PTree Int, t.root = p ∧ Rep RefNode.link h2 t none ∧ t.addrs.Nodup ∧
        (∀ a ∈ t.addrs, h.length ≤ a) ∧ h2.length = h.length + t.size ∧
        (∀ b, b < h.length → h2[b]? = h[b]?) ∧
        t.vals = (arr.drop l.toNat).take (r + 1 - l).toNat ∧
        (∀ a ∈ t.addrs, ∃ n, h2[a]? = some n ∧ n.preferred = none ∧ n.aux_ptr = none) ∧
        ∀ b, h.length ≤ b → b < h2.length → b ∈ t.addrs := by
  intro fuel h l r h2 p hb h0 hr hl1
  obtain ⟨t, a1, a2, a3, a4, a5, a6, a7, a8, a9, -⟩ :=
    build_ref_from_sorted_shape arr hlen fuel h l r h2 p hb h0 hr hl1
  exact ⟨t, a1, a2, a3, a4, a5, a6, a7, a8, a9⟩

/-! ## Auxiliary trees -/

theorem Rep.aux_get {h : List AuxNode} {l r : PTree (Option Nat)} {a : Nat} {v : Option Nat}
    {par : Option Nat} (hr : Rep AuxNode.link h (PTree.node l a v r) par) :
    h[a]? = some ⟨v, l.root, r.root, par⟩ := by
  obtain ⟨n, hn, hl⟩ := hr.root_get
  rw [hn]
  cases n
  simp only [AuxNode.link, Link.mk.injEq] at hl
  obtain ⟨rfl, rfl, rfl, rfl⟩ := hl
  rfl

/-- The statement `if (b) b->parent = p` of a rotation. -/
theorem aux_reparent_step {h h3 : List AuxNode} {t : PTree (Option Nat)} {p : Nat}
    {par : Option Nat} (hrep : Rep AuxNode.link h t par) (hnd : t.addrs.Nodup)
    (hm : aux_link_parent h t.root (some p) = some h3) :
    Rep AuxNode.link h3 t (some p) ∧ h3.length = h.length ∧
      (∀ b : Nat, t.root ≠ some b → h3[b]? = h[b]?) := by
  cases t with
  | nil =>
    simp only [aux_link_parent, PTree.root_nil, Option.some.injEq] at hm
    subst hm
    exact ⟨trivial, rfl, fun _ _ => rfl⟩
  | node l a v r =>
    simp only [aux_link_parent, PTree.root_node, modify_eq_some] at hm
    obtain ⟨n, hn, rfl⟩ := hm
    refine ⟨?_, by simp, ?_⟩
    · refine hrep.reparent ?_ ?_ hnd
      · intro b hb
        simp only [PTree.root_node, Option.some.injEq] at hb
        subst hb
        rw [get_set_self hn, hn]
        simp [AuxNode.link]
      · intro b _ hne
        simp only [PTree.root_node, ne_eq, Option.some.injEq] at hne
        rw [List.getElem?_set_ne hne]
    · intro b hne
      simp only [PTree.root_node, ne_eq, Option.some.injEq] at hne
      rw [List.getElem?_set_ne hne]

/-- The last statements of a rotation: the node above `p`, if there is one, gets `x` in
the place of `p`. -/
theorem aux_rehole {h : List AuxNode} {c : List (Frame (Option Nat))} {p : Nat} (x : Nat)
    (hc : CRep AuxNode.link h c (some p) none) (hnd : (ctxAddrs c).Nodup)
    (hp : p ∉ ctxAddrs c) :
    ∃ h6, aux_replace_child h (ctxAddr c none) p x = some h6 ∧
      CRep AuxNode.link h6 c (some x) none ∧ h6.length = h.length ∧
      ∀ b : Nat, b ∉ ctxAddrs c → h6[b]? = h[b]? := by
  cases c with
  | nil => exact ⟨h, rfl, trivial, rfl, fun _ _ => rfl⟩
  | cons f c =>
    unfold aux_replace_child
    obtain ⟨hfs, hfc, -, -, -⟩ := (nodup_ctxAddrs_cons f c).mp hnd
    cases f with
    | inL a gv s =>
      simp only [Frame.addr_inL, Frame.sib_inL] at hfs hfc
      obtain ⟨hga, hs, hcc⟩ := hc
      obtain ⟨gn, hgn⟩ : ∃ gn, h[a]? = some gn := by
        cases hq : h[a]? with
        | none => simp [hq] at hga
        | some gn => exact ⟨gn, rfl⟩
      simp only [hgn, Option.map_some', Option.some.injEq, AuxNode.link, Link.mk.injEq] at hga
      obtain ⟨hgk, hgl, hgr, hgp⟩ := hga
      refine ⟨h.set a { gn with left := some x }, ?_, ⟨?_, hs.frame ?_, hcc.cframe ?_⟩, by simp,
        ?_⟩
      · simp [ctxAddr, hgn, hgl, modify_of_get hgn]
      · rw [get_set_self hgn]
        simp [AuxNode.link, hgk, hgr, hgp]
      · intro b hb
        rw [List.getElem?_set_ne (by rintro rfl; exact hfs hb)]
      · intro b hb
        rw [List.getElem?_set_ne (by rintro rfl; exact hfc hb)]
      · intro b hb
        rw [List.getElem?_set_ne (by rintro rfl; exact hb (by simp [mem_ctxAddrs_cons]))]
    | inR a gv s =>
      simp only [Frame.addr_inR, Frame.sib_inR] at hfs hfc
      obtain ⟨hga, hs, hcc⟩ := hc
      obtain ⟨gn, hgn⟩ : ∃ gn, h[a]? = some gn := by
        cases hq : h[a]? with
        | none => simp [hq] at hga
        | some gn => exact ⟨gn, rfl⟩
      simp only [hgn, Option.map_some', Option.some.injEq, AuxNode.link, Link.mk.injEq] at hga
      obtain ⟨hgk, hgl, hgr, hgp⟩ := hga
      have hne : gn.left ≠ some p := by
        rw [hgl]
        intro hs2
        exact hp (by
          simp only [mem_ctxAddrs_cons, Frame.sib_inR]
          right; left
          exact PTree.root_mem_addrs hs2)
      refine ⟨h.set a { gn with right := some x }, ?_, ⟨?_, hs.frame ?_, hcc.cframe ?_⟩, by simp,
        ?_⟩
      · simp [ctxAddr, hgn, hne, modify_of_get hgn]
      · rw [get_set_self hgn]
        simp [AuxNode.link, hgk, hgl, hgp]
      · intro b hb
        rw [List.getElem?_set_ne (by rintro rfl; exact hfs hb)]
      · intro b hb
        rw [List.getElem?_set_ne (by rintro rfl; exact hfc hb)]
      · intro b hb
        rw [List.getElem?_set_ne (by rintro rfl; exact hb (by simp [mem_ctxAddrs_cons]))]

/-- `rotate_right(x)` for the left child `x` of `p`, anywhere in a tree. -/
theorem rotate_right_spec {h : List AuxNode} {c : List (Frame (Option Nat))}
    {A B C : PTree (Option Nat)} {x p : Nat} {xv pv : Option Nat}
    (hrep : Rep AuxNode.link h (plug c (PTree.node (PTree.node A x xv B) p pv C)) none)
    (hnd : (plug c (PTree.node (PTree.node A x xv B) p pv C)).addrs.Nodup) :
    ∃ h2, rotate_right h x = some h2 ∧
      Rep AuxNode.link h2 (plug c (PTree.node A x xv (PTree.node B p pv C))) none ∧
      h2.length = h.length ∧
      ∀ b : Nat, b ∉ (plug c (PTree.node (PTree.node A x xv B) p pv C)).addrs →
        h2[b]? = h[b]? := by
  obtain ⟨hT, hc⟩ := (rep_plug _ _ _).mp hrep
  obtain ⟨hndT, hndc, hdis⟩ := (nodup_plug _ _).mp hnd
  have hpn := hT.aux_get
  obtain ⟨-, hX, hC⟩ := hT
  have hxn := hX.aux_get
  obtain ⟨-, hA, hB⟩ := hX
  simp only [PTree.root_node] at hpn hc
  -- addresses
  simp only [PTree.addrs_node, List.append_assoc, List.cons_append] at hndT hdis
  have hd : ∀ b, (b ∈ A.addrs ∨ b = x ∨ b ∈ B.addrs ∨ b = p ∨ b ∈ C.addrs) →
      b ∉ ctxAddrs c := fun b hb hm => hdis b (by simpa using hb) hm
  have hndA : A.addrs.Nodup := (List.nodup_append.mp hndT).1
  have h2 := (List.nodup_cons.mp (List.nodup_append.mp hndT).2.1)
  have hndB : B.addrs.Nodup := (List.nodup_append.mp h2.2).1
  have h3 := (List.nodup_cons.mp (List.nodup_append.mp h2.2).2.1)
  have hxA : x ∉ A.addrs := fun hm => (List.nodup_append.mp hndT).2.2 hm (by simp)
  have hxB : x ∉ B.addrs := fun hm => h2.1 (by simp [hm])
  have hxp : x ≠ p := fun e => h2.1 (by simp [e])
  have hxC : x ∉ C.addrs := fun hm => h2.1 (by simp [hm])
  have hpA : p ∉ A.addrs := fun hm => (List.nodup_append.mp hndT).2.2 hm (by simp)
  have hpB : p ∉ B.addrs := fun hm => (List.nodup_append.mp h2.2).2.2 hm (by simp)
  have hpC : p ∉ C.addrs := h3.1
  have hAB : ∀ b, b ∈ A.addrs → b ∈ B.addrs → False := fun b h4 h5 =>
    (List.nodup_append.mp hndT).2.2 h4 (by simp [h5])
  have hBC : ∀ b, b ∈ B.addrs → b ∈ C.addrs → False := fun b h4 h5 =>
    (List.nodup_append.mp h2.2).2.2 h4 (by simp [h5])
  -- the writes
  have hB1 : Rep AuxNode.link (h.set p ⟨pv, B.root, C.root, ctxAddr c none⟩) B (some x) := by
    apply hB.frame
    intro b hb
    rw [List.getElem?_set_ne (by rintro rfl; exact hpB hb)]
  cases hm2 : aux_link_parent (h.set p ⟨pv, B.root, C.root, ctxAddr c none⟩) B.root
      (some p) with
  | none =>
    exfalso
    cases B with
    | nil => simp [aux_link_parent] at hm2
    | node bl b bv br =>
      have hb1 := hB1.aux_get
      simp only [aux_link_parent, PTree.root_node] at hm2 hb1
      rw [modify_of_get hb1] at hm2
      simp at hm2
  | some h2a =>
    obtain ⟨hB2, hlen2, hfr2⟩ := aux_reparent_step hB1 hndB hm2
    have hx2 : h2a[x]? = some ⟨xv, A.root, B.root, some p⟩ := by
      rw [hfr2 x (fun e => hxB (PTree.root_mem_addrs e)), List.getElem?_set_ne (Ne.symm hxp),
        hxn]
    have hp2 : h2a[p]? = some ⟨pv, B.root, C.root, ctxAddr c none⟩ := by
      rw [hfr2 p (fun e => hpB (PTree.root_mem_addrs e)), get_set_self hpn]
    have hp3 : (h2a.set x ⟨xv, A.root, some p, some p⟩)[p]? =
        some ⟨pv, B.root, C.root, ctxAddr c none⟩ := by
      rw [List.getElem?_set_ne hxp, hp2]
    have hx4 : ((h2a.set x ⟨xv, A.root, some p, some p⟩).set p
        ⟨pv, B.root, C.root, some x⟩)[x]? = some ⟨xv, A.root, some p, some p⟩ := by
      rw [List.getElem?_set_ne (Ne.symm hxp), get_set_self hx2]
    -- the store before the node above `p` is written
    have hfr5 : ∀ b : Nat, b ≠ x → b ≠ p → B.root ≠ some b →
        (((h2a.set x ⟨xv, A.root, some p, some p⟩).set p ⟨pv, B.root, C.root, some x⟩).set x
          ⟨xv, A.root, some p, ctxAddr c none⟩)[b]? = h[b]? := by
      intro b hbx hbp hbB
      rw [List.getElem?_set_ne (Ne.symm hbx), List.getElem?_set_ne (Ne.symm hbp),
        List.getElem?_set_ne (Ne.symm hbx), hfr2 b hbB, List.getElem?_set_ne (Ne.symm hbp)]
    have hc5 : CRep AuxNode.link
        (((h2a.set x ⟨xv, A.root, some p, some p⟩).set p ⟨pv, B.root, C.root, some x⟩).set x
          ⟨xv, A.root, some p, ctxAddr c none⟩) c (some p) none := by
      apply hc.cframe
      intro b hb
      rw [hfr5 b (by rintro rfl; exact hd _ (by simp) hb) (by rintro rfl; exact hd _ (by simp) hb)
        (fun e => hd b (Or.inr (Or.inr (Or.inl (PTree.root_mem_addrs e)))) hb)]
    obtain ⟨h6, hm6, hc6, hlen6, hfr6⟩ := aux_rehole x hc5 hndc (hd p (by simp))
    refine ⟨h6, ?_, (rep_plug _ _ _).mpr ⟨⟨?_, hA.frame ?_, ?_, hB2.frame ?_, hC.frame ?_⟩, hc6⟩,
      ?_, ?_⟩
    · simp only [rotate_right, hxn, hpn, modify_of_get hpn, Option.some_bind]
      rw [hm2]
      simp only [Option.some_bind, modify_of_get hx2, modify_of_get hp3, modify_of_get hx4]
      exact hm6
    · rw [hfr6 x (hd x (by simp)), get_set_self hx4]
      rfl
    · intro b hb
      rw [hfr6 b (hd b (by simp [hb])),
        hfr5 b (by rintro rfl; exact hxA hb) (by rintro rfl; exact hpA hb)
          (fun e => hAB b hb (PTree.root_mem_addrs e))]
    · rw [hfr6 p (hd p (by simp)), List.getElem?_set_ne hxp, get_set_self hp3]
      rfl
    · intro b hb
      rw [hfr6 b (hd b (by simp [hb])), List.getElem?_set_ne (by rintro rfl; exact hxB hb),
        List.getElem?_set_ne (by rintro rfl; exact hpB hb),
        List.getElem?_set_ne (by rintro rfl; exact hxB hb)]
    · intro b hb
      rw [hfr6 b (hd b (by simp [hb])),
        hfr5 b (by rintro rfl; exact hxC hb) (by rintro rfl; exact hpC hb)
          (fun e => hBC b (PTree.root_mem_addrs e) hb)]
    · rw [hlen6]
      simp [hlen2]
    · intro b hb
      rw [mem_plug_addrs] at hb
      simp only [PTree.addrs_node, List.mem_append, List.mem_cons, not_or] at hb
      rw [hfr6 b hb.2,
        hfr5 b hb.1.1.2.1 hb.1.2.1 (fun e => hb.1.1.2.2 (PTree.root_mem_addrs e))]

/-- `rotate_left(x)` for the right child `x` of `p`, anywhere in a tree. -/
theorem rotate_left_spec {h : List AuxNode} {c : List (Frame (Option Nat))}
    {A B C : PTree (Option Nat)} {x p : Nat} {xv pv : Option Nat}
    (hrep : Rep AuxNode.link h (plug c (PTree.node A p pv (PTree.node B x xv C))) none)
    (hnd : (plug c (PTree.node A p pv (PTree.node B x xv C))).addrs.Nodup) :
    ∃ h2, rotate_left h x = some h2 ∧
      Rep AuxNode.link h2 (plug c (PTree.node (PTree.node A p pv B) x xv C)) none ∧
      h2.length = h.length ∧
      ∀ b : Nat, b ∉ (plug c (PTree.node A p pv (PTree.node B x xv C))).addrs →
        h2[b]? = h[b]? := by
  obtain ⟨hT, hc⟩ := (rep_plug _ _ _).mp hrep
  obtain ⟨hndT, hndc, hdis⟩ := (nodup_plug _ _).mp hnd
  have hpn := hT.aux_get
  obtain ⟨-, hA, hX⟩ := hT
  have hxn := hX.aux_get
  obtain ⟨-, hB, hC⟩ := hX
  simp only [PTree.root_node] at hpn hc
  -- addresses
  simp only [PTree.addrs_node, List.append_assoc, List.cons_append] at hndT hdis
  have hd : ∀ b, (b ∈ A.addrs ∨ b = p ∨ b ∈ B.addrs ∨ b = x ∨ b ∈ C.addrs) →
      b ∉ ctxAddrs c := fun b hb hm => hdis b (by simpa using hb) hm
  have hndA : A.addrs.Nodup := (List.nodup_append.mp hndT).1
  have h2 := (List.nodup_cons.mp (List.nodup_append.mp hndT).2.1)
  have hndB : B.addrs.Nodup := (List.nodup_append.mp h2.2).1
  have h3 := (List.nodup_cons.mp (List.nodup_append.mp h2.2).2.1)
  have hpA : p ∉ A.addrs := fun hm => (List.nodup_append.mp hndT).2.2 hm (by simp)
  have hpB : p ∉ B.addrs := fun hm => h2.1 (by simp [hm])
  have hxp : x ≠ p := fun e => h2.1 (by simp [e])
  have hpC : p ∉ C.addrs := fun hm => h2.1 (by simp [hm])
  have hxA : x ∉ A.addrs := fun hm => (List.nodup_append.mp hndT).2.2 hm (by simp)
  have hxB : x ∉ B.addrs := fun hm => (List.nodup_append.mp h2.2).2.2 hm (by simp)
  have hxC : x ∉ C.addrs := h3.1
  have hAB : ∀ b, b ∈ A.addrs → b ∈ B.addrs → False := fun b h4 h5 =>
    (List.nodup_append.mp hndT).2.2 h4 (by simp [h5])
  have hBC : ∀ b, b ∈ B.addrs → b ∈ C.addrs → False := fun b h4 h5 =>
    (List.nodup_append.mp h2.2).2.2 h4 (by simp [h5])
  -- the writes
  have hB1 : Rep AuxNode.link (h.set p ⟨pv, A.root, B.root, ctxAddr c none⟩) B (some x) := by
    apply hB.frame
    intro b hb
    rw [List.getElem?_set_ne (by rintro rfl; exact hpB hb)]
  cases hm2 : aux_link_parent (h.set p ⟨pv, A.root, B.root, ctxAddr c none⟩) B.root
      (some p) with
  | none =>
    exfalso
    cases B with
    | nil => simp [aux_link_parent] at hm2
    | node bl b bv br =>
      have hb1 := hB1.aux_get
      simp only [aux_link_parent, PTree.root_node] at hm2 hb1
      rw [modify_of_get hb1] at hm2
      simp at hm2
  | some h2a =>
    obtain ⟨hB2, hlen2, hfr2⟩ := aux_reparent_step hB1 hndB hm2
    have hx2 : h2a[x]? = some ⟨xv, B.root, C.root, some p⟩ := by
      rw [hfr2 x (fun e => hxB (PTree.root_mem_addrs e)), List.getElem?_set_ne (Ne.symm hxp),
        hxn]
    have hp2 : h2a[p]? = some ⟨pv, A.root, B.root, ctxAddr c none⟩ := by
      rw [hfr2 p (fun e => hpB (PTree.root_mem_addrs e)), get_set_self hpn]
    have hp3 : (h2a.set x ⟨xv, some p, C.root, some p⟩)[p]? =
        some ⟨pv, A.root, B.root, ctxAddr c none⟩ := by
      rw [List.getElem?_set_ne hxp, hp2]
    have hx4 : ((h2a.set x ⟨xv, some p, C.root, some p⟩).set p
        ⟨pv, A.root, B.root, some x⟩)[x]? = some ⟨xv, some p, C.root, some p⟩ := by
      rw [List.getElem?_set_ne (Ne.symm hxp), get_set_self hx2]
    -- the store before the node above `p` is written
    have hfr5 : ∀ b : Nat, b ≠ x → b ≠ p → B.root ≠ some b →
        (((h2a.set x ⟨xv, some p, C.root, some p⟩).set p ⟨pv, A.root, B.root, some x⟩).set x
          ⟨xv, some p, C.root, ctxAddr c none⟩)[b]? = h[b]? := by
      intro b hbx hbp hbB
      rw [List.getElem?_set_ne (Ne.symm hbx), List.getElem?_set_ne (Ne.symm hbp),
        List.getElem?_set_ne (Ne.symm hbx), hfr2 b hbB, List.getElem?_set_ne (Ne.symm hbp)]
    have hc5 : CRep AuxNode.link
        (((h2a.set x ⟨xv, some p, C.root, some p⟩).set p ⟨pv, A.root, B.root, some x⟩).set x
          ⟨xv, some p, C.root, ctxAddr c none⟩) c (some p) none := by
      apply hc.cframe
      intro b hb
      rw [hfr5 b (by rintro rfl; exact hd _ (by simp) hb) (by rintro rfl; exact hd _ (by simp) hb)
        (fun e => hd b (Or.inr (Or.inr (Or.inl (PTree.root_mem_addrs e)))) hb)]
    obtain ⟨h6, hm6, hc6, hlen6, hfr6⟩ := aux_rehole x hc5 hndc (hd p (by simp))
    refine ⟨h6, ?_, (rep_plug _ _ _).mpr ⟨⟨?_, ⟨?_, hA.frame ?_, hB2.frame ?_⟩, hC.frame ?_⟩, hc6⟩,
      ?_, ?_⟩
    · simp only [rotate_left, hxn, hpn, modify_of_get hpn, Option.some_bind]
      rw [hm2]
      simp only [Option.some_bind, modify_of_get hx2, modify_of_get hp3, modify_of_get hx4]
      exact hm6
    · rw [hfr6 x (hd x (by simp)), get_set_self hx4]
      rfl
    · rw [hfr6 p (hd p (by simp)), List.getElem?_set_ne hxp, get_set_self hp3]
      rfl
    · intro b hb
      rw [hfr6 b (hd b (by simp [hb])),
        hfr5 b (by rintro rfl; exact hxA hb) (by rintro rfl; exact hpA hb)
          (fun e => hAB b hb (PTree.root_mem_addrs e))]
    · intro b hb
      rw [hfr6 b (hd b (by simp [hb])), List.getElem?_set_ne (by rintro rfl; exact hxB hb),
        List.getElem?_set_ne (by rintro rfl; exact hpB hb),
        List.getElem?_set_ne (by rintro rfl; exact hxB hb)]
    · intro b hb
      rw [hfr6 b (hd b (by simp [hb])),
        hfr5 b (by rintro rfl; exact hxC hb) (by rintro rfl; exact hpC hb)
          (fun e => hBC b (PTree.root_mem_addrs e) hb)]
    · rw [hlen6]
      simp [hlen2]
    · intro b hb
      rw [mem_plug_addrs] at hb
      simp only [PTree.addrs_node, List.mem_append, List.mem_cons, not_or] at hb
      rw [hfr6 b hb.2,
        hfr5 b hb.1.2.2.2.1 hb.1.2.1 (fun e => hb.1.2.2.1 (PTree.root_mem_addrs e))]

theorem PTree.root_ne_of_not_mem {β : Type} {t : PTree β} {a : Nat} (h : a ∉ t.addrs) :
    t.root ≠ some a := fun e => h (PTree.root_mem_addrs e)

theorem aux_of_link {h : List AuxNode} {a : Nat} {v l r p : Option Nat}
    (hl : (h[a]?).map AuxNode.link = some ⟨v, l, r, p⟩) : h[a]? = some ⟨v, l, r, p⟩ := by
  cases hq : h[a]? with
  | none => simp [hq] at hl
  | some n =>
    cases n
    simp only [hq, Option.map_some', Option.some.injEq, AuxNode.link, Link.mk.injEq] at hl
    obtain ⟨rfl, rfl, rfl, rfl⟩ := hl
    rfl

theorem addrs_eq_of_toList_eq {β : Type} {t t2 : PTree β} (h : t.toList = t2.toList) :
    t.addrs = t2.addrs := by
  simp [PTree.addrs, h]

/-- One pass of the loop of `splay`: the rotations use up one or two of the frames
above `x`. -/
theorem splay_step_spec {h : List AuxNode} {f1 : Frame (Option Nat)}
    {rest : List (Frame (Option Nat))} {A B : PTree (Option Nat)} {x : Nat} {xv : Option Nat}
    (hrep : Rep AuxNode.link h (plug (f1 :: rest) (PTree.node A x xv B)) none)
    (hnd : (plug (f1 :: rest) (PTree.node A x xv B)).addrs.Nodup) :
    ∃ h1 c2 A2 B2, splay_step h x f1.addr = some h1 ∧
      Rep AuxNode.link h1 (plug c2 (PTree.node A2 x xv B2)) none ∧
      (plug c2 (PTree.node A2 x xv B2)).toList =
        (plug (f1 :: rest) (PTree.node A x xv B)).toList ∧
      c2.length < (f1 :: rest).length ∧
      splayF (f1 :: rest) A x xv B = splayF c2 A2 x xv B2 ∧
      h1.length = h.length ∧
      ∀ b : Nat, b ∉ (plug (f1 :: rest) (PTree.node A x xv B)).addrs → h1[b]? = h[b]? := by
  obtain ⟨hX, hC⟩ := (rep_plug _ _ _).mp hrep
  obtain ⟨hndX, hndc, hdis⟩ := (nodup_plug _ _).mp hnd
  have hxc : x ∉ ctxAddrs (f1 :: rest) := fun hm => hdis x (by simp) hm
  cases f1 with
  | inL p pv C =>
    obtain ⟨hp, hCr, hCrest⟩ := hC
    have hpn := aux_of_link hp
    cases rest with
    | nil =>
      -- zig
      simp only [ctxAddr] at hpn
      obtain ⟨h1, hr1, hrep1, hlen1, hfr1⟩ :=
        rotate_right_spec (c := []) (A := A) (B := B) (C := C) (x := x) (p := p) hrep hnd
      refine ⟨h1, [], A, PTree.node B p pv C, ?_, hrep1, ?_, by simp, rfl, hlen1, hfr1⟩
      · simp [splay_step, hpn, hr1]
      · simp [plug]
    | cons f2 c =>
      cases f2 with
      | inL g gv D =>
        -- zig-zig
        obtain ⟨hg, hDr, hcc⟩ := hCrest
        have hgn := aux_of_link hg
        simp only [ctxAddr, Frame.addr_inL] at hpn
        have e1 : (plug c (PTree.node (PTree.node A x xv B) p pv (PTree.node C g gv D))).toList =
            (plug (Frame.inL p pv C :: Frame.inL g gv D :: c) (PTree.node A x xv B)).toList := by
          simp [plug, plug_toList]
        obtain ⟨h1, hr1, hrep1, hlen1, hfr1⟩ :=
          rotate_right_spec (c := c) (A := PTree.node A x xv B) (B := C) (C := D) (x := p)
            (p := g) hrep hnd
        have hnd1 : (plug c (PTree.node (PTree.node A x xv B) p pv
            (PTree.node C g gv D))).addrs.Nodup := by
          rw [addrs_eq_of_toList_eq e1]; exact hnd
        obtain ⟨h2, hr2, hrep2, hlen2, hfr2⟩ := rotate_right_spec hrep1 hnd1
        refine ⟨h2, c, A, PTree.node B p pv (PTree.node C g gv D), ?_, hrep2, ?_, by simp only [List.length_cons]; omega, rfl,
          by rw [hlen2, hlen1], ?_⟩
        · simp [splay_step, hpn, hgn, hr1, hr2]
        · simp [plug, plug_toList]
        · intro b hb
          rw [hfr2 b (by rw [addrs_eq_of_toList_eq e1]; exact hb), hfr1 b hb]
      | inR g gv D =>
        -- zig-zag: `p` is the right child of `g` and `x` the left child of `p`
        obtain ⟨hg, hDr, hcc⟩ := hCrest
        have hgn := aux_of_link hg
        simp only [ctxAddr, Frame.addr_inR] at hpn
        obtain ⟨hpC, hpc, -, hndc2, -⟩ :=
          (nodup_ctxAddrs_cons (Frame.inL p pv C) (Frame.inR g gv D :: c)).mp hndc
        have hpD : D.root ≠ some p := PTree.root_ne_of_not_mem fun hm =>
          hpc (by simp [mem_ctxAddrs_cons, hm])
        have hxC : C.root ≠ some x := PTree.root_ne_of_not_mem fun hm =>
          hxc (by simp [mem_ctxAddrs_cons, hm])
        have e1 : (plug c (PTree.node D g gv
            (PTree.node A x xv (PTree.node B p pv C)))).toList =
            (plug (Frame.inL p pv C :: Frame.inR g gv D :: c) (PTree.node A x xv B)).toList := by
          simp [plug, plug_toList]
        obtain ⟨h1, hr1, hrep1, hlen1, hfr1⟩ :=
          rotate_right_spec (c := Frame.inR g gv D :: c) (A := A) (B := B) (C := C) (x := x)
            (p := p) hrep hnd
        have hnd1 : (plug c (PTree.node D g gv
            (PTree.node A x xv (PTree.node B p pv C)))).addrs.Nodup := by
          rw [addrs_eq_of_toList_eq e1]; exact hnd
        obtain ⟨h2, hr2, hrep2, hlen2, hfr2⟩ :=
          rotate_left_spec (c := c) (A := D) (B := A) (C := PTree.node B p pv C) (x := x)
            (p := g) hrep1 hnd1
        refine ⟨h2, c, PTree.node D g gv A, PTree.node B p pv C, ?_, hrep2, ?_, by simp only [List.length_cons]; omega, rfl,
          by rw [hlen2, hlen1], ?_⟩
        · simp [splay_step, hpn, hgn, hr1, hr2, hpD, hxC]
        · simp [plug, plug_toList]
        · intro b hb
          rw [hfr2 b (by rw [addrs_eq_of_toList_eq e1]; exact hb), hfr1 b hb]
  | inR p pv C =>
    obtain ⟨hp, hCr, hCrest⟩ := hC
    have hpn := aux_of_link hp
    have hxC : C.root ≠ some x := PTree.root_ne_of_not_mem fun hm =>
      hxc (by simp [mem_ctxAddrs_cons, hm])
    cases rest with
    | nil =>
      -- zig
      simp only [ctxAddr] at hpn
      obtain ⟨h1, hr1, hrep1, hlen1, hfr1⟩ :=
        rotate_left_spec (c := []) (A := C) (B := A) (C := B) (x := x) (p := p) hrep hnd
      refine ⟨h1, [], PTree.node C p pv A, B, ?_, hrep1, ?_, by simp, rfl, hlen1, hfr1⟩
      · simp [splay_step, hpn, hr1, hxC]
      · simp [plug]
    | cons f2 c =>
      obtain ⟨hpC, hpc, -, hndc2, -⟩ :=
        (nodup_ctxAddrs_cons (Frame.inR p pv C) (f2 :: c)).mp hndc
      cases f2 with
      | inR g gv D =>
        -- zig-zig
        obtain ⟨hg, hDr, hcc⟩ := hCrest
        have hgn := aux_of_link hg
        simp only [ctxAddr, Frame.addr_inR] at hpn
        have hpD : D.root ≠ some p := PTree.root_ne_of_not_mem fun hm =>
          hpc (by simp [mem_ctxAddrs_cons, hm])
        have e1 : (plug c (PTree.node (PTree.node D g gv C) p pv (PTree.node A x xv B))).toList =
            (plug (Frame.inR p pv C :: Frame.inR g gv D :: c) (PTree.node A x xv B)).toList := by
          simp [plug, plug_toList]
        obtain ⟨h1, hr1, hrep1, hlen1, hfr1⟩ :=
          rotate_left_spec (c := c) (A := D) (B := C) (C := PTree.node A x xv B) (x := p)
            (p := g) hrep hnd
        have hnd1 : (plug c (PTree.node (PTree.node D g gv C) p pv
            (PTree.node A x xv B))).addrs.Nodup := by
          rw [addrs_eq_of_toList_eq e1]; exact hnd
        obtain ⟨h2, hr2, hrep2, hlen2, hfr2⟩ := rotate_left_spec hrep1 hnd1
        refine ⟨h2, c, PTree.node (PTree.node D g gv C) p pv A, B, ?_, hrep2, ?_, by simp only [List.length_cons]; omega, rfl,
          by rw [hlen2, hlen1], ?_⟩
        · simp [splay_step, hpn, hgn, hr1, hr2, hpD, hxC]
        · simp [plug, plug_toList]
        · intro b hb
          rw [hfr2 b (by rw [addrs_eq_of_toList_eq e1]; exact hb), hfr1 b hb]
      | inL g gv D =>
        -- zig-zag: `p` is the left child of `g` and `x` the right child of `p`
        obtain ⟨hg, hDr, hcc⟩ := hCrest
        have hgn := aux_of_link hg
        simp only [ctxAddr, Frame.addr_inL] at hpn
        have hpD : D.root ≠ some p := PTree.root_ne_of_not_mem fun hm =>
          hpc (by simp [mem_ctxAddrs_cons, hm])
        have e1 : (plug c (PTree.node
            (PTree.node (PTree.node C p pv A) x xv B) g gv D)).toList =
            (plug (Frame.inR p pv C :: Frame.inL g gv D :: c) (PTree.node A x xv B)).toList := by
          simp [plug, plug_toList]
        obtain ⟨h1, hr1, hrep1, hlen1, hfr1⟩ :=
          rotate_left_spec (c := Frame.inL g gv D :: c) (A := C) (B := A) (C := B) (x := x)
            (p := p) hrep hnd
        have hnd1 : (plug c (PTree.node
            (PTree.node (PTree.node C p pv A) x xv B) g gv D)).addrs.Nodup := by
          rw [addrs_eq_of_toList_eq e1]; exact hnd
        obtain ⟨h2, hr2, hrep2, hlen2, hfr2⟩ :=
          rotate_right_spec (c := c) (A := PTree.node C p pv A) (B := B) (C := D) (x := x)
            (p := g) hrep1 hnd1
        refine ⟨h2, c, PTree.node C p pv A, PTree.node B g gv D, ?_, hrep2, ?_, by simp only [List.length_cons]; omega, rfl,
          by rw [hlen2, hlen1], ?_⟩
        · simp [splay_step, hpn, hgn, hr1, hr2, hpD, hxC]
        · simp [plug, plug_toList]
        · intro b hb
          rw [hfr2 b (by rw [addrs_eq_of_toList_eq e1]; exact hb), hfr1 b hb]

theorem splayF_spec {β : Type} :
    ∀ (n : Nat) (c : List (Frame β)), c.length ≤ n → ∀ (A : PTree β) (x : Nat) (v : β)
      (B : PTree β), ∃ A2 B2, splayF c A x v B = PTree.node A2 x v B2 ∧
        (PTree.node A2 x v B2).toList = (plug c (PTree.node A x v B)).toList := by
  intro n
  induction n with
  | zero =>
    intro c hc A x v B
    cases c with
    | nil => exact ⟨A, B, rfl, rfl⟩
    | cons f c => simp at hc
  | succ n ih =>
    intro c hc A x v B
    have ih2 : ∀ (c2 : List (Frame β)), c2.length + 2 ≤ n + 1 → ∀ (A : PTree β) (x : Nat)
        (v : β) (B : PTree β), ∃ A2 B2, splayF c2 A x v B = PTree.node A2 x v B2 ∧
          (PTree.node A2 x v B2).toList = (plug c2 (PTree.node A x v B)).toList :=
      fun c2 h2 => ih c2 (by omega)
    match c, hc with
    | [], _ => exact ⟨A, B, rfl, rfl⟩
    | [Frame.inL p pv C], _ => exact ⟨_, _, rfl, by simp [plug]⟩
    | [Frame.inR p pv C], _ => exact ⟨_, _, rfl, by simp [plug]⟩
    | Frame.inL p pv C :: Frame.inL g gv D :: c2, hc =>
      obtain ⟨A2, B2, h1, h2⟩ := ih2 c2 (by simpa using hc) A x v
        (PTree.node B p pv (PTree.node C g gv D))
      exact ⟨A2, B2, by rw [splayF, h1], by rw [h2]; simp [plug, plug_toList]⟩
    | Frame.inR p pv C :: Frame.inR g gv D :: c2, hc =>
      obtain ⟨A2, B2, h1, h2⟩ := ih2 c2 (by simpa using hc)
        (PTree.node (PTree.node D g gv C) p pv A) x v B
      exact ⟨A2, B2, by rw [splayF, h1], by rw [h2]; simp [plug, plug_toList]⟩
    | Frame.inR p pv C :: Frame.inL g gv D :: c2, hc =>
      obtain ⟨A2, B2, h1, h2⟩ := ih2 c2 (by simpa using hc) (PTree.node C p pv A) x v
        (PTree.node B g gv D)
      exact ⟨A2, B2, by rw [splayF, h1], by rw [h2]; simp [plug, plug_toList]⟩
    | Frame.inL p pv C :: Frame.inR g gv D :: c2, hc =>
      obtain ⟨A2, B2, h1, h2⟩ := ih2 c2 (by simpa using hc) (PTree.node D g gv A) x v
        (PTree.node B p pv C)
      exact ⟨A2, B2, by rw [splayF, h1], by rw [h2]; simp [plug, plug_toList]⟩

theorem splayF_toList {β : Type} (c : List (Frame β)) (A : PTree β) (x : Nat) (v : β)
    (B : PTree β) : (splayF c A x v B).toList = (plug c (PTree.node A x v B)).toList := by
  obtain ⟨A2, B2, h1, h2⟩ := splayF_spec c.length c (le_refl _) A x v B
  rw [h1, h2]

theorem splayF_root {β : Type} (c : List (Frame β)) (A : PTree β) (x : Nat) (v : β)
    (B : PTree β) : ∃ A2 B2, splayF c A x v B = PTree.node A2 x v B2 := by
  obtain ⟨A2, B2, h1, -⟩ := splayF_spec c.length c (le_refl _) A x v B
  exact ⟨A2, B2, h1⟩

/-- The loop of `splay`: with a step for every frame above `x` it ends, and the store
then holds the splayed tree. -/
theorem splay_loop_spec :
    ∀ (n : Nat) (c : List (Frame (Option Nat))) (h : List AuxNode) (A B : PTree (Option Nat))
      (x : Nat) (xv : Option Nat) (fuel : Nat), c.length ≤ n → c.length + 1 ≤ fuel →
      Rep AuxNode.link h (plug c (PTree.node A x xv B)) none →
      (plug c (PTree.node A x xv B)).addrs.Nodup →
      ∃ h2, splay_loop fuel h x = some h2 ∧ Rep AuxNode.link h2 (splayF c A x xv B) none ∧
        h2.length = h.length ∧
        ∀ b : Nat, b ∉ (plug c (PTree.node A x xv B)).addrs → h2[b]? = h[b]? := by
  intro n
  induction n with
  | zero =>
    intro c h A B x xv fuel hc hf hrep hnd
    cases c with
    | cons f c => simp at hc
    | nil =>
      cases fuel with
      | zero => simp at hf
      | succ fuel =>
        have hxn := Rep.aux_get (l := A) (r := B) hrep
        exact ⟨h, by simp [splay_loop, hxn], hrep, rfl, fun _ _ => rfl⟩
  | succ n ih =>
    intro c h A B x xv fuel hc hf hrep hnd
    cases fuel with
    | zero => simp at hf
    | succ fuel =>
      cases c with
      | nil =>
        have hxn := Rep.aux_get (l := A) (r := B) hrep
        exact ⟨h, by simp [splay_loop, hxn], hrep, rfl, fun _ _ => rfl⟩
      | cons f1 rest =>
        have hxn := ((rep_plug _ _ _).mp hrep).1.aux_get
        simp only [ctxAddr] at hxn
        obtain ⟨h1, c2, A2, B2, hs, hrep1, htl, hlt, hF, hlen1, hfr1⟩ := splay_step_spec hrep hnd
        have hnd1 : (plug c2 (PTree.node A2 x xv B2)).addrs.Nodup := by
          rw [addrs_eq_of_toList_eq htl]; exact hnd
        simp only [List.length_cons] at hc hf hlt
        obtain ⟨h2, hl2, hrep2, hlen2, hfr2⟩ :=
          ih c2 h1 A2 B2 x xv fuel (by omega) (by omega) hrep1 hnd1
        refine ⟨h2, ?_, ?_, by rw [hlen2, hlen1], ?_⟩
        · simp [splay_loop, hxn, hs, hl2]
        · rw [hF]; exact hrep2
        · intro b hb
          rw [hfr2 b (by rw [addrs_eq_of_toList_eq htl]; exact hb), hfr1 b hb]

theorem length_ctxAddrs_ge {β : Type} (c : List (Frame β)) : c.length ≤ (ctxAddrs c).length := by
  induction c with
  | nil => simp [ctxAddrs]
  | cons f c ih =>
    simp only [ctxAddrs, List.length_cons, List.length_append]
    omega

theorem length_le_plug_size {β : Type} (c : List (Frame β)) (t : PTree β) :
    c.length + t.size ≤ (plug c t).size := by
  have h1 := (plug_addrs_perm c t).length_eq
  simp only [List.length_append, PTree.length_addrs] at h1
  have := length_ctxAddrs_ge c
  omega

/-- `splay(x)` of a node `x` of a tree: the call returns `x` and the store then holds the
splayed tree. -/
theorem splay_spec {h : List AuxNode} {c : List (Frame (Option Nat))}
    {A B : PTree (Option Nat)} {x : Nat} {xv : Option Nat}
    (hrep : Rep AuxNode.link h (plug c (PTree.node A x xv B)) none)
    (hnd : (plug c (PTree.node A x xv B)).addrs.Nodup) :
    ∃ h2, splay h (some x) = some (h2, some x) ∧
      Rep AuxNode.link h2 (splayF c A x xv B) none ∧ h2.length = h.length ∧
      ∀ b : Nat, b ∉ (plug c (PTree.node A x xv B)).addrs → h2[b]? = h[b]? := by
  have hsz := hrep.size_le hnd
  have := length_le_plug_size c (PTree.node A x xv B)
  obtain ⟨h2, hl, hrep2, hlen, hfr⟩ :=
    splay_loop_spec c.length c h A B x xv (h.length + 1) (le_refl _) (by omega) hrep hnd
  exact ⟨h2, by simp [splay, hl], hrep2, hlen, hfr⟩

/-! ### Leftmost and rightmost nodes -/

theorem ctxAfter_append {β : Type} (c1 c2 : List (Frame β)) :
    ctxAfter (c1 ++ c2) = ctxAfter c1 ++ ctxAfter c2 := by
  induction c1 with
  | nil => rfl
  | cons f c1 ih =>
    cases f with
    | inL a v s => simp [ctxAfter, ih]
    | inR a v s => simp [ctxAfter, ih]

theorem ctxBefore_append {β : Type} (c1 c2 : List (Frame β)) :
    ctxBefore (c1 ++ c2) = ctxBefore c2 ++ ctxBefore c1 := by
  induction c1 with
  | nil => simp [ctxBefore]
  | cons f c1 ih =>
    cases f with
    | inL a v s => simp [ctxBefore, ih]
    | inR a v s => simp [ctxBefore, ih]

theorem PTree.maxPath_node_node {β : Type} (l rl rr : PTree β) (a ra : Nat) (v rv : β) :
    (PTree.node l a v (PTree.node rl ra rv rr)).maxPath =
      (PTree.node rl ra rv rr).maxPath ++ [Frame.inR a v l] := rfl

theorem PTree.maxNode_node_node {β : Type} (l rl rr : PTree β) (a ra : Nat) (v rv : β) :
    (PTree.node l a v (PTree.node rl ra rv rr)).maxNode = (PTree.node rl ra rv rr).maxNode :=
  rfl

theorem PTree.minPath_node_node {β : Type} (ll lr r : PTree β) (a la : Nat) (v lv : β) :
    (PTree.node (PTree.node ll la lv lr) a v r).minPath =
      (PTree.node ll la lv lr).minPath ++ [Frame.inL a v r] := rfl

theorem PTree.minNode_node_node {β : Type} (ll lr r : PTree β) (a la : Nat) (v lv : β) :
    (PTree.node (PTree.node ll la lv lr) a v r).minNode = (PTree.node ll la lv lr).minNode :=
  rfl

theorem PTree.maxNode_plug {β : Type} {t : PTree β} {L : PTree β} {m : Nat} {mv : β}
    (h : t.maxNode = some (L, m, mv)) :
    t = plug t.maxPath (PTree.node L m mv PTree.nil) ∧ ctxAfter t.maxPath = [] := by
  induction t with
  | nil => simp [PTree.maxNode] at h
  | node l a v r _ ihr =>
    cases r with
    | nil =>
      simp only [PTree.maxNode, Option.some.injEq, Prod.mk.injEq] at h
      obtain ⟨rfl, rfl, rfl⟩ := h
      exact ⟨rfl, rfl⟩
    | node rl ra rv rr =>
      rw [PTree.maxNode_node_node] at h
      obtain ⟨h1, h2⟩ := ihr h
      rw [PTree.maxPath_node_node]
      constructor
      · rw [plug_append, ← h1]
        rfl
      · rw [ctxAfter_append, h2]
        rfl

theorem PTree.minNode_plug {β : Type} {t : PTree β} {R : PTree β} {m : Nat} {mv : β}
    (h : t.minNode = some (m, mv, R)) :
    t = plug t.minPath (PTree.node PTree.nil m mv R) ∧ ctxBefore t.minPath = [] := by
  induction t with
  | nil => simp [PTree.minNode] at h
  | node l a v r ihl _ =>
    cases l with
    | nil =>
      simp only [PTree.minNode, Option.some.injEq, Prod.mk.injEq] at h
      obtain ⟨rfl, rfl, rfl⟩ := h
      exact ⟨rfl, rfl⟩
    | node ll la lv lr =>
      rw [PTree.minNode_node_node] at h
      obtain ⟨h1, h2⟩ := ihl h
      rw [PTree.minPath_node_node]
      constructor
      · rw [plug_append, ← h1]
        rfl
      · rw [ctxBefore_append, h2]
        rfl

theorem PTree.maxNode_isSome {β : Type} (l r : PTree β) (a : Nat) (v : β) :
    ∃ L m mv, (PTree.node l a v r).maxNode = some (L, m, mv) := by
  induction r generalizing l a v with
  | nil => exact ⟨l, a, v, rfl⟩
  | node rl ra rv rr _ ihr =>
    obtain ⟨L, m, mv, h⟩ := ihr rl ra rv
    exact ⟨L, m, mv, by rw [PTree.maxNode_node_node]; exact h⟩

theorem PTree.minNode_isSome {β : Type} (l r : PTree β) (a : Nat) (v : β) :
    ∃ m mv R, (PTree.node l a v r).minNode = some (m, mv, R) := by
  induction l generalizing r a v with
  | nil => exact ⟨a, v, r, rfl⟩
  | node ll la lv lr ihl _ =>
    obtain ⟨m, mv, R, h⟩ := ihl lr la lv
    exact ⟨m, mv, R, by rw [PTree.minNode_node_node]; exact h⟩

/-- The loop of `aux_find_max` ends at the rightmost node. -/
theorem aux_find_max_loop_spec {h : List AuxNode} {l r : PTree (Option Nat)} {a : Nat}
    {v par : Option Nat} (hr : Rep AuxNode.link h (PTree.node l a v r) par) (fuel : Nat)
    (hf : (PTree.node l a v r).height ≤ fuel) :
    aux_find_max_loop fuel h a = (PTree.node l a v r).maxNode.map fun p => p.2.1 := by
  induction r generalizing l a v par fuel with
  | nil =>
    cases fuel with
    | zero => simp at hf
    | succ fuel => simp [aux_find_max_loop, hr.aux_get, PTree.maxNode]
  | node rl ra rv rr _ ihr =>
    cases fuel with
    | zero => simp at hf
    | succ fuel =>
      simp only [PTree.height_node, Nat.add_le_add_iff_right, Nat.max_le] at hf
      have := ihr hr.2.2 fuel (by simpa using hf.2)
      rw [PTree.maxNode_node_node, ← this]
      simp [aux_find_max_loop, hr.aux_get]

/-- The loop of `aux_find_min` ends at the leftmost node. -/
theorem aux_find_min_loop_spec {h : List AuxNode} {l r : PTree (Option Nat)} {a : Nat}
    {v par : Option Nat} (hr : Rep AuxNode.link h (PTree.node l a v r) par) (fuel : Nat)
    (hf : (PTree.node l a v r).height ≤ fuel) :
    aux_find_min_loop fuel h a = (PTree.node l a v r).minNode.map fun p => p.1 := by
  induction l generalizing r a v par fuel with
  | nil =>
    cases fuel with
    | zero => simp at hf
    | succ fuel => simp [aux_find_min_loop, hr.aux_get, PTree.minNode]
  | node ll la lv lr ihl _ =>
    cases fuel with
    | zero => simp at hf
    | succ fuel =>
      simp only [PTree.height_node, Nat.add_le_add_iff_right, Nat.max_le] at hf
      have := ihl hr.2.1 fuel (by simpa using hf.1)
      rw [PTree.minNode_node_node, ← this]
      simp [aux_find_min_loop, hr.aux_get]

/-! ### Walks over a whole auxiliary tree -/

theorem pushPtr_root {β : Type} (t : PTree β) (fs : List (PTree β)) :
    pushPtr t.root (roots fs) = roots (t :: fs) := by
  cases t <;> simp [pushPtr, roots]

theorem roots_cons_decomp {β : Type} {fs : List (PTree β)} {n : Nat} {st : List Nat}
    (h : roots fs = n :: st) :
    ∃ l v r fs2, PTree.node l n v r ∈ fs ∧ roots fs2 = st ∧
      (fs.map PTree.size).sum = (PTree.node l n v r).size + (fs2.map PTree.size).sum ∧
      ∀ t ∈ fs2, t ∈ fs := by
  induction fs with
  | nil => simp [roots] at h
  | cons t fs ih =>
    cases t with
    | nil =>
      obtain ⟨l, v, r, fs2, h1, h2, h3, h4⟩ := ih (by simpa [roots] using h)
      exact ⟨l, v, r, fs2, List.mem_cons_of_mem _ h1, h2, by simpa using h3,
        fun t ht => List.mem_cons_of_mem _ (h4 t ht)⟩
    | node l a v r =>
      simp only [roots, List.filterMap_cons, PTree.root_node, List.cons.injEq] at h
      obtain ⟨rfl, h2⟩ := h
      exact ⟨l, v, r, fs, by simp, h2, by simp, fun t ht => List.mem_cons_of_mem _ ht⟩

theorem ValidRefs.node {len : Nat} {l r : PTree (Option Nat)} {a : Nat} {v : Option Nat}
    (h : ValidRefs len (PTree.node l a v r)) :
    ValidRefs len l ∧ (∃ x, v = some x ∧ x < len) ∧ ValidRefs len r := by
  refine ⟨fun w hw => h w (by simp [hw]), h v (by simp), fun w hw => h w (by simp [hw])⟩

/-- The loop of `aux_set_all_auxptr` over the trees whose roots are on the stack: it ends
and writes nothing but `aux_ptr` fields. -/
theorem aux_set_all_auxptr_loop_spec (auxs : List AuxNode) :
    ∀ (fuel : Nat) (fs : List (PTree (Option Nat))) (refs : List RefNode),
      (fs.map PTree.size).sum ≤ fuel → (∀ t ∈ fs, ∃ par, Rep AuxNode.link auxs t par) →
      (∀ t ∈ fs, ValidRefs refs.length t) →
      ∃ refs2, aux_set_all_auxptr_loop fuel auxs refs (roots fs) = some refs2 ∧
        refs2.map RefNode.core = refs.map RefNode.core := by
  intro fuel
  induction fuel with
  | zero =>
    intro fs refs hsum _ _
    cases hr : roots fs with
    | nil => exact ⟨refs, by simp [aux_set_all_auxptr_loop], rfl⟩
    | cons n st =>
      obtain ⟨l, v, r, fs2, -, -, h3, -⟩ := roots_cons_decomp hr
      simp only [PTree.size_node] at h3
      omega
  | succ fuel ih =>
    intro fs refs hsum hrep hval
    cases hr : roots fs with
    | nil => exact ⟨refs, by simp [aux_set_all_auxptr_loop], rfl⟩
    | cons n st =>
      obtain ⟨l, v, r, fs2, hmem, hst, h3, hsub⟩ := roots_cons_decomp hr
      obtain ⟨par, hT⟩ := hrep _ hmem
      obtain ⟨hvl, ⟨x, rfl, hx⟩, hvr⟩ := (hval _ hmem).node
      obtain ⟨xn, hxn⟩ := get_of_lt hx
      have hlen : (refs.set x { xn with aux_ptr := some n }).length = refs.length := by simp
      obtain ⟨refs2, hl, hc⟩ := ih (r :: l :: fs2) (refs.set x { xn with aux_ptr := some n })
        (by
          simp only [List.map_cons, List.sum_cons, PTree.size_node] at h3 ⊢
          omega)
        (by
          intro t ht
          simp only [List.mem_cons] at ht
          rcases ht with rfl | rfl | ht
          · exact ⟨_, hT.2.2⟩
          · exact ⟨_, hT.2.1⟩
          · exact hrep t (hsub t ht))
        (by
          intro t ht
          rw [hlen]
          simp only [List.mem_cons] at ht
          rcases ht with rfl | rfl | ht
          · exact hvr
          · exact hvl
          · exact hval t (hsub t ht))
      refine ⟨refs2, ?_, hc.trans (set_map_eq RefNode.core hxn rfl)⟩
      simp only [aux_set_all_auxptr_loop, hT.aux_get, modify_of_get hxn, Option.some_bind]
      rw [← hst, pushPtr_root, pushPtr_root]
      exact hl

/-- `aux_set_all_auxptr(a_root)` on a tree: it returns and writes nothing but `aux_ptr`
fields. -/
theorem aux_set_all_auxptr_spec {auxs : List AuxNode} {refs : List RefNode}
    {t : PTree (Option Nat)} {par : Option Nat} (hrep : Rep AuxNode.link auxs t par)
    (hnd : t.addrs.Nodup) (hval : ValidRefs refs.length t) :
    ∃ refs2, aux_set_all_auxptr auxs refs t.root = some refs2 ∧
      refs2.map RefNode.core = refs.map RefNode.core := by
  cases t with
  | nil => exact ⟨refs, rfl, rfl⟩
  | node l a v r =>
    have hsz := hrep.size_le hnd
    simp only [PTree.size_node] at hsz
    obtain ⟨refs2, hl, hc⟩ := aux_set_all_auxptr_loop_spec auxs (auxs.length + 1)
      [PTree.node l a v r] refs (by simp only [List.map_cons, List.map_nil, List.sum_cons,
        List.sum_nil, PTree.size_node]; omega)
      (by intro t ht; simp only [List.mem_singleton] at ht; subst ht; exact ⟨_, hrep⟩)
      (by intro t ht; simp only [List.mem_singleton] at ht; subst ht; exact hval)
    exact ⟨refs2, by simpa [aux_set_all_auxptr, roots] using hl, hc⟩

/-- `free_aux_tree(a)` on a tree: it returns and writes nothing but `aux_ptr` fields. -/
theorem free_aux_tree_spec (auxs : List AuxNode) :
    ∀ (t : PTree (Option Nat)) (par : Option Nat) (fuel : Nat) (refs : List RefNode),
      Rep AuxNode.link auxs t par → t.height ≤ fuel → ValidRefs refs.length t →
      ∃ refs2, free_aux_tree fuel auxs refs t.root = some refs2 ∧
        refs2.map RefNode.core = refs.map RefNode.core := by
  intro t
  induction t with
  | nil =>
    intro par fuel refs _ _ _
    exact ⟨refs, by cases fuel <;> rfl, rfl⟩
  | node l a v r ihl ihr =>
    intro par fuel refs hrep hf hval
    cases fuel with
    | zero => simp at hf
    | succ fuel =>
      simp only [PTree.height_node, Nat.add_le_add_iff_right, Nat.max_le] at hf
      obtain ⟨hvl, ⟨x, rfl, hx⟩, hvr⟩ := hval.node
      obtain ⟨refs1, h1, hc1⟩ := ihl (some a) fuel refs hrep.2.1 hf.1 hvl
      have hlen1 : refs1.length = refs.length := by
        simpa using congrArg List.length hc1
      obtain ⟨refs2, h2, hc2⟩ := ihr (some a) fuel refs1 hrep.2.2 hf.2 (by rw [hlen1]; exact hvr)
      have hlen2 : refs2.length = refs1.length := by
        simpa using congrArg List.length hc2
      obtain ⟨xn, hxn⟩ := get_of_lt (show x < refs2.length by omega)
      refine ⟨refs2.set x { xn with aux_ptr := none }, ?_,
        (set_map_eq RefNode.core hxn ?_).trans (hc2.trans hc1)⟩
      · simp [free_aux_tree, hrep.aux_get, h1, h2, modify_of_get hxn]
      · rfl

/-! ### Merge -/

theorem PTree.maxPath_allR {β : Type} (t : PTree β) :
    ∀ f ∈ t.maxPath, ∃ a v s, f = Frame.inR a v s := by
  induction t with
  | nil => simp [PTree.maxPath]
  | node l a v r _ ihr =>
    cases r with
    | nil => simp [PTree.maxPath]
    | node rl ra rv rr =>
      rw [PTree.maxPath_node_node]
      intro f hf
      simp only [List.mem_append, List.mem_singleton] at hf
      rcases hf with hf | rfl
      · exact ihr f hf
      · exact ⟨a, v, l, rfl⟩

theorem PTree.minPath_allL {β : Type} (t : PTree β) :
    ∀ f ∈ t.minPath, ∃ a v s, f = Frame.inL a v s := by
  induction t with
  | nil => simp [PTree.minPath]
  | node l a v r ihl _ =>
    cases l with
    | nil => simp [PTree.minPath]
    | node ll la lv lr =>
      rw [PTree.minPath_node_node]
      intro f hf
      simp only [List.mem_append, List.mem_singleton] at hf
      rcases hf with hf | rfl
      · exact ihl f hf
      · exact ⟨a, v, r, rfl⟩

/-- A node without a right subtree that is splayed up a right spine has no right subtree
at the root. -/
theorem splayF_allR {β : Type} :
    ∀ (n : Nat) (c : List (Frame β)), c.length ≤ n → (∀ f ∈ c, ∃ a v s, f = Frame.inR a v s) →
      ∀ (A : PTree β) (x : Nat) (v : β), ∃ A2, splayF c A x v PTree.nil =
        PTree.node A2 x v PTree.nil := by
  intro n
  induction n with
  | zero =>
    intro c hc _ A x v
    cases c with
    | nil => exact ⟨A, rfl⟩
    | cons f c => simp at hc
  | succ n ih =>
    intro c hc hall A x v
    match c, hc, hall with
    | [], _, _ => exact ⟨A, rfl⟩
    | [Frame.inL p pv C], _, hall =>
      obtain ⟨a, w, s, h⟩ := hall (Frame.inL p pv C) (by simp)
      simp at h
    | [Frame.inR p pv C], _, _ => exact ⟨_, rfl⟩
    | Frame.inL p pv C :: _ :: c2, _, hall =>
      obtain ⟨a, w, s, h⟩ := hall (Frame.inL p pv C) (by simp)
      simp at h
    | Frame.inR p pv C :: Frame.inL g gv D :: c2, _, hall =>
      obtain ⟨a, w, s, h⟩ := hall (Frame.inL g gv D) (by simp)
      simp at h
    | Frame.inR p pv C :: Frame.inR g gv D :: c2, hc, hall =>
      obtain ⟨A2, h1⟩ := ih c2 (by simp only [List.length_cons] at hc; omega)
        (fun f hf => hall f (by simp [hf])) (PTree.node (PTree.node D g gv C) p pv A) x v
      exact ⟨A2, by rw [splayF, h1]⟩

/-- A node without a left subtree that is splayed up a left spine has no left subtree at
the root. -/
theorem splayF_allL {β : Type} :
    ∀ (n : Nat) (c : List (Frame β)), c.length ≤ n → (∀ f ∈ c, ∃ a v s, f = Frame.inL a v s) →
      ∀ (x : Nat) (v : β) (B : PTree β), ∃ B2, splayF c PTree.nil x v B =
        PTree.node PTree.nil x v B2 := by
  intro n
  induction n with
  | zero =>
    intro c hc _ x v B
    cases c with
    | nil => exact ⟨B, rfl⟩
    | cons f c => simp at hc
  | succ n ih =>
    intro c hc hall x v B
    match c, hc, hall with
    | [], _, _ => exact ⟨B, rfl⟩
    | [Frame.inR p pv C], _, hall =>
      obtain ⟨a, w, s, h⟩ := hall (Frame.inR p pv C) (by simp)
      simp at h
    | [Frame.inL p pv C], _, _ => exact ⟨_, rfl⟩
    | Frame.inR p pv C :: _ :: c2, _, hall =>
      obtain ⟨a, w, s, h⟩ := hall (Frame.inR p pv C) (by simp)
      simp at h
    | Frame.inL p pv C :: Frame.inR g gv D :: c2, _, hall =>
      obtain ⟨a, w, s, h⟩ := hall (Frame.inR g gv D) (by simp)
      simp at h
    | Frame.inL p pv C :: Frame.inL g gv D :: c2, hc, hall =>
      obtain ⟨B2, h1⟩ := ih c2 (by simp only [List.length_cons] at hc; omega)
        (fun f hf => hall f (by simp [hf])) x v (PTree.node B p pv (PTree.node C g gv D))
      exact ⟨B2, by rw [splayF, h1]⟩

theorem mergeT_nil_left {β : Type} (R : PTree β) : mergeT PTree.nil R = R := rfl

theorem mergeT_nil_right {β : Type} (L : PTree β) : mergeT L PTree.nil = L := by
  cases L with
  | nil => rfl
  | node l a v r =>
    obtain ⟨L0, m, mv, h⟩ := PTree.maxNode_isSome l r a v
    simp [mergeT, h]

/-- The shape of a merge of two non-empty trees. -/
theorem mergeT_node {β : Type} (l r : PTree β) (a : Nat) (v : β) (R : PTree β)
    (hR : R ≠ PTree.nil) :
    ∃ L0 mx mv A2, (PTree.node l a v r).maxNode = some (L0, mx, mv) ∧
      splayF (PTree.node l a v r).maxPath L0 mx mv PTree.nil = PTree.node A2 mx mv PTree.nil ∧
      mergeT (PTree.node l a v r) R = PTree.node A2 mx mv R := by
  obtain ⟨L0, mx, mv, h⟩ := PTree.maxNode_isSome l r a v
  obtain ⟨A2, hs⟩ := splayF_allR _ _ (le_refl _) (PTree.maxPath_allR (PTree.node l a v r))
    L0 mx mv
  refine ⟨L0, mx, mv, A2, h, hs, ?_⟩
  cases R with
  | nil => exact absurd rfl hR
  | node rl ra rv rr => simp [mergeT, h, hs]

theorem mergeT_toList {β : Type} (L R : PTree β) :
    (mergeT L R).toList = L.toList ++ R.toList := by
  cases L with
  | nil => simp [mergeT_nil_left]
  | node l a v r =>
    cases R with
    | nil => simp [mergeT_nil_right]
    | node rl ra rv rr =>
      obtain ⟨L0, mx, mv, A2, h1, h2, h3⟩ := mergeT_node l r a v (PTree.node rl ra rv rr)
        (by simp)
      have h4 := splayF_toList (PTree.node l a v r).maxPath L0 mx mv PTree.nil
      rw [h2, ← (PTree.maxNode_plug h1).1] at h4
      rw [h3, ← h4]
      simp

theorem ValidRefs.of_toList_eq {len : Nat} {t t2 : PTree (Option Nat)}
    (h : t.toList = t2.toList) (hv : ValidRefs len t2) : ValidRefs len t := by
  intro v hv2
  apply hv
  simpa [PTree.vals, h] using hv2

/-- `aux_merge(left, right)` on two trees without common nodes: the call returns, the store
then holds the merged tree, nothing outside the two trees is written, and the reference
store changes in `aux_ptr` fields only. -/
theorem aux_merge_spec {m : Mem} {L R : PTree (Option Nat)}
    (hL : Rep AuxNode.link m.auxs L none) (hR : Rep AuxNode.link m.auxs R none)
    (hnd : (L.addrs ++ R.addrs).Nodup) (hvL : ValidRefs m.refs.length L)
    (hvR : ValidRefs m.refs.length R) :
    ∃ m2, aux_merge m L.root R.root = some (m2, (mergeT L R).root) ∧
      Rep AuxNode.link m2.auxs (mergeT L R) none ∧ m2.auxs.length = m.auxs.length ∧
      (∀ b : Nat, b ∉ L.addrs ++ R.addrs → m2.auxs[b]? = m.auxs[b]?) ∧
      m2.refs.map RefNode.core = m.refs.map RefNode.core ∧
      ((L = PTree.nil ∨ R = PTree.nil) → m2.auxs = m.auxs) := by
  have hndL : L.addrs.Nodup := (List.nodup_append.mp hnd).1
  have hndR : R.addrs.Nodup := (List.nodup_append.mp hnd).2.1
  have hdis : ∀ b, b ∈ L.addrs → b ∈ R.addrs → False := fun b h1 h2 =>
    (List.nodup_append.mp hnd).2.2 h1 h2
  cases L with
  | nil =>
    obtain ⟨refs2, hs, hc⟩ := aux_set_all_auxptr_spec hR hndR hvR
    refine ⟨⟨refs2, m.auxs⟩, ?_, hR, rfl, fun _ _ => rfl, hc, fun _ => rfl⟩
    simp [aux_merge, hs, mergeT_nil_left]
  | node l a v r =>
    cases R with
    | nil =>
      obtain ⟨refs2, hs, hc⟩ := aux_set_all_auxptr_spec hL hndL hvL
      refine ⟨⟨refs2, m.auxs⟩, ?_, by rw [mergeT_nil_right]; exact hL, rfl, fun _ _ => rfl, hc,
        fun _ => rfl⟩
      simp only [PTree.root_node] at hs
      simp [aux_merge, hs, mergeT_nil_right]
    | node rl ra rv rr =>
      obtain ⟨L0, mx, mv, A2, hmax, hsp, hmt⟩ :=
        mergeT_node l r a v (PTree.node rl ra rv rr) (by simp)
      obtain ⟨hplug, -⟩ := PTree.maxNode_plug hmax
      -- the rightmost node of `left`
      have hfind : aux_find_max m.auxs (some a) = some (some mx) := by
        have hsz := hL.size_le hndL
        have hh := (PTree.node l a v r).height_le_size
        simp [aux_find_max, aux_find_max_loop_spec hL (m.auxs.length + 1) (by omega), hmax]
      -- it is splayed to the root
      have hL2 := hL
      have hndL2 := hndL
      rw [hplug] at hL2 hndL2
      obtain ⟨h1, hsplay, hrep1, hlen1, hfr1⟩ := splay_spec hL2 hndL2
      rw [← hplug] at hfr1
      rw [hsp] at hrep1
      have htl : (PTree.node A2 mx mv PTree.nil).toList = (PTree.node l a v r).toList := by
        rw [← hsp, splayF_toList, ← hplug]
      have hadd : A2.addrs ++ [mx] = (PTree.node l a v r).addrs := by
        simpa [PTree.addrs] using congrArg (List.map Prod.fst) htl
      have hndA : (A2.addrs ++ [mx]).Nodup := by rw [hadd]; exact hndL
      have hmxA : mx ∉ A2.addrs := fun hm => (List.nodup_append.mp hndA).2.2 hm (by simp)
      have hAL : ∀ b, b ∈ A2.addrs → b ∈ (PTree.node l a v r).addrs := fun b hb => by
        rw [← hadd]; simp [hb]
      have hmxL : mx ∈ (PTree.node l a v r).addrs := by rw [← hadd]; simp
      have hmx1 := hrep1.aux_get
      simp only [PTree.root_nil] at hmx1
      -- `right` is untouched so far
      have hR1 : Rep AuxNode.link h1 (PTree.node rl ra rv rr) none := by
        apply hR.frame
        intro b hb
        rw [hfr1 b (fun hm => hdis b hm hb)]
      have hra1 := hR1.aux_get
      have hraR : ra ∈ (PTree.node rl ra rv rr).addrs := by simp
      have hramx : ra ≠ mx := by
        rintro rfl
        exact hdis _ hmxL hraR
      have hra2 : (h1.set mx ⟨mv, A2.root, some ra, none⟩)[ra]? =
          some ⟨rv, rl.root, rr.root, none⟩ := by
        rw [List.getElem?_set_ne (Ne.symm hramx), hra1]
      have hfr3 : ∀ b : Nat, b ≠ mx → b ≠ ra →
          ((h1.set mx ⟨mv, A2.root, some ra, none⟩).set ra
            ⟨rv, rl.root, rr.root, some mx⟩)[b]? = h1[b]? := fun b hb1 hb2 => by
        rw [List.getElem?_set_ne (Ne.symm hb2), List.getElem?_set_ne (Ne.symm hb1)]
      have hrep3 : Rep AuxNode.link
          ((h1.set mx ⟨mv, A2.root, some ra, none⟩).set ra ⟨rv, rl.root, rr.root, some mx⟩)
          (PTree.node A2 mx mv (PTree.node rl ra rv rr)) none := by
        refine ⟨?_, hrep1.2.1.frame ?_, ?_⟩
        · rw [List.getElem?_set_ne hramx, get_set_self hmx1]
          rfl
        · intro b hb
          rw [hfr3 b (by rintro rfl; exact hmxA hb)
            (by rintro rfl; exact hdis _ (hAL _ hb) hraR)]
        · refine hR1.reparent ?_ ?_ hndR
          · intro b hb
            simp only [PTree.root_node, Option.some.injEq] at hb
            subst hb
            rw [get_set_self hra2, hra1]
            rfl
          · intro b hb hne
            simp only [PTree.root_node, ne_eq, Option.some.injEq] at hne
            rw [hfr3 b (by rintro rfl; exact hdis _ hmxL hb) (Ne.symm hne)]
      have hnd3 : (PTree.node A2 mx mv (PTree.node rl ra rv rr)).addrs.Nodup := by
        have e : (PTree.node A2 mx mv (PTree.node rl ra rv rr)).addrs =
            (A2.addrs ++ [mx]) ++ (PTree.node rl ra rv rr).addrs := by simp
        rw [e, hadd]
        exact hnd
      have hv3 : ValidRefs m.refs.length (PTree.node A2 mx mv (PTree.node rl ra rv rr)) := by
        intro w hw
        have e : (PTree.node A2 mx mv (PTree.node rl ra rv rr)).vals =
            (PTree.node A2 mx mv PTree.nil).vals ++ (PTree.node rl ra rv rr).vals := by simp
        rw [e, List.mem_append] at hw
        rcases hw with hw | hw
        · exact ValidRefs.of_toList_eq htl hvL w hw
        · exact hvR w hw
      obtain ⟨refs2, hs, hc⟩ := aux_set_all_auxptr_spec hrep3 hnd3 hv3
      simp only [PTree.root_node] at hs
      refine ⟨⟨refs2, _⟩, ?_, by rw [hmt]; exact hrep3, by simp [hlen1], ?_, hc, ?_⟩
      · simp [aux_merge, hfind, hsplay, modify_of_get hmx1, modify_of_get hra2, hs, hmt]
      · intro b hb
        simp only [List.mem_append, not_or] at hb
        rw [hfr3 b (by rintro rfl; exact hb.1 hmxL) (by rintro rfl; exact hb.2 hraR),
          hfr1 b hb.1]
      · rintro (h | h) <;> simp at h

/-! ### Split -/

theorem split_find_loop_spec {m : Mem} {t : PTree (Option Nat)} {par : Option Nat}
    (hrep : Rep AuxNode.link m.auxs t par) (hv : ValidRefs m.refs.length t) (key : Int)
    (fuel : Nat) (hf : t.height ≤ fuel) (cand : Option Nat) :
    split_find_loop fuel m key t.root cand = some (t.splitCand m.refs key cand) := by
  induction t generalizing par fuel cand with
  | nil => cases fuel <;> rfl
  | node l a v r ihl ihr =>
    cases fuel with
    | zero => simp at hf
    | succ fuel =>
      simp only [PTree.height_node, Nat.add_le_add_iff_right, Nat.max_le] at hf
      obtain ⟨hvl, ⟨x, rfl, hx⟩, hvr⟩ := hv.node
      obtain ⟨xn, hxn⟩ := get_of_lt hx
      have h1 := ihl hrep.2.1 hvl fuel hf.1
      have h2 := ihr hrep.2.2 hvr fuel hf.2
      simp only [PTree.root_node, split_find_loop, hrep.aux_get, hxn, PTree.splitCand, refKey,
        h1, h2]
      split_ifs <;> rfl

theorem append_cons_unique {β : Type} {l1 l2 r1 r2 : List (Nat × β)} {x : Nat × β}
    (h : l1 ++ x :: l2 = r1 ++ x :: r2) (hnd : ((l1 ++ x :: l2).map Prod.fst).Nodup) :
    l1 = r1 ∧ l2 = r2 := by
  induction l1 generalizing r1 with
  | nil =>
    cases r1 with
    | nil => simpa using h
    | cons y r1 =>
      simp only [List.nil_append, List.cons_append, List.cons.injEq] at h
      obtain ⟨rfl, h2⟩ := h
      simp only [List.nil_append, List.map_cons, List.nodup_cons] at hnd
      exact absurd (by rw [h2]; simp) hnd.1
  | cons y l1 ih =>
    cases r1 with
    | nil =>
      simp only [List.nil_append, List.cons_append, List.cons.injEq] at h
      obtain ⟨rfl, h2⟩ := h
      simp only [List.cons_append, List.map_cons, List.nodup_cons] at hnd
      exact absurd (by simp) hnd.1
    | cons z r1 =>
      simp only [List.cons_append, List.cons.injEq] at h
      obtain ⟨rfl, h2⟩ := h
      simp only [List.cons_append, List.map_cons, List.nodup_cons] at hnd
      obtain ⟨e1, e2⟩ := ih h2 hnd.2
      exact ⟨by rw [e1], e2⟩

/-- Where the candidate search ends in a tree whose keys are in order: either no key is
`≤ key`, or the candidate is the last node whose key is. -/
theorem PTree.splitCand_spec (refs : List RefNode) (key : Int) :
    ∀ (t : PTree (Option Nat)) (cand : Option Nat), (auxKeys refs t).Sorted (· ≤ ·) →
      (t.splitCand refs key cand = cand ∧ ∀ k ∈ auxKeys refs t, key < k) ∨
      ∃ c A x xv B, t.splitCand refs key cand = some x ∧ t = plug c (PTree.node A x xv B) ∧
        (∀ p ∈ ctxBefore c ++ A.toList ++ [(x, xv)], refKey refs p.2 ≤ key) ∧
        ∀ p ∈ B.toList ++ ctxAfter c, key < refKey refs p.2 := by
  intro t
  induction t with
  | nil =>
    intro cand _
    left
    exact ⟨rfl, by simp [auxKeys]⟩
  | node l a v r ihl ihr =>
    intro cand hs
    simp only [auxKeys, PTree.vals_node, List.map_append, List.map_cons] at hs
    have hsl : (auxKeys refs l).Sorted (· ≤ ·) := (List.pairwise_append.mp hs).1
    have hsr : (auxKeys refs r).Sorted (· ≤ ·) :=
      (List.pairwise_cons.mp (List.pairwise_append.mp hs).2.1).2
    have hlv : ∀ p ∈ l.toList, refKey refs p.2 ≤ refKey refs v := fun p hp =>
      (List.pairwise_append.mp hs).2.2 _ (by
        simp only [List.mem_map, PTree.vals]
        exact ⟨p.2, ⟨p, hp, rfl⟩, rfl⟩) _ (by simp)
    have hvr : ∀ p ∈ r.toList, refKey refs v ≤ refKey refs p.2 := fun p hp =>
      (List.pairwise_cons.mp (List.pairwise_append.mp hs).2.1).1 _ (by
        simp only [List.mem_map, PTree.vals]
        exact ⟨p.2, ⟨p, hp, rfl⟩, rfl⟩)
    simp only [PTree.splitCand]
    by_cases hk : refKey refs v ≤ key
    · rw [if_pos hk]
      right
      rcases ihr (some a) hsr with ⟨h1, h2⟩ | ⟨c, A, x, xv, B, h1, h2, h3, h4⟩
      · refine ⟨[], l, a, v, r, h1, rfl, ?_, ?_⟩
        · intro p hp
          simp only [ctxBefore, List.nil_append, List.mem_append, List.mem_singleton] at hp
          rcases hp with hp | rfl
          · have := hlv p hp
            omega
          · exact hk
        · intro p hp
          simp only [ctxAfter, List.append_nil] at hp
          exact h2 _ (by
            simp only [auxKeys, PTree.vals, List.mem_map]
            exact ⟨p.2, ⟨p, hp, rfl⟩, rfl⟩)
      · refine ⟨c ++ [Frame.inR a v l], A, x, xv, B, h1, ?_, ?_, ?_⟩
        · rw [plug_append, ← h2]; rfl
        · intro p hp
          rw [ctxBefore_append, List.append_assoc, List.append_assoc] at hp
          rcases List.mem_append.mp hp with hp | hp
          · simp only [ctxBefore, List.nil_append, List.mem_append, List.mem_singleton] at hp
            rcases hp with hp | rfl
            · have := hlv p hp
              omega
            · exact hk
          · exact h3 p (by rw [List.append_assoc]; exact hp)
        · intro p hp
          rw [ctxAfter_append] at hp
          simp only [ctxAfter, List.append_nil] at hp
          exact h4 p hp
    · rw [if_neg hk]
      rcases ihl cand hsl with ⟨h1, h2⟩ | ⟨c, A, x, xv, B, h1, h2, h3, h4⟩
      · left
        refine ⟨h1, ?_⟩
        intro k hk2
        simp only [auxKeys, PTree.vals_node, List.map_append, List.map_cons, List.mem_append,
          List.mem_cons, List.mem_map] at hk2
        rcases hk2 with ⟨w, hw, rfl⟩ | rfl | ⟨w, hw, rfl⟩
        · exact h2 _ (by simp only [auxKeys, List.mem_map]; exact ⟨w, hw, rfl⟩)
        · omega
        · simp only [PTree.vals, List.mem_map] at hw
          obtain ⟨p, hp, rfl⟩ := hw
          have := hvr p hp
          omega
      · right
        refine ⟨c ++ [Frame.inL a v r], A, x, xv, B, h1, ?_, ?_, ?_⟩
        · rw [plug_append, ← h2]; rfl
        · intro p hp
          rw [ctxBefore_append] at hp
          simp only [ctxBefore, List.nil_append] at hp
          exact h3 p hp
        · intro p hp
          rw [ctxAfter_append] at hp
          simp only [ctxAfter, List.append_nil, List.mem_append, List.mem_cons] at hp
          rcases hp with hp | hp | rfl | hp
          · exact h4 p (by simp [hp])
          · exact h4 p (by simp [hp])
          · show key < refKey refs v
            omega
          · have := hvr p hp
            omega

theorem aux_set_all_auxptr_none (auxs : List AuxNode) (refs : List RefNode) :
    aux_set_all_auxptr auxs refs none = some refs := rfl

/-- The statement `if (c) c->parent = p` on the root of a held tree. -/
theorem aux_link_parent_spec {h : List AuxNode} {t : PTree (Option Nat)}
    {par : Option Nat} (par2 : Option Nat) (hrep : Rep AuxNode.link h t par)
    (hnd : t.addrs.Nodup) :
    ∃ h3, aux_link_parent h t.root par2 = some h3 ∧ Rep AuxNode.link h3 t par2 ∧
      h3.length = h.length ∧ ∀ b : Nat, t.root ≠ some b → h3[b]? = h[b]? := by
  cases t with
  | nil => exact ⟨h, rfl, trivial, rfl, fun _ _ => rfl⟩
  | node l a v r =>
    have hn := hrep.aux_get
    refine ⟨h.set a ⟨v, l.root, r.root, par2⟩, ?_, ?_, by simp, ?_⟩
    · simp [aux_link_parent, modify_of_get hn]
    · refine hrep.reparent ?_ ?_ hnd
      · intro b hb
        simp only [PTree.root_node, Option.some.injEq] at hb
        subst hb
        rw [get_set_self hn, hn]
        rfl
      · intro b _ hne
        simp only [PTree.root_node, ne_eq, Option.some.injEq] at hne
        rw [List.getElem?_set_ne hne]
    · intro b hne
      simp only [PTree.root_node, ne_eq, Option.some.injEq] at hne
      rw [List.getElem?_set_ne hne]

theorem core_length {refs refs2 : List RefNode}
    (h : refs2.map RefNode.core = refs.map RefNode.core) : refs2.length = refs.length := by
  simpa using congrArg List.length h

theorem PTree.splitCand_cases (refs : List RefNode) (key : Int) :
    ∀ (t : PTree (Option Nat)) (cand : Option Nat),
      t.splitCand refs key cand = cand ∨
      ∃ c A x xv B, t.splitCand refs key cand = some x ∧ t = plug c (PTree.node A x xv B) := by
  intro t
  induction t with
  | nil => intro cand; exact Or.inl rfl
  | node l a v r ihl ihr =>
    intro cand
    simp only [PTree.splitCand]
    by_cases hk : refKey refs v ≤ key
    · rw [if_pos hk]
      right
      rcases ihr (some a) with h1 | ⟨c, A, x, xv, B, h1, h2⟩
      · exact ⟨[], l, a, v, r, h1, rfl⟩
      · refine ⟨c ++ [Frame.inR a v l], A, x, xv, B, h1, ?_⟩
        rw [plug_append, ← h2]; rfl
    · rw [if_neg hk]
      rcases ihl cand with h1 | ⟨c, A, x, xv, B, h1, h2⟩
      · exact Or.inl h1
      · refine Or.inr ⟨c ++ [Frame.inL a v r], A, x, xv, B, h1, ?_⟩
        rw [plug_append, ← h2]; rfl

/-- The two ways of `aux_split_by_key(root, key, left, right)` on a tree that is not empty,
whatever the order of its keys is: when the search leaves no candidate the whole tree is
returned as `right`, with its first node at the root; otherwise the candidate is the root of
`left`, without a right subtree, `left` holds the nodes up to the candidate and `right` the
nodes after it. -/
theorem aux_split_by_key_struct {m : Mem} {l r : PTree (Option Nat)} {a : Nat}
    {v : Option Nat} (hrep : Rep AuxNode.link m.auxs (PTree.node l a v r) none)
    (hnd : (PTree.node l a v r).addrs.Nodup)
    (hv : ValidRefs m.refs.length (PTree.node l a v r)) (key : Int) :
    ((PTree.node l a v r).splitCand m.refs key none = none →
      ∃ m2 Rt, aux_split_by_key m (some a) key = some (m2, none, Rt.root) ∧
        Rep AuxNode.link m2.auxs Rt none ∧ Rt.toList = (PTree.node l a v r).toList ∧
        m2.refs.map RefNode.core = m.refs.map RefNode.core ∧
        m2.auxs.length = m.auxs.length ∧
        ∀ b : Nat, b ∉ (PTree.node l a v r).addrs → m2.auxs[b]? = m.auxs[b]?) ∧
    ∀ (c : List (Frame (Option Nat))) (A : PTree (Option Nat)) (x : Nat) (xv : Option Nat)
      (B : PTree (Option Nat)), (PTree.node l a v r).splitCand m.refs key none = some x →
      PTree.node l a v r = plug c (PTree.node A x xv B) →
      ∃ m2 A2 B2, aux_split_by_key m (some a) key = some (m2, some x, B2.root) ∧
        Rep AuxNode.link m2.auxs (PTree.node A2 x xv PTree.nil) none ∧
        Rep AuxNode.link m2.auxs B2 none ∧
        A2.toList = ctxBefore c ++ A.toList ∧ B2.toList = B.toList ++ ctxAfter c ∧
        m2.refs.map RefNode.core = m.refs.map RefNode.core ∧
        m2.auxs.length = m.auxs.length ∧
        ∀ b : Nat, b ∉ (PTree.node l a v r).addrs → m2.auxs[b]? = m.auxs[b]? := by
  have hsz := hrep.size_le hnd
  have hh := (PTree.node l a v r).height_le_size
  have hfind := split_find_loop_spec hrep hv key (m.auxs.length + 1) (by omega) none
  simp only [PTree.root_node] at hfind
  constructor
  · -- no candidate: the minimum is splayed to the root
    intro hc
    obtain ⟨mn, mv, R0, hmin⟩ := PTree.minNode_isSome l r a v
    obtain ⟨hplug, -⟩ := PTree.minNode_plug hmin
    have hfm : aux_find_min m.auxs (some a) = some (some mn) := by
      simp [aux_find_min, aux_find_min_loop_spec hrep (m.auxs.length + 1) (by omega), hmin]
    have hrep2 := hrep
    have hnd2 := hnd
    rw [hplug] at hrep2 hnd2
    obtain ⟨h1, hsplay, hrep1, hlen1, hfr1⟩ := splay_spec hrep2 hnd2
    rw [← hplug] at hfr1
    obtain ⟨B2, hsp⟩ := splayF_allL _ _ (le_refl _)
      (PTree.minPath_allL (PTree.node l a v r)) mn mv R0
    rw [hsp] at hrep1
    have htl : (PTree.node PTree.nil mn mv B2).toList = (PTree.node l a v r).toList := by
      rw [← hsp, splayF_toList, ← hplug]
    have hndT : (PTree.node PTree.nil mn mv B2).addrs.Nodup := by
      rw [addrs_eq_of_toList_eq htl]; exact hnd
    obtain ⟨h2, hlp, hrepR, hlen2, hfr2⟩ := aux_link_parent_spec none hrep1 hndT
    simp only [PTree.root_node] at hlp
    have hvT : ValidRefs m.refs.length (PTree.node PTree.nil mn mv B2) :=
      ValidRefs.of_toList_eq htl hv
    obtain ⟨refs2, hset, hcore⟩ := aux_set_all_auxptr_spec hrepR hndT hvT
    simp only [PTree.root_node] at hset
    refine ⟨⟨refs2, h2⟩, PTree.node PTree.nil mn mv B2, ?_, hrepR, htl, hcore,
      by simp [hlen2, hlen1], ?_⟩
    · simp [aux_split_by_key, hfind, hc, hfm, hsplay, hlp, aux_set_all_auxptr_none, hset]
    · intro b hb
      by_cases hbm : b = mn
      · subst hbm
        exact absurd (by rw [← addrs_eq_of_toList_eq htl]; simp) hb
      · rw [hfr2 b (by simpa using fun e => hbm e.symm), hfr1 b hb]
  · -- the candidate is splayed to the root and its right subtree is cut off
    intro c A x xv B hc hplug
    have hrep2 := hrep
    have hnd2 := hnd
    rw [hplug] at hrep2 hnd2
    obtain ⟨h1, hsplay, hrep1, hlen1, hfr1⟩ := splay_spec hrep2 hnd2
    rw [← hplug] at hfr1
    obtain ⟨A2, B2, hsp⟩ := splayF_root c A x xv B
    rw [hsp] at hrep1
    have htl : (PTree.node A2 x xv B2).toList = (PTree.node l a v r).toList := by
      rw [← hsp, splayF_toList, ← hplug]
    have hndT : (PTree.node A2 x xv B2).addrs.Nodup := by
      rw [addrs_eq_of_toList_eq htl]; exact hnd
    simp only [PTree.addrs_node] at hndT
    have hndA : A2.addrs.Nodup := (List.nodup_append.mp hndT).1
    have hndB : B2.addrs.Nodup := (List.nodup_cons.mp (List.nodup_append.mp hndT).2.1).2
    have hxA : x ∉ A2.addrs := fun hm => (List.nodup_append.mp hndT).2.2 hm (by simp)
    have hxB : x ∉ B2.addrs := (List.nodup_cons.mp (List.nodup_append.mp hndT).2.1).1
    have hAB : ∀ b, b ∈ A2.addrs → b ∈ B2.addrs → False := fun b h4 h5 =>
      (List.nodup_append.mp hndT).2.2 h4 (by simp [h5])
    have hx1 := hrep1.aux_get
    obtain ⟨h2, hlp, hrepB, hlen2, hfr2⟩ := aux_link_parent_spec none hrep1.2.2 hndB
    have hx2 : h2[x]? = some ⟨xv, A2.root, B2.root, none⟩ := by
      rw [hfr2 x (PTree.root_ne_of_not_mem hxB), hx1]
    have hrepL : Rep AuxNode.link (h2.set x ⟨xv, A2.root, none, none⟩)
        (PTree.node A2 x xv PTree.nil) none := by
      refine ⟨?_, hrep1.2.1.frame ?_, trivial⟩
      · rw [get_set_self hx2]; rfl
      · intro b hb
        rw [List.getElem?_set_ne (by rintro rfl; exact hxA hb),
          hfr2 b (fun e => hAB b hb (PTree.root_mem_addrs e))]
    have hrepR : Rep AuxNode.link (h2.set x ⟨xv, A2.root, none, none⟩) B2 none := by
      apply hrepB.frame
      intro b hb
      rw [List.getElem?_set_ne (by rintro rfl; exact hxB hb)]
    -- the two halves
    have hsplit : ctxBefore c ++ A.toList = A2.toList ∧ B.toList ++ ctxAfter c = B2.toList := by
      have e : (ctxBefore c ++ A.toList) ++ (x, xv) :: (B.toList ++ ctxAfter c) =
          A2.toList ++ (x, xv) :: B2.toList := by
        have := htl
        rw [hplug, plug_toList] at this
        simpa using this.symm
      refine append_cons_unique e ?_
      rw [e]
      have := addrs_eq_of_toList_eq htl
      rw [hplug] at hnd
      simpa [PTree.addrs] using hndT
    have hvL : ValidRefs m.refs.length (PTree.node A2 x xv PTree.nil) := by
      intro w hw
      apply hv
      have : (PTree.node l a v r).vals = A2.vals ++ xv :: B2.vals := by
        simpa [PTree.vals] using (congrArg (List.map Prod.snd) htl).symm
      rw [this]
      simp only [PTree.vals_node, PTree.vals_nil, List.mem_append, List.mem_singleton] at hw
      simp only [List.mem_append, List.mem_cons]
      tauto
    have hvR : ValidRefs m.refs.length B2 := by
      intro w hw
      apply hv
      have : (PTree.node l a v r).vals = A2.vals ++ xv :: B2.vals := by
        simpa [PTree.vals] using (congrArg (List.map Prod.snd) htl).symm
      rw [this]
      simp [hw]
    have hndL : (PTree.node A2 x xv PTree.nil).addrs.Nodup := by
      simp only [PTree.addrs_node, PTree.addrs_nil]
      rw [List.nodup_append]
      refine ⟨hndA, by simp, ?_⟩
      intro b h4 h5
      simp only [List.mem_singleton] at h5
      subst h5
      exact hxA h4
    obtain ⟨refs1, hset1, hcore1⟩ := aux_set_all_auxptr_spec hrepL hndL hvL
    obtain ⟨refs2, hset2, hcore2⟩ := aux_set_all_auxptr_spec hrepR hndB
      (show ValidRefs refs1.length _ from by rw [core_length hcore1]; exact hvR)
    simp only [PTree.root_node] at hset1
    refine ⟨⟨refs2, h2.set x ⟨xv, A2.root, none, none⟩⟩, A2, B2, ?_,
      hrepL, hrepR, hsplit.1.symm, hsplit.2.symm, hcore2.trans hcore1,
      by simp [hlen2, hlen1], ?_⟩
    · simp [aux_split_by_key, hfind, hc, hsplay, hx1, hlp, modify_of_get hx2, hset1, hset2]
    · intro b hb
      have hbx : b ≠ x := by
        rintro rfl
        exact hb (by rw [← addrs_eq_of_toList_eq htl]; simp)
      have hbB : b ∉ B2.addrs := fun hm =>
        hb (by rw [← addrs_eq_of_toList_eq htl]; simp [hm])
      rw [List.getElem?_set_ne (Ne.symm hbx), hfr2 b (PTree.root_ne_of_not_mem hbB),
        hfr1 b hb]

/-- `aux_split_by_key(root, key, left, right)` on a tree whose keys are in order: the call
returns two trees without a parent above their roots; `left` holds the nodes with a key
`≤ key`, `right` the others, and in-order `left` followed by `right` lists the nodes of
the tree. -/
theorem aux_split_by_key_spec {m : Mem} {t : PTree (Option Nat)}
    (hrep : Rep AuxNode.link m.auxs t none) (hnd : t.addrs.Nodup)
    (hv : ValidRefs m.refs.length t) (key : Int) (hs : (auxKeys m.refs t).Sorted (· ≤ ·)) :
    ∃ m2 Lt Rt, aux_split_by_key m t.root key = some (m2, Lt.root, Rt.root) ∧
      Rep AuxNode.link m2.auxs Lt none ∧ Rep AuxNode.link m2.auxs Rt none ∧
      Lt.toList ++ Rt.toList = t.toList ∧
      (∀ p ∈ Lt.toList, refKey m.refs p.2 ≤ key) ∧
      (∀ p ∈ Rt.toList, key < refKey m.refs p.2) ∧
      m2.refs.map RefNode.core = m.refs.map RefNode.core ∧
      m2.auxs.length = m.auxs.length ∧
      ∀ b : Nat, b ∉ t.addrs → m2.auxs[b]? = m.auxs[b]? := by
  cases t with
  | nil =>
    exact ⟨m, PTree.nil, PTree.nil, rfl, trivial, trivial, rfl, by simp, by simp, rfl, rfl,
      fun _ _ => rfl⟩
  | node l a v r =>
    obtain ⟨s1, s2⟩ := aux_split_by_key_struct hrep hnd hv key
    rcases PTree.splitCand_spec m.refs key (PTree.node l a v r) none hs with
      ⟨hc, hall⟩ | ⟨c, A, x, xv, B, hc, hplug, hle, hgt⟩
    · obtain ⟨m2, Rt, hsp, hrepR, htl, hcore, hlen, hfr⟩ := s1 hc
      refine ⟨m2, PTree.nil, Rt, hsp, trivial, hrepR, by simpa using htl, by simp, ?_, hcore,
        hlen, hfr⟩
      intro p hp
      rw [htl] at hp
      exact hall _ (by
        simp only [auxKeys, PTree.vals, List.mem_map]
        exact ⟨p.2, ⟨p, hp, rfl⟩, rfl⟩)
    · obtain ⟨m2, A2, B2, hsp, hrepL, hrepR, hA, hB, hcore, hlen, hfr⟩ := s2 c A x xv B hc hplug
      refine ⟨m2, PTree.node A2 x xv PTree.nil, B2, hsp, hrepL, hrepR, ?_, ?_, ?_, hcore, hlen,
        hfr⟩
      · rw [hplug, plug_toList, PTree.toList_node, PTree.toList_node, PTree.toList_nil, hA, hB]
        simp
      · intro p hp
        apply hle
        rw [PTree.toList_node, PTree.toList_nil, hA] at hp
        simpa using hp
      · intro p hp
        apply hgt
        rw [hB] at hp
        exact hp

/-! ## Preferred chains -/

theorem Chain.det {h : List RefNode} {p : Option Nat} {l l2 : List Nat} (h1 : Chain h p l)
    (h2 : Chain h p l2) : l = l2 := by
  induction h1 generalizing l2 with
  | nil => cases h2; rfl
  | cons hn _ ih =>
    cases h2 with
    | cons hn2 hc2 =>
      rw [hn] at hn2
      cases hn2
      rw [ih hc2]

theorem Chain.suffix {h : List RefNode} {p : Option Nat} {l : List Nat} (h1 : Chain h p l) :
    ∀ b ∈ l, ∃ l2, Chain h (some b) l2 ∧ l2.length ≤ l.length := by
  induction h1 with
  | nil => simp
  | @cons a n l hn hc ih =>
    intro b hb
    simp only [List.mem_cons] at hb
    rcases hb with rfl | hb
    · exact ⟨b :: l, Chain.cons hn hc, le_refl _⟩
    · obtain ⟨l2, h2, h3⟩ := ih b hb
      exact ⟨l2, h2, by simp only [List.length_cons]; omega⟩

/-- A walk that ends visits no node twice. -/
theorem Chain.nodup {h : List RefNode} {p : Option Nat} {l : List Nat} (h1 : Chain h p l) :
    l.Nodup := by
  induction h1 with
  | nil => simp
  | @cons a n l hn hc ih =>
    refine List.nodup_cons.mpr ⟨?_, ih⟩
    intro hm
    obtain ⟨l2, h2, h3⟩ := hc.suffix a hm
    have := h2.det (Chain.cons hn hc)
    subst this
    simp at h3

theorem Chain.lt {h : List RefNode} {p : Option Nat} {l : List Nat} (h1 : Chain h p l) :
    ∀ b ∈ l, b < h.length := by
  induction h1 with
  | nil => simp
  | @cons a n l hn hc ih =>
    intro b hb
    simp only [List.mem_cons] at hb
    rcases hb with rfl | hb
    · exact lt_of_get hn
    · exact ih b hb

theorem Chain.length_le {h : List RefNode} {p : Option Nat} {l : List Nat}
    (h1 : Chain h p l) : l.length ≤ h.length := by
  have hsub : l ⊆ List.range h.length := fun a ha => List.mem_range.mpr (h1.lt a ha)
  simpa using (List.subperm_of_subset h1.nodup hsub).length_le

/-- The chain walk of `build_aux_trees_from_ref` collects the nodes of the walk. -/
theorem chain_loop_of_chain {h : List RefNode} {p : Option Nat} {l : List Nat}
    (h1 : Chain h p l) (fuel : Nat) (hf : l.length ≤ fuel) (arr : List (Option Nat)) :
    chain_loop fuel h p arr = some (arr ++ l.map some) := by
  induction h1 generalizing fuel arr with
  | nil => cases fuel <;> simp [chain_loop]
  | @cons a n l hn hc ih =>
    cases fuel with
    | zero => simp at hf
    | succ fuel =>
      simp only [List.length_cons, Nat.add_le_add_iff_right] at hf
      simp [chain_loop, hn, ih fuel hf]

/-- Walks only read the `preferred` fields. -/
theorem Chain.congr {h h2 : List RefNode} {p : Option Nat} {l : List Nat} (h1 : Chain h p l)
    (he : h2.map RefNode.preferred = h.map RefNode.preferred) : Chain h2 p l := by
  induction h1 with
  | nil => exact Chain.nil
  | @cons a n l hn hc ih =>
    have e := congrArg (fun x => x[a]?) he
    simp only [List.getElem?_map, hn, Option.map_some'] at e
    cases hq : h2[a]? with
    | none => simp [hq] at e
    | some n2 =>
      simp only [hq, Option.map_some', Option.some.injEq] at e
      exact Chain.cons hq (by rw [e]; exact ih)

theorem ChainsOK.of_pref {h h2 : List RefNode} (h1 : ChainsOK h)
    (he : h2.map RefNode.preferred = h.map RefNode.preferred) : ChainsOK h2 := by
  intro a ha
  have hl : h2.length = h.length := by simpa using congrArg List.length he
  obtain ⟨l, hc⟩ := h1 a (by omega)
  exact ⟨l, hc.congr he⟩

theorem preferred_of_core {h h2 : List RefNode}
    (he : h2.map RefNode.core = h.map RefNode.core) :
    h2.map RefNode.preferred = h.map RefNode.preferred := by
  have : ∀ l : List RefNode, l.map RefNode.preferred =
      (l.map RefNode.core).map fun c => c.2.2.2.2 := by
    intro l
    simp [RefNode.core, Function.comp_def]
  rw [this, this, he]

theorem preferred_of_rest {h h2 : List RefNode}
    (he : h2.map RefNode.rest = h.map RefNode.rest) :
    h2.map RefNode.preferred = h.map RefNode.preferred := by
  have : ∀ l : List RefNode, l.map RefNode.preferred =
      (l.map RefNode.rest).map fun c => c.2.2 := by
    intro l
    simp [RefNode.rest, Function.comp_def]
  rw [this, this, he]

theorem link_of_core {h h2 : List RefNode}
    (he : h2.map RefNode.core = h.map RefNode.core) :
    h2.map RefNode.link = h.map RefNode.link := by
  have : ∀ l : List RefNode, l.map RefNode.link =
      (l.map RefNode.core).map fun c => (⟨c.1, c.2.1, c.2.2.1, c.2.2.2.1⟩ : Link Int) := by
    intro l
    simp [RefNode.core, RefNode.link, Function.comp_def]
  rw [this, this, he]

/-- A store with the same link fields holds the same reference tree. -/
theorem RefTree.of_link {h h2 : List RefNode} {root : Option Nat} {t : PTree Int}
    (ht : RefTree h root t) (he : h2.map RefNode.link = h.map RefNode.link) :
    RefTree h2 root t := by
  refine ⟨ht.1, ht.2.1.frame ?_, ht.2.2⟩
  intro a _
  have := congrArg (fun x => x[a]?) he
  simpa [List.getElem?_map] using this

/-! ## Building one auxiliary tree -/

theorem lspine_toList {β : Type} (xs : List (Nat × β)) : (lspine xs).toList = xs.reverse := by
  induction xs with
  | nil => rfl
  | cons x xs ih => simp [lspine, ih]

theorem chainTreeRev_toList {β : Type} (xs : List (Nat × β)) :
    (chainTreeRev xs).toList = xs.reverse := by
  match xs with
  | [] => rfl
  | [z] => simp [chainTreeRev]
  | z :: y :: rest => simp [chainTreeRev, lspine_toList]

/-- A merge with a new single node. -/
theorem mergeT_chainTreeRev {β : Type} (xs : List (Nat × β)) (w : Nat) (wv : β) :
    mergeT (chainTreeRev xs) (PTree.node PTree.nil w wv PTree.nil) =
      chainTreeRev ((w, wv) :: xs) := by
  match xs with
  | [] => rfl
  | [z] => simp [chainTreeRev, mergeT, PTree.maxNode, PTree.maxPath, splayF, lspine]
  | z :: y :: rest =>
    simp [chainTreeRev, mergeT, PTree.maxNode, PTree.maxPath, splayF, lspine]

theorem chainTreeRev_addrs {β : Type} (xs : List (Nat × β)) :
    (chainTreeRev xs).addrs = (xs.map Prod.fst).reverse := by
  simp [PTree.addrs, chainTreeRev_toList, List.map_reverse]

theorem chainTreeRev_vals {β : Type} (xs : List (Nat × β)) :
    (chainTreeRev xs).vals = (xs.map Prod.snd).reverse := by
  simp [PTree.vals, chainTreeRev_toList, List.map_reverse]

theorem Rep.append {α β : Type} {lk : α → Link β} {h : List α} {t : PTree β}
    {par : Option Nat} (hr : Rep lk h t par) (x : List α) : Rep lk (h ++ x) t par := by
  apply hr.frame
  intro a ha
  rw [List.getElem?_append_left (hr.addr_lt a ha)]

/-- The loop of `build_splay_from_array_with_merge`: every pass allocates one node and
merges it in; `done` are the nodes merged so far, newest first. -/
theorem build_splay_loop_spec (arr : List (Option Nat)) (r : Int) :
    ∀ (k fuel : Nat) (m : Mem) (i : Int) (done : List (Nat × Option Nat)),
      (r + 1 - i).toNat = k → k + 1 ≤ fuel → 0 ≤ i → i ≤ r + 1 →
      Rep AuxNode.link m.auxs (chainTreeRev done) none → (done.map Prod.fst).Nodup →
      ValidRefs m.refs.length (chainTreeRev done) →
      (∀ j : Nat, i ≤ (j : Int) → (j : Int) ≤ r →
        ∃ x, arr[j]? = some (some x) ∧ x < m.refs.length) →
      ∃ m2 news, build_splay_loop fuel m arr i r (chainTreeRev done).root =
          some (m2, (chainTreeRev (news ++ done)).root) ∧
        Rep AuxNode.link m2.auxs (chainTreeRev (news ++ done)) none ∧
        news.reverse.map Prod.fst = List.range' m.auxs.length k ∧
        news.reverse.map Prod.snd = (arr.drop i.toNat).take k ∧
        m2.auxs.length = m.auxs.length + k ∧
        (∀ b : Nat, b < m.auxs.length → b ∉ done.map Prod.fst → m2.auxs[b]? = m.auxs[b]?) ∧
        m2.refs.map RefNode.core = m.refs.map RefNode.core := by
  intro k
  induction k with
  | zero =>
    intro fuel m i done hk hf h0 h1 hrep _ _ _
    cases fuel with
    | zero => simp at hf
    | succ fuel =>
      refine ⟨m, [], ?_, hrep, by simp, by simp, by simp, fun _ _ _ => rfl, rfl⟩
      have : ¬ i ≤ r := by omega
      simp [build_splay_loop, this]
  | succ k ih =>
    intro fuel m i done hk hf h0 h1 hrep hnd hval harr
    cases fuel with
    | zero => simp at hf
    | succ fuel =>
      have hir : i ≤ r := by omega
      obtain ⟨x, hx, hxlt⟩ := harr i.toNat (by omega) (by omega)
      have hget : arrGet arr i = some (some x) := by simp [arrGet, h0, hx]
      -- the new node and the merge
      have hdone : ∀ a ∈ done.map Prod.fst, a < m.auxs.length := by
        intro a ha
        apply hrep.addr_lt
        rw [chainTreeRev_addrs]
        simpa using ha
      have hfresh : m.auxs.length ∉ done.map Prod.fst := fun hm =>
        absurd (hdone _ hm) (by omega)
      have hR : Rep AuxNode.link (m.auxs ++ [AuxNode.new (some x)])
          (PTree.node PTree.nil m.auxs.length (some x) PTree.nil) none := by
        refine ⟨?_, trivial, trivial⟩
        rw [List.getElem?_concat_length]
        rfl
      obtain ⟨m2, hmerge, hrep2, hlen2, hfr2, hcore2, -⟩ :=
        aux_merge_spec (m := ⟨m.refs, m.auxs ++ [AuxNode.new (some x)]⟩) (hrep.append _) hR
          (by
            rw [chainTreeRev_addrs]
            simp only [PTree.addrs_node, PTree.addrs_nil, List.nil_append]
            rw [List.nodup_append]
            refine ⟨List.nodup_reverse.mpr hnd, by simp, ?_⟩
            intro b hb1 hb2
            simp only [List.mem_singleton] at hb2
            subst hb2
            exact hfresh (by simpa using hb1))
          hval
          (by
            intro w hw
            simp only [PTree.vals_node, PTree.vals_nil, List.nil_append,
              List.mem_singleton] at hw
            exact ⟨x, hw, hxlt⟩)
      rw [mergeT_chainTreeRev] at hmerge hrep2
      simp only [PTree.root_node, List.length_append, List.length_singleton] at hmerge hlen2
      have hrl2 : m2.refs.length = m.refs.length := core_length hcore2
      obtain ⟨m3, news, hloop, hrep3, hn1, hn2, hlen3, hfr3, hcore3⟩ :=
        ih fuel m2 (i + 1) ((m.auxs.length, some x) :: done) (by omega) (by omega) (by omega)
          (by omega) hrep2 (List.nodup_cons.mpr ⟨hfresh, hnd⟩)
          (by
            intro w hw
            rw [hrl2]
            rw [chainTreeRev_vals] at hw
            simp only [List.map_cons, List.reverse_cons, List.mem_append, List.mem_reverse,
              List.mem_singleton] at hw
            rcases hw with hw | rfl
            · exact hval w (by rw [chainTreeRev_vals]; simpa using hw)
            · exact ⟨x, rfl, hxlt⟩)
          (by
            intro j hj1 hj2
            rw [hrl2]
            exact harr j (by omega) hj2)
      refine ⟨m3, news ++ [(m.auxs.length, some x)], ?_, by simpa using hrep3, ?_, ?_, ?_, ?_,
        hcore3.trans hcore2⟩
      · simp only [build_splay_loop, if_pos hir, hget, hmerge, Option.some_bind]
        simpa using hloop
      · simp only [List.reverse_append, List.reverse_cons, List.reverse_nil, List.nil_append,
          List.singleton_append, List.map_cons, hn1, hlen2]
        rw [List.range'_succ]
      · simp only [List.reverse_append, List.reverse_cons, List.reverse_nil, List.nil_append,
          List.singleton_append, List.map_cons, hn2]
        have e : (i + 1).toNat = i.toNat + 1 := by omega
        have hlt : i.toNat < arr.length := lt_of_get hx
        rw [e, List.drop_eq_getElem_cons hlt, List.take_succ_cons]
        congr 1
        rw [List.getElem?_eq_getElem hlt] at hx
        exact (Option.some.inj hx).symm
      · rw [hlen3, hlen2]; omega
      · intro b hb1 hb2
        rw [hfr3 b (by omega) (by
            simp only [List.map_cons, List.mem_cons, not_or]
            exact ⟨by omega, hb2⟩)]
        rw [hfr2 b (by
            rw [chainTreeRev_addrs]
            simp only [PTree.addrs_node, PTree.addrs_nil, List.nil_append, List.mem_append,
              List.mem_reverse, List.mem_singleton, not_or]
            exact ⟨hb2, by omega⟩)]
        exact List.getElem?_append_left hb1

/-! ## Rebuilding the auxiliary trees -/

theorem AuxFor.aframe {auxs auxs2 : List AuxNode} {a : Option Nat} {l : List Nat}
    (h : AuxFor auxs a l) (hf : ∀ b : Nat, b < auxs.length → auxs2[b]? = auxs[b]?) :
    AuxFor auxs2 a l := by
  obtain ⟨news, h1, h2, h3, h4⟩ := h
  refine ⟨news, h1, h2.frame ?_, h3, h4⟩
  intro b hb
  rw [hf b (h2.addr_lt b hb)]

theorem AuxFor.listOK {m : Mem} {a : Option Nat} {l : List Nat} (h : AuxFor m.auxs a l)
    (hl : ∀ b ∈ l, b < m.refs.length) :
    ∃ t : PTree (Option Nat), t.root = a ∧ Rep AuxNode.link m.auxs t none ∧
      t.addrs.Nodup ∧ ValidRefs m.refs.length t := by
  obtain ⟨news, h1, h2, h3, h4⟩ := h
  refine ⟨chainTreeRev news, h1.symm, h2, ?_, ?_⟩
  · rw [chainTreeRev_addrs]
    exact List.nodup_reverse.mpr h3
  · intro v hv
    rw [chainTreeRev_vals, ← List.map_reverse, h4] at hv
    obtain ⟨b, hb, rfl⟩ := List.mem_map.mp hv
    exact ⟨b, rfl, hl b hb⟩

/-- The function `free_aux_list(alist)` returns and writes nothing but `aux_ptr` fields. -/
theorem free_aux_list_spec (auxs : List AuxNode) :
    ∀ (alist : List (Option Nat)) (refs : List RefNode), AuxListOK ⟨refs, auxs⟩ alist →
      ∃ refs2, free_aux_list auxs refs alist = some refs2 ∧
        refs2.map RefNode.core = refs.map RefNode.core := by
  intro alist
  induction alist with
  | nil => intro refs _; exact ⟨refs, rfl, rfl⟩
  | cons p rest ih =>
    intro refs hok
    obtain ⟨t, ht, hrep, hnd, hval⟩ := hok p (List.mem_cons_self _ _)
    have hh : t.height ≤ auxs.length + 1 := by
      have h1 : t.size ≤ auxs.length := hrep.size_le hnd
      have := t.height_le_size
      omega
    obtain ⟨refs1, h1, hc1⟩ := free_aux_tree_spec auxs t none _ refs hrep hh hval
    obtain ⟨refs2, h2, hc2⟩ := ih refs1 (by
      intro q hq
      obtain ⟨t2, a, b, c, d⟩ := hok q (List.mem_cons_of_mem _ hq)
      refine ⟨t2, a, b, c, ?_⟩
      have e : refs1.length = refs.length := core_length hc1
      simpa [e] using d)
    refine ⟨refs2, ?_, hc2.trans hc1⟩
    rw [ht] at h1
    simp [free_aux_list, h1, h2]

/-- The function `build_splay_from_array_with_merge` on the array of a chain: it returns
the tree of the chain, built of new nodes. -/
theorem build_splay_from_array_with_merge_spec (m : Mem) (l : List Nat)
    (hl : ∀ b ∈ l, b < m.refs.length) :
    ∃ m2 a, build_splay_from_array_with_merge m (l.map some) 0
        (((l.map some).length : Int) - 1) = some (m2, a) ∧
      AuxFor m2.auxs a l ∧ m.auxs.length ≤ m2.auxs.length ∧
      (∀ b : Nat, b < m.auxs.length → m2.auxs[b]? = m.auxs[b]?) ∧
      m2.refs.map RefNode.core = m.refs.map RefNode.core := by
  obtain ⟨m2, news, h1, h2, h3, h4, h5, h6, h7⟩ :=
    build_splay_loop_spec (l.map some) (((l.map some).length : Int) - 1) l.length
      (l.length + 1) m 0 [] (by simp) (by omega) (by omega) (by simp) trivial
      (by simp) (by intro v hv; simp [chainTreeRev] at hv)
      (by
        intro j _ hj
        simp only [List.length_map] at hj
        have hjl : j < l.length := by omega
        refine ⟨l[j], by simp [List.getElem?_eq_getElem hjl], hl _ (List.getElem_mem _)⟩)
  refine ⟨m2, (chainTreeRev news).root, ?_, ⟨news, rfl, by simpa using h2, ?_, ?_⟩,
    by omega, fun b hb => h6 b hb (by simp), h7⟩
  · have e : ((((l.map some).length : Int) - 1) - 0 + 1).toNat + 1 = l.length + 1 := by
      simp
    simp only [build_splay_from_array_with_merge, e]
    simpa [chainTreeRev] using h1
  · have h3b := congrArg List.reverse h3
    rw [← List.map_reverse, List.reverse_reverse] at h3b
    rw [h3b]
    exact List.nodup_reverse.mpr (List.nodup_range' _ _)
  · rw [h4]
    simp

theorem isHead_congr {h h2 : List RefNode}
    (he : h2.map RefNode.preferred = h.map RefNode.preferred) : isHead h2 = isHead h := by
  funext x
  obtain ⟨a, p⟩ := x
  cases p with
  | none => rfl
  | some p =>
    have e := congrArg (fun x => x[p]?) he
    simp only [List.getElem?_map] at e
    simp only [isHead]
    cases h1 : h[p]? with
    | none =>
      rw [h1] at e
      cases h3 : h2[p]? with
      | none => rfl
      | some n2 => rw [h3] at e; simp at e
    | some n =>
      rw [h1] at e
      cases h3 : h2[p]? with
      | none => rw [h3] at e; simp at e
      | some n2 =>
        rw [h3] at e
        simp only [Option.map_some', Option.some.injEq] at e
        simp [e]

theorem build_aux_loop_nil (fuel : Nat) (m : Mem) (alist : List (Option Nat)) :
    build_aux_loop fuel m [] alist = some (m, alist) := by
  cases fuel <;> rfl

/-- The loop of `build_aux_trees_from_ref` over the subtrees whose roots are on the stack,
when the walks along the `preferred` pointers from the nodes of these subtrees end: it
ends, and it builds one auxiliary tree for each node that passes the head test, of the
nodes on the walk from that node. -/
theorem build_aux_loop_local :
    ∀ (k : Nat) (fs : List (PTree Int × Option Nat)) (fuel : Nat) (m : Mem)
      (alist : List (Option Nat)),
      (fs.map fun f => 2 * f.1.size + 1).sum ≤ k → (fs.map fun f => f.1.size).sum ≤ fuel →
      (∀ f ∈ fs, Rep RefNode.link m.refs f.1 f.2) →
      (∀ f ∈ fs, ∀ p, f.2 = some p → p < m.refs.length) →
      (∀ f ∈ fs, ∀ a ∈ f.1.addrs, ∃ l, Chain m.refs (some a) l) →
      ∃ m2 rs chains,
        build_aux_loop fuel m (roots (fs.map Prod.fst)) alist = some (m2, rs.reverse ++ alist) ∧
        List.Forall₂ (fun l x => Chain m.refs (some x.1) l) chains
          ((forestPre fs).filter (isHead m.refs)) ∧
        List.Forall₂ (AuxFor m2.auxs) rs chains ∧
        m.auxs.length ≤ m2.auxs.length ∧
        (∀ b : Nat, b < m.auxs.length → m2.auxs[b]? = m.auxs[b]?) ∧
        m2.refs.map RefNode.core = m.refs.map RefNode.core := by
  intro k
  induction k with
  | zero =>
    intro fs fuel m alist hk _ _ _ _
    cases fs with
    | nil =>
      exact ⟨m, [], [], by simp [roots, build_aux_loop_nil], by simp [forestPre],
        List.Forall₂.nil, le_refl _, fun _ _ => rfl, rfl⟩
    | cons f fs => simp at hk
  | succ k ih =>
    intro fs fuel m alist hk hfuel hrep hpar hch
    cases fs with
    | nil =>
      exact ⟨m, [], [], by simp [roots, build_aux_loop_nil], by simp [forestPre],
        List.Forall₂.nil, le_refl _, fun _ _ => rfl, rfl⟩
    | cons f fs =>
      obtain ⟨t, p⟩ := f
      cases t with
      | nil =>
        simp only [List.map_cons, List.sum_cons, PTree.size_nil] at hk hfuel
        obtain ⟨m2, rs, chains, h1, h2, h3⟩ := ih fs fuel m alist (by omega) (by omega)
          (fun f hf => hrep f (List.mem_cons_of_mem _ hf))
          (fun f hf => hpar f (List.mem_cons_of_mem _ hf))
          (fun f hf => hch f (List.mem_cons_of_mem _ hf))
        refine ⟨m2, rs, chains, ?_, ?_, h3⟩
        · simpa [roots] using h1
        · simpa [forestPre, PTree.pre] using h2
      | node l a v r =>
        simp only [List.map_cons, List.sum_cons, PTree.size_node] at hk hfuel
        have hT := hrep (PTree.node l a v r, p) (List.mem_cons_self _ _)
        obtain ⟨nn, hn, -, hnl, hnr, hnp⟩ := hT.ref_get
        obtain ⟨-, hTl, hTr⟩ := hT
        have halt : a < m.refs.length := lt_of_get hn
        have hsub : ∀ f ∈ (l, some a) :: (r, some a) :: fs, ∀ b ∈ f.1.addrs,
            ∃ l2, Chain m.refs (some b) l2 := by
          intro f hf b hb
          simp only [List.mem_cons] at hf
          rcases hf with rfl | rfl | hf
          · exact hch _ (List.mem_cons_self _ _) b (by simp [PTree.addrs_node, hb])
          · exact hch _ (List.mem_cons_self _ _) b (by simp [PTree.addrs_node, hb])
          · exact hch f (List.mem_cons_of_mem _ hf) b hb
        cases fuel with
        | zero => omega
        | succ fuel =>
          -- the head test
          have hst : pushPtr nn.left (pushPtr nn.right (roots (fs.map Prod.fst))) =
              roots (((l, some a) :: (r, some a) :: fs).map Prod.fst) := by
            rw [hnl, hnr, pushPtr_root, pushPtr_root]
            rfl
          have hpre : forestPre ((PTree.node l a v r, p) :: fs) =
              (a, p) :: forestPre ((l, some a) :: (r, some a) :: fs) := by
            simp [forestPre, PTree.pre]
          have hstep : build_aux_loop (fuel + 1) m
              (roots (((PTree.node l a v r, p) :: fs).map Prod.fst)) alist =
              ((if isHead m.refs (a, p) = true then
                (chain_loop (m.refs.length + 1) m.refs (some a) []).bind fun arr =>
                (build_splay_from_array_with_merge m arr 0 ((arr.length : Int) - 1)).bind
                fun (m1, aroot) => build_aux_loop fuel m1
                  (roots (((l, some a) :: (r, some a) :: fs).map Prod.fst)) (aroot :: alist)
              else build_aux_loop fuel m
                  (roots (((l, some a) :: (r, some a) :: fs).map Prod.fst)) alist)) := by
            have e : roots (((PTree.node l a v r, p) :: fs).map Prod.fst) =
                a :: roots (fs.map Prod.fst) := by simp [roots]
            rw [e]
            simp only [build_aux_loop, hn, hst]
            rw [hnp]
            cases p with
            | none => simp [isHead]
            | some pa =>
              have hpa := hpar (PTree.node l a v r, some pa) (List.mem_cons_self _ _) pa rfl
              obtain ⟨pn, hpn⟩ := get_of_lt hpa
              simp [isHead, hpn]
          rw [hstep, hpre]
          cases hh : isHead m.refs (a, p) with
          | false =>
            obtain ⟨m2, rs, chains, h1, h2, h3⟩ :=
              ih ((l, some a) :: (r, some a) :: fs) fuel m alist
                (by simp only [List.map_cons, List.sum_cons]; omega)
                (by simp only [List.map_cons, List.sum_cons]; omega)
                (by
                  intro f hf
                  simp only [List.mem_cons] at hf
                  rcases hf with rfl | rfl | hf
                  · exact hTl
                  · exact hTr
                  · exact hrep f (List.mem_cons_of_mem _ hf))
                (by
                  intro f hf q hq
                  simp only [List.mem_cons] at hf
                  rcases hf with rfl | rfl | hf
                  · cases hq; exact halt
                  · cases hq; exact halt
                  · exact hpar f (List.mem_cons_of_mem _ hf) q hq)
                hsub
            refine ⟨m2, rs, chains, by simpa using h1, ?_, h3⟩
            rw [List.filter_cons_of_neg (by simp [hh])]
            exact h2
          | true =>
            obtain ⟨l0, hl0⟩ := hch _ (List.mem_cons_self _ _) a (by simp [PTree.addrs_node])
            have hcl := chain_loop_of_chain hl0 (m.refs.length + 1)
              (by have := hl0.length_le; omega) []
            obtain ⟨m1, aroot, hb, hax, hlen1, hfr1, hcore1⟩ :=
              build_splay_from_array_with_merge_spec m l0 hl0.lt
            have hlink := link_of_core hcore1
            have hpref := preferred_of_core hcore1
            have hrl : m1.refs.length = m.refs.length := core_length hcore1
            have hcong : ∀ (t : PTree Int) (q : Option Nat), Rep RefNode.link m.refs t q →
                Rep RefNode.link m1.refs t q := by
              intro t q ht
              apply ht.frame
              intro b _
              have := congrArg (fun x => x[b]?) hlink
              simpa [List.getElem?_map] using this
            obtain ⟨m2, rs, chains, h1, h2, h3, h4, h5, h6⟩ :=
              ih ((l, some a) :: (r, some a) :: fs) fuel m1 (aroot :: alist)
                (by simp only [List.map_cons, List.sum_cons]; omega)
                (by simp only [List.map_cons, List.sum_cons]; omega)
                (by
                  intro f hf
                  simp only [List.mem_cons] at hf
                  rcases hf with rfl | rfl | hf
                  · exact hcong _ _ hTl
                  · exact hcong _ _ hTr
                  · exact hcong _ _ (hrep f (List.mem_cons_of_mem _ hf)))
                (by
                  intro f hf q hq
                  rw [hrl]
                  simp only [List.mem_cons] at hf
                  rcases hf with rfl | rfl | hf
                  · cases hq; exact halt
                  · cases hq; exact halt
                  · exact hpar f (List.mem_cons_of_mem _ hf) q hq)
                (by
                  intro f hf b hb
                  obtain ⟨l2, hl2⟩ := hsub f hf b hb
                  exact ⟨l2, hl2.congr hpref⟩)
            refine ⟨m2, aroot :: rs, l0 :: chains, ?_, ?_, ?_, by omega,
              fun b hb => (h5 b (by omega)).trans (hfr1 b hb), h6.trans hcore1⟩
            · simp only [List.nil_append] at hcl
              simp only [if_true, hcl, Option.some_bind, hb, h1]
              simp
            · rw [List.filter_cons_of_pos (by simp [hh])]
              refine List.Forall₂.cons hl0 ?_
              rw [isHead_congr hpref] at h2
              exact h2.imp fun _ _ hc => hc.congr hpref.symm
            · exact List.Forall₂.cons (hax.aframe h5) h3

/-- The loop of `build_aux_trees_from_ref` over the subtrees whose roots are on the stack:
it ends, and it builds one auxiliary tree for each node that passes the head test, of the
nodes on the walk along the `preferred` pointers from that node. -/
theorem build_aux_loop_spec :
    ∀ (k : Nat) (fs : List (PTree Int × Option Nat)) (fuel : Nat) (m : Mem)
      (alist : List (Option Nat)),
      (fs.map fun f => 2 * f.1.size + 1).sum ≤ k → (fs.map fun f => f.1.size).sum ≤ fuel →
      (∀ f ∈ fs, Rep RefNode.link m.refs f.1 f.2) →
      (∀ f ∈ fs, ∀ p, f.2 = some p → p < m.refs.length) → ChainsOK m.refs →
      ∃ m2 rs chains,
        build_aux_loop fuel m (roots (fs.map Prod.fst)) alist = some (m2, rs.reverse ++ alist) ∧
        List.Forall₂ (fun l x => Chain m.refs (some x.1) l) chains
          ((forestPre fs).filter (isHead m.refs)) ∧
        List.Forall₂ (AuxFor m2.auxs) rs chains ∧
        m.auxs.length ≤ m2.auxs.length ∧
        (∀ b : Nat, b < m.auxs.length → m2.auxs[b]? = m.auxs[b]?) ∧
        m2.refs.map RefNode.core = m.refs.map RefNode.core := by
  intro k fs fuel m alist hk hfuel hrep hpar hch
  exact build_aux_loop_local k fs fuel m alist hk hfuel hrep hpar
    fun f hf a ha => hch a ((hrep f hf).addr_lt a ha)

/-- The function `build_aux_trees_from_ref(root)` on a reference tree from whose nodes the
preferred walks end: it returns one auxiliary tree for each head of a walk, in the reverse of the visiting
order, and writes nothing but `aux_ptr` fields of the reference store. -/
theorem build_aux_trees_from_ref_local {m : Mem} {root : Option Nat} {t : PTree Int}
    (ht : RefTree m.refs root t)
    (hch : ∀ a ∈ t.addrs, ∃ l, Chain m.refs (some a) l) :
    ∃ m2 rs chains, build_aux_trees_from_ref m root = some (m2, rs.reverse) ∧
      List.Forall₂ (fun l x => Chain m.refs (some x.1) l) chains
        ((t.pre none).filter (isHead m.refs)) ∧
      List.Forall₂ (AuxFor m2.auxs) rs chains ∧
      m2.refs.map RefNode.core = m.refs.map RefNode.core := by
  obtain ⟨hroot, hrep, hnd⟩ := ht
  have hsz : t.size ≤ m.refs.length := hrep.size_le hnd
  obtain ⟨m2, rs, chains, h1, h2, h3, -, -, h6⟩ :=
    build_aux_loop_local _ [(t, none)] (m.refs.length + 1) m [] (le_refl _)
      (by simp; omega) (by simpa using hrep) (by simp) (by simpa using hch)
  refine ⟨m2, rs, chains, ?_, by simpa [forestPre] using h2, h3, h6⟩
  cases t with
  | nil =>
    simp only [PTree.root_nil] at hroot
    subst hroot
    simp only [List.map_cons, List.map_nil, roots, List.filterMap_cons, PTree.root_nil,
      List.filterMap_nil, build_aux_loop_nil, Option.some.injEq, Prod.mk.injEq] at h1
    simp only [build_aux_trees_from_ref]
    rw [h1.1]
    simpa using h1.2
  | node l a v r =>
    simp only [PTree.root_node] at hroot
    subst hroot
    simpa [build_aux_trees_from_ref, roots] using h1

/-- The function `build_aux_trees_from_ref(root)` on a reference tree whose preferred walks
end: it returns one auxiliary tree for each head of a walk, in the reverse of the visiting
order, and writes nothing but `aux_ptr` fields of the reference store. -/
theorem build_aux_trees_from_ref_spec {m : Mem} {root : Option Nat} {t : PTree Int}
    (ht : RefTree m.refs root t) (hch : ChainsOK m.refs) :
    ∃ m2 rs chains, build_aux_trees_from_ref m root = some (m2, rs.reverse) ∧
      List.Forall₂ (fun l x => Chain m.refs (some x.1) l) chains
        ((t.pre none).filter (isHead m.refs)) ∧
      List.Forall₂ (AuxFor m2.auxs) rs chains ∧
      m2.refs.map RefNode.core = m.refs.map RefNode.core :=
  build_aux_trees_from_ref_local ht fun a ha => hch a (ht.2.1.addr_lt a ha)

theorem auxListOK_of_forall₂ {m : Mem} {rs : List (Option Nat)} {chains : List (List Nat)}
    (h : List.Forall₂ (AuxFor m.auxs) rs chains)
    (hl : ∀ l ∈ chains, ∀ b ∈ l, b < m.refs.length) : AuxListOK m rs.reverse := by
  intro p hp
  rw [List.mem_reverse] at hp
  induction h with
  | nil => simp at hp
  | @cons a l rs chains hax _ ih =>
    simp only [List.mem_cons] at hp
    rcases hp with rfl | hp
    · exact hax.listOK (hl l (List.mem_cons_self _ _))
    · exact ih (fun l2 h2 => hl l2 (List.mem_cons_of_mem _ h2)) hp

theorem forall₂_chain_lt {h : List RefNode} {chains : List (List Nat)}
    {hs : List (Nat × Option Nat)}
    (hc : List.Forall₂ (fun l x => Chain h (some x.1) l) chains hs) :
    ∀ l ∈ chains, ∀ b ∈ l, b < h.length := by
  induction hc with
  | nil => simp
  | @cons l x chains hs h1 _ ih =>
    intro l2 hl2
    simp only [List.mem_cons] at hl2
    rcases hl2 with rfl | hl2
    · exact h1.lt
    · exact ih l2 hl2

theorem forall₂_chain_unique {h : List RefNode} {c1 c2 : List (List Nat)}
    {hs : List (Nat × Option Nat)}
    (h1 : List.Forall₂ (fun l x => Chain h (some x.1) l) c1 hs)
    (h2 : List.Forall₂ (fun l x => Chain h (some x.1) l) c2 hs) : c1 = c2 := by
  induction h1 generalizing c2 with
  | nil => cases h2; rfl
  | @cons l x c1 hs hl _ ih =>
    cases h2 with
    | @cons l2 _ c2 _ hl2 hr2 =>
      rw [hl.det hl2, ih hr2]

/-- The method `Tango::rebuild_aux()` on a state with a reference tree whose preferred
walks end and with a list of auxiliary trees: it returns, keeps the root and all fields of
the reference store but `aux_ptr`, and the new list holds one tree for each head of a
walk. -/
theorem rebuild_aux_spec {s : Tango} {t : PTree Int} (ht : RefTree s.mem.refs s.ref_root t)
    (hch : ChainsOK s.mem.refs) (hok : AuxListOK s.mem s.aux_list) :
    ∃ s2 rs chains, s.rebuild_aux = some s2 ∧ s2.ref_root = s.ref_root ∧
      s2.aux_list = rs.reverse ∧
      s2.mem.refs.map RefNode.core = s.mem.refs.map RefNode.core ∧
      List.Forall₂ (fun l x => Chain s.mem.refs (some x.1) l) chains
        ((t.pre none).filter (isHead s.mem.refs)) ∧
      List.Forall₂ (AuxFor s2.mem.auxs) rs chains ∧ AuxListOK s2.mem s2.aux_list := by
  obtain ⟨refs1, hfree, hc1⟩ := free_aux_list_spec s.mem.auxs s.aux_list s.mem.refs hok
  have hlink := link_of_core hc1
  have hpref := preferred_of_core hc1
  obtain ⟨m2, rs, chains, hb, h2, h3, h4⟩ :=
    build_aux_trees_from_ref_spec (m := ⟨refs1, s.mem.auxs⟩) (ht.of_link hlink)
      (hch.of_pref hpref)
  have h2b : List.Forall₂ (fun l x => Chain s.mem.refs (some x.1) l) chains
      ((t.pre none).filter (isHead s.mem.refs)) := by
    rw [isHead_congr hpref] at h2
    exact h2.imp fun _ _ hc => hc.congr hpref.symm
  have hlen : m2.refs.length = s.mem.refs.length := core_length (h4.trans hc1)
  refine ⟨⟨m2, s.ref_root, rs.reverse⟩, rs, chains, ?_, rfl, rfl, h4.trans hc1, h2b, h3, ?_⟩
  · simp [Tango.rebuild_aux, hfree, hb]
  · apply auxListOK_of_forall₂ h3
    intro l hl b hb2
    rw [hlen]
    exact forall₂_chain_lt h2b l hl b hb2

/-! ## Marking the preferred path -/

theorem clear_preferred_loop_nil (fuel : Nat) (h : List RefNode) :
    clear_preferred_loop fuel h [] = some h := by
  cases fuel <;> rfl

theorem get_map_of_map_eq {α γ : Type} {g : α → γ} {h h2 : List α}
    (he : h2.map g = h.map g) (b : Nat) : (h2[b]?).map g = (h[b]?).map g := by
  have := congrArg (fun x => x[b]?) he
  simpa [List.getElem?_map] using this

/-- The first loop of `set_preferred_along_path` over the subtrees whose roots are on the
stack: it ends, clears the `preferred` field of their nodes and writes nothing else. -/
theorem clear_preferred_loop_spec :
    ∀ (k : Nat) (fs : List (PTree Int × Option Nat)) (fuel : Nat) (h : List RefNode),
      (fs.map fun f => 2 * f.1.size + 1).sum ≤ k → (fs.map fun f => f.1.size).sum ≤ fuel →
      (∀ f ∈ fs, Rep RefNode.link h f.1 f.2) →
      ∃ h2, clear_preferred_loop fuel h (roots (fs.map Prod.fst)) = some h2 ∧
        h2.length = h.length ∧
        (∀ (b : Nat) (n : RefNode), h[b]? = some n → (∃ f ∈ fs, b ∈ f.1.addrs) →
          h2[b]? = some { n with preferred := none }) ∧
        ∀ b : Nat, (∀ f ∈ fs, b ∉ f.1.addrs) → h2[b]? = h[b]? := by
  intro k
  induction k with
  | zero =>
    intro fs fuel h hk _ _
    cases fs with
    | nil =>
      exact ⟨h, by simp [roots, clear_preferred_loop_nil], rfl, by simp, fun _ _ => rfl⟩
    | cons f fs => simp at hk
  | succ k ih =>
    intro fs fuel h hk hfuel hrep
    cases fs with
    | nil =>
      exact ⟨h, by simp [roots, clear_preferred_loop_nil], rfl, by simp, fun _ _ => rfl⟩
    | cons f fs =>
      obtain ⟨t, p⟩ := f
      cases t with
      | nil =>
        simp only [List.map_cons, List.sum_cons, PTree.size_nil] at hk hfuel
        obtain ⟨h2, h1, hlen, hA, hB⟩ := ih fs fuel h (by omega) (by omega)
          (fun f hf => hrep f (List.mem_cons_of_mem _ hf))
        refine ⟨h2, by simpa [roots] using h1, hlen, ?_, ?_⟩
        · intro b n hb hex
          apply hA b n hb
          obtain ⟨f, hf, hbf⟩ := hex
          simp only [List.mem_cons] at hf
          rcases hf with rfl | hf
          · simp at hbf
          · exact ⟨f, hf, hbf⟩
        · intro b hb
          exact hB b fun f hf => hb f (List.mem_cons_of_mem _ hf)
      | node l a v r =>
        simp only [List.map_cons, List.sum_cons, PTree.size_node] at hk hfuel
        have hT := hrep (PTree.node l a v r, p) (List.mem_cons_self _ _)
        obtain ⟨nn, hn, -, hnl, hnr, -⟩ := hT.ref_get
        obtain ⟨-, hTl, hTr⟩ := hT
        cases fuel with
        | zero => omega
        | succ fuel =>
          have hlink : (h.set a { nn with preferred := none }).map RefNode.link =
              h.map RefNode.link := set_map_eq RefNode.link hn rfl
          have hcong : ∀ (t : PTree Int) (q : Option Nat), Rep RefNode.link h t q →
              Rep RefNode.link (h.set a { nn with preferred := none }) t q :=
            fun t q ht => ht.frame fun b _ => get_map_of_map_eq hlink b
          obtain ⟨h2, h1, hlen, hA, hB⟩ :=
            ih ((r, some a) :: (l, some a) :: fs) fuel (h.set a { nn with preferred := none })
              (by simp only [List.map_cons, List.sum_cons]; omega)
              (by simp only [List.map_cons, List.sum_cons]; omega)
              (by
                intro f hf
                simp only [List.mem_cons] at hf
                rcases hf with rfl | rfl | hf
                · exact hcong _ _ hTr
                · exact hcong _ _ hTl
                · exact hcong _ _ (hrep f (List.mem_cons_of_mem _ hf)))
          have hst : pushPtr nn.right (pushPtr nn.left (roots (fs.map Prod.fst))) =
              roots (((r, some a) :: (l, some a) :: fs).map Prod.fst) := by
            rw [hnl, hnr, pushPtr_root, pushPtr_root]
            rfl
          refine ⟨h2, ?_, by simpa using hlen, ?_, ?_⟩
          · have e : roots (((PTree.node l a v r, p) :: fs).map Prod.fst) =
                a :: roots (fs.map Prod.fst) := by simp [roots]
            rw [e]
            simp only [clear_preferred_loop, hn, modify_of_get hn, Option.some_bind, hst]
            exact h1
          · intro b n hb hex
            by_cases hba : b = a
            · subst hba
              rw [hn] at hb
              cases hb
              by_cases hin : ∃ f ∈ (r, some b) :: (l, some b) :: fs, b ∈ f.1.addrs
              · exact hA b { nn with preferred := none } (get_set_self hn) hin
              · rw [hB b (by
                  intro f hf hbf
                  exact hin ⟨f, hf, hbf⟩)]
                exact get_set_self hn
            · have hb1 : (h.set a { nn with preferred := none })[b]? = some n := by
                rw [List.getElem?_set_ne (Ne.symm hba)]
                exact hb
              apply hA b n hb1
              obtain ⟨f, hf, hbf⟩ := hex
              simp only [List.mem_cons] at hf
              rcases hf with rfl | hf
              · simp only [PTree.addrs_node, List.mem_append, List.mem_cons] at hbf
                rcases hbf with hbf | hbf | hbf
                · exact ⟨(l, some a), by simp, hbf⟩
                · exact absurd hbf hba
                · exact ⟨(r, some a), by simp, hbf⟩
              · exact ⟨f, by simp [hf], hbf⟩
          · intro b hb
            have hba : b ≠ a := by
              intro e
              subst e
              exact hb _ (List.mem_cons_self _ _) (by simp [PTree.addrs_node])
            rw [hB b (by
              intro f hf
              simp only [List.mem_cons] at hf
              rcases hf with rfl | rfl | hf
              · intro hbf
                exact hb _ (List.mem_cons_self _ _) (by simp [PTree.addrs_node, hbf])
              · intro hbf
                exact hb _ (List.mem_cons_self _ _) (by simp [PTree.addrs_node, hbf])
              · exact hb f (List.mem_cons_of_mem _ hf))]
            exact List.getElem?_set_ne (Ne.symm hba)

theorem nextOn_mem {path : List Nat} {x c : Nat} (h : nextOn path x = some c) :
    x ∈ path ∧ c ∈ path := by
  induction path with
  | nil => simp [nextOn] at h
  | cons a rest ih =>
    cases rest with
    | nil => simp [nextOn] at h
    | cons b rest =>
      simp only [nextOn] at h
      split_ifs at h with hx
      · cases h
        simp [hx]
      · obtain ⟨h1, h2⟩ := ih h
        exact ⟨List.mem_cons_of_mem _ h1, List.mem_cons_of_mem _ h2⟩

theorem nextOn_of_not_mem {path : List Nat} {x : Nat} (h : x ∉ path) : nextOn path x = none := by
  cases hn : nextOn path x with
  | none => rfl
  | some c => exact absurd (nextOn_mem hn).1 h

theorem nextOn_getLast {path : List Nat} {z : Nat} (hnd : path.Nodup)
    (hz : path.getLast? = some z) : nextOn path z = none := by
  induction path with
  | nil => rfl
  | cons a rest ih =>
    cases rest with
    | nil => rfl
    | cons b rest =>
      have hz2 : (b :: rest).getLast? = some z := by
        simpa [List.getLast?_cons_cons] using hz
      have hzm : z ∈ b :: rest := List.mem_of_getLast?_eq_some hz2
      have hne : z ≠ a := fun e => (List.nodup_cons.mp hnd).1 (e ▸ hzm)
      simp only [nextOn, if_neg hne]
      exact ih (List.nodup_cons.mp hnd).2 hz2

/-- The loop that links each node of the path to the next one. -/
theorem set_path_loop_spec :
    ∀ (path : List Nat) (h : List RefNode), path.Nodup → (∀ a ∈ path, a < h.length) →
      ∃ h2, set_path_loop h path = some h2 ∧ h2.length = h.length ∧
        ∀ (b : Nat) (n : RefNode), h[b]? = some n →
          h2[b]? = some (match nextOn path b with
            | some c => { n with preferred := some c }
            | none => n) := by
  intro path
  induction path with
  | nil =>
    intro h _ _
    exact ⟨h, rfl, rfl, fun b n hb => by simpa [nextOn] using hb⟩
  | cons a rest ih =>
    intro h hnd hlt
    cases rest with
    | nil => exact ⟨h, rfl, rfl, fun b n hb => by simpa [nextOn] using hb⟩
    | cons c rest =>
      obtain ⟨an, han⟩ := get_of_lt (hlt a (List.mem_cons_self _ _))
      obtain ⟨h2, h1, hlen, hA⟩ := ih (h.set a { an with preferred := some c })
        (List.nodup_cons.mp hnd).2
        (fun x hx => by simpa using hlt x (List.mem_cons_of_mem _ hx))
      refine ⟨h2, ?_, by simpa using hlen, ?_⟩
      · simp only [set_path_loop, modify_of_get han, Option.some_bind]
        exact h1
      · intro b n hb
        by_cases hba : b = a
        · subst hba
          rw [han] at hb
          cases hb
          rw [hA b _ (get_set_self han), nextOn_of_not_mem (List.nodup_cons.mp hnd).1]
          simp [nextOn]
        · rw [hA b n (by rw [List.getElem?_set_ne (Ne.symm hba)]; exact hb)]
          simp [nextOn, hba]

theorem PTree.pathTo_subset (t : PTree Int) (k : Int) : ∀ a ∈ t.pathTo k, a ∈ t.addrs := by
  induction t with
  | nil => simp [PTree.pathTo]
  | node l a v r ihl ihr =>
    intro b hb
    simp only [PTree.pathTo] at hb
    simp only [PTree.addrs_node, List.mem_append, List.mem_cons]
    split_ifs at hb with h1 h2
    · simp only [List.mem_singleton] at hb
      exact Or.inr (Or.inl hb)
    · simp only [List.mem_cons] at hb
      rcases hb with hb | hb
      · exact Or.inr (Or.inl hb)
      · exact Or.inl (ihl b hb)
    · simp only [List.mem_cons] at hb
      rcases hb with hb | hb
      · exact Or.inr (Or.inl hb)
      · exact Or.inr (Or.inr (ihr b hb))

theorem PTree.pathTo_nodup {t : PTree Int} (hnd : t.addrs.Nodup) (k : Int) :
    (t.pathTo k).Nodup := by
  induction t with
  | nil => simp [PTree.pathTo]
  | node l a v r ihl ihr =>
    rw [PTree.addrs_node] at hnd
    have hl := (List.nodup_append.mp hnd).1
    have hr := (List.nodup_cons.mp (List.nodup_append.mp hnd).2.1).2
    have har : a ∉ r.addrs := (List.nodup_cons.mp (List.nodup_append.mp hnd).2.1).1
    have hal : a ∉ l.addrs := fun hm =>
      (List.nodup_append.mp hnd).2.2 hm (List.mem_cons_self _ _)
    simp only [PTree.pathTo]
    split_ifs with h1 h2
    · simp
    · exact List.nodup_cons.mpr ⟨fun hm => hal (l.pathTo_subset k a hm), ihl hl⟩
    · exact List.nodup_cons.mpr ⟨fun hm => har (r.pathTo_subset k a hm), ihr hr⟩

/-- The function `set_preferred_along_path(root, path, len)` with the path of the descent
to `k`: every node of the reference tree gets the next node of the path as its preferred
child, or none, and nothing else is written. -/
theorem set_preferred_along_path_spec {h : List RefNode} {root : Option Nat} {t : PTree Int}
    (ht : RefTree h root t) (k : Int) :
    ∃ h2, set_preferred_along_path h root (t.pathTo k) = some h2 ∧ h2.length = h.length ∧
      (∀ (b : Nat) (n : RefNode), h[b]? = some n → b ∈ t.addrs →
        h2[b]? = some { n with preferred := nextOn (t.pathTo k) b }) ∧
      ∀ b : Nat, b ∉ t.addrs → h2[b]? = h[b]? := by
  obtain ⟨hroot, hrep, hnd⟩ := ht
  have hsz : t.size ≤ h.length := hrep.size_le hnd
  obtain ⟨hc, hc1, hclen, hcA, hcB⟩ :=
    clear_preferred_loop_spec _ [(t, none)] (h.length + 1) h (le_refl _) (by simp; omega)
      (by simpa using hrep)
  have hpnd := PTree.pathTo_nodup hnd k
  have hpsub := t.pathTo_subset k
  obtain ⟨hs, hs1, hslen, hsA⟩ := set_path_loop_spec (t.pathTo k) hc hpnd
    (fun a ha => by rw [hclen]; exact hrep.addr_lt a (hpsub a ha))
  have hstack : pushPtr root [] =
      roots (([(t, none)] : List (PTree Int × Option Nat)).map Prod.fst) := by
    rw [← hroot]
    exact pushPtr_root t []
  -- the store after the two loops
  have hX : ∀ (b : Nat) (n : RefNode), h[b]? = some n → b ∈ t.addrs →
      hs[b]? = some (match nextOn (t.pathTo k) b with
        | some c => { n with preferred := some c }
        | none => { n with preferred := none }) := by
    intro b n hb hbt
    refine (hsA b _ (hcA b n hb ⟨(t, none), by simp, hbt⟩)).trans ?_
    cases nextOn (t.pathTo k) b <;> rfl
  have hY : ∀ b : Nat, b ∉ t.addrs → hs[b]? = h[b]? := by
    intro b hbt
    have e1 : hc[b]? = h[b]? := hcB b (by simpa using hbt)
    cases hb : h[b]? with
    | none =>
      have : h.length ≤ b := by
        by_contra hlt
        obtain ⟨n, hn⟩ := get_of_lt (Nat.lt_of_not_le hlt)
        rw [hn] at hb
        cases hb
      exact List.getElem?_eq_none (by omega)
    | some n =>
      rw [hsA b n (e1.trans hb), nextOn_of_not_mem fun hm => hbt (hpsub b hm)]
  cases hz : (t.pathTo k).getLast? with
  | none =>
    have hp : t.pathTo k = [] := by simpa using hz
    refine ⟨hs, ?_, by omega, ?_, hY⟩
    · simp only [set_preferred_along_path, hstack, hc1, Option.some_bind, hs1, hz]
    · intro b n hb hbt
      rw [hX b n hb hbt, hp]
      rfl
  | some z =>
    have hzm : z ∈ t.pathTo k := List.mem_of_getLast?_eq_some hz
    have hzt := hpsub z hzm
    obtain ⟨zn, hzn⟩ := get_of_lt (hrep.addr_lt z hzt)
    have hzs : hs[z]? = some { zn with preferred := none } := by
      rw [hX z zn hzn hzt, nextOn_getLast hpnd hz]
    refine ⟨hs.set z { zn with preferred := none }, ?_, by simp; omega, ?_, ?_⟩
    · simp only [set_preferred_along_path, hstack, hc1, Option.some_bind, hs1, hz]
      rw [modify_of_get hzs]
    · intro b n hb hbt
      by_cases hbz : b = z
      · subst hbz
        rw [get_set_self hzs, nextOn_getLast hpnd hz]
        rw [hzn] at hb
        cases hb
        rfl
      · rw [List.getElem?_set_ne (Ne.symm hbz), hX b n hb hbt]
        cases nextOn (t.pathTo k) b <;> rfl
    · intro b hbt
      have hbz : b ≠ z := fun e => hbt (e ▸ hzt)
      rw [List.getElem?_set_ne (Ne.symm hbz)]
      exact hY b hbt

/-- A list of nodes each of which has the next one as its preferred child, and the last
one none, is the preferred walk from its first node. -/
theorem chain_of_path {h : List RefNode} :
    ∀ path : List Nat, path.Nodup →
      (∀ x ∈ path, ∃ n, h[x]? = some n ∧ n.preferred = nextOn path x) →
      Chain h path.head? path := by
  intro path
  induction path with
  | nil => intro _ _; exact Chain.nil
  | cons a rest ih =>
    intro hnd hp
    obtain ⟨n, hn, hpref⟩ := hp a (List.mem_cons_self _ _)
    have hrest : Chain h rest.head? rest := by
      apply ih (List.nodup_cons.mp hnd).2
      intro x hx
      obtain ⟨nx, hnx, hpx⟩ := hp x (List.mem_cons_of_mem _ hx)
      refine ⟨nx, hnx, ?_⟩
      rw [hpx]
      have hxa : x ≠ a := fun e => (List.nodup_cons.mp hnd).1 (e ▸ hx)
      cases rest with
      | nil => simp [nextOn]
      | cons c rest => simp [nextOn, hxa]
    have e : n.preferred = rest.head? := by
      rw [hpref]
      cases rest <;> simp [nextOn]
    simp only [List.head?_cons]
    exact Chain.cons hn (e ▸ hrest)

/-- Walks end in a store that differs from one where they end only at the nodes of a set
from which they end. -/
theorem chainsOK_of_frame {h h2 : List RefNode} (S : Nat → Prop) (hlen : h2.length = h.length)
    (hS : ∀ b, S b → b < h.length → ∃ l, Chain h2 (some b) l)
    (hF : ∀ (b : Nat) (n : RefNode), ¬ S b → h[b]? = some n →
      ∃ n2, h2[b]? = some n2 ∧ n2.preferred = n.preferred)
    (hch : ChainsOK h) : ChainsOK h2 := by
  have key : ∀ (p : Option Nat) (l : List Nat), Chain h p l → ∃ l2, Chain h2 p l2 := by
    intro p l hc
    induction hc with
    | nil => exact ⟨[], Chain.nil⟩
    | @cons a n l hn _ ih =>
      by_cases ha : S a
      · exact hS a ha (lt_of_get hn)
      · obtain ⟨l2, hl2⟩ := ih
        obtain ⟨n2, hn2, hp⟩ := hF a n ha hn
        exact ⟨a :: l2, Chain.cons hn2 (hp ▸ hl2)⟩
  intro a ha
  obtain ⟨l, hl⟩ := hch a (by omega)
  exact key _ _ hl

theorem marked_of_set {h h1 : List RefNode} {t : PTree Int} {path : List Nat}
    (hlen : h1.length = h.length)
    (hA : ∀ (b : Nat) (n : RefNode), h[b]? = some n → b ∈ t.addrs →
      h1[b]? = some { n with preferred := nextOn path b })
    (hB : ∀ b : Nat, b ∉ t.addrs → h1[b]? = h[b]?) : Marked h h1 t path := by
  refine ⟨hlen, ?_⟩
  intro b n hb
  by_cases hbt : b ∈ t.addrs
  · exact ⟨_, hA b n hb hbt, rfl, rfl, rfl, rfl, by simp [hbt]⟩
  · exact ⟨n, (hB b hbt).trans hb, rfl, rfl, rfl, rfl, by simp [hbt]⟩

theorem get_of_core {h h2 : List RefNode} (he : h2.map RefNode.core = h.map RefNode.core)
    {b : Nat} {n : RefNode} (hb : h[b]? = some n) :
    ∃ n2, h2[b]? = some n2 ∧ n2.key = n.key ∧ n2.left = n.left ∧ n2.right = n.right ∧
      n2.parent = n.parent ∧ n2.preferred = n.preferred := by
  have e := get_map_of_map_eq he b
  rw [hb] at e
  cases h2b : h2[b]? with
  | none => rw [h2b] at e; simp at e
  | some n2 =>
    rw [h2b] at e
    simp only [Option.map_some', Option.some.injEq, RefNode.core, Prod.mk.injEq] at e
    exact ⟨n2, rfl, e.1, e.2.1, e.2.2.1, e.2.2.2.1, e.2.2.2.2⟩

theorem Marked.congr_core {h h1 h2 : List RefNode} {t : PTree Int} {path : List Nat}
    (hm : Marked h h1 t path) (he : h2.map RefNode.core = h1.map RefNode.core) :
    Marked h h2 t path := by
  refine ⟨(core_length he).trans hm.1, ?_⟩
  intro b n hb
  obtain ⟨n1, hn1, a1, a2, a3, a4, a5⟩ := hm.2 b n hb
  obtain ⟨n2, hn2, b1, b2, b3, b4, b5⟩ := get_of_core he hn1
  exact ⟨n2, hn2, b1.trans a1, b2.trans a2, b3.trans a3, b4.trans a4, b5.trans a5⟩

theorem Marked.refTree {h h2 : List RefNode} {t : PTree Int} {path : List Nat}
    {root : Option Nat} (hm : Marked h h2 t path) (ht : RefTree h root t) :
    RefTree h2 root t := by
  refine ⟨ht.1, ht.2.1.frame ?_, ht.2.2⟩
  intro a ha
  obtain ⟨n, hn⟩ := get_of_lt (ht.2.1.addr_lt a ha)
  obtain ⟨n2, hn2, a1, a2, a3, a4, -⟩ := hm.2 a n hn
  simp [hn, hn2, RefNode.link, a1, a2, a3, a4]

/-- After the marking the preferred walks end, and the walk from the first node of the
path is the path. -/
theorem Marked.chainsOK {h h2 : List RefNode} {t : PTree Int} {path : List Nat}
    (hm : Marked h h2 t path) (hnd : path.Nodup) (hsub : ∀ a ∈ path, a ∈ t.addrs)
    (hlt : ∀ a ∈ t.addrs, a < h.length) (hch : ChainsOK h) :
    ChainsOK h2 ∧ Chain h2 path.head? path ∧
      ∀ b ∈ t.addrs, b ∉ path → Chain h2 (some b) [b] := by
  have hget : ∀ b ∈ t.addrs, ∃ n2, h2[b]? = some n2 ∧ n2.preferred = nextOn path b := by
    intro b hb
    obtain ⟨n, hn⟩ := get_of_lt (hlt b hb)
    obtain ⟨n2, hn2, -, -, -, -, hp⟩ := hm.2 b n hn
    exact ⟨n2, hn2, by simpa [hb] using hp⟩
  have hpath : Chain h2 path.head? path :=
    chain_of_path path hnd fun x hx => hget x (hsub x hx)
  have hsing : ∀ b ∈ t.addrs, b ∉ path → Chain h2 (some b) [b] := by
    intro b hb hbp
    obtain ⟨n2, hn2, hp⟩ := hget b hb
    rw [nextOn_of_not_mem hbp] at hp
    exact Chain.cons hn2 (hp ▸ Chain.nil)
  refine ⟨?_, hpath, hsing⟩
  apply chainsOK_of_frame (fun b => b ∈ t.addrs) hm.1 ?_ ?_ hch
  · intro b hb _
    by_cases hbp : b ∈ path
    · obtain ⟨l2, hl2, -⟩ := hpath.suffix b hbp
      exact ⟨l2, hl2⟩
    · exact ⟨[b], hsing b hb hbp⟩
  · intro b n hb hn
    obtain ⟨n2, hn2, -, -, -, -, hp⟩ := hm.2 b n hn
    exact ⟨n2, hn2, by simpa [hb] using hp⟩

/-- Marking the same path twice gives the same fields as marking it once. -/
theorem Marked.idem {h0 h1 h2 : List RefNode} {t : PTree Int} {path : List Nat}
    (h01 : Marked h0 h1 t path) (h12 : Marked h1 h2 t path) :
    h2.map RefNode.core = h1.map RefNode.core := by
  apply List.ext_getElem?
  intro b
  simp only [List.getElem?_map]
  cases hb : h1[b]? with
  | none =>
    have : h1.length ≤ b := by
      by_contra hlt
      obtain ⟨n, hn⟩ := get_of_lt (Nat.lt_of_not_le hlt)
      rw [hn] at hb
      cases hb
    rw [List.getElem?_eq_none (by rw [h12.1]; exact this)]
  | some n1 =>
    obtain ⟨n0, hn0⟩ := get_of_lt (h01.1 ▸ lt_of_get hb)
    obtain ⟨m1, hm1, -, -, -, -, p1⟩ := h01.2 b n0 hn0
    rw [hb] at hm1
    cases hm1
    obtain ⟨n2, hn2, a1, a2, a3, a4, a5⟩ := h12.2 b n1 hb
    rw [hn2]
    simp only [Option.map_some', RefNode.core, a1, a2, a3, a4, Option.some.injEq,
      Prod.mk.injEq, true_and]
    rw [a5, p1]
    split_ifs <;> rfl

/-! ## The operations of `Tango` -/

/-- The method `Tango::access(key)` for a key that the search finds: the path to the key
is marked, the list of auxiliary trees is rebuilt with one tree for each head of a walk, and
the found node is returned. -/
theorem access_found_spec {s : Tango} {t : PTree Int} {k : Int} {z : Nat}
    (ht : RefTree s.mem.refs s.ref_root t) (hch : ChainsOK s.mem.refs)
    (hok : AuxListOK s.mem s.aux_list) (hf : t.find k = some z) :
    ∃ s2 rs chains, s.access k = some (s2, some z) ∧ s2.ref_root = s.ref_root ∧
      s2.aux_list = rs.reverse ∧ Marked s.mem.refs s2.mem.refs t (t.pathTo k) ∧
      List.Forall₂ (fun l x => Chain s2.mem.refs (some x.1) l) chains
        ((t.pre none).filter (isHead s2.mem.refs)) ∧
      List.Forall₂ (AuxFor s2.mem.auxs) rs chains ∧ AuxListOK s2.mem s2.aux_list := by
  have hs := bst_search_of_refTree ht k
  rw [hf] at hs
  have hp := access_path_loop_of_rep ht.2.1 k _ ht.height_lt []
  rw [ht.1, List.nil_append] at hp
  obtain ⟨h1, hsp, hlen, hA, hB⟩ := set_preferred_along_path_spec ht k
  have hm : Marked s.mem.refs h1 t (t.pathTo k) := marked_of_set hlen hA hB
  have hch1 := (hm.chainsOK (PTree.pathTo_nodup ht.2.2 k) (t.pathTo_subset k)
    ht.2.1.addr_lt hch).1
  obtain ⟨s2, rs, chains, hrb, hroot, hal, hcore, hc, hax, hok2⟩ :=
    rebuild_aux_spec (s := ⟨⟨h1, s.mem.auxs⟩, s.ref_root, s.aux_list⟩) (hm.refTree ht) hch1
      (by
        intro p hp
        obtain ⟨u, a, b, c, d⟩ := hok p hp
        exact ⟨u, a, b, c, by simpa [hlen] using d⟩)
  have hpref := preferred_of_core hcore
  refine ⟨s2, rs, chains, ?_, hroot, hal, hm.congr_core hcore, ?_, hax, hok2⟩
  · simp only [Tango.access, hs, Option.some_bind, hp, hsp, hrb, Option.map_some']
  · rw [isHead_congr hpref]
    exact hc.imp fun _ _ h => h.congr hpref

/-- Sorted insertion in a strictly increasing list of a key it does not hold. -/
theorem sorted_lt_orderedInsert {l : List Int} {k : Int} (hs : l.Sorted (· < ·))
    (hk : k ∉ l) : (l.orderedInsert (· ≤ ·) k).Sorted (· < ·) := by
  apply List.Sorted.lt_of_le
  · exact (List.Sorted.le_of_lt hs).orderedInsert k l
  · rw [(List.perm_orderedInsert (· ≤ ·) k l).nodup_iff]
    exact List.nodup_cons.mpr ⟨hk, hs.nodup⟩

theorem chain_of_insertFrame {h h2 : List RefNode} {k : Int} (hi : InsertFrame h h2 k)
    {p : Option Nat} {l : List Nat} (hc : Chain h p l) : Chain h2 p l := by
  induction hc with
  | nil => exact Chain.nil
  | @cons a n l hn _ ih =>
    obtain ⟨n2, hn2, -, hp, -⟩ := hi.2.1 a n hn
    exact Chain.cons hn2 (hp ▸ ih)

theorem chainsOK_of_insertFrame {h h2 : List RefNode} {k : Int} (hi : InsertFrame h h2 k)
    (hch : ChainsOK h) : ChainsOK h2 := by
  intro a ha
  by_cases hlt : a < h.length
  · obtain ⟨l, hl⟩ := hch a hlt
    exact ⟨l, chain_of_insertFrame hi hl⟩
  · have e : a = h.length := by have := hi.1; omega
    subst e
    obtain ⟨nn, hnn, -, hp, -⟩ := hi.2.2
    exact ⟨[h.length], Chain.cons hnn (hp ▸ Chain.nil)⟩

theorem AuxListOK.mono {m m2 : Mem} {alist : List (Option Nat)} (h : AuxListOK m alist)
    (ha : m2.auxs = m.auxs) (hl : m.refs.length ≤ m2.refs.length) : AuxListOK m2 alist := by
  intro p hp
  obtain ⟨u, a, b, c, d⟩ := h p hp
  refine ⟨u, a, ha ▸ b, c, ?_⟩
  intro v hv
  obtain ⟨r, hr, hlt⟩ := d v hv
  exact ⟨r, hr, by omega⟩

/-- The method `Tango::insert_key(key)` on a well-formed state: it returns; a key that the
tree holds leaves the tree as it is, a new key is inserted at its place in the order. -/
theorem insert_key_spec {s : Tango} {t : PTree Int} (ht : RefTree s.mem.refs s.ref_root t)
    (hs : t.vals.Sorted (· < ·)) (hch : ChainsOK s.mem.refs)
    (hok : AuxListOK s.mem s.aux_list) (k : Int) :
    ∃ s2 t2, s.insert_key k = some s2 ∧ RefTree s2.mem.refs s2.ref_root t2 ∧
      t2 = (if k ∈ t.vals then t else t.insert k s.mem.refs.length) ∧
      ChainsOK s2.mem.refs ∧ AuxListOK s2.mem s2.aux_list := by
  by_cases hk : k ∈ t.vals
  · obtain ⟨a, n, hi, -, -⟩ :=
      bst_insert_present (ref_inorder_of_refTree ht) (List.Sorted.le_of_lt hs) hk
    obtain ⟨s2, rs, chains, hrb, hroot, hal, hcore, -, -, hok2⟩ := rebuild_aux_spec ht hch hok
    refine ⟨s2, t, ?_, ?_, by simp [hk], hch.of_pref (preferred_of_core hcore), hok2⟩
    · simp only [Tango.insert_key, hi, Option.some_bind]
      exact hrb
    · rw [hroot]
      exact ht.of_link (link_of_core hcore)
  · obtain ⟨h2, root2, hi, ht2, hfr⟩ := bst_insert_new ht hk
    obtain ⟨s2, rs, chains, hrb, hroot, hal, hcore, -, -, hok2⟩ :=
      rebuild_aux_spec (s := ⟨⟨h2, s.mem.auxs⟩, root2, s.aux_list⟩) ht2
        (chainsOK_of_insertFrame hfr hch)
        (hok.mono rfl (by have := hfr.1; simp only; omega))
    refine ⟨s2, t.insert k s.mem.refs.length, ?_, ?_, by simp [hk],
      (chainsOK_of_insertFrame hfr hch).of_pref (preferred_of_core hcore), hok2⟩
    · simp only [Tango.insert_key, hi, Option.some_bind]
      exact hrb
    · rw [hroot]
      exact ht2.of_link (link_of_core hcore)

/-- The method `Tango::remove_key(key)` on a well-formed state: it returns; a key that the
tree does not hold leaves the state as it is, a key that it holds is taken out of the
in-order sequence. -/
theorem remove_key_spec {s : Tango} {t : PTree Int} (ht : RefTree s.mem.refs s.ref_root t)
    (hs : t.vals.Sorted (· < ·)) (hch : ChainsOK s.mem.refs)
    (hok : AuxListOK s.mem s.aux_list) (k : Int) :
    ∃ s2 t2, s.remove_key k = some s2 ∧ RefTree s2.mem.refs s2.ref_root t2 ∧
      t2.vals = t.vals.erase k ∧ (k ∉ t.vals → s2 = s) ∧
      ChainsOK s2.mem.refs ∧ AuxListOK s2.mem s2.aux_list := by
  have hsr := bst_search_of_refTree ht k
  by_cases hk : k ∈ t.vals
  · obtain ⟨z, hz⟩ := PTree.find_isSome_of_mem (List.Sorted.le_of_lt hs) hk
    rw [hz] at hsr
    obtain ⟨h2, root2, t2, hd, ht2, hv, hlen, hrest⟩ := bst_delete_of_find ht hz hs
    have hch2 : ChainsOK h2 := hch.of_pref (preferred_of_rest hrest)
    obtain ⟨s2, rs, chains, hrb, hroot, hal, hcore, -, -, hok2⟩ :=
      rebuild_aux_spec (s := ⟨⟨h2, s.mem.auxs⟩, root2, s.aux_list⟩) ht2 hch2
        (hok.mono rfl (by simp only; omega))
    refine ⟨s2, t2, ?_, ?_, hv, fun hn => absurd hk hn,
      hch2.of_pref (preferred_of_core hcore), hok2⟩
    · simp only [Tango.remove_key, hsr, Option.some_bind, hd]
      exact hrb
    · rw [hroot]
      exact ht2.of_link (link_of_core hcore)
  · rw [PTree.find_of_not_mem hk] at hsr
    refine ⟨s, t, ?_, ht, (List.erase_of_not_mem hk).symm, fun _ => rfl, hch, hok⟩
    simp only [Tango.remove_key, hsr, Option.some_bind]

/-! ## Reachable states are well formed -/

theorem ref_keys_of_refTree {s : Tango} {t : PTree Int}
    (ht : RefTree s.mem.refs s.ref_root t) : s.ref_keys = some t.vals :=
  ref_inorder_of_refTree ht

/-- The method `Tango::access(key)` on a well-formed state returns and leaves the reference
tree as it is. -/
theorem access_wf {s : Tango} {t : PTree Int} (ht : RefTree s.mem.refs s.ref_root t)
    (hch : ChainsOK s.mem.refs) (hok : AuxListOK s.mem s.aux_list) (k : Int) :
    ∃ s2, s.access k = some (s2, t.find k) ∧ RefTree s2.mem.refs s2.ref_root t ∧
      ChainsOK s2.mem.refs ∧ AuxListOK s2.mem s2.aux_list ∧ (t.find k = none → s2 = s) := by
  cases hf : t.find k with
  | none =>
    have hs := bst_search_of_refTree ht k
    rw [hf] at hs
    exact ⟨s, by simp only [Tango.access, hs, Option.some_bind], ht, hch, hok, fun _ => rfl⟩
  | some z =>
    obtain ⟨s2, rs, chains, ha, hroot, -, hm, -, -, hok2⟩ := access_found_spec ht hch hok hf
    refine ⟨s2, ha, ?_, ?_, hok2, fun h => by cases h⟩
    · rw [hroot]
      exact hm.refTree ht
    · exact (hm.chainsOK (PTree.pathTo_nodup ht.2.2 k) (t.pathTo_subset k)
        ht.2.1.addr_lt hch).1

/-- What `Tango::build_from_sorted_array` on a strictly increasing array returns is a
well-formed state whose in-order keys are the array. -/
theorem build_wf {arr : List Int} {s : Tango} (hs : arr.Sorted (· < ·))
    (hb : Tango.new.build_from_sorted_array arr = some s) :
    s.WF ∧ s.ref_keys = some arr := by
  simp only [Tango.build_from_sorted_array, Tango.new] at hb
  split_ifs at hb with hlen
  cases hbr : build_ref_from_sorted (arr.length + 1) [] arr 0 ((arr.length : Int) - 1) with
  | none => simp [hbr] at hb
  | some res =>
    obtain ⟨h1, root⟩ := res
    rw [hbr] at hb
    simp only [Option.some_bind] at hb
    obtain ⟨t, hroot, hrep, hnd, -, hl1, -, hvals, hnone, hall⟩ :=
      build_ref_from_sorted_spec arr hlen _ [] 0 _ h1 root hbr (le_refl _) (by omega)
        (by omega)
    have hv : t.vals = arr := by
      rw [hvals]
      simp
    have ht : RefTree h1 root t := ⟨hroot, hrep, hnd⟩
    have hch : ChainsOK h1 := by
      intro a ha
      obtain ⟨n, hn, hp, -⟩ := hnone a (hall a (by simp) ha)
      exact ⟨[a], Chain.cons hn (hp ▸ Chain.nil)⟩
    obtain ⟨s2, rs, chains, hrb, hroot2, -, hcore, -, -, hok2⟩ :=
      rebuild_aux_spec (s := ⟨⟨h1, []⟩, root, []⟩) ht hch (by intro p hp; simp at hp)
    rw [hrb] at hb
    cases hb
    have ht2 : RefTree s.mem.refs s.ref_root t := by
      rw [hroot2]
      exact ht.of_link (link_of_core hcore)
    exact ⟨⟨⟨t, ht2, hv ▸ hs⟩, hch.of_pref (preferred_of_core hcore), hok2⟩,
      hv ▸ ref_keys_of_refTree ht2⟩

/-- Every reachable state is well formed. -/
theorem Reachable.wf {s : Tango} (hr : Reachable s) : s.WF := by
  induction hr with
  | build arr s hs hb => exact (build_wf hs hb).1
  | access s s2 k r _ ha ih =>
    obtain ⟨⟨t, ht, hs⟩, hch, hok⟩ := ih
    obtain ⟨s3, ha3, ht3, hch3, hok3, -⟩ := access_wf ht hch hok k
    rw [ha3] at ha
    cases ha
    exact ⟨⟨t, ht3, hs⟩, hch3, hok3⟩
  | insert_key s s2 k _ hi ih =>
    obtain ⟨⟨t, ht, hs⟩, hch, hok⟩ := ih
    obtain ⟨s3, t3, hi3, ht3, he, hch3, hok3⟩ := insert_key_spec ht hs hch hok k
    rw [hi3] at hi
    cases hi
    refine ⟨⟨t3, ht3, ?_⟩, hch3, hok3⟩
    rw [he]
    split_ifs with hk
    · exact hs
    · rw [PTree.insert_vals hs hk]
      exact sorted_lt_orderedInsert hs hk
  | remove_key s s2 k _ hd ih =>
    obtain ⟨⟨t, ht, hs⟩, hch, hok⟩ := ih
    obtain ⟨s3, t3, hd3, ht3, hv, -, hch3, hok3⟩ := remove_key_spec ht hs hch hok k
    rw [hd3] at hd
    cases hd
    refine ⟨⟨t3, ht3, ?_⟩, hch3, hok3⟩
    rw [hv]
    exact hs.sublist (List.erase_sublist k t.vals)

/-! ## The operations on reachable and on well-formed states -/

theorem Rep.get_of_mem {h : List RefNode} {t : PTree Int} {par : Option Nat}
    (hr : Rep RefNode.link h t par) {a : Nat} {v : Int} (hm : (a, v) ∈ t.toList) :
    ∃ n, h[a]? = some n ∧ n.key = v := by
  induction t generalizing par with
  | nil => simp at hm
  | node l b w r ihl ihr =>
    obtain ⟨n, hn, hk, -⟩ := hr.ref_get
    obtain ⟨-, hl, hrr⟩ := hr
    simp only [PTree.toList, List.mem_append, List.mem_cons, Prod.mk.injEq] at hm
    rcases hm with hm | ⟨rfl, rfl⟩ | hm
    · exact ihl hl hm
    · exact ⟨n, hn, hk⟩
    · exact ihr hrr hm

theorem built3_eq : Tango.new.build_from_sorted_array [10, 20, 30] = some built3 := by
  decide

theorem built3_reachable : Reachable built3 :=
  Reachable.build [10, 20, 30] built3 (by decide) built3_eq

/-- C2: in every state reachable from `build_from_sorted_array` on a strictly increasing
array by `access`, `insert_key` and `remove_key`, the in-order walk of the reference tree
returns a list of keys, and for every integer `k`, `access(k)` returns a node whose key is
`k` when `k` is in that list and returns the null pointer when it is not. -/
theorem access_search_correct (s : Tango) (hr : Reachable s) :
    ∃ ks, s.ref_keys = some ks ∧ ∀ k : Int,
      (k ∈ ks → ∃ s2 a n, s.access k = some (s2, some a) ∧ s2.mem.refs[a]? = some n ∧
        n.key = k) ∧
      (k ∉ ks → ∃ s2, s.access k = some (s2, none)) := by
  obtain ⟨⟨t, ht, hs⟩, hch, hok⟩ := hr.wf
  refine ⟨t.vals, ref_keys_of_refTree ht, fun k => ⟨fun hk => ?_, fun hk => ?_⟩⟩
  · obtain ⟨z, hz⟩ := PTree.find_isSome_of_mem (List.Sorted.le_of_lt hs) hk
    obtain ⟨s2, ha, ht2, -⟩ := access_wf ht hch hok k
    obtain ⟨n, hn, hkey⟩ := ht2.2.1.get_of_mem (PTree.find_mem hz)
    exact ⟨s2, z, n, hz ▸ ha, hn, hkey⟩
  · obtain ⟨s2, ha, -⟩ := access_wf ht hch hok k
    exact ⟨s2, PTree.find_of_not_mem hk ▸ ha⟩

theorem access_search_correct_witness :
    Reachable built3 ∧ ∃ ks, built3.ref_keys = some ks ∧ ∀ k : Int,
      (k ∈ ks → ∃ s2 a n, built3.access k = some (s2, some a) ∧
        s2.mem.refs[a]? = some n ∧ n.key = k) ∧
      (k ∉ ks → ∃ s2, built3.access k = some (s2, none)) :=
  ⟨built3_reachable, access_search_correct built3 built3_reachable⟩

/-- With released nodes keeping their fields (the convention of `bst_delete` above, which
is what a run shows as long as the allocator leaves the released memory as it is): in a
well-formed state, whose reference tree is a search tree with distinct keys `ks` in
in-order, and for a key `k` of `ks`, `remove_key(k)` returns, the in-order keys after it are
`ks` with `k` erased, and a following `access(k)` returns the null pointer.  With the
release taken into account the call has no result: `remove_key_checked_present`. -/
theorem remove_key_keep_fields (s : Tango) (hw : s.WF) (ks : List Int)
    (hks : s.ref_keys = some ks) (k : Int) (hk : k ∈ ks) :
    ∃ s2, s.remove_key k = some s2 ∧ s2.ref_keys = some (ks.erase k) ∧
      ∃ s3, s2.access k = some (s3, none) := by
  obtain ⟨⟨t, ht, hs⟩, hch, hok⟩ := hw
  have e : ks = t.vals := Option.some.inj (hks.symm.trans (ref_keys_of_refTree ht))
  subst e
  obtain ⟨s2, t2, hd, ht2, hv, -, hch2, hok2⟩ := remove_key_spec ht hs hch hok k
  refine ⟨s2, hd, hv ▸ ref_keys_of_refTree ht2, ?_⟩
  obtain ⟨s3, ha, -⟩ := access_wf ht2 hch2 hok2 k
  have hnot : k ∉ t2.vals := by
    rw [hv]
    exact fun hm => (List.Nodup.mem_erase_iff hs.nodup).mp hm |>.1 rfl
  exact ⟨s3, PTree.find_of_not_mem hnot ▸ ha⟩

/-- C4: in a well-formed state, whose reference tree is a search tree with distinct keys
`ks` in in-order, and for a key `k` that is not in `ks`, `insert_key(k)` returns, the
in-order keys after it are `ks` with `k` inserted at its place in the order, they are
strictly increasing, and a following `access(k)` returns a node whose key is `k`. -/
theorem insert_round_trip (s : Tango) (hw : s.WF) (ks : List Int)
    (hks : s.ref_keys = some ks) (k : Int) (hk : k ∉ ks) :
    ∃ s2, s.insert_key k = some s2 ∧ s2.ref_keys = some (ks.orderedInsert (· ≤ ·) k) ∧
      (ks.orderedInsert (· ≤ ·) k).Sorted (· < ·) ∧
      ∃ s3 a n, s2.access k = some (s3, some a) ∧ s3.mem.refs[a]? = some n ∧ n.key = k := by
  obtain ⟨⟨t, ht, hs⟩, hch, hok⟩ := hw
  have e : ks = t.vals := Option.some.inj (hks.symm.trans (ref_keys_of_refTree ht))
  subst e
  obtain ⟨s2, t2, hi, ht2, he, hch2, hok2⟩ := insert_key_spec ht hs hch hok k
  rw [if_neg hk] at he
  have hv : t2.vals = t.vals.orderedInsert (· ≤ ·) k := by
    rw [he]
    exact PTree.insert_vals hs hk _
  have hs2 := sorted_lt_orderedInsert hs hk
  refine ⟨s2, hi, hv ▸ ref_keys_of_refTree ht2, hs2, ?_⟩
  have hmem : k ∈ t2.vals := by
    rw [hv]
    exact (List.mem_orderedInsert (· ≤ ·)).mpr (Or.inl rfl)
  obtain ⟨z, hz⟩ := PTree.find_isSome_of_mem (List.Sorted.le_of_lt (hv ▸ hs2)) hmem
  obtain ⟨s3, ha, ht3, -⟩ := access_wf ht2 hch2 hok2 k
  obtain ⟨n, hn, hkey⟩ := ht3.2.1.get_of_mem (PTree.find_mem hz)
  exact ⟨s3, z, n, hz ▸ ha, hn, hkey⟩

theorem insert_round_trip_witness :
    built3.WF ∧ ∃ s2, built3.insert_key 25 = some s2 ∧
      s2.ref_keys = some (([10, 20, 30] : List Int).orderedInsert (· ≤ ·) 25) ∧
      (([10, 20, 30] : List Int).orderedInsert (· ≤ ·) 25).Sorted (· < ·) ∧
      ∃ s3 a n, s2.access 25 = some (s3, some a) ∧ s3.mem.refs[a]? = some n ∧ n.key = 25 :=
  ⟨built3_reachable.wf,
    insert_round_trip built3 built3_reachable.wf [10, 20, 30] (by decide) 25 (by decide)⟩

/-- C5: when the in-order walk from `root` lists the keys `ks` in non-decreasing order
(the reference tree is a search tree) and `k` is one of them, `bst_insert(root, k)` returns
a node that holds `k` and leaves the whole reference store and the root as they were: no
node is created and no field (child, parent, key, preferred marker) is written. -/
theorem bst_insert_duplicate (h : List RefNode) (root : Option Nat) (ks : List Int) (k : Int)
    (hi : ref_inorder (h.length + 1) h root = some ks) (hs : ks.Sorted (· ≤ ·))
    (hk : k ∈ ks) :
    ∃ a n, bst_insert h root k = some (h, root, some a) ∧ h[a]? = some n ∧ n.key = k :=
  bst_insert_present hi hs hk

theorem bst_insert_duplicate_witness :
    ref_inorder (built3.mem.refs.length + 1) built3.mem.refs built3.ref_root =
        some [10, 20, 30] ∧
      ([10, 20, 30] : List Int).Sorted (· ≤ ·) ∧ (20 : Int) ∈ [10, 20, 30] ∧
      ∃ a n, bst_insert built3.mem.refs built3.ref_root 20 =
          some (built3.mem.refs, built3.ref_root, some a) ∧
        built3.mem.refs[a]? = some n ∧ n.key = 20 :=
  ⟨by decide, by decide, by decide,
    bst_insert_duplicate built3.mem.refs built3.ref_root [10, 20, 30] 20 (by decide)
      (by decide) (by decide)⟩

/-- C6: in every state in which the in-order walk of the reference tree lists the keys
`ks`, and for every key `k` that is not in `ks`, `access(k)` returns the null pointer and
`remove_key(k)` returns, and both leave the whole state as it was: the reference tree,
every preferred marker and the list of auxiliary trees. -/
theorem missing_key_no_mutation (s : Tango) (ks : List Int) (k : Int)
    (hks : s.ref_keys = some ks) (hk : k ∉ ks) :
    s.access k = some (s, none) ∧ s.remove_key k = some s := by
  have hs : bst_search s.mem.refs s.ref_root k = some none :=
    bst_search_loop_absent s.mem.refs k _ _ ks hks hk
  constructor
  · simp only [Tango.access, hs, Option.some_bind]
  · simp only [Tango.remove_key, hs, Option.some_bind]

theorem missing_key_no_mutation_witness :
    built3.ref_keys = some [10, 20, 30] ∧ (25 : Int) ∉ [10, 20, 30] ∧
      built3.access 25 = some (built3, none) ∧ built3.remove_key 25 = some built3 :=
  ⟨by decide, by decide, missing_key_no_mutation built3 [10, 20, 30] 25 (by decide)
    (by decide)⟩

/-! ## Reading the auxiliary trees -/

/-- The walk of `print_aux_inorder` over a tree of the auxiliary store lists its keys. -/
theorem aux_inorder_of_rep {m : Mem} :
    ∀ (t : PTree (Option Nat)) (par : Option Nat) (fuel : Nat),
      Rep AuxNode.link m.auxs t par → ValidRefs m.refs.length t → t.height ≤ fuel →
      aux_inorder fuel m t.root = some (auxKeys m.refs t) := by
  intro t
  induction t with
  | nil => intro par fuel _ _ _; cases fuel <;> rfl
  | node l a v r ihl ihr =>
    intro par fuel hrep hval hf
    have hn := hrep.aux_get
    obtain ⟨-, hl, hr⟩ := hrep
    cases fuel with
    | zero => simp at hf
    | succ fuel =>
      simp only [PTree.height_node, Nat.add_le_add_iff_right, Nat.max_le] at hf
      obtain ⟨r0, rfl, hr0⟩ := hval v (by simp)
      obtain ⟨rn, hrn⟩ := get_of_lt hr0
      have hvl : ValidRefs m.refs.length l := fun w hw => hval w (by simp [hw])
      have hvr : ValidRefs m.refs.length r := fun w hw => hval w (by simp [hw])
      simp only [PTree.root_node, aux_inorder, hn, ihl _ fuel hl hvl hf.1, Option.some_bind,
        hrn, ihr _ fuel hr hvr hf.2]
      simp [auxKeys, refKey, hrn]

theorem aux_shape_of_rep {m : Mem} :
    ∀ (t : PTree (Option Nat)) (par : Option Nat) (fuel : Nat),
      Rep AuxNode.link m.auxs t par → ValidRefs m.refs.length t → t.height ≤ fuel →
      aux_shape fuel m t.root = some (t.kshape m.refs) := by
  intro t
  induction t with
  | nil => intro par fuel _ _ _; cases fuel <;> rfl
  | node l a v r ihl ihr =>
    intro par fuel hrep hval hf
    have hn := hrep.aux_get
    obtain ⟨-, hl, hr⟩ := hrep
    cases fuel with
    | zero => simp at hf
    | succ fuel =>
      simp only [PTree.height_node, Nat.add_le_add_iff_right, Nat.max_le] at hf
      obtain ⟨r0, rfl, hr0⟩ := hval v (by simp)
      obtain ⟨rn, hrn⟩ := get_of_lt hr0
      have hvl : ValidRefs m.refs.length l := fun w hw => hval w (by simp [hw])
      have hvr : ValidRefs m.refs.length r := fun w hw => hval w (by simp [hw])
      simp only [PTree.root_node, aux_shape, hn, ihl _ fuel hl hvl hf.1, Option.some_bind,
        hrn, ihr _ fuel hr hvr hf.2]
      simp [PTree.kshape, refKey, hrn]

theorem kshape_lspine (refs : List RefNode) (xs : List (Nat × Option Nat)) :
    (lspine xs).kshape refs = lspineK (xs.map fun x => refKey refs x.2) := by
  induction xs with
  | nil => rfl
  | cons x xs ih => simp [lspine, PTree.kshape, lspineK, ih]

theorem kshape_chainTreeRev (refs : List RefNode) (xs : List (Nat × Option Nat)) :
    (chainTreeRev xs).kshape refs = chainK (xs.map fun x => refKey refs x.2) := by
  match xs with
  | [] => rfl
  | [z] => rfl
  | z :: y :: rest => simp [chainTreeRev, PTree.kshape, chainK, kshape_lspine]

/-- The keys and the shape of the tree that is built for a chain. -/
theorem AuxFor.read {m : Mem} {a : Option Nat} {l : List Nat} (h : AuxFor m.auxs a l)
    (hl : ∀ b ∈ l, b < m.refs.length) :
    aux_inorder (m.auxs.length + 1) m a = some (l.map (keyAt m.refs)) ∧
      aux_shape (m.auxs.length + 1) m a = some (chainK ((l.map (keyAt m.refs)).reverse)) := by
  obtain ⟨t, hroot, hrep, hnd, hval⟩ := h.listOK hl
  obtain ⟨news, h1, h2, h3, h4⟩ := h
  have hh : (chainTreeRev news).height ≤ m.auxs.length + 1 := by
    have hsz : (chainTreeRev news).size ≤ m.auxs.length :=
      h2.size_le (by rw [chainTreeRev_addrs]; exact List.nodup_reverse.mpr h3)
    have := (chainTreeRev news).height_le_size
    omega
  have hv : ValidRefs m.refs.length (chainTreeRev news) := by
    intro v hv
    rw [chainTreeRev_vals, ← List.map_reverse, h4] at hv
    obtain ⟨b, hb, rfl⟩ := List.mem_map.mp hv
    exact ⟨b, rfl, hl b hb⟩
  have e4 : news.map Prod.snd = (l.map some).reverse := by
    have := congrArg List.reverse h4
    rwa [← List.map_reverse, List.reverse_reverse] at this
  constructor
  · rw [h1, aux_inorder_of_rep _ none _ h2 hv hh]
    simp only [auxKeys, chainTreeRev_vals, e4, List.reverse_reverse, List.map_map]
    rfl
  · rw [h1, aux_shape_of_rep _ none _ h2 hv hh, kshape_chainTreeRev]
    have : (news.map fun x => refKey m.refs x.2) = (news.map Prod.snd).map (refKey m.refs) := by
      simp [Function.comp_def]
    rw [this, e4, ← List.map_reverse, List.map_map, List.map_reverse]
    rfl

theorem mapM_of_forall₂ {α β : Type} {f : α → Option β} {xs : List α} {ys : List β}
    (h : List.Forall₂ (fun a b => f a = some b) xs ys) : xs.mapM f = some ys := by
  induction h with
  | nil => rfl
  | @cons a b xs ys hab _ ih =>
    rw [List.mapM_cons, hab, ih]
    rfl

/-- The keys and the shapes of a list of auxiliary trees that were built for chains. -/
theorem read_of_forall₂ {s : Tango} {rs : List (Option Nat)} {chains : List (List Nat)}
    (hal : s.aux_list = rs.reverse) (h : List.Forall₂ (AuxFor s.mem.auxs) rs chains)
    (hl : ∀ l ∈ chains, ∀ b ∈ l, b < s.mem.refs.length) :
    s.aux_keys = some ((chains.map fun l => l.map (keyAt s.mem.refs)).reverse) ∧
      s.aux_shapes =
        some ((chains.map fun l => chainK ((l.map (keyAt s.mem.refs)).reverse)).reverse) := by
  have h2 : ∀ (rs : List (Option Nat)) (chains : List (List Nat)),
      List.Forall₂ (AuxFor s.mem.auxs) rs chains →
      (∀ l ∈ chains, ∀ b ∈ l, b < s.mem.refs.length) →
      List.Forall₂ (fun a b => aux_inorder (s.mem.auxs.length + 1) s.mem a = some b) rs
          (chains.map fun l => l.map (keyAt s.mem.refs)) ∧
        List.Forall₂ (fun a b => aux_shape (s.mem.auxs.length + 1) s.mem a = some b) rs
          (chains.map fun l => chainK ((l.map (keyAt s.mem.refs)).reverse)) := by
    intro rs chains h
    induction h with
    | nil => intro _; exact ⟨List.Forall₂.nil, List.Forall₂.nil⟩
    | @cons a l rs chains hax _ ih =>
      intro hl
      obtain ⟨i1, i2⟩ := ih fun l2 h2 => hl l2 (List.mem_cons_of_mem _ h2)
      obtain ⟨r1, r2⟩ := hax.read (hl l (List.mem_cons_self _ _))
      exact ⟨List.Forall₂.cons r1 i1, List.Forall₂.cons r2 i2⟩
  obtain ⟨k1, k2⟩ := h2 rs chains h hl
  constructor
  · unfold Tango.aux_keys
    rw [hal]
    exact mapM_of_forall₂ (List.forall₂_reverse_iff.mpr k1)
  · unfold Tango.aux_shapes
    rw [hal]
    exact mapM_of_forall₂ (List.forall₂_reverse_iff.mpr k2)

theorem keyAt_congr {h h2 : List RefNode} (he : h2.map RefNode.core = h.map RefNode.core) :
    keyAt h2 = keyAt h := by
  funext b
  have e := get_map_of_map_eq he b
  simp only [keyAt, refKey]
  cases hb : h[b]? with
  | none =>
    rw [hb] at e
    cases hb2 : h2[b]? with
    | none => rfl
    | some n2 => rw [hb2] at e; simp at e
  | some n =>
    obtain ⟨n2, hn2, hk, -⟩ := get_of_core he hb
    rw [hn2]
    exact hk

/-- C7: in every reachable state and for every key `k` of the reference tree, two calls of
`access(k)` in a row both return, and after the second call every node has the same
preferred marker as after the first, the reference root is the same, and the list of
auxiliary trees has the same trees in the same order: the same shapes with the same
keys. -/
theorem access_twice_same (s : Tango) (hr : Reachable s) (ks : List Int)
    (hks : s.ref_keys = some ks) (k : Int) (hk : k ∈ ks) :
    ∃ s1 r1 s2 r2 shapes, s.access k = some (s1, r1) ∧ s1.access k = some (s2, r2) ∧
      s2.mem.refs.map RefNode.preferred = s1.mem.refs.map RefNode.preferred ∧
      s2.ref_root = s1.ref_root ∧
      s1.aux_shapes = some shapes ∧ s2.aux_shapes = some shapes := by
  obtain ⟨⟨t, ht, hs⟩, hch, hok⟩ := hr.wf
  have e : ks = t.vals := Option.some.inj (hks.symm.trans (ref_keys_of_refTree ht))
  subst e
  obtain ⟨z, hz⟩ := PTree.find_isSome_of_mem (List.Sorted.le_of_lt hs) hk
  obtain ⟨s1, rs1, chains1, ha1, hroot1, hal1, hm1, hc1, hax1, hok1⟩ :=
    access_found_spec ht hch hok hz
  have ht1 : RefTree s1.mem.refs s1.ref_root t := by
    rw [hroot1]
    exact hm1.refTree ht
  have hch1 := (hm1.chainsOK (PTree.pathTo_nodup ht.2.2 k) (t.pathTo_subset k)
    ht.2.1.addr_lt hch).1
  obtain ⟨s2, rs2, chains2, ha2, hroot2, hal2, hm2, hc2, hax2, hok2⟩ :=
    access_found_spec ht1 hch1 hok1 hz
  have hcore := hm1.idem hm2
  have hpref := preferred_of_core hcore
  have hchains : chains2 = chains1 := by
    rw [isHead_congr hpref] at hc2
    exact forall₂_chain_unique (hc2.imp fun _ _ h => h.congr hpref.symm) hc1
  subst hchains
  obtain ⟨-, sh1⟩ := read_of_forall₂ hal1 hax1 (forall₂_chain_lt hc1)
  obtain ⟨-, sh2⟩ := read_of_forall₂ hal2 hax2 (forall₂_chain_lt hc2)
  rw [keyAt_congr hcore] at sh2
  exact ⟨s1, some z, s2, some z, _, ha1, ha2, hpref, hroot2, sh1, sh2⟩

theorem access_twice_same_witness :
    Reachable built3 ∧ built3.ref_keys = some [10, 20, 30] ∧ (10 : Int) ∈ [10, 20, 30] ∧
      ∃ s1 r1 s2 r2 shapes, built3.access 10 = some (s1, r1) ∧
        s1.access 10 = some (s2, r2) ∧
        s2.mem.refs.map RefNode.preferred = s1.mem.refs.map RefNode.preferred ∧
        s2.ref_root = s1.ref_root ∧
        s1.aux_shapes = some shapes ∧ s2.aux_shapes = some shapes :=
  ⟨built3_reachable, by decide, by decide,
    access_twice_same built3 built3_reachable [10, 20, 30] (by decide) 10 (by decide)⟩

/-! ## The decomposition after an access -/

theorem nextOn_cons_ne {a x : Nat} (p : List Nat) (h : x ≠ a) :
    nextOn (a :: p) x = nextOn p x := by
  cases p with
  | nil => simp [nextOn]
  | cons b rest => simp [nextOn, h]

theorem nextOn_cons_self (a : Nat) (p : List Nat) : nextOn (a :: p) a = p.head? := by
  cases p <;> simp [nextOn]

theorem nextOn_of_get {path : List Nat} (hnd : path.Nodup) :
    ∀ (i a b : Nat), path[i]? = some a → path[i + 1]? = some b → nextOn path a = some b := by
  induction path with
  | nil => intro i a b h; simp at h
  | cons x rest ih =>
    intro i a b ha hb
    cases i with
    | zero =>
      simp only [List.getElem?_cons_zero, Option.some.injEq] at ha
      subst ha
      rw [nextOn_cons_self]
      simpa [List.head?_eq_getElem?] using hb
    | succ i =>
      simp only [List.getElem?_cons_succ] at ha hb
      have hax : a ≠ x := fun e =>
        (List.nodup_cons.mp hnd).1 (e ▸ List.getElem?_mem ha)
      rw [nextOn_cons_ne _ hax]
      exact ih (List.nodup_cons.mp hnd).2 i a b ha hb

theorem nextOn_mem_dropLast {path : List Nat} {x c : Nat} (h : nextOn path x = some c) :
    x ∈ path.dropLast := by
  induction path with
  | nil => simp [nextOn] at h
  | cons a rest ih =>
    cases rest with
    | nil => simp [nextOn] at h
    | cons b rest =>
      simp only [nextOn] at h
      rw [List.dropLast_cons₂]
      split_ifs at h with hx
      · simp [hx]
      · exact List.mem_cons_of_mem _ (ih h)

theorem PTree.pathTo_head (t : PTree Int) (k : Int) : (t.pathTo k).head? = t.root := by
  cases t with
  | nil => rfl
  | node l a v r =>
    simp only [PTree.pathTo, PTree.root_node]
    split_ifs <;> rfl

theorem PTree.pre_fst_perm {β : Type} (t : PTree β) (par : Option Nat) :
    ((t.pre par).map Prod.fst).Perm t.addrs := by
  induction t generalizing par with
  | nil => simp [PTree.pre]
  | node l a v r ihl ihr =>
    simp only [PTree.pre, List.map_cons, List.map_append, PTree.addrs_node]
    exact ((ihl (some a)).append (ihr (some a))).cons a |>.trans List.perm_middle.symm

theorem PTree.pre_head {β : Type} (t : PTree β) (par : Option Nat) :
    (t.pre par).head? = t.root.map fun a => (a, par) := by
  cases t <;> rfl

theorem mem_pre_cases {β : Type} {t : PTree β} {par : Option Nat} {x : Nat × Option Nat}
    (h : x ∈ t.pre par) : t.root = some x.1 ∧ x.2 = par ∨ x ∈ (t.pre par).tail := by
  cases t with
  | nil => simp [PTree.pre] at h
  | node l a v r =>
    simp only [PTree.pre, List.mem_cons] at h
    rcases h with rfl | h
    · exact Or.inl ⟨rfl, rfl⟩
    · exact Or.inr (by simpa [PTree.pre] using h)

theorem PTree.root_mem_pathTo {t : PTree Int} {k : Int} {b : Nat} (h : t.root = some b) :
    b ∈ t.pathTo k := by
  have := t.pathTo_head k
  rw [h] at this
  exact List.mem_of_mem_head? this

/-- Below the root of a tree, a node is the next node of the search path after the node
above it exactly when it is on the path. -/
theorem pre_tail_spec (k : Int) :
    ∀ (t : PTree Int) (par : Option Nat), t.addrs.Nodup → ∀ x ∈ (t.pre par).tail,
      ∃ pa, x.2 = some pa ∧ pa ∈ t.addrs ∧ x.1 ∈ t.addrs ∧
        (nextOn (t.pathTo k) pa = some x.1 ↔ x.1 ∈ t.pathTo k) := by
  intro t
  induction t with
  | nil => intro par _ x hx; simp [PTree.pre] at hx
  | node l a v r ihl ihr =>
    intro par hnd x hx
    rw [PTree.addrs_node] at hnd
    have hl := (List.nodup_append.mp hnd).1
    have hr := (List.nodup_cons.mp (List.nodup_append.mp hnd).2.1).2
    have har : a ∉ r.addrs := (List.nodup_cons.mp (List.nodup_append.mp hnd).2.1).1
    have hal : a ∉ l.addrs := fun hm =>
      (List.nodup_append.mp hnd).2.2 hm (List.mem_cons_self _ _)
    have hlr : ∀ b, b ∈ l.addrs → b ∉ r.addrs := fun b h1 h2 =>
      (List.nodup_append.mp hnd).2.2 h1 (List.mem_cons_of_mem _ h2)
    simp only [PTree.pre, List.tail_cons, List.mem_append] at hx
    simp only [PTree.addrs_node, List.mem_append, List.mem_cons]
    rcases hx with hx | hx
    · -- in the left subtree
      rcases mem_pre_cases hx with ⟨h1, h2⟩ | hx2
      · have hxl : x.1 ∈ l.addrs := PTree.root_mem_addrs h1
        have hxa : x.1 ≠ a := fun e => hal (e ▸ hxl)
        refine ⟨a, h2, Or.inr (Or.inl rfl), Or.inl hxl, ?_⟩
        simp only [PTree.pathTo]
        split_ifs with c1 c2
        · simp [nextOn, hxa]
        · rw [nextOn_cons_self, PTree.pathTo_head, h1]
          simp [PTree.root_mem_pathTo h1]
        · rw [nextOn_cons_self, PTree.pathTo_head]
          have h3 : r.root ≠ some x.1 := fun e => hlr _ hxl (PTree.root_mem_addrs e)
          have h4 : x.1 ∉ r.pathTo k := fun hm => hlr _ hxl (r.pathTo_subset k _ hm)
          simp [h3, h4, hxa]
      · obtain ⟨pa, e1, e2, e3, e4⟩ := ihl (some a) hl x hx2
        have hxa : x.1 ≠ a := fun e => hal (e ▸ e3)
        have hpa : pa ≠ a := fun e => hal (e ▸ e2)
        refine ⟨pa, e1, Or.inl e2, Or.inl e3, ?_⟩
        simp only [PTree.pathTo]
        split_ifs with c1 c2
        · simp [nextOn, hxa]
        · rw [nextOn_cons_ne _ hpa, e4]
          simp [hxa]
        · have h4 : x.1 ∉ r.pathTo k := fun hm => hlr _ e3 (r.pathTo_subset k _ hm)
          have h5 : pa ∉ r.pathTo k := fun hm => hlr _ e2 (r.pathTo_subset k _ hm)
          rw [nextOn_cons_ne _ hpa, nextOn_of_not_mem h5]
          simp [hxa, h4]
    · -- in the right subtree
      rcases mem_pre_cases hx with ⟨h1, h2⟩ | hx2
      · have hxr : x.1 ∈ r.addrs := PTree.root_mem_addrs h1
        have hxa : x.1 ≠ a := fun e => har (e ▸ hxr)
        refine ⟨a, h2, Or.inr (Or.inl rfl), Or.inr (Or.inr hxr), ?_⟩
        simp only [PTree.pathTo]
        split_ifs with c1 c2
        · simp [nextOn, hxa]
        · rw [nextOn_cons_self, PTree.pathTo_head]
          have h3 : l.root ≠ some x.1 := fun e => hlr _ (PTree.root_mem_addrs e) hxr
          have h4 : x.1 ∉ l.pathTo k := fun hm => hlr _ (l.pathTo_subset k _ hm) hxr
          simp [h3, h4, hxa]
        · rw [nextOn_cons_self, PTree.pathTo_head, h1]
          simp [PTree.root_mem_pathTo h1]
      · obtain ⟨pa, e1, e2, e3, e4⟩ := ihr (some a) hr x hx2
        have hxa : x.1 ≠ a := fun e => har (e ▸ e3)
        have hpa : pa ≠ a := fun e => har (e ▸ e2)
        refine ⟨pa, e1, Or.inr (Or.inr e2), Or.inr (Or.inr e3), ?_⟩
        simp only [PTree.pathTo]
        split_ifs with c1 c2
        · simp [nextOn, hxa]
        · have h4 : x.1 ∉ l.pathTo k := fun hm => hlr _ (l.pathTo_subset k _ hm) e3
          have h5 : pa ∉ l.pathTo k := fun hm => hlr _ (l.pathTo_subset k _ hm) e2
          rw [nextOn_cons_ne _ hpa, nextOn_of_not_mem h5]
          simp [hxa, h4]
        · rw [nextOn_cons_ne _ hpa, e4]
          simp [hxa]

theorem filter_not_mem_length {L : List (Nat × Option Nat)} {p : List Nat}
    (hL : (L.map Prod.fst).Nodup) (hp : p.Nodup) (hsub : ∀ b ∈ p, b ∈ L.map Prod.fst) :
    (L.filter fun x => decide (x.1 ∉ p)).length + p.length = L.length := by
  have h2 : ((L.filter fun x => decide (x.1 ∈ p)).map Prod.fst).Perm p := by
    apply (List.perm_ext_iff_of_nodup (hL.sublist ((List.filter_sublist _).map _)) hp).mpr
    intro b
    simp only [List.mem_map, List.mem_filter, decide_eq_true_eq]
    constructor
    · rintro ⟨x, ⟨-, hx⟩, rfl⟩
      exact hx
    · intro hb
      obtain ⟨x, hx, rfl⟩ := List.mem_map.mp (hsub b hb)
      exact ⟨x, ⟨hx, hb⟩, rfl⟩
  have h3 := h2.length_eq
  rw [List.length_map] at h3
  have h1 := List.length_eq_countP_add_countP (fun x : Nat × Option Nat => decide (x.1 ∈ p)) L
  rw [List.countP_eq_length_filter, List.countP_eq_length_filter, h3] at h1
  have e : (L.filter fun x => decide (x.1 ∉ p)) =
      L.filter fun a => decide ¬(fun x : Nat × Option Nat => decide (x.1 ∈ p)) a = true := by
    apply List.filter_congr
    intro x _
    simp
  rw [e]
  simp only at h1 ⊢
  omega

/-- The heads of the walks after the marking of the path to `k`: the root and the nodes
that are not on the path. -/
theorem heads_after_mark {h2 : List RefNode} {t : PTree Int} {k : Int} {a : Nat}
    (hroot : t.root = some a) (hnd : t.addrs.Nodup)
    (hp : ∀ b ∈ t.addrs, ∃ n2, h2[b]? = some n2 ∧ n2.preferred = nextOn (t.pathTo k) b) :
    (t.pre none).filter (isHead h2) =
      (a, none) :: ((t.pre none).filter fun x => decide (x.1 ∉ t.pathTo k)) := by
  cases t with
  | nil => simp at hroot
  | node l b v r =>
    simp only [PTree.root_node, Option.some.injEq] at hroot
    subst hroot
    have htail : ∀ x ∈ ((PTree.node l b v r).pre none).tail,
        isHead h2 x = decide (x.1 ∉ (PTree.node l b v r).pathTo k) := by
      intro x hx
      obtain ⟨pa, e1, e2, -, e4⟩ := pre_tail_spec k _ none hnd x hx
      obtain ⟨pn, hpn, hpp⟩ := hp pa e2
      obtain ⟨x1, x2⟩ := x
      simp only at e1
      subst e1
      simp only [isHead, hpn, hpp]
      by_cases hm : x1 ∈ (PTree.node l b v r).pathTo k
      · simp [hm, e4.mpr hm]
      · have : ¬ nextOn ((PTree.node l b v r).pathTo k) pa = some x1 := fun e => hm (e4.mp e)
        simp [hm, this]
    have hb : b ∈ (PTree.node l b v r).pathTo k := PTree.root_mem_pathTo rfl
    have e : (PTree.node l b v r).pre none =
        (b, none) :: ((PTree.node l b v r).pre none).tail := rfl
    rw [e, List.filter_cons_of_pos (by rfl), List.filter_cons_of_neg (by simpa using hb),
      List.filter_congr htail]

theorem forall₂_singletons {h : List RefNode} (hs : List (Nat × Option Nat))
    (hc : ∀ x ∈ hs, Chain h (some x.1) [x.1]) :
    List.Forall₂ (fun l x => Chain h (some x.1) l) (hs.map fun x => [x.1]) hs := by
  induction hs with
  | nil => exact List.Forall₂.nil
  | cons x hs ih =>
    exact List.Forall₂.cons (hc x (List.mem_cons_self _ _))
      (ih fun y hy => hc y (List.mem_cons_of_mem _ hy))

/-- C8: in every reachable state with the in-order keys `ks` and for every key `k` of
`ks`, `access(k)` returns a state whose reference store holds a tree `t` of `ks.length`
nodes such that, with `path` the nodes of the descent from the root to `k` and `d + 1`
their number: every node of the path but the last has the next node of the path as its
preferred child, every other node of the tree has none, `aux_list` has `ks.length - d`
entries, the last printed tree holds the keys of the path and every other tree holds
one key. -/
theorem access_decomposition (s : Tango) (hr : Reachable s) (ks : List Int)
    (hks : s.ref_keys = some ks) (k : Int) (hk : k ∈ ks) :
    ∃ s2 r t path d singles, s.access k = some (s2, r) ∧
      RefTree s2.mem.refs s2.ref_root t ∧ t.size = ks.length ∧
      access_path_loop (s.mem.refs.length + 1) s.mem.refs k s.ref_root [] = some path ∧
      path.length = d + 1 ∧
      (∀ (i a b : Nat), path[i]? = some a → path[i + 1]? = some b →
        ∃ n, s2.mem.refs[a]? = some n ∧ n.preferred = some b) ∧
      (∀ b ∈ t.addrs, b ∉ path.dropLast →
        ∃ n, s2.mem.refs[b]? = some n ∧ n.preferred = none) ∧
      s2.aux_list.length = ks.length - d ∧
      s2.aux_keys = some (singles ++ [path.map (keyAt s2.mem.refs)]) ∧
      (∀ l ∈ singles, l.length = 1) ∧ (path.map (keyAt s2.mem.refs)).length = d + 1 := by
  obtain ⟨⟨t, ht, hs⟩, hch, hok⟩ := hr.wf
  have e : ks = t.vals := Option.some.inj (hks.symm.trans (ref_keys_of_refTree ht))
  subst e
  obtain ⟨z, hz⟩ := PTree.find_isSome_of_mem (List.Sorted.le_of_lt hs) hk
  obtain ⟨s2, rs, chains, ha, hroot, hal, hm, hc, hax, hok2⟩ :=
    access_found_spec ht hch hok hz
  have hpath := access_path_loop_of_rep ht.2.1 k _ ht.height_lt []
  rw [ht.1, List.nil_append] at hpath
  have hpnd := PTree.pathTo_nodup ht.2.2 k
  have hpsub := t.pathTo_subset k
  have ht2 : RefTree s2.mem.refs s2.ref_root t := by
    rw [hroot]
    exact hm.refTree ht
  obtain ⟨-, hcpath, hcsing⟩ := hm.chainsOK hpnd hpsub ht.2.1.addr_lt hch
  have hget : ∀ b ∈ t.addrs,
      ∃ n2, s2.mem.refs[b]? = some n2 ∧ n2.preferred = nextOn (t.pathTo k) b := by
    intro b hb
    obtain ⟨n, hn⟩ := get_of_lt (ht.2.1.addr_lt b hb)
    obtain ⟨n2, hn2, -, -, -, -, hp⟩ := hm.2 b n hn
    exact ⟨n2, hn2, by simpa [hb] using hp⟩
  -- the root and the length of the path
  obtain ⟨c, l0, r0, rfl⟩ := PTree.find_plug hz
  cases hrt : (plug c (PTree.node l0 z k r0)).root with
  | none =>
    have := PTree.root_eq_none.mp hrt
    rw [this] at hz
    simp [PTree.find] at hz
  | some a =>
    have hamem : a ∈ (plug c (PTree.node l0 z k r0)).pathTo k := PTree.root_mem_pathTo hrt
    obtain ⟨d, hd⟩ : ∃ d, ((plug c (PTree.node l0 z k r0)).pathTo k).length = d + 1 :=
      ⟨_, (Nat.succ_pred_eq_of_pos (List.length_pos_of_mem hamem)).symm⟩
    have hheads := heads_after_mark hrt ht.2.2 hget
    have hhead? : ((plug c (PTree.node l0 z k r0)).pathTo k).head? = some a := by
      rw [PTree.pathTo_head, hrt]
    rw [hhead?] at hcpath
    set T := plug c (PTree.node l0 z k r0) with hT
    set tl := (T.pre none).filter fun x => decide (x.1 ∉ T.pathTo k) with htl
    have hchains : chains = T.pathTo k :: tl.map fun x => [x.1] := by
      rw [hheads] at hc
      refine forall₂_chain_unique hc (List.Forall₂.cons hcpath (forall₂_singletons tl ?_))
      intro x hx
      have hx1 := (List.mem_filter.mp hx).1
      have hx2 : x.1 ∉ T.pathTo k := by simpa using (List.mem_filter.mp hx).2
      exact hcsing x.1 ((T.pre_fst_perm none).subset (List.mem_map_of_mem _ hx1)) hx2
    have hcount : tl.length + (T.pathTo k).length = T.size := by
      have hperm := T.pre_fst_perm none
      have := filter_not_mem_length (L := T.pre none) (p := T.pathTo k)
        (hperm.nodup_iff.mpr ht.2.2) hpnd (fun b hb => hperm.symm.subset (hpsub b hb))
      rw [this]
      have := hperm.length_eq
      rw [List.length_map, PTree.length_addrs] at this
      exact this
    obtain ⟨hkeys, -⟩ := read_of_forall₂ hal hax (forall₂_chain_lt hc)
    refine ⟨s2, some z, T, T.pathTo k, d, ((tl.map fun x => [x.1]).map fun l =>
      l.map (keyAt s2.mem.refs)).reverse, ha, ht2, by rw [PTree.length_vals], hpath, hd,
      ?_, ?_, ?_, ?_, ?_, by simp [hd]⟩
    · intro i a1 b1 h1 h2
      obtain ⟨n, hn, hp⟩ := hget a1 (hpsub a1 (List.getElem?_mem h1))
      exact ⟨n, hn, hp.trans (nextOn_of_get hpnd i a1 b1 h1 h2)⟩
    · intro b hb hbd
      obtain ⟨n, hn, hp⟩ := hget b hb
      refine ⟨n, hn, hp.trans ?_⟩
      cases hx : nextOn (T.pathTo k) b with
      | none => rfl
      | some c2 => exact absurd (nextOn_mem_dropLast hx) hbd
    · rw [hal, List.length_reverse, (List.Forall₂.length_eq hax), hchains]
      simp only [List.length_cons, List.length_map, PTree.length_vals]
      omega
    · rw [hkeys, hchains]
      simp
    · intro l hl
      simp only [List.mem_reverse, List.mem_map, exists_exists_and_eq_and] at hl
      obtain ⟨x, -, rfl⟩ := hl
      rfl

theorem access_decomposition_witness :
    Reachable built3 ∧ built3.ref_keys = some [10, 20, 30] ∧ (10 : Int) ∈ [10, 20, 30] ∧
      ∃ s2 r t path d singles, built3.access 10 = some (s2, r) ∧
        RefTree s2.mem.refs s2.ref_root t ∧ t.size = ([10, 20, 30] : List Int).length ∧
        access_path_loop (built3.mem.refs.length + 1) built3.mem.refs 10 built3.ref_root [] =
          some path ∧
        path.length = d + 1 ∧
        (∀ (i a b : Nat), path[i]? = some a → path[i + 1]? = some b →
          ∃ n, s2.mem.refs[a]? = some n ∧ n.preferred = some b) ∧
        (∀ b ∈ t.addrs, b ∉ path.dropLast →
          ∃ n, s2.mem.refs[b]? = some n ∧ n.preferred = none) ∧
        s2.aux_list.length = ([10, 20, 30] : List Int).length - d ∧
        s2.aux_keys = some (singles ++ [path.map (keyAt s2.mem.refs)]) ∧
        (∀ l ∈ singles, l.length = 1) ∧ (path.map (keyAt s2.mem.refs)).length = d + 1 :=
  ⟨built3_reachable, by decide, by decide,
    access_decomposition built3 built3_reachable [10, 20, 30] (by decide) 10 (by decide)⟩

/-! ## Split and merge of auxiliary trees -/

theorem refKey_congr {h h2 : List RefNode} (he : h2.map RefNode.core = h.map RefNode.core) :
    refKey h2 = refKey h := by
  funext v
  cases v with
  | none => rfl
  | some b => exact congrFun (keyAt_congr he) b

theorem PTree.toList_eq_nil {β : Type} {t : PTree β} (h : t.toList = []) : t = PTree.nil := by
  cases t with
  | nil => rfl
  | node l a v r => simp [PTree.toList] at h

/-- C9: for every tree `t` of the auxiliary store whose wrapped keys are in non-decreasing
in-order (a search tree) and every integer `key`, `aux_split_by_key(t, key)` returns two
trees without a parent above their roots, the left one with exactly the keys of `t` that
are `≤ key` and the right one with exactly the keys that are `> key`, both in order;
when no key of `t` is `≤ key` the left tree is empty and the right tree has all nodes of
`t`; for the empty tree both results are empty. -/
theorem aux_split_correct (m : Mem) (t : PTree (Option Nat)) (key : Int)
    (hrep : Rep AuxNode.link m.auxs t none) (hnd : t.addrs.Nodup)
    (hval : ValidRefs m.refs.length t) (hs : (auxKeys m.refs t).Sorted (· ≤ ·)) :
    ∃ m2 Lt Rt, aux_split_by_key m t.root key = some (m2, Lt.root, Rt.root) ∧
      Rep AuxNode.link m2.auxs Lt none ∧ Rep AuxNode.link m2.auxs Rt none ∧
      auxKeys m2.refs Lt = (auxKeys m.refs t).filter (fun x => decide (x ≤ key)) ∧
      auxKeys m2.refs Rt = (auxKeys m.refs t).filter (fun x => decide (key < x)) ∧
      (auxKeys m2.refs Lt).Sorted (· ≤ ·) ∧ (auxKeys m2.refs Rt).Sorted (· ≤ ·) ∧
      ((∀ x ∈ auxKeys m.refs t, key < x) → Lt = PTree.nil ∧ Rt.toList = t.toList) ∧
      (t = PTree.nil → Lt = PTree.nil ∧ Rt = PTree.nil) := by
  obtain ⟨m2, Lt, Rt, hsp, hL, hR, hlist, hle, hgt, hcore, -, -⟩ :=
    aux_split_by_key_spec hrep hnd hval key hs
  have hk := refKey_congr hcore
  have hkeys : auxKeys m.refs t = auxKeys m.refs Lt ++ auxKeys m.refs Rt := by
    simp only [auxKeys, PTree.vals, ← hlist, List.map_append]
  have hle2 : ∀ x ∈ auxKeys m.refs Lt, x ≤ key := by
    intro x hx
    simp only [auxKeys, PTree.vals, List.mem_map, exists_exists_and_eq_and] at hx
    obtain ⟨p, hp, rfl⟩ := hx
    exact hle p hp
  have hgt2 : ∀ x ∈ auxKeys m.refs Rt, key < x := by
    intro x hx
    simp only [auxKeys, PTree.vals, List.mem_map, exists_exists_and_eq_and] at hx
    obtain ⟨p, hp, rfl⟩ := hx
    exact hgt p hp
  have e1 : auxKeys m2.refs Lt = (auxKeys m.refs t).filter (fun x => decide (x ≤ key)) := by
    rw [hkeys, List.filter_append, List.filter_eq_self.mpr (by simpa using hle2),
      List.filter_eq_nil_iff.mpr (by
        intro x hx
        have := hgt2 x hx
        simp only [decide_eq_true_eq]
        omega), List.append_nil]
    simp only [auxKeys, hk]
  have e2 : auxKeys m2.refs Rt = (auxKeys m.refs t).filter (fun x => decide (key < x)) := by
    have f1 : (auxKeys m.refs Lt).filter (fun x => decide (key < x)) = [] :=
      List.filter_eq_nil_iff.mpr (by
        intro x hx
        have := hle2 x hx
        simp only [decide_eq_true_eq]
        omega)
    have f2 : (auxKeys m.refs Rt).filter (fun x => decide (key < x)) = auxKeys m.refs Rt :=
      List.filter_eq_self.mpr (by simpa using hgt2)
    rw [hkeys, List.filter_append, f1, f2, List.nil_append]
    simp only [auxKeys, hk]
  refine ⟨m2, Lt, Rt, hsp, hL, hR, e1, e2, ?_, ?_, ?_, ?_⟩
  · rw [e1]
    exact hs.sublist (List.filter_sublist _)
  · rw [e2]
    exact hs.sublist (List.filter_sublist _)
  · intro hall
    have hLt : Lt.toList = [] := by
      apply List.eq_nil_iff_forall_not_mem.mpr
      intro p hp
      have h1 := hle p hp
      have h2 := hall (refKey m.refs p.2) (by
        rw [hkeys]
        apply List.mem_append_left
        simp only [auxKeys, PTree.vals, List.mem_map, exists_exists_and_eq_and]
        exact ⟨p, hp, rfl⟩)
      omega
    refine ⟨PTree.toList_eq_nil hLt, ?_⟩
    rw [← hlist, hLt, List.nil_append]
  · intro ht
    subst ht
    simp only [PTree.toList, List.append_eq_nil] at hlist
    exact ⟨PTree.toList_eq_nil hlist.1, PTree.toList_eq_nil hlist.2⟩

/-- C10: for all trees `L` and `R` of the auxiliary store that share no node, whose wrapped
keys are in non-decreasing in-order (search trees) and with every key of `L`
`≤` every key of `R`, `aux_merge(L, R)` returns the root of one tree whose in-order keys
are those of `L` followed by those of `R`, in non-decreasing order; when `L` is empty the
result is `R` and when `R` is empty it is `L`, with the auxiliary store unchanged. -/
theorem aux_merge_correct (m : Mem) (L R : PTree (Option Nat))
    (hL : Rep AuxNode.link m.auxs L none) (hR : Rep AuxNode.link m.auxs R none)
    (hnd : (L.addrs ++ R.addrs).Nodup) (hvL : ValidRefs m.refs.length L)
    (hvR : ValidRefs m.refs.length R) (hsL : (auxKeys m.refs L).Sorted (· ≤ ·))
    (hsR : (auxKeys m.refs R).Sorted (· ≤ ·))
    (hle : ∀ x ∈ auxKeys m.refs L, ∀ y ∈ auxKeys m.refs R, x ≤ y) :
    ∃ m2 T, aux_merge m L.root R.root = some (m2, T.root) ∧
      Rep AuxNode.link m2.auxs T none ∧
      auxKeys m2.refs T = auxKeys m.refs L ++ auxKeys m.refs R ∧
      (auxKeys m2.refs T).Sorted (· ≤ ·) ∧
      (L = PTree.nil → T = R ∧ m2.auxs = m.auxs) ∧
      (R = PTree.nil → T = L ∧ m2.auxs = m.auxs) := by
  obtain ⟨m2, hm, hrep, -, -, hcore, hsame⟩ := aux_merge_spec hL hR hnd hvL hvR
  have hk := refKey_congr hcore
  have hkeys : auxKeys m2.refs (mergeT L R) = auxKeys m.refs L ++ auxKeys m.refs R := by
    simp only [auxKeys, PTree.vals, mergeT_toList, List.map_append, hk]
  refine ⟨m2, mergeT L R, hm, hrep, hkeys, ?_, ?_, ?_⟩
  · rw [hkeys]
    exact List.pairwise_append.mpr ⟨hsL, hsR, hle⟩
  · intro h
    subst h
    exact ⟨mergeT_nil_left R, hsame (Or.inl rfl)⟩
  · intro h
    subst h
    exact ⟨mergeT_nil_right L, hsame (Or.inr rfl)⟩

theorem aux_merge_correct_witness :
    Rep AuxNode.link built3.mem.auxs auxLeaf10 none ∧
      Rep AuxNode.link built3.mem.auxs auxLeaf20 none ∧
      (auxLeaf10.addrs ++ auxLeaf20.addrs).Nodup ∧
      ValidRefs built3.mem.refs.length auxLeaf10 ∧
      ValidRefs built3.mem.refs.length auxLeaf20 ∧
      (auxKeys built3.mem.refs auxLeaf10).Sorted (· ≤ ·) ∧
      (auxKeys built3.mem.refs auxLeaf20).Sorted (· ≤ ·) ∧
      (∀ x ∈ auxKeys built3.mem.refs auxLeaf10, ∀ y ∈ auxKeys built3.mem.refs auxLeaf20,
        x ≤ y) ∧
      ∃ m2 T, aux_merge built3.mem auxLeaf10.root auxLeaf20.root = some (m2, T.root) ∧
        Rep AuxNode.link m2.auxs T none ∧
        auxKeys m2.refs T =
          auxKeys built3.mem.refs auxLeaf10 ++ auxKeys built3.mem.refs auxLeaf20 ∧
        (auxKeys m2.refs T).Sorted (· ≤ ·) ∧
        (auxLeaf10 = PTree.nil → T = auxLeaf20 ∧ m2.auxs = built3.mem.auxs) ∧
        (auxLeaf20 = PTree.nil → T = auxLeaf10 ∧ m2.auxs = built3.mem.auxs) :=
  ⟨⟨rfl, trivial, trivial⟩, ⟨rfl, trivial, trivial⟩, by decide,
    fun v hv => ⟨1, by simpa [auxLeaf10] using hv, by decide⟩,
    fun v hv => ⟨0, by simpa [auxLeaf20] using hv, by decide⟩, by decide, by decide,
    by decide,
    aux_merge_correct built3.mem auxLeaf10 auxLeaf20 ⟨rfl, trivial, trivial⟩
      ⟨rfl, trivial, trivial⟩ (by decide)
      (fun v hv => ⟨1, by simpa [auxLeaf10] using hv, by decide⟩)
      (fun v hv => ⟨0, by simpa [auxLeaf20] using hv, by decide⟩) (by decide) (by decide)
      (by decide)⟩

/-! ## The partition of the keys -/

theorem built7_eq :
    Tango.new.build_from_sorted_array [10, 20, 30, 40, 50, 60, 70] = some built7 := by
  decide

theorem accessed50_eq : built7.access 50 = some (accessed50, some 5) := by
  decide

theorem removed40_eq : accessed50.remove_key 40 = some removed40 := by
  decide

theorem removed40_reachable : Reachable removed40 :=
  Reachable.remove_key accessed50 removed40 40
    (Reachable.access built7 accessed50 50 (some 5)
      (Reachable.build [10, 20, 30, 40, 50, 60, 70] built7 (by decide) built7_eq)
      accessed50_eq)
    removed40_eq

/-- C1 does not hold: the state after `build_from_sorted_array` on 10, 20, ..., 70, then
`access(50)` and `remove_key(40)` is reachable, its reference tree holds the keys 10, 20,
30, 50, 60, 70, and the key 50 is in two of its auxiliary trees: in the tree of the chain
that starts at the new root 50 and in the tree of the chain that starts at 60, whose
preferred marker still points to 50. -/
theorem partition_fails_after_remove :
    Reachable removed40 ∧ removed40.ref_keys = some [10, 20, 30, 50, 60, 70] ∧
      removed40.aux_keys = some [[70], [60, 50], [30], [10], [20], [50]] :=
  ⟨removed40_reachable, by decide, by decide⟩

/-! ## Splay and rotations as claimed -/

theorem auxPathTree_rep : Rep AuxNode.link accessed50.mem.auxs auxPathTree none :=
  ⟨rfl, ⟨rfl, trivial, trivial⟩, ⟨rfl, trivial, trivial⟩⟩

/-- C11: for every node `x` of a tree of the auxiliary store with consistent parent links
(the tree is `x` with its subtrees `A` and `B` below the frames `c` up to the root),
`splay(x)` returns `x`, the store then holds a tree `T` with root `x` and no parent above
it, and the in-order sequence of `T` is that of the tree before; when `x` was the root
the store is unchanged; `splay` of the null pointer returns the null pointer. -/
theorem splay_correct (h : List AuxNode) (c : List (Frame (Option Nat)))
    (A B : PTree (Option Nat)) (x : Nat) (xv : Option Nat)
    (hrep : Rep AuxNode.link h (plug c (PTree.node A x xv B)) none)
    (hnd : (plug c (PTree.node A x xv B)).addrs.Nodup) :
    ∃ h2 T, splay h (some x) = some (h2, some x) ∧ Rep AuxNode.link h2 T none ∧
      T.root = some x ∧ (∃ xn, h2[x]? = some xn ∧ xn.parent = none) ∧
      T.toList = (plug c (PTree.node A x xv B)).toList ∧
      (c = [] → h2 = h ∧ T = PTree.node A x xv B) ∧ splay h none = some (h, none) := by
  obtain ⟨h2, hs, hrep2, -, -⟩ := splay_spec hrep hnd
  obtain ⟨A2, B2, hroot⟩ := splayF_root c A x xv B
  refine ⟨h2, splayF c A x xv B, hs, hrep2, by rw [hroot]; rfl, ?_, splayF_toList c A x xv B,
    ?_, rfl⟩
  · rw [hroot] at hrep2
    exact ⟨_, hrep2.aux_get, rfl⟩
  · intro hc
    subst hc
    have hx := Rep.aux_get (show Rep AuxNode.link h (PTree.node A x xv B) none from hrep)
    have e : splay h (some x) = some (h, some x) := by
      simp [splay, splay_loop, hx]
    rw [e] at hs
    simp only [Option.some.injEq, Prod.mk.injEq, and_true] at hs
    exact ⟨hs.symm, rfl⟩

theorem splay_correct_witness :
    Rep AuxNode.link accessed50.mem.auxs
        (plug [Frame.inR 8 (some 4) (PTree.node PTree.nil 7 (some 0) PTree.nil)]
          (PTree.node PTree.nil 9 (some 5) PTree.nil)) none ∧
      (plug [Frame.inR 8 (some 4) (PTree.node PTree.nil 7 (some 0) PTree.nil)]
          (PTree.node PTree.nil 9 (some 5) PTree.nil)).addrs.Nodup ∧
      ∃ h2 T, splay accessed50.mem.auxs (some 9) = some (h2, some 9) ∧
        Rep AuxNode.link h2 T none ∧ T.root = some 9 ∧
        (∃ xn, h2[9]? = some xn ∧ xn.parent = none) ∧
        T.toList = (plug [Frame.inR 8 (some 4) (PTree.node PTree.nil 7 (some 0) PTree.nil)]
          (PTree.node PTree.nil 9 (some 5) PTree.nil)).toList ∧
        (([Frame.inR 8 (some 4) (PTree.node PTree.nil 7 (some 0) PTree.nil)] :
            List (Frame (Option Nat))) = [] →
          h2 = accessed50.mem.auxs ∧ T = PTree.node PTree.nil 9 (some 5) PTree.nil) ∧
        splay accessed50.mem.auxs none = some (accessed50.mem.auxs, none) :=
  ⟨auxPathTree_rep, by decide,
    splay_correct accessed50.mem.auxs
      [Frame.inR 8 (some 4) (PTree.node PTree.nil 7 (some 0) PTree.nil)] PTree.nil PTree.nil 9
      (some 5) auxPathTree_rep (by decide)⟩

/-- C18: in a tree of the auxiliary store with consistent parent links, `rotate_right(x)`
for the left child `x` of `p` and `rotate_left(x)` for the right child `x` of `p` return;
afterwards `x` is the parent of `p` and stands in the former place of `p` (below the same
frames `c`, without a parent when `p` was the root), the middle subtree `B` has moved from
`x` to `p`, the parent links of the whole tree are consistent again, and the in-order
sequence of the whole tree is the same; for an `x` without a parent both calls leave the
store as it is. -/
theorem rotations_correct (h : List AuxNode) :
    (∀ (c : List (Frame (Option Nat))) (A B C : PTree (Option Nat)) (x p : Nat)
        (xv pv : Option Nat),
      Rep AuxNode.link h (plug c (PTree.node (PTree.node A x xv B) p pv C)) none →
      (plug c (PTree.node (PTree.node A x xv B) p pv C)).addrs.Nodup →
      ∃ h2, rotate_right h x = some h2 ∧
        Rep AuxNode.link h2 (plug c (PTree.node A x xv (PTree.node B p pv C))) none ∧
        (plug c (PTree.node A x xv (PTree.node B p pv C))).toList =
          (plug c (PTree.node (PTree.node A x xv B) p pv C)).toList) ∧
    (∀ (c : List (Frame (Option Nat))) (A B C : PTree (Option Nat)) (x p : Nat)
        (xv pv : Option Nat),
      Rep AuxNode.link h (plug c (PTree.node A p pv (PTree.node B x xv C))) none →
      (plug c (PTree.node A p pv (PTree.node B x xv C))).addrs.Nodup →
      ∃ h2, rotate_left h x = some h2 ∧
        Rep AuxNode.link h2 (plug c (PTree.node (PTree.node A p pv B) x xv C)) none ∧
        (plug c (PTree.node (PTree.node A p pv B) x xv C)).toList =
          (plug c (PTree.node A p pv (PTree.node B x xv C))).toList) ∧
    ∀ (x : Nat) (xn : AuxNode), h[x]? = some xn → xn.parent = none →
      rotate_right h x = some h ∧ rotate_left h x = some h := by
  refine ⟨?_, ?_, ?_⟩
  · intro c A B C x p xv pv hrep hnd
    obtain ⟨h2, hr, hrep2, -, -⟩ := rotate_right_spec hrep hnd
    exact ⟨h2, hr, hrep2, by simp [plug_toList]⟩
  · intro c A B C x p xv pv hrep hnd
    obtain ⟨h2, hr, hrep2, -, -⟩ := rotate_left_spec hrep hnd
    exact ⟨h2, hr, hrep2, by simp [plug_toList]⟩
  · intro x xn hx hp
    simp [rotate_right, rotate_left, hx, hp]

theorem rotations_correct_witness :
    (∃ h2, rotate_right accessed50.mem.auxs 7 = some h2 ∧
        Rep AuxNode.link h2 (plug []
          (PTree.node PTree.nil 7 (some 0)
            (PTree.node PTree.nil 8 (some 4) (PTree.node PTree.nil 9 (some 5) PTree.nil))))
          none ∧
        (plug [] (PTree.node PTree.nil 7 (some 0)
            (PTree.node PTree.nil 8 (some 4)
              (PTree.node PTree.nil 9 (some 5) PTree.nil)))).toList =
          (plug [] (PTree.node (PTree.node PTree.nil 7 (some 0) PTree.nil) 8 (some 4)
            (PTree.node PTree.nil 9 (some 5) PTree.nil))).toList) ∧
      (∃ h2, rotate_left accessed50.mem.auxs 9 = some h2 ∧
        Rep AuxNode.link h2 (plug []
          (PTree.node (PTree.node (PTree.node PTree.nil 7 (some 0) PTree.nil) 8 (some 4)
            PTree.nil) 9 (some 5) PTree.nil)) none ∧
        (plug [] (PTree.node (PTree.node (PTree.node PTree.nil 7 (some 0) PTree.nil) 8
            (some 4) PTree.nil) 9 (some 5) PTree.nil)).toList =
          (plug [] (PTree.node (PTree.node PTree.nil 7 (some 0) PTree.nil) 8 (some 4)
            (PTree.node PTree.nil 9 (some 5) PTree.nil))).toList) ∧
      rotate_right accessed50.mem.auxs 8 = some accessed50.mem.auxs ∧
      rotate_left accessed50.mem.auxs 8 = some accessed50.mem.auxs :=
  ⟨(rotations_correct accessed50.mem.auxs).1 [] PTree.nil PTree.nil
      (PTree.node PTree.nil 9 (some 5) PTree.nil) 7 8 (some 0) (some 4) auxPathTree_rep
      (by decide),
    (rotations_correct accessed50.mem.auxs).2.1 []
      (PTree.node PTree.nil 7 (some 0) PTree.nil) PTree.nil PTree.nil 9 8 (some 5) (some 4)
      auxPathTree_rep (by decide),
    (rotations_correct accessed50.mem.auxs).2.2 8 ⟨some 4, some 7, some 9, none⟩ rfl rfl⟩

/-! ## Runs of the operations from the built states -/

theorem Reachable.access_get {s : Tango} (hr : Reachable s) (k : Int)
    (h : (s.access k).isSome = true) : Reachable ((s.access k).get h).1 :=
  Reachable.access s _ k ((s.access k).get h).2 hr (Option.some_get h).symm

theorem Reachable.insert_get {s : Tango} (hr : Reachable s) (k : Int)
    (h : (s.insert_key k).isSome = true) : Reachable ((s.insert_key k).get h) :=
  Reachable.insert_key s _ k hr (Option.some_get h).symm

theorem Reachable.remove_get {s : Tango} (hr : Reachable s) (k : Int)
    (h : (s.remove_key k).isSome = true) : Reachable ((s.remove_key k).get h) :=
  Reachable.remove_key s _ k hr (Option.some_get h).symm

theorem built7_reachable : Reachable built7 :=
  Reachable.build [10, 20, 30, 40, 50, 60, 70] built7 (by decide) built7_eq

theorem accessed50_reachable : Reachable accessed50 :=
  Reachable.access built7 accessed50 50 (some 5) built7_reachable accessed50_eq

/-- C12 does not hold: after `build_from_sorted_array` on 10, 20, ..., 70 and `access(50)`
the state is reachable and the auxiliary tree of the path 40, 60, 50 lists its keys in
that order, which is not increasing. -/
theorem aux_order_fails_after_access :
    Reachable accessed50 ∧ built7.access 50 = some (accessed50, some 5) ∧
      accessed50.aux_keys = some [[70], [30], [10], [20], [40, 60, 50]] ∧
      ¬ ([40, 60, 50] : List Int).Sorted (· < ·) :=
  ⟨accessed50_reachable, accessed50_eq, by decide, by decide⟩

/-- C16 does not hold: the state after `build_from_sorted_array` on 10, 20, ..., 70,
`access(50)` and `remove_key(40)` is reachable; its root is node 5 (key 50), the right
child of the root is node 4 (key 60), and the preferred marker of node 4 is node 5, its
parent: it is neither none nor the left child (none) nor the right child (node 6). -/
theorem preferred_not_child_after_remove :
    Reachable removed40 ∧ accessed50.remove_key 40 = some removed40 ∧
      removed40.ref_root = some 5 ∧
      removed40.mem.refs[5]? = some ⟨50, some 1, some 4, none, some 19, none⟩ ∧
      removed40.mem.refs[4]? = some ⟨60, none, some 6, some 5, some 18, some 5⟩ :=
  ⟨removed40_reachable, removed40_eq, rfl, rfl, rfl⟩

/-- C20 does not hold: from `build_from_sorted_array` on 10, 20, 30, the calls
`access(30)`, `remove_key(30)` and `remove_key(10)` return a reachable state whose
reference tree holds the one key 20, and the walk along the `preferred` pointers from
its root, the head of the only chain, visits two nodes: node 0 (key 20) and the removed
node 2 (key 30). -/
theorem walk_longer_than_tree :
    ∃ s1 r1 s2 s3, built3.access 30 = some (s1, r1) ∧ s1.remove_key 30 = some s2 ∧
      s2.remove_key 10 = some s3 ∧ Reachable s3 ∧ s3.ref_keys = some [20] ∧
      s3.ref_root = some 0 ∧
      chain_loop (s3.mem.refs.length + 1) s3.mem.refs s3.ref_root [] = some [some 0, some 2] ∧
      s3.aux_keys = some [[20, 30]] :=
  ⟨((built3.access 30).get (by decide)).1, ((built3.access 30).get (by decide)).2,
    (((built3.access 30).get (by decide)).1.remove_key 30).get (by decide),
    ((((built3.access 30).get (by decide)).1.remove_key 30).get (by decide)).remove_key 10
      |>.get (by decide),
    by decide, by decide, by decide,
    ((built3_reachable.access_get 30 (by decide)).remove_get 30 (by decide)).remove_get 10
      (by decide),
    by decide, by decide, by decide, by decide⟩

/-- In every reachable state the walk along the `preferred` pointers from any node of the
reference store ends, visits no node twice and visits at most as many nodes as the store
holds, removed nodes included. -/
theorem walk_ends_within_store {s : Tango} (hr : Reachable s) (a : Nat)
    (ha : a < s.mem.refs.length) :
    ∃ l : List Nat, chain_loop (s.mem.refs.length + 1) s.mem.refs (some a) [] =
        some (l.map some) ∧ l.Nodup ∧ l.length ≤ s.mem.refs.length := by
  obtain ⟨-, hch, -⟩ := hr.wf
  obtain ⟨l, hl⟩ := hch a ha
  refine ⟨l, ?_, hl.nodup, hl.length_le⟩
  have := chain_loop_of_chain hl (s.mem.refs.length + 1) (by have := hl.length_le; omega) []
  simpa using this

/-! ## The balanced build returns -/

theorem wrapInt32_id {x : Int} (h0 : 0 ≤ x) (h1 : x < 2147483648) : wrapInt32 x = x := by
  unfold wrapInt32
  omega

theorem link_child_total (h : List RefNode) (c : Option Nat) (node : Nat)
    (hc : ∀ a, c = some a → a < h.length) :
    ∃ h3, (match c with
      | none => some h
      | some a => modify h a fun n => { n with parent := some node }) = some h3 ∧
      h3.length = h.length := by
  cases c with
  | none => exact ⟨h, rfl, rfl⟩
  | some a =>
    obtain ⟨n, hn⟩ := get_of_lt (hc a rfl)
    exact ⟨_, modify_of_get hn, by simp⟩

/-- The function `build_ref_from_sorted(arr, l, r)` returns for every array of at most
`2^30` elements: the sum `l + r` then fits an `int`. -/
theorem build_ref_from_sorted_total (arr : List Int) (hlen : arr.length ≤ 1073741824) :
    ∀ (fuel : Nat) (h : List RefNode) (l r : Int), 0 ≤ l → r < arr.length → l ≤ r + 1 →
      (r + 1 - l).toNat < fuel →
      ∃ h2 p, build_ref_from_sorted fuel h arr l r = some (h2, p) := by
  have hlen2 : arr.length < 2147483648 := by omega
  intro fuel
  induction fuel with
  | zero => intro h l r _ _ _ hf; omega
  | succ fuel ih =>
    intro h l r h0 hr hl1 hf
    by_cases hgt : l > r
    · exact ⟨h, none, by simp [build_ref_from_sorted, hgt]⟩
    · have hw : wrapInt32 (l + r) = l + r := wrapInt32_id (by omega) (by omega)
      have hmid : Int.tdiv (wrapInt32 (l + r)) 2 = (l + r) / 2 := by
        rw [hw]
        exact Int.tdiv_eq_ediv (by omega) (by norm_num)
      have hmlt : ((l + r) / 2).toNat < arr.length := by omega
      have hk : arrGet arr ((l + r) / 2) = some arr[((l + r) / 2).toNat] := by
        unfold arrGet
        rw [if_pos (by omega), List.getElem?_eq_getElem hmlt]
      -- the left subtree
      obtain ⟨h1, lft, hrec1⟩ := ih (h ++ [RefNode.new arr[((l + r) / 2).toNat]]) l
        ((l + r) / 2 - 1) h0 (by omega) (by omega) (by omega)
      obtain ⟨t1, hroot1, hrep1, -, -, hlen1, -⟩ :=
        build_ref_from_sorted_spec arr hlen2 _ _ _ _ _ _ hrec1 h0 (by omega) (by omega)
      simp only [List.length_append, List.length_singleton] at hlen1
      obtain ⟨n1, hn1⟩ := get_of_lt (show h.length < h1.length by omega)
      obtain ⟨h3, hm3, hlen3⟩ := link_child_total (h1.set h.length { n1 with left := lft })
        lft h.length (by
          intro a ha
          rw [List.length_set]
          exact hrep1.addr_lt a (PTree.root_mem_addrs (hroot1.trans ha)))
      rw [List.length_set] at hlen3
      -- the right subtree
      obtain ⟨h4, rgt, hrec2⟩ := ih h3 ((l + r) / 2 + 1) r (by omega) hr (by omega) (by omega)
      obtain ⟨t2, hroot2, hrep2, -, -, hlen4, -⟩ :=
        build_ref_from_sorted_spec arr hlen2 _ _ _ _ _ _ hrec2 (by omega) hr (by omega)
      obtain ⟨n5, hn5⟩ := get_of_lt (show h.length < h4.length by omega)
      obtain ⟨h6, hm6, hlen6⟩ := link_child_total (h4.set h.length { n5 with right := rgt })
        rgt h.length (by
          intro a ha
          rw [List.length_set]
          exact hrep2.addr_lt a (PTree.root_mem_addrs (hroot2.trans ha)))
      rw [List.length_set] at hlen6
      obtain ⟨n7, hn7⟩ := get_of_lt (show h.length < h6.length by omega)
      have hn8 := get_set_self (m := { n7 with preferred := none }) hn7
      refine ⟨(h6.set h.length { n7 with preferred := none }).set h.length
        { ({ n7 with preferred := none } : RefNode) with aux_ptr := none }, some h.length, ?_⟩
      simp only [build_ref_from_sorted, if_neg hgt, hmid, hk, Option.bind_eq_some, Prod.exists,
        modify_eq_some]
      exact ⟨h1, lft, hrec1, _, ⟨n1, hn1, rfl⟩, h3, hm3, h4, rgt, hrec2, _, ⟨n5, hn5, rfl⟩, h6,
        hm6, _, ⟨n7, hn7, rfl⟩, _, ⟨_, hn8, rfl⟩, rfl⟩

/-- C15 does not hold as stated: for the 3 keys 10, 20, 30 the tree that
`build_ref_from_sorted(arr, 0, 2)` returns is the root 20 with the two leaves 10 and 30:
its height is 1 edge, and `⌈log₂ 3⌉` is 2. -/
theorem build_height_not_ceil :
    build_ref_from_sorted 4 [] [10, 20, 30] 0 2 =
        some ([⟨20, some 1, some 2, none, none, none⟩, ⟨10, none, none, some 0, none, none⟩,
          ⟨30, none, none, some 0, none, none⟩], some 0) ∧
      Rep RefNode.link [⟨20, some 1, some 2, none, none, none⟩,
        ⟨10, none, none, some 0, none, none⟩, ⟨30, none, none, some 0, none, none⟩]
        refTree3 none ∧
      refTree3.root = some 0 ∧ refTree3.height - 1 = 1 ∧ Nat.clog 2 3 = 2 :=
  ⟨by decide, ⟨rfl, ⟨rfl, trivial, trivial⟩, ⟨rfl, trivial, trivial⟩⟩, rfl, by decide,
    by norm_num [Nat.clog]⟩

/-- C15 as amended: for every array of `n` keys with `1 ≤ n ≤ 2^30`, in every store,
`build_ref_from_sorted(arr, 0, n - 1)` returns a tree of new nodes with consistent parent
links whose in-order keys are the array and whose height, counted in edges, is
`⌊log₂ n⌋`. -/
theorem build_height_floor (arr : List Int) (h : List RefNode) (hn1 : 1 ≤ arr.length)
    (hn2 : arr.length ≤ 1073741824) :
    ∃ h2 root t, build_ref_from_sorted (arr.length + 1) h arr 0 ((arr.length : Int) - 1) =
        some (h2, root) ∧
      t.root = root ∧ Rep RefNode.link h2 t none ∧ t.vals = arr ∧
      t.height - 1 = Nat.log 2 arr.length := by
  obtain ⟨h2, root, hb⟩ := build_ref_from_sorted_total arr hn2 (arr.length + 1) h 0
    ((arr.length : Int) - 1) (le_refl _) (by omega) (by omega) (by omega)
  obtain ⟨t, hroot, hrep, -, -, -, -, hvals, -, -, hh⟩ :=
    build_ref_from_sorted_shape arr (by omega) _ _ _ _ _ _ hb (le_refl _) (by omega) (by omega)
  have e : ((arr.length : Int) - 1 + 1 - 0).toNat = arr.length := by omega
  rw [e] at hh hvals
  refine ⟨h2, root, t, hb, hroot, hrep, by simpa using hvals, ?_⟩
  rw [hh, bheight, if_neg (by omega)]
  rfl

theorem build_height_floor_witness :
    1 ≤ ([10, 20, 30] : List Int).length ∧ ([10, 20, 30] : List Int).length ≤ 1073741824 ∧
      ∃ h2 root t, build_ref_from_sorted (([10, 20, 30] : List Int).length + 1) [] [10, 20, 30]
          0 ((([10, 20, 30] : List Int).length : Int) - 1) = some (h2, root) ∧
        t.root = root ∧ Rep RefNode.link h2 t none ∧ t.vals = [10, 20, 30] ∧
        t.height - 1 = Nat.log 2 ([10, 20, 30] : List Int).length :=
  ⟨by decide, by decide, build_height_floor [10, 20, 30] [] (by decide) (by decide)⟩

/-! ## The balanced build on arrays of more than `2^30` elements -/

/-- When `r` is `2^30` or more, `build_ref_from_sorted(arr, l, r)` does not return a result:
on the way to the last element the sum `l + r` leaves the range of `int`, the wrapped sum
is negative and `arr[mid]` is read in front of the array. -/
theorem build_ref_from_sorted_overflow (arr : List Int) (r : Int) (hr1 : 1073741824 ≤ r)
    (hr2 : r < 2147483648) :
    ∀ (fuel : Nat) (h : List RefNode) (l : Int), 0 ≤ l → l ≤ r →
      build_ref_from_sorted fuel h arr l r = none := by
  intro fuel
  induction fuel with
  | zero => intro h l _ _; rfl
  | succ fuel ih =>
    intro h l h0 hle
    cases hres : build_ref_from_sorted (fuel + 1) h arr l r with
    | none => rfl
    | some res =>
      exfalso
      have hgt : ¬ l > r := by omega
      cases hk : arrGet arr (Int.tdiv (wrapInt32 (l + r)) 2) with
      | none => simp [build_ref_from_sorted, if_neg hgt, hk] at hres
      | some k =>
        obtain ⟨hm0, -⟩ := arrGet_eq_some hk
        have hov : l + r < 2147483648 := by
          by_contra hge
          unfold wrapInt32 at hm0
          have e1 : (l + r + 2147483648) % 4294967296 - 2147483648 = l + r - 4294967296 := by
            omega
          rw [e1] at hm0
          have e : l + r - 4294967296 = -(4294967296 - l - r) := by omega
          rw [e, Int.neg_tdiv] at hm0
          have : (4294967296 - l - r).tdiv 2 = (4294967296 - l - r) / 2 :=
            Int.tdiv_eq_ediv (by omega) (by norm_num)
          rw [this] at hm0
          omega
        have hmid := mid_eq h0 hle hr2 hm0
        simp only [build_ref_from_sorted, if_neg hgt, hk, Option.bind_eq_some, Prod.exists,
          modify_eq_some] at hres
        rw [hmid] at hres
        obtain ⟨h1, lft, -, h2a, -, h3, -, h4, rgt, hrec2, -⟩ := hres
        rw [ih h3 ((l + r) / 2 + 1) (by omega) (by omega)] at hrec2
        cases hrec2

/-- The method `Tango::build_from_sorted_array` does not return a result for an array of
more than `2^30` elements. -/
theorem build_from_sorted_array_overflow (t : Tango) (arr : List Int)
    (h : 1073741824 < arr.length) : t.build_from_sorted_array arr = none := by
  unfold Tango.build_from_sorted_array
  split_ifs with hlt
  · rw [build_ref_from_sorted_overflow arr _ (by omega) (by omega) _ _ 0 (le_refl _) (by omega)]
    rfl
  · rfl

theorem sorted_range_cast (n : Nat) : ((List.range n).map Int.ofNat).Sorted (· < ·) := by
  unfold List.Sorted
  rw [List.pairwise_map]
  exact (List.pairwise_lt_range n).imp fun h => Int.ofNat_lt.mpr h

/-- C14 does not hold for every array: the array of the `2^30 + 1` keys 0, 1, ..., `2^30`
is strictly increasing and its length fits an `int`, and `build_from_sorted_array` on it
does not return a result, because `mid = (l + r) / 2` overflows for `l = r = 2^30`. -/
theorem build_fails_on_long_array :
    ((List.range 1073741825).map Int.ofNat).Sorted (· < ·) ∧
      ((List.range 1073741825).map Int.ofNat).length = 1073741825 ∧
      Tango.new.build_from_sorted_array ((List.range 1073741825).map Int.ofNat) = none := by
  have hl : ((List.range 1073741825).map Int.ofNat).length = 1073741825 := by
    rw [List.length_map, List.length_range]
  refine ⟨sorted_range_cast _, hl, build_from_sorted_array_overflow _ _ ?_⟩
  rw [hl]
  norm_num

/-! ## The initial decomposition -/

theorem keyAt_addrs {h : List RefNode} {t : PTree Int} {par : Option Nat}
    (hr : Rep RefNode.link h t par) : t.addrs.map (keyAt h) = t.vals := by
  induction t generalizing par with
  | nil => rfl
  | node l a v r ihl ihr =>
    obtain ⟨n, hn, hk, -⟩ := hr.ref_get
    obtain ⟨-, hl, hrr⟩ := hr
    simp only [PTree.addrs_node, PTree.vals_node, List.map_append, List.map_cons, ihl hl,
      ihr hrr]
    simp [keyAt, refKey, hn, hk]

theorem pre_parent_mem {t : PTree Int} {par : Option Nat} (hnd : t.addrs.Nodup)
    {x : Nat × Option Nat} (hx : x ∈ t.pre par) :
    x.2 = par ∨ ∃ pa, x.2 = some pa ∧ pa ∈ t.addrs := by
  rcases mem_pre_cases hx with ⟨-, h2⟩ | h2
  · exact Or.inl h2
  · obtain ⟨pa, e1, e2, -⟩ := pre_tail_spec 0 t par hnd x h2
    exact Or.inr ⟨pa, e1, e2⟩

/-- Every node of a tree without preferred markers passes the head test. -/
theorem heads_of_unmarked {h : List RefNode} {t : PTree Int} (hnd : t.addrs.Nodup)
    (hp : ∀ a ∈ t.addrs, ∃ n, h[a]? = some n ∧ n.preferred = none) :
    (t.pre none).filter (isHead h) = t.pre none := by
  apply List.filter_eq_self.mpr
  intro x hx
  obtain ⟨x1, x2⟩ := x
  rcases pre_parent_mem hnd hx with h2 | ⟨pa, h2, hpa⟩
  · simp only at h2
    subst h2
    rfl
  · simp only at h2
    subst h2
    obtain ⟨n, hn, hpn⟩ := hp pa hpa
    simp [isHead, hn, hpn]

theorem flatten_singletons_perm {α β : Type} (L : List α) (f : α → β) :
    ((L.map fun x => [f x]).reverse).flatten.Perm (L.map f) := by
  refine ((List.reverse_perm _).flatten).trans ?_
  induction L with
  | nil => simp
  | cons x L ih => simpa using ih

/-- The method `Tango::build_from_sorted_array` on an array of at most `2^30` keys: it
returns a state whose reference tree lists the array in in-order and has no preferred
marker, and whose `aux_list` has one tree for each key, each tree with that one key. -/
theorem build_initial_decomposition (arr : List Int) (hlen : arr.length ≤ 1073741824) :
    ∃ s t kss, Tango.new.build_from_sorted_array arr = some s ∧
      RefTree s.mem.refs s.ref_root t ∧ t.vals = arr ∧
      (∀ a ∈ t.addrs, ∃ n, s.mem.refs[a]? = some n ∧ n.preferred = none) ∧
      s.aux_list.length = arr.length ∧ s.aux_keys = some kss ∧
      (∀ l ∈ kss, l.length = 1) ∧ kss.flatten.Perm arr := by
  have hlen2 : arr.length < 2147483648 := by omega
  obtain ⟨h1, root, hb⟩ := build_ref_from_sorted_total arr hlen (arr.length + 1) [] 0
    ((arr.length : Int) - 1) (le_refl _) (by omega) (by omega) (by omega)
  obtain ⟨t, hroot, hrep, hnd, -, -, -, hvals, hnone, hall⟩ :=
    build_ref_from_sorted_spec arr hlen2 _ _ _ _ _ _ hb (le_refl _) (by omega) (by omega)
  have hv : t.vals = arr := by
    rw [hvals]
    simp
  have ht : RefTree h1 root t := ⟨hroot, hrep, hnd⟩
  have hch : ChainsOK h1 := by
    intro a ha
    obtain ⟨n, hn, hp, -⟩ := hnone a (hall a (by simp) ha)
    exact ⟨[a], Chain.cons hn (hp ▸ Chain.nil)⟩
  obtain ⟨s2, rs, chains, hrb, hroot2, hal, hcore, hc, hax, -⟩ :=
    rebuild_aux_spec (s := ⟨⟨h1, []⟩, root, []⟩) ht hch (by intro p hp; simp at hp)
  simp only at hc hcore hroot2
  have hunm : ∀ a ∈ t.addrs, ∃ n, h1[a]? = some n ∧ n.preferred = none := fun a ha => by
    obtain ⟨n, hn, hp, -⟩ := hnone a ha
    exact ⟨n, hn, hp⟩
  rw [heads_of_unmarked hnd hunm] at hc
  have hchains : chains = (t.pre none).map fun x => [x.1] := by
    refine forall₂_chain_unique hc (forall₂_singletons _ ?_)
    intro x hx
    obtain ⟨n, hn, hp⟩ := hunm x.1 ((t.pre_fst_perm none).subset (List.mem_map_of_mem _ hx))
    exact Chain.cons hn (hp ▸ Chain.nil)
  have hlt : ∀ l ∈ chains, ∀ b ∈ l, b < s2.mem.refs.length := by
    rw [core_length hcore]
    exact forall₂_chain_lt hc
  obtain ⟨hkeys, -⟩ := read_of_forall₂ hal hax hlt
  have ht2 : RefTree s2.mem.refs s2.ref_root t := by
    rw [hroot2]
    exact ht.of_link (link_of_core hcore)
  have hsize : (t.pre none).length = arr.length := by
    have := (t.pre_fst_perm none).length_eq
    rw [List.length_map, PTree.length_addrs, ← PTree.length_vals, hv] at this
    exact this
  refine ⟨s2, t, _, ?_, ht2, hv, ?_, ?_, hkeys, ?_, ?_⟩
  · simp only [Tango.build_from_sorted_array, Tango.new, if_pos hlen2, hb, Option.some_bind]
    exact hrb
  · intro a ha
    obtain ⟨n, hn, hp⟩ := hunm a ha
    obtain ⟨n2, hn2, -, -, -, -, hp2⟩ := get_of_core hcore hn
    exact ⟨n2, hn2, hp2.trans hp⟩
  · rw [hal, List.length_reverse, List.Forall₂.length_eq hax, hchains, List.length_map, hsize]
  · intro l hl
    rw [hchains] at hl
    simp only [List.mem_reverse, List.mem_map, exists_exists_and_eq_and] at hl
    obtain ⟨x, -, rfl⟩ := hl
    rfl
  · rw [hchains, List.map_map]
    refine (flatten_singletons_perm (t.pre none) fun x => keyAt s2.mem.refs x.1).trans ?_
    have e : ((t.pre none).map fun x => keyAt s2.mem.refs x.1) =
        ((t.pre none).map Prod.fst).map (keyAt s2.mem.refs) := by
      simp [Function.comp_def]
    rw [e, ← hv, ← keyAt_addrs ht2.2.1]
    exact (t.pre_fst_perm none).map _

/-! ## One auxiliary tree for each chain -/

theorem PrefChild.left {h : List RefNode} {l r : PTree Int} {a : Nat} {v : Int}
    (hp : PrefChild h (PTree.node l a v r)) : PrefChild h l :=
  fun b hb => hp b (by simp [PTree.addrs_node, hb])

theorem PrefChild.right {h : List RefNode} {l r : PTree Int} {a : Nat} {v : Int}
    (hp : PrefChild h (PTree.node l a v r)) : PrefChild h r :=
  fun b hb => hp b (by simp [PTree.addrs_node, hb])

/-- When every marker is none or a child, the walks from the nodes of the tree end. -/
theorem chains_of_prefChild {h : List RefNode} :
    ∀ (t : PTree Int) (par : Option Nat), Rep RefNode.link h t par → PrefChild h t →
      (∃ c, Chain h t.root c) ∧ ∀ a ∈ t.addrs, ∃ c, Chain h (some a) c := by
  intro t
  induction t with
  | nil => intro par _ _; exact ⟨⟨[], Chain.nil⟩, by simp⟩
  | node l a v r ihl ihr =>
    intro par hrep hp
    obtain ⟨n, hn, -, hnl, hnr, -⟩ := hrep.ref_get
    obtain ⟨-, hl, hr⟩ := hrep
    obtain ⟨⟨cl, hcl⟩, hal⟩ := ihl _ hl hp.left
    obtain ⟨⟨cr, hcr⟩, har⟩ := ihr _ hr hp.right
    have hroot : ∃ c, Chain h (some a) c := by
      rcases hp a (by simp [PTree.addrs_node]) n hn with h0 | h0 | h0
      · exact ⟨[a], Chain.cons hn (h0 ▸ Chain.nil)⟩
      · exact ⟨a :: cl, Chain.cons hn (by rw [h0, hnl]; exact hcl)⟩
      · exact ⟨a :: cr, Chain.cons hn (by rw [h0, hnr]; exact hcr)⟩
    refine ⟨hroot, ?_⟩
    intro b hb
    simp only [PTree.addrs_node, List.mem_append, List.mem_cons] at hb
    rcases hb with hb | rfl | hb
    · exact hal b hb
    · exact hroot
    · exact har b hb

theorem chain_none {h : List RefNode} {c : List Nat} (hc : Chain h none c) : c = [] := by
  cases hc
  rfl

/-- The walks from the heads below the root of a subtree, together with the walk from its
root, visit every node of the subtree once. -/
theorem chains_partition {h : List RefNode} :
    ∀ (t : PTree Int) (par : Option Nat), Rep RefNode.link h t par → t.addrs.Nodup →
      PrefChild h t → ∀ (c0 : List Nat) (cs : List (List Nat)), Chain h t.root c0 →
      List.Forall₂ (fun l x => Chain h (some x.1) l) cs (((t.pre par).tail).filter (isHead h)) →
      (c0 ++ cs.flatten).Perm t.addrs := by
  intro t
  induction t with
  | nil =>
    intro par _ _ _ c0 cs hc0 hcs
    simp only [PTree.pre, List.tail_nil, List.filter_nil, List.forall₂_nil_right_iff] at hcs
    subst hcs
    rw [chain_none hc0]
    simp
  | node l a v r ihl ihr =>
    intro par hrep hnd hp c0 cs hc0 hcs
    obtain ⟨n, hn, -, hnl, hnr, -⟩ := hrep.ref_get
    obtain ⟨-, hl, hr⟩ := hrep
    rw [PTree.addrs_node] at hnd
    have hndl := (List.nodup_append.mp hnd).1
    have hndr := (List.nodup_cons.mp (List.nodup_append.mp hnd).2.1).2
    have hlr : ∀ b, b ∈ l.addrs → b ∉ r.addrs := fun b h1 h2 =>
      (List.nodup_append.mp hnd).2.2 h1 (List.mem_cons_of_mem _ h2)
    -- the walk from the root
    simp only [PTree.root_node] at hc0
    obtain ⟨c1, rfl, hc1⟩ : ∃ c1, c0 = a :: c1 ∧ Chain h n.preferred c1 := by
      cases hc0 with
      | @cons _ n2 c1 hn2 hc1 =>
        rw [hn] at hn2
        cases hn2
        exact ⟨c1, rfl, hc1⟩
    -- the walks below the two children
    simp only [PTree.pre, List.tail_cons, List.filter_append] at hcs
    have hcsl := List.forall₂_take_append _ _ _ hcs
    have hcsr := List.forall₂_drop_append _ _ _ hcs
    have hsplit := (List.take_append_drop ((l.pre (some a)).filter (isHead h)).length cs).symm
    set csl := List.take ((l.pre (some a)).filter (isHead h)).length cs
    set csr := List.drop ((l.pre (some a)).filter (isHead h)).length cs
    -- one child
    have child : ∀ (S : PTree Int) (csS : List (List Nat)), Rep RefNode.link h S (some a) →
        (∀ (c0 : List Nat) (cs : List (List Nat)), Chain h S.root c0 →
          List.Forall₂ (fun l x => Chain h (some x.1) l) cs
            (((S.pre (some a)).tail).filter (isHead h)) → (c0 ++ cs.flatten).Perm S.addrs) →
        List.Forall₂ (fun l x => Chain h (some x.1) l) csS ((S.pre (some a)).filter (isHead h)) →
        (n.preferred = S.root → S.root ≠ none →
          ∀ c1, Chain h S.root c1 → (c1 ++ csS.flatten).Perm S.addrs) ∧
        (n.preferred ≠ S.root ∨ S = PTree.nil → csS.flatten.Perm S.addrs) := by
      intro S csS hS ih hf
      cases S with
      | nil =>
        simp only [PTree.pre, List.filter_nil, List.forall₂_nil_right_iff] at hf
        subst hf
        exact ⟨fun _ h2 => absurd rfl h2, fun _ => by simp⟩
      | node sl b sv sr =>
        have hhead : isHead h (b, some a) = decide (n.preferred ≠ some b) := by
          simp [isHead, hn]
        have hpre : (PTree.node sl b sv sr).pre (some a) =
            (b, some a) :: ((PTree.node sl b sv sr).pre (some a)).tail := rfl
        rw [hpre] at hf
        constructor
        · intro he _ c1 hc1
          rw [List.filter_cons_of_neg (by simp [hhead, he])] at hf
          exact ih c1 csS hc1 hf
        · intro he
          have he2 : n.preferred ≠ some b := by
            rcases he with he | he
            · exact he
            · cases he
          rw [List.filter_cons_of_pos (by simp [hhead, he2])] at hf
          obtain ⟨cb, cs2, hcb, hcs2, rfl⟩ := List.forall₂_cons_right_iff.mp hf
          simpa using ih cb cs2 hcb hcs2
    obtain ⟨childL1, childL2⟩ := child l csl hl (ihl (some a) hl hndl hp.left) hcsl
    obtain ⟨childR1, childR2⟩ := child r csr hr (ihr (some a) hr hndr hp.right) hcsr
    rw [hsplit, List.flatten_append, PTree.addrs_node]
    by_cases h0 : n.preferred = none
    · rw [h0] at hc1
      rw [chain_none hc1]
      have pl := childL2 (by
        cases l with
        | nil => exact Or.inr rfl
        | node _ _ _ _ => left; rw [h0]; simp)
      have pr := childR2 (by
        cases r with
        | nil => exact Or.inr rfl
        | node _ _ _ _ => left; rw [h0]; simp)
      have : (a :: [] ++ (csl.flatten ++ csr.flatten)).Perm
          (a :: (csl.flatten ++ csr.flatten)) := by simp
      exact this.trans (((pl.append pr).cons a).trans List.perm_middle.symm)
    · rcases hp a (by simp [PTree.addrs_node]) n hn with h1 | h1 | h1
      · exact absurd h1 h0
      · -- the left child is preferred
        rw [hnl] at h1
        have hne : l.root ≠ none := fun e => h0 (h1.trans e)
        have pl := childL1 h1 hne c1 (h1 ▸ hc1)
        have pr := childR2 (by
          left
          rw [h1]
          intro e
          cases hb : l.root with
          | none => exact hne hb
          | some b =>
            exact hlr b (PTree.root_mem_addrs hb) (PTree.root_mem_addrs (e ▸ hb)))
        have : (a :: c1 ++ (csl.flatten ++ csr.flatten)).Perm
            (a :: ((c1 ++ csl.flatten) ++ csr.flatten)) := by simp
        exact this.trans (((pl.append pr).cons a).trans List.perm_middle.symm)
      · -- the right child is preferred
        rw [hnr] at h1
        have hne : r.root ≠ none := fun e => h0 (h1.trans e)
        have pr := childR1 h1 hne c1 (h1 ▸ hc1)
        have pl := childL2 (by
          left
          rw [h1]
          intro e
          cases hb : r.root with
          | none => exact hne hb
          | some b =>
            exact hlr b (PTree.root_mem_addrs (e.symm ▸ hb)) (PTree.root_mem_addrs hb))
        have : (a :: c1 ++ (csl.flatten ++ csr.flatten)).Perm
            (a :: (csl.flatten ++ (c1 ++ csr.flatten))) := by
          refine List.Perm.cons a ?_
          show (c1 ++ (csl.flatten ++ csr.flatten)).Perm (csl.flatten ++ (c1 ++ csr.flatten))
          rw [← List.append_assoc, ← List.append_assoc]
          exact List.Perm.append_right _ List.perm_append_comm
        exact this.trans (((pl.append pr).cons a).trans List.perm_middle.symm)

/-- C17: for a reference tree whose parent links mirror its child links and in which each
preferred marker is none or a child of its node, `build_aux_trees_from_ref` returns a list
with exactly one auxiliary tree for each node that is the root or is not the preferred child
of its parent (in the order of the visit, last made first); the tree made for such a node
wraps exactly the nodes of the walk along preferred links from it, in the order of the walk;
the walks visit every node of the reference tree exactly once, so that every reference node
is wrapped once over the whole list; the reference nodes keep all fields but `aux_ptr`. -/
theorem rebuild_one_tree_per_chain {m : Mem} {root : Option Nat} {t : PTree Int}
    (ht : RefTree m.refs root t) (hp : PrefChild m.refs t) :
    ∃ m2 rs chains, build_aux_trees_from_ref m root = some (m2, rs.reverse) ∧
      List.Forall₂ (fun l x => Chain m.refs (some x.1) l) chains
        ((t.pre none).filter (isHead m.refs)) ∧
      List.Forall₂ (fun a l => ∃ T : PTree (Option Nat), T.root = a ∧
        Rep AuxNode.link m2.auxs T none ∧ T.addrs.Nodup ∧ T.vals = l.map some) rs chains ∧
      chains.flatten.Perm t.addrs ∧ t.addrs.Nodup ∧
      m2.refs.map RefNode.core = m.refs.map RefNode.core := by
  obtain ⟨m2, rs, chains, h1, h2, h3, h4⟩ :=
    build_aux_trees_from_ref_local ht (chains_of_prefChild t none ht.2.1 hp).2
  refine ⟨m2, rs, chains, h1, h2, ?_, ?_, ht.2.2, h4⟩
  · refine h3.imp ?_
    rintro a l ⟨news, e1, e2, e3, e4⟩
    refine ⟨chainTreeRev news, e1.symm, e2, ?_, ?_⟩
    · rw [chainTreeRev_addrs]
      exact List.nodup_reverse.mpr e3
    · rw [chainTreeRev_vals, ← List.map_reverse, e4]
  · cases t with
    | nil =>
      simp only [PTree.pre, List.filter_nil, List.forall₂_nil_right_iff] at h2
      subst h2
      simp [PTree.addrs, PTree.toList]
    | node l a v r =>
      have hpre : (PTree.node l a v r).pre none =
          (a, none) :: ((PTree.node l a v r).pre none).tail := rfl
      rw [hpre, List.filter_cons_of_pos (by simp [isHead])] at h2
      obtain ⟨c0, cs, hc0, hcs, rfl⟩ := List.forall₂_cons_right_iff.mp h2
      simpa using chains_partition _ none ht.2.1 ht.2.2 hp c0 cs hc0 hcs

theorem rebuild_one_tree_per_chain_witness :
    RefTree marked3.refs (some 0) refTree3 ∧ PrefChild marked3.refs refTree3 ∧
      ∃ m2 rs chains, build_aux_trees_from_ref marked3 (some 0) = some (m2, rs.reverse) ∧
        List.Forall₂ (fun l x => Chain marked3.refs (some x.1) l) chains
          ((refTree3.pre none).filter (isHead marked3.refs)) ∧
        List.Forall₂ (fun a l => ∃ T : PTree (Option Nat), T.root = a ∧
          Rep AuxNode.link m2.auxs T none ∧ T.addrs.Nodup ∧ T.vals = l.map some) rs chains ∧
        chains.flatten.Perm refTree3.addrs ∧ refTree3.addrs.Nodup ∧
        m2.refs.map RefNode.core = marked3.refs.map RefNode.core :=
  have ht : RefTree marked3.refs (some 0) refTree3 :=
    ⟨rfl, by simp [Rep, refTree3, marked3, PTree.root, RefNode.link], by decide⟩
  have hp : PrefChild marked3.refs refTree3 := by
    intro a ha n hn
    have ha2 : a = 1 ∨ a = 0 ∨ a = 2 := by
      simpa [refTree3, PTree.addrs, PTree.toList] using ha
    rcases ha2 with rfl | rfl | rfl <;> simp [marked3] at hn <;> subst hn <;> simp
  ⟨ht, hp, rebuild_one_tree_per_chain ht hp⟩

/-! ## The height of the auxiliary tree of a chain -/

theorem lspine_height {β : Type} (xs : List (Nat × β)) : (lspine xs).height = xs.length := by
  induction xs with
  | nil => rfl
  | cons x xs ih => simp [lspine, PTree.height, ih]

theorem chainTreeRev_height {β : Type} (xs : List (Nat × β)) :
    (chainTreeRev xs).height = spineHeight xs.length := by
  match xs with
  | [] => rfl
  | [z] => rfl
  | z :: y :: rest =>
    simp only [chainTreeRev, PTree.height, lspine_height, spineHeight, List.length_cons]
    split <;> omega

theorem pow_two_gt_add (k : Nat) : k + 6 ≤ 2 ^ (k + 3) := by
  induction k with
  | zero => norm_num
  | succ k ih =>
    rw [pow_succ]
    omega

/-- The height of the tree of a chain of `m` nodes is within `⌈log₂ (m + 1)⌉` for chains
of up to four nodes only. -/
theorem spineHeight_le_clog (m : Nat) :
    spineHeight m ≤ Nat.clog 2 (m + 1) ↔ m ≤ 4 := by
  constructor
  · intro h
    by_contra hm
    obtain ⟨k, rfl⟩ : ∃ k, m = k + 5 := ⟨m - 5, by omega⟩
    have h1 : Nat.clog 2 (k + 5 + 1) ≤ k + 3 :=
      (Nat.le_pow_iff_clog_le (by norm_num)).mp (pow_two_gt_add k)
    have h2 : spineHeight (k + 5) = k + 4 := by
      simp [spineHeight]
    omega
  · intro h
    interval_cases m <;> norm_num [spineHeight, Nat.clog]

theorem forall₂_left_mem {α β : Type} {R : α → β → Prop} {as : List α} {bs : List β}
    (h : List.Forall₂ R as bs) : ∀ a ∈ as, ∃ b, b ∈ bs ∧ R a b := by
  induction h with
  | nil => simp
  | @cons a b as bs hab _ ih =>
    intro x hx
    rcases List.mem_cons.mp hx with rfl | hx
    · exact ⟨b, List.mem_cons_self _ _, hab⟩
    · obtain ⟨y, hy, hxy⟩ := ih x hx
      exact ⟨y, List.mem_cons_of_mem _ hy, hxy⟩

theorem forall₂_imp_mem {α β : Type} {R S : α → β → Prop} {as : List α} {bs : List β}
    (h : List.Forall₂ R as bs) (himp : ∀ a b, b ∈ bs → R a b → S a b) :
    List.Forall₂ S as bs := by
  induction h with
  | nil => exact List.Forall₂.nil
  | @cons a b as bs hab _ ih =>
    exact List.Forall₂.cons (himp a b (List.mem_cons_self _ _) hab)
      (ih fun x y hy => himp x y (List.mem_cons_of_mem _ hy))

/-- C19 does not hold: from `build_from_sorted_array` on 10, 20, 30, the calls
`insert_key(40)`, `insert_key(50)`, `insert_key(60)` and `access(60)` return a reachable
state in which the chain 20, 30, 40, 50, 60 of five reference nodes has the auxiliary tree
with 50 at the root, 60 as its right child and 40, 30, 20 as a left spine below it: four
nodes lie on its longest path, and `⌈log₂ (5 + 1)⌉` is 3. -/
theorem aux_tree_not_balanced :
    ∃ s1 s2 s3 s4 r, built3.insert_key 40 = some s1 ∧ s1.insert_key 50 = some s2 ∧
      s2.insert_key 60 = some s3 ∧ s3.access 60 = some (s4, r) ∧ Reachable s4 ∧
      s4.aux_keys = some [[10], [20, 30, 40, 50, 60]] ∧
      s4.aux_shapes = some [KTree.node KTree.nil 10 KTree.nil,
        KTree.node (KTree.node (KTree.node (KTree.node KTree.nil 20 KTree.nil) 30 KTree.nil)
          40 KTree.nil) 50 (KTree.node KTree.nil 60 KTree.nil)] ∧
      (KTree.node (KTree.node (KTree.node (KTree.node KTree.nil 20 KTree.nil) 30 KTree.nil)
          40 KTree.nil) 50 (KTree.node KTree.nil 60 KTree.nil)).height = 4 ∧
      Nat.clog 2 (5 + 1) = 3 :=
  ⟨(built3.insert_key 40).get (by decide),
    ((built3.insert_key 40).get (by decide)).insert_key 50 |>.get (by decide),
    (((built3.insert_key 40).get (by decide)).insert_key 50 |>.get (by decide)).insert_key 60
      |>.get (by decide),
    ((((built3.insert_key 40).get (by decide)).insert_key 50 |>.get (by decide)).insert_key 60
      |>.get (by decide)).access 60 |>.get (by decide) |>.1,
    ((((built3.insert_key 40).get (by decide)).insert_key 50 |>.get (by decide)).insert_key 60
      |>.get (by decide)).access 60 |>.get (by decide) |>.2,
    by decide, by decide, by decide, by decide,
    (((built3_reachable.insert_get 40 (by decide)).insert_get 50 (by decide)).insert_get 60
      (by decide)).access_get 60 (by decide),
    by decide, by decide, by decide, by norm_num [Nat.clog]⟩

/-- C19, amended: for a reference tree whose parent links mirror its child links and in
which the walks along preferred links end, `build_aux_trees_from_ref` returns one auxiliary
tree for each chain; the tree of a chain of `m` nodes lists the nodes of the chain in
in-order, and its height in nodes is `m` for `m ≤ 2` and `m - 1` from `m = 3` on, which is
at most `⌈log₂ (m + 1)⌉` exactly when `m ≤ 4`. -/
theorem aux_tree_height {m : Mem} {root : Option Nat} {t : PTree Int}
    (ht : RefTree m.refs root t)
    (hch : ∀ a ∈ t.addrs, ∃ l, Chain m.refs (some a) l) :
    ∃ m2 rs chains, build_aux_trees_from_ref m root = some (m2, rs.reverse) ∧
      List.Forall₂ (fun l x => Chain m.refs (some x.1) l) chains
        ((t.pre none).filter (isHead m.refs)) ∧
      List.Forall₂ (fun a l => 1 ≤ l.length ∧ ∃ T : PTree (Option Nat), T.root = a ∧
        Rep AuxNode.link m2.auxs T none ∧ T.vals = l.map some ∧
        T.height = spineHeight l.length ∧
        (T.height ≤ Nat.clog 2 (l.length + 1) ↔ l.length ≤ 4)) rs chains := by
  obtain ⟨m2, rs, chains, h1, h2, h3, -⟩ := build_aux_trees_from_ref_local ht hch
  refine ⟨m2, rs, chains, h1, h2, ?_⟩
  have hne : ∀ l ∈ chains, 1 ≤ l.length := by
    intro l hl
    obtain ⟨x, -, hx⟩ := forall₂_left_mem h2 l hl
    cases hx
    simp
  refine forall₂_imp_mem h3 ?_
  rintro a l hl ⟨news, e1, e2, -, e4⟩
  have hlen : news.length = l.length := by
    have := congrArg List.length e4
    simpa using this
  have hh : (chainTreeRev news).height = spineHeight l.length := by
    rw [chainTreeRev_height, hlen]
  refine ⟨hne l hl, chainTreeRev news, e1.symm, e2, ?_, hh, ?_⟩
  · rw [chainTreeRev_vals, ← List.map_reverse, e4]
  · rw [hh]
    exact spineHeight_le_clog l.length

theorem aux_tree_height_witness :
    RefTree marked3.refs (some 0) refTree3 ∧
      (∀ a ∈ refTree3.addrs, ∃ l, Chain marked3.refs (some a) l) ∧
      ∃ m2 rs chains, build_aux_trees_from_ref marked3 (some 0) = some (m2, rs.reverse) ∧
        List.Forall₂ (fun l x => Chain marked3.refs (some x.1) l) chains
          ((refTree3.pre none).filter (isHead marked3.refs)) ∧
        List.Forall₂ (fun a l => 1 ≤ l.length ∧ ∃ T : PTree (Option Nat), T.root = a ∧
          Rep AuxNode.link m2.auxs T none ∧ T.vals = l.map some ∧
          T.height = spineHeight l.length ∧
          (T.height ≤ Nat.clog 2 (l.length + 1) ↔ l.length ≤ 4)) rs chains :=
  have ht : RefTree marked3.refs (some 0) refTree3 :=
    ⟨rfl, by simp [Rep, refTree3, marked3, PTree.root, RefNode.link], by decide⟩
  have c1 : Chain marked3.refs (some 1) [1] :=
    Chain.cons (show marked3.refs[1]? = some ⟨10, none, none, some 0, none, none⟩ from rfl)
      Chain.nil
  have c2 : Chain marked3.refs (some 2) [2] :=
    Chain.cons (show marked3.refs[2]? = some ⟨30, none, none, some 0, none, none⟩ from rfl)
      Chain.nil
  have c0 : Chain marked3.refs (some 0) [0, 1] :=
    Chain.cons (show marked3.refs[0]? = some ⟨20, some 1, some 2, none, none, some 1⟩ from rfl)
      c1
  have hch : ∀ a ∈ refTree3.addrs, ∃ l, Chain marked3.refs (some a) l := by
    intro a ha
    have ha2 : a = 1 ∨ a = 0 ∨ a = 2 := by
      simpa [refTree3, PTree.addrs, PTree.toList] using ha
    rcases ha2 with rfl | rfl | rfl
    · exact ⟨_, c1⟩
    · exact ⟨_, c0⟩
    · exact ⟨_, c2⟩
  ⟨ht, hch, aux_tree_height ht hch⟩

/-! ## The in-order sequence of a merge-built tree -/

/-- C21: for every array `arr` of pointers and indices `0 ≤ l ≤ r` (with `r` below
`INT_MAX`, so that the counter `i` of the loop stays an `int`) such that `arr[l]`, ...,
`arr[r]` are nodes of the reference store, whatever their keys are,
`build_splay_from_array_with_merge(arr, l, r)` returns the root of a tree of `r - l + 1`
new auxiliary nodes whose in-order sequence of wrapped reference nodes is `arr[l]`,
`arr[l + 1]`, ..., `arr[r]` in that order; `print_aux_inorder` prints their keys in that
order, and the reference nodes keep all fields but `aux_ptr`. -/
theorem merge_build_inorder (m : Mem) (arr : List (Option Nat)) (l r : Int) (hl : 0 ≤ l)
    (hlr : l ≤ r) (_hr : r < 2147483647)
    (harr : ∀ j : Nat, l ≤ (j : Int) → (j : Int) ≤ r →
      ∃ x, arr[j]? = some (some x) ∧ x < m.refs.length) :
    ∃ m2 T, build_splay_from_array_with_merge m arr l r = some (m2, T.root) ∧
      Rep AuxNode.link m2.auxs T none ∧ T.addrs.Nodup ∧
      (∀ a ∈ T.addrs, m.auxs.length ≤ a) ∧
      T.vals = (arr.drop l.toNat).take (r - l + 1).toNat ∧
      T.size = (r - l + 1).toNat ∧
      aux_inorder (m2.auxs.length + 1) m2 T.root =
        some (((arr.drop l.toNat).take (r - l + 1).toNat).map (refKey m.refs)) ∧
      m2.refs.map RefNode.core = m.refs.map RefNode.core := by
  have ek : (r + 1 - l).toNat = (r - l + 1).toNat := by congr 1; omega
  obtain ⟨m2, news, h1, h2, h3, h4, h5, -, h7⟩ :=
    build_splay_loop_spec arr r (r - l + 1).toNat ((r - l + 1).toNat + 1) m l [] ek
      (le_refl _) hl (by omega) trivial (by simp)
      (by intro v hv; simp [chainTreeRev] at hv) harr
  simp only [List.append_nil] at h1 h2
  have hvals : (chainTreeRev news).vals = (arr.drop l.toNat).take (r - l + 1).toNat := by
    rw [chainTreeRev_vals, ← List.map_reverse, h4]
  have haddrs : (chainTreeRev news).addrs = List.range' m.auxs.length (r - l + 1).toNat := by
    rw [chainTreeRev_addrs, ← List.map_reverse, h3]
  have hsize : (chainTreeRev news).size = (r - l + 1).toNat := by
    rw [← PTree.length_addrs, haddrs, List.length_range']
  have hval : ValidRefs m2.refs.length (chainTreeRev news) := by
    intro v hv
    rw [hvals] at hv
    obtain ⟨i, hi, rfl⟩ := List.getElem_of_mem hv
    simp only [List.length_take, List.length_drop, lt_min_iff] at hi
    obtain ⟨x, hx, hxlt⟩ := harr (l.toNat + i) (by omega) (by omega)
    refine ⟨x, ?_, by rw [core_length h7]; exact hxlt⟩
    have := List.getElem?_eq_getElem
      (show i < ((arr.drop l.toNat).take (r - l + 1).toNat).length by
        simp only [List.length_take, List.length_drop, lt_min_iff]; exact hi)
    rw [List.getElem?_take_of_lt hi.1, List.getElem?_drop, hx] at this
    exact (Option.some.inj this).symm
  refine ⟨m2, chainTreeRev news, ?_, h2, ?_, ?_, hvals, hsize, ?_, h7⟩
  · simpa [build_splay_from_array_with_merge, chainTreeRev] using h1
  · rw [haddrs]
    exact List.nodup_range' _ _
  · intro a ha
    rw [haddrs] at ha
    exact (List.mem_range'_1.mp ha).1
  · have hh : (chainTreeRev news).height ≤ m2.auxs.length + 1 := by
      have := (chainTreeRev news).height_le_size
      omega
    rw [aux_inorder_of_rep _ none _ h2 hval hh, auxKeys, hvals, refKey_congr h7]

theorem merge_build_inorder_witness :
    (0 : Int) ≤ 0 ∧ (0 : Int) ≤ 2 ∧ (2 : Int) < 2147483647 ∧
      ∃ m2 T, build_splay_from_array_with_merge built3.mem [some 2, some 0, some 1] 0 2 =
          some (m2, T.root) ∧
        Rep AuxNode.link m2.auxs T none ∧ T.addrs.Nodup ∧
        (∀ a ∈ T.addrs, built3.mem.auxs.length ≤ a) ∧
        T.vals = (([some 2, some 0, some 1] : List (Option Nat)).drop (0 : Int).toNat).take
          ((2 : Int) - 0 + 1).toNat ∧
        T.size = ((2 : Int) - 0 + 1).toNat ∧
        aux_inorder (m2.auxs.length + 1) m2 T.root =
          some (((([some 2, some 0, some 1] : List (Option Nat)).drop (0 : Int).toNat).take
            ((2 : Int) - 0 + 1).toNat).map (refKey built3.mem.refs)) ∧
        m2.refs.map RefNode.core = built3.mem.refs.map RefNode.core :=
  ⟨by decide, by decide, by decide,
    merge_build_inorder built3.mem [some 2, some 0, some 1] 0 2 (by decide) (by decide)
      (by decide) (fun j h1 h2 => by
        have hj : j = 0 ∨ j = 1 ∨ j = 2 := by omega
        rcases hj with rfl | rfl | rfl
        · exact ⟨2, rfl, by decide⟩
        · exact ⟨0, rfl, by decide⟩
        · exact ⟨1, rfl, by decide⟩)⟩

/-! ## Split followed by merge -/

/-- Whatever the order of the keys is, `aux_split_by_key(root, key, left, right)` returns
two trees without a parent above their roots whose in-order sequences, `left` first, make
up the in-order sequence of the tree. -/
theorem aux_split_by_key_inorder {m : Mem} {t : PTree (Option Nat)}
    (hrep : Rep AuxNode.link m.auxs t none) (hnd : t.addrs.Nodup)
    (hv : ValidRefs m.refs.length t) (key : Int) :
    ∃ m2 Lt Rt, aux_split_by_key m t.root key = some (m2, Lt.root, Rt.root) ∧
      Rep AuxNode.link m2.auxs Lt none ∧ Rep AuxNode.link m2.auxs Rt none ∧
      Lt.toList ++ Rt.toList = t.toList ∧
      m2.refs.map RefNode.core = m.refs.map RefNode.core ∧
      m2.auxs.length = m.auxs.length ∧
      ∀ b : Nat, b ∉ t.addrs → m2.auxs[b]? = m.auxs[b]? := by
  cases t with
  | nil =>
    exact ⟨m, PTree.nil, PTree.nil, rfl, trivial, trivial, rfl, rfl, rfl, fun _ _ => rfl⟩
  | node l a v r =>
    obtain ⟨s1, s2⟩ := aux_split_by_key_struct hrep hnd hv key
    rcases PTree.splitCand_cases m.refs key (PTree.node l a v r) none with
      hc | ⟨c, A, x, xv, B, hc, hplug⟩
    · obtain ⟨m2, Rt, hsp, hrepR, htl, hcore, hlen, hfr⟩ := s1 hc
      exact ⟨m2, PTree.nil, Rt, hsp, trivial, hrepR, by simpa using htl, hcore, hlen, hfr⟩
    · obtain ⟨m2, A2, B2, hsp, hrepL, hrepR, hA, hB, hcore, hlen, hfr⟩ := s2 c A x xv B hc hplug
      refine ⟨m2, PTree.node A2 x xv PTree.nil, B2, hsp, hrepL, hrepR, ?_, hcore, hlen, hfr⟩
      rw [hplug, plug_toList, PTree.toList_node, PTree.toList_node, PTree.toList_nil, hA, hB]
      simp

/-- C22: for every tree `t` of the auxiliary store with consistent parent links (empty or
not, whatever the order of its keys) and every integer `key`, `aux_split_by_key(t, key)`
returns two trees `l` and `r` whose in-order sequences, `l` first, make up the in-order
sequence of `t`, and `aux_merge(l, r)` then returns one tree with the in-order sequence of
`t`; the reference nodes keep all fields but `aux_ptr`. -/
theorem split_merge_round_trip (m : Mem) (t : PTree (Option Nat)) (key : Int)
    (hrep : Rep AuxNode.link m.auxs t none) (hnd : t.addrs.Nodup)
    (hval : ValidRefs m.refs.length t) :
    ∃ m2 Lt Rt m3 T, aux_split_by_key m t.root key = some (m2, Lt.root, Rt.root) ∧
      Rep AuxNode.link m2.auxs Lt none ∧ Rep AuxNode.link m2.auxs Rt none ∧
      Lt.toList ++ Rt.toList = t.toList ∧
      aux_merge m2 Lt.root Rt.root = some (m3, T.root) ∧
      Rep AuxNode.link m3.auxs T none ∧ T.toList = t.toList ∧
      m3.refs.map RefNode.core = m.refs.map RefNode.core := by
  obtain ⟨m2, Lt, Rt, hsp, hL, hR, hlist, hcore, -, -⟩ :=
    aux_split_by_key_inorder hrep hnd hval key
  have haddrs : Lt.addrs ++ Rt.addrs = t.addrs := by
    simp only [PTree.addrs, ← hlist, List.map_append]
  have hvals : Lt.vals ++ Rt.vals = t.vals := by
    simp only [PTree.vals, ← hlist, List.map_append]
  have hvL : ValidRefs m2.refs.length Lt := by
    intro v hv
    rw [core_length hcore]
    exact hval v (by rw [← hvals]; simp [hv])
  have hvR : ValidRefs m2.refs.length Rt := by
    intro v hv
    rw [core_length hcore]
    exact hval v (by rw [← hvals]; simp [hv])
  obtain ⟨m3, hm, hrep3, -, -, hcore3, -⟩ :=
    aux_merge_spec hL hR (by rw [haddrs]; exact hnd) hvL hvR
  exact ⟨m2, Lt, Rt, m3, mergeT Lt Rt, hsp, hL, hR, hlist, hm, hrep3,
    by rw [mergeT_toList, hlist], hcore3.trans hcore⟩

theorem split_merge_round_trip_witness :
    Rep AuxNode.link accessed50.mem.auxs auxPathTree none ∧ auxPathTree.addrs.Nodup ∧
      ValidRefs accessed50.mem.refs.length auxPathTree ∧
      ∃ m2 Lt Rt m3 T, aux_split_by_key accessed50.mem auxPathTree.root 45 =
          some (m2, Lt.root, Rt.root) ∧
        Rep AuxNode.link m2.auxs Lt none ∧ Rep AuxNode.link m2.auxs Rt none ∧
        Lt.toList ++ Rt.toList = auxPathTree.toList ∧
        aux_merge m2 Lt.root Rt.root = some (m3, T.root) ∧
        Rep AuxNode.link m3.auxs T none ∧ T.toList = auxPathTree.toList ∧
        m3.refs.map RefNode.core = accessed50.mem.refs.map RefNode.core :=
  have hval : ValidRefs accessed50.mem.refs.length auxPathTree := by
    intro v hv
    have hv2 : v = some 0 ∨ v = some 4 ∨ v = some 5 := by
      simpa [auxPathTree, PTree.vals, PTree.toList] using hv
    rcases hv2 with rfl | rfl | rfl
    · exact ⟨0, rfl, by decide⟩
    · exact ⟨4, rfl, by decide⟩
    · exact ⟨5, rfl, by decide⟩
  ⟨auxPathTree_rep, by decide, hval,
    split_merge_round_trip accessed50.mem auxPathTree 45 auxPathTree_rep (by decide) hval⟩

/-! ## Parent links of the reference tree -/

theorem rep_root_parent {h : List RefNode} {t : PTree Int} {par : Option Nat}
    (hr : Rep RefNode.link h t par) {c : Nat} (hc : t.root = some c) :
    ∃ cn, h[c]? = some cn ∧ cn.parent = par := by
  cases t with
  | nil => simp at hc
  | node l a v r =>
    simp only [PTree.root_node, Option.some.injEq] at hc
    subst hc
    obtain ⟨n, hn, -, -, -, hp⟩ := hr.ref_get
    exact ⟨n, hn, hp⟩

theorem rep_children_parent {h : List RefNode} :
    ∀ (t : PTree Int) (par : Option Nat), Rep RefNode.link h t par →
      ∀ a ∈ t.addrs, ∃ n, h[a]? = some n ∧
        (∀ c, n.left = some c → ∃ cn, h[c]? = some cn ∧ cn.parent = some a) ∧
        (∀ c, n.right = some c → ∃ cn, h[c]? = some cn ∧ cn.parent = some a) := by
  intro t
  induction t with
  | nil => intro par _ a ha; simp at ha
  | node l a v r ihl ihr =>
    intro par hr b hb
    obtain ⟨n, hn, -, hl, hrt, -⟩ := hr.ref_get
    obtain ⟨-, hrl, hrr⟩ := hr
    simp only [PTree.addrs_node, List.mem_append, List.mem_cons] at hb
    rcases hb with hb | rfl | hb
    · exact ihl _ hrl b hb
    · exact ⟨n, hn, fun c hc => rep_root_parent hrl (hl ▸ hc),
        fun c hc => rep_root_parent hrr (hrt ▸ hc)⟩
    · exact ihr _ hrr b hb

/-- A store that holds a tree below `root` has consistent parent links. -/
theorem parentsOK_of_refTree {h : List RefNode} {root : Option Nat} {t : PTree Int}
    (ht : RefTree h root t) : ParentsOK h root t :=
  ⟨fun _ ha => rep_root_parent ht.2.1 (ht.1.trans ha), rep_children_parent t none ht.2.1⟩

/-- Every node of a tree has the tree around it. -/
theorem PTree.plug_of_mem {β : Type} {t : PTree β} {z : Nat} (hz : z ∈ t.addrs) :
    ∃ c l v r, t = plug c (PTree.node l z v r) := by
  induction t with
  | nil => simp at hz
  | node l a v r ihl ihr =>
    simp only [PTree.addrs_node, List.mem_append, List.mem_cons] at hz
    rcases hz with hz | rfl | hz
    · obtain ⟨c, l2, v2, r2, e⟩ := ihl hz
      exact ⟨c ++ [Frame.inL a v r], l2, v2, r2, by rw [plug_append, ← e]; rfl⟩
    · exact ⟨[], l, v, r, rfl⟩
    · obtain ⟨c, l2, v2, r2, e⟩ := ihr hz
      exact ⟨c ++ [Frame.inR a v l], l2, v2, r2, by rw [plug_append, ← e]; rfl⟩

theorem PTree.insertLoc_ne_none {t : PTree Int} (k : Int) (hne : t ≠ PTree.nil)
    (p0 : Option Nat) : t.insertLoc k p0 ≠ Sum.inr none := by
  induction t generalizing p0 with
  | nil => exact absurd rfl hne
  | node l a v r ihl ihr =>
    simp only [PTree.insertLoc]
    split_ifs
    · cases l with
      | nil => simp [PTree.insertLoc]
      | node _ _ _ _ => exact ihl (by simp) _
    · cases r with
      | nil => simp [PTree.insertLoc]
      | node _ _ _ _ => exact ihr (by simp) _
    · simp

theorem PTree.insert_toList_of_loc {t : PTree Int} {k : Int} {p0 q : Option Nat}
    (hloc : t.insertLoc k p0 = Sum.inr q) (n : Nat) :
    List.Perm (t.insert k n).toList ((n, k) :: t.toList) := by
  induction t generalizing p0 with
  | nil => simp [PTree.insert]
  | node l a v r ihl ihr =>
    simp only [PTree.insertLoc] at hloc
    simp only [PTree.insert]
    by_cases h1 : k < v
    · rw [if_pos h1] at hloc ⊢
      simp only [PTree.toList_node]
      exact ((ihl hloc).append_right _).trans (by simp)
    · rw [if_neg h1] at hloc ⊢
      by_cases h2 : k > v
      · rw [if_pos h2] at hloc ⊢
        simp only [PTree.toList_node]
        have := ihr hloc
        refine (List.Perm.append_left l.toList (List.Perm.cons (a, v) this)).trans ?_
        refine (List.Perm.append_left l.toList (List.Perm.swap _ _ _)).trans ?_
        exact List.perm_middle
      · rw [if_neg h2] at hloc
        simp at hloc

/-- `bst_insert(root, key)` on a store that holds a tree, whatever the order of its keys is:
the call returns and the store holds a tree again, the same one when the descent meets the
key and the tree with a new leaf otherwise. -/
theorem bst_insert_links {h : List RefNode} {root : Option Nat} {t : PTree Int}
    (ht : RefTree h root t) (k : Int) :
    ∃ h2 root2 res t2, bst_insert h root k = some (h2, root2, res) ∧ RefTree h2 root2 t2 ∧
      (t2 = t ∧ h2 = h ∨ t2 = t.insert k h.length ∧ res = some h.length) := by
  obtain ⟨hroot, hrep, hnd⟩ := ht
  have hfresh : h.length ∉ t.addrs := fun hm => absurd (hrep.addr_lt _ hm) (by omega)
  cases t with
  | nil =>
    obtain ⟨h2, root2, hi, ht2, -⟩ :=
      bst_insert_new (k := k) (t := PTree.nil) ⟨hroot, hrep, hnd⟩ (by simp)
    exact ⟨h2, root2, _, _, hi, ht2, Or.inr ⟨rfl, rfl⟩⟩
  | node l a v r =>
    simp only [PTree.root_node] at hroot
    subst hroot
    have hloop := bst_insert_loop_of_rep hrep k (h.length + 1)
      (by
        have := hrep.size_le hnd
        have := (PTree.node l a v r).height_le_size
        omega) none
    simp only [PTree.root_node] at hloop
    cases hloc : (PTree.node l a v r).insertLoc k none with
    | inl c =>
      refine ⟨h, some a, some c, PTree.node l a v r, ?_, ⟨rfl, hrep, hnd⟩, Or.inl ⟨rfl, rfl⟩⟩
      simp [bst_insert, hloop, hloc]
    | inr q =>
      cases q with
      | none => exact absurd hloc (PTree.insertLoc_ne_none k (by simp) none)
      | some pa =>
        obtain ⟨pn, hpn, hpa, hrep2⟩ := insert_rep h k _ none none pa hrep hnd (by simp) hloc
        have hlt := lt_of_get hpn
        have hnd2 : ((PTree.node l a v r).insert k h.length).addrs.Nodup := by
          have hp : List.Perm ((PTree.node l a v r).insert k h.length).addrs
              (h.length :: (PTree.node l a v r).addrs) := by
            have := (PTree.insert_toList_of_loc hloc h.length).map Prod.fst
            simpa [PTree.addrs] using this
          exact hp.nodup_iff.mpr (List.nodup_cons.mpr ⟨hfresh, hnd⟩)
        refine ⟨_, some a, some h.length, (PTree.node l a v r).insert k h.length, ?_,
          ⟨PTree.insert_root k h.length (by simp), hrep2, hnd2⟩, Or.inr ⟨rfl, rfl⟩⟩
        simp only [bst_insert, hloop, hloc, Option.some_bind]
        rw [List.getElem?_append_left hlt, hpn]
        simp only []
        by_cases h1 : k < pn.key
        · simp only [if_pos h1]
          rw [modify_of_get (by rw [List.getElem?_append_left hlt]; exact hpn)]
          rfl
        · simp only [if_neg h1]
          rw [modify_of_get (by rw [List.getElem?_append_left hlt]; exact hpn)]
          rfl

/-- `bst_delete(root, z)` for a node `z` of the tree that the store holds, whatever the
order of its keys is: the call returns and the store holds a tree again, with the nodes of
the old tree but `z`. -/
theorem bst_delete_links {h : List RefNode} {root : Option Nat} {t : PTree Int}
    (ht : RefTree h root t) {z : Nat} (hz : z ∈ t.addrs) :
    ∃ h2 root2 t2, bst_delete h root (some z) = some (h2, root2) ∧ RefTree h2 root2 t2 ∧
      ∀ b, b ∈ t2.addrs ↔ b ∈ t.addrs ∧ b ≠ z := by
  obtain ⟨c, l, v, r, rfl⟩ := PTree.plug_of_mem hz
  obtain ⟨hroot, hrep, hnd⟩ := ht
  obtain ⟨h2, hd, hrep2, hnd2, -, -⟩ := bst_delete_spec hrep hnd hroot
  refine ⟨h2, _, _, hd, ⟨rfl, hrep2, hnd2⟩, ?_⟩
  intro b
  obtain ⟨hn1, -, hn3⟩ := (nodup_plug c (PTree.node l z v r)).mp hnd
  have hdel : b ∈ (PTree.delRoot l r).addrs ↔ b ∈ l.addrs ∨ b ∈ r.addrs := by
    simp only [PTree.addrs, PTree.delRoot_toList, List.map_append, List.mem_append]
  rw [PTree.addrs_node] at hn1
  have hzl : z ∉ l.addrs := fun hm => (List.nodup_append.mp hn1).2.2 hm (by simp)
  have hzr : z ∉ r.addrs := (List.nodup_cons.mp (List.nodup_append.mp hn1).2.1).1
  have hzc : z ∉ ctxAddrs c := fun hm => hn3 z (by simp [PTree.addrs_node]) hm
  rw [mem_plug_addrs, mem_plug_addrs, hdel]
  simp only [PTree.addrs_node, List.mem_append, List.mem_cons]
  constructor
  · rintro ((hb | hb) | hb)
    · exact ⟨Or.inl (Or.inl hb), fun e => hzl (e ▸ hb)⟩
    · exact ⟨Or.inl (Or.inr (Or.inr hb)), fun e => hzr (e ▸ hb)⟩
    · exact ⟨Or.inr hb, fun e => hzc (e ▸ hb)⟩
  · rintro ⟨(hb | hb | hb) | hb, hne⟩
    · exact Or.inl (Or.inl hb)
    · exact absurd hb hne
    · exact Or.inl (Or.inr hb)
    · exact Or.inr hb

/-- C24: the parent links of the reference tree stay consistent. Whenever
`build_ref_from_sorted(arr, l, r)` returns, the store holds a tree below the returned root
in which the root has no parent and the parent link of each child of a node is that node,
and for an array of at most `2^30` elements the call does return; on a store that holds a
tree with consistent links, `bst_insert` for every key and `bst_delete` for every node of
the tree (and for the null pointer) return and leave a tree with consistent links: after
`bst_insert` the same tree or the tree with the new leaf, after `bst_delete` a tree of the
other nodes. -/
theorem parent_links_consistent :
    (∀ (arr : List Int) (fuel : Nat) (h : List RefNode) (l r : Int) (h2 : List RefNode)
        (root : Option Nat), arr.length < 2147483648 → 0 ≤ l → r < arr.length → l ≤ r + 1 →
      build_ref_from_sorted fuel h arr l r = some (h2, root) →
      ∃ t, RefTree h2 root t ∧ ParentsOK h2 root t) ∧
    (∀ (arr : List Int) (h : List RefNode), arr.length ≤ 1073741824 →
      ∃ h2 root t, build_ref_from_sorted (arr.length + 1) h arr 0 ((arr.length : Int) - 1) =
          some (h2, root) ∧ RefTree h2 root t ∧ ParentsOK h2 root t ∧ t.vals = arr) ∧
    (∀ (h : List RefNode) (root : Option Nat) (t : PTree Int) (k : Int), RefTree h root t →
      ∃ h2 root2 res t2, bst_insert h root k = some (h2, root2, res) ∧
        RefTree h2 root2 t2 ∧ ParentsOK h2 root2 t2 ∧
        (t2 = t ∧ h2 = h ∨ t2 = t.insert k h.length ∧ res = some h.length)) ∧
    (∀ (h : List RefNode) (root : Option Nat) (t : PTree Int) (z : Nat), RefTree h root t →
      z ∈ t.addrs →
      ∃ h2 root2 t2, bst_delete h root (some z) = some (h2, root2) ∧
        RefTree h2 root2 t2 ∧ ParentsOK h2 root2 t2 ∧
        ∀ b, b ∈ t2.addrs ↔ b ∈ t.addrs ∧ b ≠ z) ∧
    ∀ (h : List RefNode) (root : Option Nat), bst_delete h root none = some (h, root) := by
  refine ⟨?_, ?_, ?_, ?_, fun _ _ => rfl⟩
  · intro arr fuel h l r h2 root hlen h0 hr hl1 hb
    obtain ⟨t, hroot, hrep, hnd, -⟩ :=
      build_ref_from_sorted_spec arr hlen fuel h l r h2 root hb h0 hr hl1
    exact ⟨t, ⟨hroot, hrep, hnd⟩, parentsOK_of_refTree ⟨hroot, hrep, hnd⟩⟩
  · intro arr h hlen
    obtain ⟨h2, root, hb⟩ := build_ref_from_sorted_total arr hlen (arr.length + 1) h 0
      ((arr.length : Int) - 1) (le_refl _) (by omega) (by omega) (by omega)
    obtain ⟨t, hroot, hrep, hnd, -, -, -, hvals, -⟩ :=
      build_ref_from_sorted_spec arr (by omega) _ h 0 _ h2 root hb (le_refl _) (by omega)
        (by omega)
    refine ⟨h2, root, t, hb, ⟨hroot, hrep, hnd⟩, parentsOK_of_refTree ⟨hroot, hrep, hnd⟩, ?_⟩
    rw [hvals]
    simp
  · intro h root t k ht
    obtain ⟨h2, root2, res, t2, hi, ht2, hcase⟩ := bst_insert_links ht k
    exact ⟨h2, root2, res, t2, hi, ht2, parentsOK_of_refTree ht2, hcase⟩
  · intro h root t z ht hz
    obtain ⟨h2, root2, t2, hd, ht2, hmem⟩ := bst_delete_links ht hz
    exact ⟨h2, root2, t2, hd, ht2, parentsOK_of_refTree ht2, hmem⟩

theorem parent_links_consistent_witness :
    RefTree built3.mem.refs (some 0) refTree3 ∧ 0 ∈ refTree3.addrs ∧
      (∃ t, RefTree
          [⟨20, some 1, some 2, none, none, none⟩, ⟨10, none, none, some 0, none, none⟩,
            ⟨30, none, none, some 0, none, none⟩] (some 0) t ∧
        ParentsOK
          [⟨20, some 1, some 2, none, none, none⟩, ⟨10, none, none, some 0, none, none⟩,
            ⟨30, none, none, some 0, none, none⟩] (some 0) t) ∧
      (∃ h2 root t, build_ref_from_sorted (([10, 20, 30] : List Int).length + 1) []
          [10, 20, 30] 0 ((([10, 20, 30] : List Int).length : Int) - 1) = some (h2, root) ∧
        RefTree h2 root t ∧ ParentsOK h2 root t ∧ t.vals = [10, 20, 30]) ∧
      (∃ h2 root2 res t2, bst_insert built3.mem.refs (some 0) 25 = some (h2, root2, res) ∧
        RefTree h2 root2 t2 ∧ ParentsOK h2 root2 t2 ∧
        (t2 = refTree3 ∧ h2 = built3.mem.refs ∨
          t2 = refTree3.insert 25 built3.mem.refs.length ∧
            res = some built3.mem.refs.length)) ∧
      ∃ h2 root2 t2, bst_delete built3.mem.refs (some 0) (some 0) = some (h2, root2) ∧
        RefTree h2 root2 t2 ∧ ParentsOK h2 root2 t2 ∧
        ∀ b, b ∈ t2.addrs ↔ b ∈ refTree3.addrs ∧ b ≠ 0 :=
  have ht : RefTree built3.mem.refs (some 0) refTree3 :=
    ⟨rfl, by simp [Rep, refTree3, built3, PTree.root, RefNode.link], by decide⟩
  ⟨ht, by decide,
    parent_links_consistent.1 [10, 20, 30] 4 [] 0 2 _ _ (by decide) (by decide) (by decide)
      (by decide) (by decide),
    parent_links_consistent.2.1 [10, 20, 30] [] (by decide),
    parent_links_consistent.2.2.1 built3.mem.refs (some 0) refTree3 25 ht,
    parent_links_consistent.2.2.2.1 built3.mem.refs (some 0) refTree3 0 ht (by decide)⟩

/-! ## Insertion adds one chain -/

/-- The method `Tango::rebuild_aux()` on a state with a reference tree in which the walks
from the nodes of the tree end. -/
theorem rebuild_aux_local {s : Tango} {t : PTree Int}
    (ht : RefTree s.mem.refs s.ref_root t)
    (hch : ∀ a ∈ t.addrs, ∃ l, Chain s.mem.refs (some a) l)
    (hok : AuxListOK s.mem s.aux_list) :
    ∃ s2 rs chains, s.rebuild_aux = some s2 ∧ s2.ref_root = s.ref_root ∧
      s2.aux_list = rs.reverse ∧
      s2.mem.refs.map RefNode.core = s.mem.refs.map RefNode.core ∧
      List.Forall₂ (fun l x => Chain s.mem.refs (some x.1) l) chains
        ((t.pre none).filter (isHead s.mem.refs)) ∧
      List.Forall₂ (AuxFor s2.mem.auxs) rs chains := by
  obtain ⟨refs1, hfree, hc1⟩ := free_aux_list_spec s.mem.auxs s.aux_list s.mem.refs hok
  have hlink := link_of_core hc1
  have hpref := preferred_of_core hc1
  obtain ⟨m2, rs, chains, hb, h2, h3, h4⟩ :=
    build_aux_trees_from_ref_local (m := ⟨refs1, s.mem.auxs⟩) (ht.of_link hlink)
      (fun a ha => (hch a ha).imp fun _ hl => hl.congr hpref)
  have h2b : List.Forall₂ (fun l x => Chain s.mem.refs (some x.1) l) chains
      ((t.pre none).filter (isHead s.mem.refs)) := by
    rw [isHead_congr hpref] at h2
    exact h2.imp fun _ _ hc => hc.congr hpref.symm
  refine ⟨⟨m2, s.ref_root, rs.reverse⟩, rs, chains, ?_, rfl, rfl, h4.trans hc1, h2b, h3⟩
  simp [Tango.rebuild_aux, hfree, hb]

/-- A tree that two stores hold, with the same preferred markers in both, has its markers
among the children in both or in none. -/
theorem prefChild_same {h h2 : List RefNode}
    (hpres : ∀ (b : Nat) (nb : RefNode), h[b]? = some nb →
      ∃ n2, h2[b]? = some n2 ∧ n2.preferred = nb.preferred) :
    ∀ (t : PTree Int) (par : Option Nat), Rep RefNode.link h t par →
      Rep RefNode.link h2 t par → PrefChild h t → PrefChild h2 t := by
  intro t
  induction t with
  | nil => intro par _ _ _ a ha; simp at ha
  | node l a v r ihl ihr =>
    intro par hr hr2 hp b hb n2 hn2
    obtain ⟨na, hna, -, hl, hrt, -⟩ := hr.ref_get
    obtain ⟨na2, hna2, -, hl2, hrt2, -⟩ := hr2.ref_get
    simp only [PTree.addrs_node, List.mem_append, List.mem_cons] at hb
    rcases hb with hb | rfl | hb
    · exact ihl _ hr.2.1 hr2.2.1 hp.left b hb n2 hn2
    · obtain ⟨n3, hn3, hpr⟩ := hpres b na hna
      rw [hn2] at hna2 hn3
      cases hna2
      cases hn3
      rw [hpr, hl2, hrt2, ← hl, ← hrt]
      exact hp b (by simp [PTree.addrs_node]) na hna
    · exact ihr _ hr.2.2 hr2.2.2 hp.right b hb n2 hn2

/-- After `bst_insert` of a new key the markers are still among the children. -/
theorem prefChild_insert {h h2 : List RefNode} {k : Int} {n : Nat}
    (hpres : ∀ (b : Nat) (nb : RefNode), h[b]? = some nb →
      ∃ n2, h2[b]? = some n2 ∧ n2.preferred = nb.preferred)
    (hnew : ∃ nn, h2[n]? = some nn ∧ nn.preferred = none) :
    ∀ (t : PTree Int) (par : Option Nat), Rep RefNode.link h t par →
      Rep RefNode.link h2 (t.insert k n) par → PrefChild h t →
      PrefChild h2 (t.insert k n) := by
  intro t
  induction t with
  | nil =>
    intro par _ _ _ b hb n2 hn2
    simp only [PTree.insert, PTree.addrs_node, PTree.addrs_nil, List.nil_append,
      List.mem_singleton] at hb
    subst hb
    obtain ⟨nn, hnn, hpn⟩ := hnew
    rw [hn2] at hnn
    cases hnn
    exact Or.inl hpn
  | node l a v r ihl ihr =>
    intro par hr hr2 hp
    obtain ⟨na, hna, -, hl, hrt, -⟩ := hr.ref_get
    obtain ⟨n3, hn3, hpr⟩ := hpres a na hna
    have hpa := hp a (by simp [PTree.addrs_node]) na hna
    simp only [PTree.insert] at hr2 ⊢
    by_cases h1 : k < v
    · rw [if_pos h1] at hr2 ⊢
      obtain ⟨na2, hna2, -, hl2, hrt2, -⟩ := hr2.ref_get
      intro b hb n2 hn2
      simp only [PTree.addrs_node, List.mem_append, List.mem_cons] at hb
      rcases hb with hb | rfl | hb
      · exact ihl _ hr.2.1 hr2.2.1 hp.left b hb n2 hn2
      · rw [hn2] at hna2 hn3
        cases hna2
        cases hn3
        rw [hpr, hl2, hrt2]
        rcases hpa with h0 | h0 | h0
        · exact Or.inl h0
        · rw [h0, hl]
          cases l with
          | nil => exact Or.inl rfl
          | node _ _ _ _ => exact Or.inr (Or.inl (PTree.insert_root k n (by simp)).symm)
        · exact Or.inr (Or.inr (by rw [h0, hrt]))
      · exact prefChild_same hpres r _ hr.2.2 hr2.2.2 hp.right b hb n2 hn2
    · rw [if_neg h1] at hr2 ⊢
      by_cases h2 : k > v
      · rw [if_pos h2] at hr2 ⊢
        obtain ⟨na2, hna2, -, hl2, hrt2, -⟩ := hr2.ref_get
        intro b hb n2 hn2
        simp only [PTree.addrs_node, List.mem_append, List.mem_cons] at hb
        rcases hb with hb | rfl | hb
        · exact prefChild_same hpres l _ hr.2.1 hr2.2.1 hp.left b hb n2 hn2
        · rw [hn2] at hna2 hn3
          cases hna2
          cases hn3
          rw [hpr, hl2, hrt2]
          rcases hpa with h0 | h0 | h0
          · exact Or.inl h0
          · exact Or.inr (Or.inl (by rw [h0, hl]))
          · rw [h0, hrt]
            cases r with
            | nil => exact Or.inl rfl
            | node _ _ _ _ => exact Or.inr (Or.inr (PTree.insert_root k n (by simp)).symm)
        · exact ihr _ hr.2.2 hr2.2.2 hp.right b hb n2 hn2
      · rw [if_neg h2] at hr2 ⊢
        exact prefChild_same hpres _ _ hr hr2 hp

/-- The visit of the tree with a new leaf: the visit of the old tree with the leaf put in
below a node of the old tree (or as the root of an empty tree). -/
theorem pre_insert_perm {k : Int} (n : Nat) :
    ∀ (t : PTree Int) (par : Option Nat), k ∉ t.vals →
      ∃ q, ((t.insert k n).pre par).Perm ((n, q) :: t.pre par) ∧
        (t = PTree.nil ∧ q = par ∨ ∃ pa, q = some pa ∧ pa ∈ t.addrs) := by
  intro t
  induction t with
  | nil => intro par _; exact ⟨par, by simp [PTree.insert, PTree.pre], Or.inl ⟨rfl, rfl⟩⟩
  | node l a v r ihl ihr =>
    intro par hk
    simp only [PTree.vals_node, List.mem_append, List.mem_cons, not_or] at hk
    simp only [PTree.insert]
    have hmem : ∀ (s : PTree Int) (q : Option Nat),
        (s = PTree.nil ∧ q = some a ∨ ∃ pa, q = some pa ∧ pa ∈ s.addrs) →
        s.addrs ⊆ (PTree.node l a v r).addrs →
        ∃ pa, q = some pa ∧ pa ∈ (PTree.node l a v r).addrs := by
      intro s q hq hsub
      rcases hq with ⟨-, rfl⟩ | ⟨pa, rfl, hpa⟩
      · exact ⟨a, rfl, by simp [PTree.addrs_node]⟩
      · exact ⟨pa, rfl, hsub hpa⟩
    by_cases h1 : k < v
    · rw [if_pos h1]
      obtain ⟨q, hperm, hq⟩ := ihl (some a) hk.1
      refine ⟨q, ?_, Or.inr (hmem l q hq (by intro x hx; simp [PTree.addrs_node, hx]))⟩
      simp only [PTree.pre]
      refine (List.Perm.cons _ (hperm.append_right _)).trans ?_
      exact List.Perm.swap _ _ _
    · rw [if_neg h1]
      have h2 : k > v := by
        have := hk.2.1
        omega
      rw [if_pos h2]
      obtain ⟨q, hperm, hq⟩ := ihr (some a) hk.2.2
      refine ⟨q, ?_, Or.inr (hmem r q hq (by intro x hx; simp [PTree.addrs_node, hx]))⟩
      simp only [PTree.pre]
      refine (List.Perm.cons _ (List.Perm.append_left _ hperm)).trans ?_
      refine (List.Perm.cons _ List.perm_middle).trans ?_
      exact List.Perm.swap _ _ _

/-- The walks for two lists of heads that are permutations of each other are permutations
of each other. -/
theorem forall₂_chain_perm {h : List RefNode} {A B : List (List Nat)}
    {X Y : List (Nat × Option Nat)}
    (hA : List.Forall₂ (fun l x => Chain h (some x.1) l) A X)
    (hB : List.Forall₂ (fun l x => Chain h (some x.1) l) B Y) (hp : X.Perm Y) : A.Perm B := by
  obtain ⟨W, hW, hWA⟩ := List.perm_comp_forall₂ hp.symm hA.flip
  have e : W = B := forall₂_chain_unique hW.flip hB
  rw [e] at hWA
  exact hWA.symm

/-- The head test on the visit of the tree with a new leaf: the heads of the old tree and
the new leaf. -/
theorem heads_insert {h h2 : List RefNode} {root : Option Nat} {t : PTree Int} {k : Int}
    (ht : RefTree h root t) (hp : PrefChild h t) (hk : k ∉ t.vals)
    (hpres : ∀ (b : Nat) (nb : RefNode), h[b]? = some nb →
      ∃ n2, h2[b]? = some n2 ∧ n2.preferred = nb.preferred) :
    ∃ q, (((t.insert k h.length).pre none).filter (isHead h2)).Perm
      ((h.length, q) :: (t.pre none).filter (isHead h)) := by
  obtain ⟨q, hperm, hq⟩ := pre_insert_perm (k := k) h.length t none hk
  have hsame : (t.pre none).filter (isHead h2) = (t.pre none).filter (isHead h) := by
    apply List.filter_congr
    intro x hx
    obtain ⟨x1, x2⟩ := x
    rcases pre_parent_mem ht.2.2 hx with h0 | ⟨pa, h0, hpa⟩
    · simp only at h0
      subst h0
      rfl
    · simp only at h0
      subst h0
      obtain ⟨npa, hnpa⟩ := get_of_lt (ht.2.1.addr_lt pa hpa)
      obtain ⟨n2, hn2, hpr⟩ := hpres pa npa hnpa
      simp [isHead, hnpa, hn2, hpr]
  have hnew : isHead h2 (h.length, q) = true := by
    rcases hq with ⟨-, rfl⟩ | ⟨pa, rfl, hpa⟩
    · rfl
    · obtain ⟨npa, hnpa, hcl, hcr⟩ := rep_children_parent t none ht.2.1 pa hpa
      obtain ⟨n2, hn2, hpr⟩ := hpres pa npa hnpa
      have hne : npa.preferred ≠ some h.length := by
        intro e
        rcases hp pa hpa npa hnpa with h0 | h0 | h0
        · rw [h0] at e
          cases e
        · obtain ⟨cn, hcn, -⟩ := hcl h.length (h0 ▸ e)
          exact absurd (lt_of_get hcn) (by omega)
        · obtain ⟨cn, hcn, -⟩ := hcr h.length (h0 ▸ e)
          exact absurd (lt_of_get hcn) (by omega)
      simp [isHead, hn2, hpr, hne]
  refine ⟨q, (hperm.filter _).trans ?_⟩
  rw [List.filter_cons_of_pos hnew, hsame]

/-- A decomposed state has a list of trees of the auxiliary store. -/
theorem Decomposed.auxListOK {s : Tango} {t : PTree Int} {chains : List (List Nat)}
    (hd : Decomposed s t chains) : AuxListOK s.mem s.aux_list := by
  obtain ⟨hc, rs, hal, hrs⟩ := hd
  have hlt := forall₂_chain_lt hc
  intro p hp
  rw [hal, List.mem_reverse] at hp
  obtain ⟨l, hl, T, hroot, hrep, hnd, hvals⟩ := forall₂_left_mem hrs p hp
  refine ⟨T, hroot, hrep, hnd, ?_⟩
  intro v hv
  rw [hvals, List.mem_map] at hv
  obtain ⟨b, hb, rfl⟩ := hv
  exact ⟨b, rfl, hlt l hl b hb⟩

/-- What `print_aux_trees` prints in a decomposed state: the keys along the walks, the last
walk first. -/
theorem Decomposed.aux_keys_eq {s : Tango} {t : PTree Int} {chains : List (List Nat)}
    (hd : Decomposed s t chains) :
    s.aux_keys = some ((chains.map fun l => l.map (keyAt s.mem.refs)).reverse) := by
  obtain ⟨hc, rs, hal, hrs⟩ := hd
  have hlt := forall₂_chain_lt hc
  have h2 : List.Forall₂
      (fun a b => aux_inorder (s.mem.auxs.length + 1) s.mem a = some b) rs
      (chains.map fun l => l.map (keyAt s.mem.refs)) := by
    rw [List.forall₂_map_right_iff]
    refine forall₂_imp_mem hrs ?_
    rintro a l hl ⟨T, hroot, hrep, hnd, hvals⟩
    have hval : ValidRefs s.mem.refs.length T := by
      intro v hv
      rw [hvals, List.mem_map] at hv
      obtain ⟨b, hb, rfl⟩ := hv
      exact ⟨b, rfl, hlt l hl b hb⟩
    have hh : T.height ≤ s.mem.auxs.length + 1 := by
      have := hrep.size_le hnd
      have := T.height_le_size
      omega
    rw [← hroot, aux_inorder_of_rep T none _ hrep hval hh, auxKeys, hvals, List.map_map]
    rfl
  unfold Tango.aux_keys
  rw [hal]
  exact mapM_of_forall₂ (List.forall₂_reverse_iff.mpr h2)

/-- C23: in a state whose reference store holds a tree in which each preferred marker is
none or a child of its node and whose `aux_list` is the decomposition of the tree into its
walks along preferred links, `insert_key(k)` for a key `k` that the tree does not hold
returns a state with the new leaf in the tree, in which every older node has its key and
its preferred marker as before, the new node has no preferred child, the markers are again
none or a child, and `aux_list` is the decomposition into the walks of before and the walk
of the new node alone: `print_aux_trees` prints the key lists of before and the list with
the one key `k`. -/
theorem insert_adds_singleton_chain {s : Tango} {t : PTree Int} {chains : List (List Nat)}
    (ht : RefTree s.mem.refs s.ref_root t) (hp : PrefChild s.mem.refs t)
    (hd : Decomposed s t chains) (k : Int) (hk : k ∉ t.vals) :
    ∃ s2 chains2 kss kss2, s.insert_key k = some s2 ∧
      RefTree s2.mem.refs s2.ref_root (t.insert k s.mem.refs.length) ∧
      (∀ (b : Nat) (n : RefNode), s.mem.refs[b]? = some n →
        ∃ n2, s2.mem.refs[b]? = some n2 ∧ n2.key = n.key ∧ n2.preferred = n.preferred) ∧
      (∃ nn, s2.mem.refs[s.mem.refs.length]? = some nn ∧ nn.key = k ∧ nn.preferred = none) ∧
      PrefChild s2.mem.refs (t.insert k s.mem.refs.length) ∧
      Decomposed s2 (t.insert k s.mem.refs.length) chains2 ∧
      chains2.Perm ([s.mem.refs.length] :: chains) ∧
      s.aux_keys = some kss ∧ s2.aux_keys = some kss2 ∧ kss2.Perm ([k] :: kss) := by
  have hok := hd.auxListOK
  obtain ⟨h2, root2, hi, ht2, hfr⟩ := bst_insert_new ht hk
  have hpres1 : ∀ (b : Nat) (nb : RefNode), s.mem.refs[b]? = some nb →
      ∃ n2, h2[b]? = some n2 ∧ n2.preferred = nb.preferred := by
    intro b nb hb
    obtain ⟨n2, hn2, -, hpr, -⟩ := hfr.2.1 b nb hb
    exact ⟨n2, hn2, hpr⟩
  obtain ⟨nn, hnn, hnk, hnp, -, -⟩ := hfr.2.2
  have hp2 : PrefChild h2 (t.insert k s.mem.refs.length) :=
    prefChild_insert hpres1 ⟨nn, hnn, hnp⟩ t none ht.2.1 ht2.2.1 hp
  obtain ⟨s2, rs2, chains2, hrb, hroot, hal, hcore, hc2, hax⟩ :=
    rebuild_aux_local (s := ⟨⟨h2, s.mem.auxs⟩, root2, s.aux_list⟩) ht2
      (chains_of_prefChild _ none ht2.2.1 hp2).2
      (hok.mono rfl (by have := hfr.1; simp only; omega))
  simp only at hroot hcore hc2
  have hpref := preferred_of_core hcore
  have ht3 : RefTree s2.mem.refs s2.ref_root (t.insert k s.mem.refs.length) := by
    rw [hroot]
    exact ht2.of_link (link_of_core hcore)
  have hd2 : Decomposed s2 (t.insert k s.mem.refs.length) chains2 := by
    refine ⟨?_, rs2, hal, ?_⟩
    · rw [isHead_congr hpref]
      exact hc2.imp fun _ _ hc => hc.congr hpref
    · refine hax.imp ?_
      rintro a l ⟨news, e1, e2, e3, e4⟩
      refine ⟨chainTreeRev news, e1.symm, e2, ?_, ?_⟩
      · rw [chainTreeRev_addrs]
        exact List.nodup_reverse.mpr e3
      · rw [chainTreeRev_vals, ← List.map_reverse, e4]
  obtain ⟨q, hheads⟩ := heads_insert ht hp hk hpres1
  have hperm : chains2.Perm ([s.mem.refs.length] :: chains) :=
    forall₂_chain_perm hc2
      (List.Forall₂.cons (Chain.cons hnn (hnp ▸ Chain.nil))
        (hd.1.imp fun _ _ hc => chain_of_insertFrame hfr hc)) hheads
  have hkeys : ∀ l ∈ chains, l.map (keyAt s2.mem.refs) = l.map (keyAt s.mem.refs) := by
    intro l hl
    apply List.map_congr_left
    intro b hb
    obtain ⟨nb, hnb⟩ := get_of_lt (forall₂_chain_lt hd.1 l hl b hb)
    obtain ⟨n2, hn2, hk2, -⟩ := hfr.2.1 b nb hnb
    obtain ⟨n3, hn3, hk3, -⟩ := get_of_core hcore hn2
    simp [keyAt, refKey, hnb, hn3, hk3, hk2]
  have hknew : keyAt s2.mem.refs s.mem.refs.length = k := by
    obtain ⟨n3, hn3, hk3, -⟩ := get_of_core hcore hnn
    simp [keyAt, refKey, hn3, hk3, hnk]
  refine ⟨s2, chains2, _, _, ?_, ht3, ?_, ?_, ?_, hd2, hperm, hd.aux_keys_eq, hd2.aux_keys_eq,
    ?_⟩
  · simp only [Tango.insert_key, hi, Option.some_bind]
    exact hrb
  · intro b n hb
    obtain ⟨n2, hn2, hk2, hpr2, -⟩ := hfr.2.1 b n hb
    obtain ⟨n3, hn3, hk3, -, -, -, hpr3⟩ := get_of_core hcore hn2
    exact ⟨n3, hn3, hk3.trans hk2, hpr3.trans hpr2⟩
  · obtain ⟨n3, hn3, hk3, -, -, -, hpr3⟩ := get_of_core hcore hnn
    exact ⟨n3, hn3, hk3.trans hnk, hpr3.trans hnp⟩
  · refine prefChild_same ?_ _ none ht2.2.1 ht3.2.1 hp2
    intro b nb hb
    obtain ⟨n3, hn3, -, -, -, -, hpr3⟩ := get_of_core hcore hb
    exact ⟨n3, hn3, hpr3⟩
  · refine (List.reverse_perm _).trans ?_
    refine (hperm.map _).trans ?_
    rw [List.map_cons, List.map_singleton, hknew, List.map_congr_left hkeys]
    exact List.Perm.cons _ (List.reverse_perm _).symm

theorem insert_adds_singleton_chain_witness :
    RefTree built3.mem.refs built3.ref_root refTree3 ∧ PrefChild built3.mem.refs refTree3 ∧
      Decomposed built3 refTree3 [[0], [1], [2]] ∧ (25 : Int) ∉ refTree3.vals ∧
      ∃ s2 chains2 kss kss2, built3.insert_key 25 = some s2 ∧
        RefTree s2.mem.refs s2.ref_root (refTree3.insert 25 built3.mem.refs.length) ∧
        (∀ (b : Nat) (n : RefNode), built3.mem.refs[b]? = some n →
          ∃ n2, s2.mem.refs[b]? = some n2 ∧ n2.key = n.key ∧ n2.preferred = n.preferred) ∧
        (∃ nn, s2.mem.refs[built3.mem.refs.length]? = some nn ∧ nn.key = 25 ∧
          nn.preferred = none) ∧
        PrefChild s2.mem.refs (refTree3.insert 25 built3.mem.refs.length) ∧
        Decomposed s2 (refTree3.insert 25 built3.mem.refs.length) chains2 ∧
        chains2.Perm ([built3.mem.refs.length] :: [[0], [1], [2]]) ∧
        built3.aux_keys = some kss ∧ s2.aux_keys = some kss2 ∧ kss2.Perm ([25] :: kss) :=
  have ht : RefTree built3.mem.refs built3.ref_root refTree3 :=
    ⟨rfl, by simp [Rep, refTree3, built3, PTree.root, RefNode.link], by decide⟩
  have hp : PrefChild built3.mem.refs refTree3 := by
    intro a ha n hn
    have ha2 : a = 1 ∨ a = 0 ∨ a = 2 := by
      simpa [refTree3, PTree.addrs, PTree.toList] using ha
    rcases ha2 with rfl | rfl | rfl <;> simp [built3] at hn <;> subst hn <;> simp
  have c0 : Chain built3.mem.refs (some 0) [0] :=
    Chain.cons (show built3.mem.refs[0]? = some ⟨20, some 1, some 2, none, some 0, none⟩
      from rfl) Chain.nil
  have c1 : Chain built3.mem.refs (some 1) [1] :=
    Chain.cons (show built3.mem.refs[1]? = some ⟨10, none, none, some 0, some 1, none⟩
      from rfl) Chain.nil
  have c2 : Chain built3.mem.refs (some 2) [2] :=
    Chain.cons (show built3.mem.refs[2]? = some ⟨30, none, none, some 0, some 2, none⟩
      from rfl) Chain.nil
  have hheads : (refTree3.pre none).filter (isHead built3.mem.refs) =
      [(0, none), (1, some 0), (2, some 0)] := by decide
  have hd : Decomposed built3 refTree3 [[0], [1], [2]] :=
    ⟨by
      rw [hheads]
      exact List.Forall₂.cons c0 (List.Forall₂.cons c1 (List.Forall₂.cons c2
        List.Forall₂.nil)),
      [some 0, some 1, some 2], rfl,
      List.Forall₂.cons ⟨PTree.node PTree.nil 0 (some 0) PTree.nil, rfl,
          ⟨rfl, trivial, trivial⟩, by decide, rfl⟩
        (List.Forall₂.cons ⟨PTree.node PTree.nil 1 (some 1) PTree.nil, rfl,
            ⟨rfl, trivial, trivial⟩, by decide, rfl⟩
          (List.Forall₂.cons ⟨PTree.node PTree.nil 2 (some 2) PTree.nil, rfl,
              ⟨rfl, trivial, trivial⟩, by decide, rfl⟩ List.Forall₂.nil))⟩
  ⟨ht, hp, hd, by decide, insert_adds_singleton_chain ht hp hd 25 (by decide)⟩

/-! ## Released reference nodes -/

theorem readLive_nil (refs : List RefNode) (a : Nat) : readLive [] refs a = refs[a]? := by
  simp [readLive]

theorem modifyLive_nil (refs : List RefNode) (a : Nat) (f : RefNode → RefNode) :
    modifyLive [] refs a f = modify refs a f := by
  simp [modifyLive]

/-- As long as no reference node has been released, the functions with the list of
released nodes are the functions of the embedding. -/
theorem free_aux_tree_checked_nil :
    ∀ (fuel : Nat) (auxs : List AuxNode) (refs : List RefNode) (a : Option Nat),
      free_aux_tree_checked [] fuel auxs refs a = free_aux_tree fuel auxs refs a := by
  intro fuel
  induction fuel with
  | zero => intro auxs refs a; cases a <;> rfl
  | succ fuel ih =>
    intro auxs refs a
    cases a with
    | none => rfl
    | some a =>
      simp only [free_aux_tree_checked, free_aux_tree, ih, modifyLive_nil]

theorem free_aux_list_checked_nil (auxs : List AuxNode) :
    ∀ (alist : List (Option Nat)) (refs : List RefNode),
      free_aux_list_checked [] auxs refs alist = free_aux_list auxs refs alist := by
  intro alist
  induction alist with
  | nil => intro refs; rfl
  | cons p rest ih =>
    intro refs
    simp only [free_aux_list_checked, free_aux_list, free_aux_tree_checked_nil, ih]

theorem aux_set_all_auxptr_loop_checked_nil :
    ∀ (fuel : Nat) (auxs : List AuxNode) (refs : List RefNode) (st : List Nat),
      aux_set_all_auxptr_loop_checked [] fuel auxs refs st =
        aux_set_all_auxptr_loop fuel auxs refs st := by
  intro fuel
  induction fuel with
  | zero => intro auxs refs st; cases st <;> rfl
  | succ fuel ih =>
    intro auxs refs st
    cases st with
    | nil => rfl
    | cons n st =>
      simp only [aux_set_all_auxptr_loop_checked, aux_set_all_auxptr_loop, ih, modifyLive_nil]

theorem aux_set_all_auxptr_checked_nil (auxs : List AuxNode) (refs : List RefNode)
    (a : Option Nat) :
    aux_set_all_auxptr_checked [] auxs refs a = aux_set_all_auxptr auxs refs a := by
  cases a with
  | none => rfl
  | some a =>
    simp only [aux_set_all_auxptr_checked, aux_set_all_auxptr,
      aux_set_all_auxptr_loop_checked_nil]

theorem aux_merge_checked_nil (m : Mem) (left right : Option Nat) :
    aux_merge_checked [] m left right = aux_merge m left right := by
  simp only [aux_merge_checked, aux_merge, aux_set_all_auxptr_checked_nil]

theorem build_splay_loop_checked_nil :
    ∀ (fuel : Nat) (m : Mem) (arr : List (Option Nat)) (i r : Int) (root : Option Nat),
      build_splay_loop_checked [] fuel m arr i r root = build_splay_loop fuel m arr i r root := by
  intro fuel
  induction fuel with
  | zero => intro m arr i r root; rfl
  | succ fuel ih =>
    intro m arr i r root
    simp only [build_splay_loop_checked, build_splay_loop, aux_merge_checked_nil, ih]

theorem chain_loop_checked_nil :
    ∀ (fuel : Nat) (h : List RefNode) (c : Option Nat) (arr : List (Option Nat)),
      chain_loop_checked [] fuel h c arr = chain_loop fuel h c arr := by
  intro fuel
  induction fuel with
  | zero => intro h c arr; cases c <;> rfl
  | succ fuel ih =>
    intro h c arr
    cases c with
    | none => rfl
    | some c => simp only [chain_loop_checked, chain_loop, readLive_nil, ih]

theorem build_aux_loop_checked_nil :
    ∀ (fuel : Nat) (m : Mem) (st : List Nat) (alist : List (Option Nat)),
      build_aux_loop_checked [] fuel m st alist = build_aux_loop fuel m st alist := by
  intro fuel
  induction fuel with
  | zero => intro m st alist; cases st <;> rfl
  | succ fuel ih =>
    intro m st alist
    cases st with
    | nil => rfl
    | cons n st =>
      simp only [build_aux_loop_checked, build_aux_loop, readLive_nil, chain_loop_checked_nil,
        build_splay_from_array_with_merge_checked, build_splay_from_array_with_merge,
        build_splay_loop_checked_nil, ih]

/-- With no released node, `rebuild_aux()` with the list of released nodes is
`rebuild_aux()`. -/
theorem rebuild_aux_checked_nil (t : Tango) : Tango.rebuild_aux_checked [] t = t.rebuild_aux := by
  have hb : ∀ (m : Mem) (root : Option Nat),
      build_aux_trees_from_ref_checked [] m root = build_aux_trees_from_ref m root := by
    intro m root
    cases root with
    | none => rfl
    | some a =>
      simp only [build_aux_trees_from_ref_checked, build_aux_trees_from_ref,
        build_aux_loop_checked_nil]
  simp only [Tango.rebuild_aux_checked, Tango.rebuild_aux, free_aux_list_checked_nil, hb]

/-- `free_aux_tree(a)` on a tree that wraps a released reference node does not return a
result: the write `a->ref->aux_ptr = nullptr` meets the released node. -/
theorem free_aux_tree_checked_dead {dead : List Nat} {auxs : List AuxNode} {z : Nat}
    (hz : z ∈ dead) :
    ∀ (T : PTree (Option Nat)) (par : Option Nat), Rep AuxNode.link auxs T par →
      some z ∈ T.vals → ∀ (fuel : Nat) (refs : List RefNode),
      free_aux_tree_checked dead fuel auxs refs T.root = none := by
  intro T
  induction T with
  | nil => intro par _ hm; simp at hm
  | node l a v r ihl ihr =>
    intro par hrep hm fuel refs
    have hn := hrep.aux_get
    obtain ⟨-, hl, hr⟩ := hrep
    cases fuel with
    | zero => rfl
    | succ fuel =>
      simp only [PTree.root_node, free_aux_tree_checked, hn]
      simp only [PTree.vals_node, List.mem_append, List.mem_cons] at hm
      cases h1 : free_aux_tree_checked dead fuel auxs refs l.root with
      | none => rfl
      | some refs1 =>
        simp only [Option.some_bind]
        cases h2 : free_aux_tree_checked dead fuel auxs refs1 r.root with
        | none => rfl
        | some refs2 =>
          simp only [Option.some_bind]
          rcases hm with hm | hm | hm
          · rw [ihl _ hl hm fuel refs] at h1
            cases h1
          · subst hm
            simp [modifyLive, hz]
          · rw [ihr _ hr hm fuel refs1] at h2
            cases h2

/-- `free_aux_list(alist)` on a list with a tree that wraps a released reference node does
not return a result. -/
theorem free_aux_list_checked_dead {dead : List Nat} {auxs : List AuxNode} {z : Nat}
    (hz : z ∈ dead) :
    ∀ (alist : List (Option Nat)),
      (∃ p ∈ alist, ∃ T : PTree (Option Nat), T.root = p ∧ Rep AuxNode.link auxs T none ∧
        some z ∈ T.vals) →
      ∀ refs : List RefNode, free_aux_list_checked dead auxs refs alist = none := by
  intro alist
  induction alist with
  | nil => rintro ⟨p, hp, -⟩; simp at hp
  | cons q rest ih =>
    rintro ⟨p, hp, T, hroot, hrep, hm⟩ refs
    simp only [free_aux_list_checked]
    cases h1 : free_aux_tree_checked dead (auxs.length + 1) auxs refs q with
    | none => rfl
    | some refs1 =>
      simp only [Option.some_bind]
      rcases List.mem_cons.mp hp with rfl | hp
      · rw [← hroot, free_aux_tree_checked_dead hz T none hrep hm] at h1
        cases h1
      · exact ih ⟨p, hp, T, hroot, hrep, hm⟩ refs1

/-- In a state whose reference store holds a search tree with distinct keys, with every
node of the tree wrapped by a tree of `aux_list` (as after every `rebuild_aux()`),
`remove_key(k)` for a key `k` of the tree does not return a result: `bst_search` finds the
node `z` of `k`, `bst_delete` returns and releases `z`, and `free_aux_list` then writes to
the released node. -/
theorem remove_key_checked_present {s : Tango} {t : PTree Int}
    (ht : RefTree s.mem.refs s.ref_root t) (hs : t.vals.Sorted (· < ·))
    (hw : ∀ a ∈ t.addrs, ∃ p ∈ s.aux_list, ∃ T : PTree (Option Nat), T.root = p ∧
      Rep AuxNode.link s.mem.auxs T none ∧ some a ∈ T.vals)
    {k : Int} (hk : k ∈ t.vals) :
    ∃ z h1 root1, bst_search s.mem.refs s.ref_root k = some (some z) ∧
      bst_delete s.mem.refs s.ref_root (some z) = some (h1, root1) ∧
      free_aux_list_checked [z] s.mem.auxs h1 s.aux_list = none ∧
      Tango.remove_key_checked s k = none := by
  obtain ⟨z, hz⟩ := PTree.find_isSome_of_mem (List.Sorted.le_of_lt hs) hk
  have hsr := bst_search_of_refTree ht k
  rw [hz] at hsr
  obtain ⟨h2, root2, t2, hd, -⟩ := bst_delete_of_find ht hz hs
  have hza : z ∈ t.addrs := by
    have := List.mem_map_of_mem Prod.fst (PTree.find_mem hz)
    simpa [PTree.addrs] using this
  have hfree : free_aux_list_checked [z] s.mem.auxs h2 s.aux_list = none :=
    free_aux_list_checked_dead (List.mem_singleton.mpr rfl) s.aux_list (hw z hza) h2
  refine ⟨z, h2, root2, hsr, hd, hfree, ?_⟩
  simp [Tango.remove_key_checked, hsr, hd, Tango.rebuild_aux_checked, hfree]

/-- The walks from the heads of a tree whose markers are none or a child visit every node
of the tree once. -/
theorem chains_cover {h : List RefNode} {root : Option Nat} {t : PTree Int}
    {chains : List (List Nat)} (ht : RefTree h root t) (hp : PrefChild h t)
    (hc : List.Forall₂ (fun l x => Chain h (some x.1) l) chains
      ((t.pre none).filter (isHead h))) : chains.flatten.Perm t.addrs := by
  cases t with
  | nil =>
    simp only [PTree.pre, List.filter_nil, List.forall₂_nil_right_iff] at hc
    subst hc
    simp [PTree.addrs, PTree.toList]
  | node l a v r =>
    have hpre : (PTree.node l a v r).pre none =
        (a, none) :: ((PTree.node l a v r).pre none).tail := rfl
    rw [hpre, List.filter_cons_of_pos (by simp [isHead])] at hc
    obtain ⟨c0, cs, hc0, hcs, rfl⟩ := List.forall₂_cons_right_iff.mp hc
    simpa using chains_partition _ none ht.2.1 ht.2.2 hp c0 cs hc0 hcs

/-- In a decomposed state whose markers are none or a child, every node of the reference
tree is wrapped by a tree of `aux_list`. -/
theorem Decomposed.wraps {s : Tango} {t : PTree Int} {chains : List (List Nat)}
    (ht : RefTree s.mem.refs s.ref_root t) (hp : PrefChild s.mem.refs t)
    (hd : Decomposed s t chains) :
    ∀ a ∈ t.addrs, ∃ p ∈ s.aux_list, ∃ T : PTree (Option Nat), T.root = p ∧
      Rep AuxNode.link s.mem.auxs T none ∧ some a ∈ T.vals := by
  obtain ⟨hc, rs, hal, hrs⟩ := hd
  intro a ha
  have hmem : a ∈ chains.flatten := (chains_cover ht hp hc).mem_iff.mpr ha
  obtain ⟨l, hl, hal2⟩ := List.mem_flatten.mp hmem
  obtain ⟨p, hp2, T, hroot, hrep, -, hvals⟩ := forall₂_left_mem hrs.flip l hl
  refine ⟨p, by rw [hal]; exact List.mem_reverse.mpr hp2, T, hroot, hrep, ?_⟩
  rw [hvals]
  exact List.mem_map_of_mem _ hal2

/-! ## A split that rotates and cuts -/

theorem accessed40_eq :
    (built3.insert_key 40).bind (fun s => s.access 40) = some (accessed40, some 3) := by
  decide

theorem auxChain3_rep : Rep AuxNode.link accessed40.mem.auxs auxChain3 none :=
  ⟨rfl, ⟨rfl, trivial, trivial⟩, ⟨rfl, trivial, trivial⟩⟩

theorem aux_split_correct_witness :
    Rep AuxNode.link accessed40.mem.auxs auxChain3 none ∧ auxChain3.addrs.Nodup ∧
      ValidRefs accessed40.mem.refs.length auxChain3 ∧
      auxKeys accessed40.mem.refs auxChain3 = [20, 30, 40] ∧
      (auxKeys accessed40.mem.refs auxChain3).Sorted (· ≤ ·) ∧
      (∃ m2 Lt Rt, aux_split_by_key accessed40.mem auxChain3.root 25 =
          some (m2, Lt.root, Rt.root) ∧
        Rep AuxNode.link m2.auxs Lt none ∧ Rep AuxNode.link m2.auxs Rt none ∧
        auxKeys m2.refs Lt =
          (auxKeys accessed40.mem.refs auxChain3).filter (fun x => decide (x ≤ 25)) ∧
        auxKeys m2.refs Rt =
          (auxKeys accessed40.mem.refs auxChain3).filter (fun x => decide (25 < x)) ∧
        (auxKeys m2.refs Lt).Sorted (· ≤ ·) ∧ (auxKeys m2.refs Rt).Sorted (· ≤ ·) ∧
        ((∀ x ∈ auxKeys accessed40.mem.refs auxChain3, 25 < x) →
          Lt = PTree.nil ∧ Rt.toList = auxChain3.toList) ∧
        (auxChain3 = PTree.nil → Lt = PTree.nil ∧ Rt = PTree.nil)) ∧
      (auxKeys accessed40.mem.refs auxChain3).filter (fun x => decide (x ≤ 25)) = [20] ∧
      (auxKeys accessed40.mem.refs auxChain3).filter (fun x => decide (25 < x)) = [30, 40] ∧
      (aux_split_by_key accessed40.mem auxChain3.root 25).map (fun r => (r.2.1, r.2.2)) =
        some (some 7, some 8) ∧
      (aux_split_by_key accessed40.mem auxChain3.root 25).bind
          (fun r => aux_inorder (r.1.auxs.length + 1) r.1 r.2.1) = some [20] ∧
      (aux_split_by_key accessed40.mem auxChain3.root 25).bind
          (fun r => aux_inorder (r.1.auxs.length + 1) r.1 r.2.2) = some [30, 40] :=
  have hval : ValidRefs accessed40.mem.refs.length auxChain3 := by
    intro v hv
    have hv2 : v = some 0 ∨ v = some 2 ∨ v = some 3 := by
      simpa [auxChain3, PTree.vals, PTree.toList] using hv
    rcases hv2 with rfl | rfl | rfl
    · exact ⟨0, rfl, by decide⟩
    · exact ⟨2, rfl, by decide⟩
    · exact ⟨3, rfl, by decide⟩
  ⟨auxChain3_rep, by decide, hval, by decide, by decide,
    aux_split_correct accessed40.mem auxChain3 25 auxChain3_rep (by decide) hval (by decide),
    by decide, by decide, by decide, by decide, by decide⟩

/-! ## Removal of a present key uses the released node -/

/-- C3 does not hold: after `build_from_sorted_array` on 10, 20, 30 the auxiliary node 0
of `aux_list` wraps the reference node 0, the root with key 20; in `remove_key(20)`
`bst_search` finds node 0, `bst_delete` returns and releases it with `delete z`, and
`free_aux_list`, the first step of `rebuild_aux()`, then writes `a->ref->aux_ptr` of the
released node: the call does not return a result. -/
theorem remove_key_uses_released_node :
    Tango.new.build_from_sorted_array [10, 20, 30] = some built3 ∧
      built3.ref_keys = some [10, 20, 30] ∧
      bst_search built3.mem.refs built3.ref_root 20 = some (some 0) ∧
      built3.mem.auxs[0]? = some ⟨some 0, none, none, none⟩ ∧ some 0 ∈ built3.aux_list ∧
      (∃ h1 root1, bst_delete built3.mem.refs built3.ref_root (some 0) = some (h1, root1) ∧
        free_aux_list_checked [0] built3.mem.auxs h1 built3.aux_list = none) ∧
      Tango.remove_key_checked built3 20 = none :=
  ⟨built3_eq, by decide, by decide, rfl, by decide,
    ⟨((bst_delete built3.mem.refs built3.ref_root (some 0)).get (by decide)).1,
      ((bst_delete built3.mem.refs built3.ref_root (some 0)).get (by decide)).2,
      by decide, by decide⟩,
    by decide⟩

/-- C13 does not hold in its last part: from `build_from_sorted_array` on 10, 20, ..., 70,
`access(50)` returns a state whose auxiliary trees are 70, 30, 10, 20 and the tree of 40,
60, 50 (all seven keys, each once, and 50 with the root key 40; the root is node 0); then
`insert_key(25)` and `access(25)` return and the in-order keys are 10, 20, 25, 30, 40, 50,
60, 70; in `remove_key(40)` `bst_search` finds node 0, `bst_delete` returns and releases
it with `delete z`, and `free_aux_list` then writes `a->ref->aux_ptr` of the released
node: the call does not return a result. -/
theorem scenario_remove_uses_released_node :
    Tango.new.build_from_sorted_array [10, 20, 30, 40, 50, 60, 70] = some built7 ∧
      built7.access 50 = some (accessed50, some 5) ∧
      accessed50.aux_keys = some [[70], [30], [10], [20], [40, 60, 50]] ∧
      accessed50.ref_root = some 0 ∧ keyAt accessed50.mem.refs 0 = 40 ∧
      ∃ s3 s4 r4, accessed50.insert_key 25 = some s3 ∧
        s3.access 25 = some (s4, r4) ∧
        s4.ref_keys = some [10, 20, 25, 30, 40, 50, 60, 70] ∧
        bst_search s4.mem.refs s4.ref_root 40 = some (some 0) ∧
        (∃ h1 root1, bst_delete s4.mem.refs s4.ref_root (some 0) = some (h1, root1) ∧
          free_aux_list_checked [0] s4.mem.auxs h1 s4.aux_list = none) ∧
        Tango.remove_key_checked s4 40 = none :=
  ⟨built7_eq, accessed50_eq, by decide, rfl, by decide,
    (accessed50.insert_key 25).get (by decide),
    (((accessed50.insert_key 25).get (by decide)).access 25).get (by decide) |>.1,
    (((accessed50.insert_key 25).get (by decide)).access 25).get (by decide) |>.2,
    by decide, by decide, by decide, by decide,
    ⟨((bst_delete
        ((((accessed50.insert_key 25).get (by decide)).access 25).get (by decide)).1.mem.refs
        ((((accessed50.insert_key 25).get (by decide)).access 25).get (by decide)).1.ref_root
        (some 0)).get (by decide)).1,
      ((bst_delete
        ((((accessed50.insert_key 25).get (by decide)).access 25).get (by decide)).1.mem.refs
        ((((accessed50.insert_key 25).get (by decide)).access 25).get (by decide)).1.ref_root
        (some 0)).get (by decide)).2,
      by decide, by decide⟩,
    by decide⟩

end TangoTree
